import Mathlib

/-!
# Share index and remote directory listing

A shallow embedding of the parts of `ShareManager.cpp` and `DirectoryListing.cpp`
that the properties below are about, followed by the properties themselves.

Conventions of the embedding:

* a `std::string` is a list of characters (`Str`), one character per `char`;
* a `Directory*` that is only followed upwards (through `parent`) is a `DirRef`:
  the node's own `realName` and `profileDir` together with the chain of parents;
* a `Directory` that is walked downwards owns its `files` and `directories`;
* a thrown `ShareException`, or the dereference of a null `parent` / `profileDir`,
  is an error value of `Except Fault`.
-/

namespace dcpp

/-! ## Strings -/

/-- A `std::string`. -/
abbrev Str := List Char

/-- The more usual way of writing a string constant of the source. -/
abbrev str (x : String) : Str := x.toList

namespace Text

/-- `Text::asciiToLower`. -/
def asciiToLower (c : Char) : Char := c.toLower

/-- `Text::toLower` on a string. -/
def toLower (x : Str) : Str := x.map Char.toLower

/-- `Text::isAscii`: no character of the string has its high bit set. -/
def isAscii (x : Str) : Bool := x.all (fun c => decide (c.toNat < 128))

end Text

/-- `stricmp(a, b) == 0`: the two strings are equal up to case. -/
def stricmp (a b : Str) : Bool := decide (Text.toLower a = Text.toLower b)

/-! ## Profiles -/

/-- `ProfileToken`. -/
abbrev ProfileToken := Int

/-- `ProfileTokenSet`. -/
abbrev ProfileTokenSet := List ProfileToken

/-- `SP_DEFAULT`. -/
def SP_DEFAULT : ProfileToken := 0

/-- `SP_HIDDEN`. -/
def SP_HIDDEN : ProfileToken := 1

/-- `ShareManager::ProfileDirectory`: `shareProfiles` maps a profile to the virtual
name of the root, `excludedProfiles` is the set of profiles the directory is
excluded from. -/
structure ProfileDirectory where
  path : Str
  shareProfiles : List (ProfileToken × Str)
  excludedProfiles : List ProfileToken

namespace ProfileDirectory

/-- `ProfileDirectory::hasProfile(ProfileToken)`. -/
def hasProfile (pd : ProfileDirectory) (aProfile : ProfileToken) : Bool :=
  pd.shareProfiles.any (fun e => e.1 == aProfile)

/-- `ProfileDirectory::hasProfile(const ProfileTokenSet&)`. -/
def hasProfiles (pd : ProfileDirectory) (aProfiles : ProfileTokenSet) : Bool :=
  aProfiles.any (fun p => pd.hasProfile p)

/-- `ProfileDirectory::isExcluded`. -/
def isExcluded (pd : ProfileDirectory) (aProfile : ProfileToken) : Bool :=
  !pd.excludedProfiles.isEmpty && pd.excludedProfiles.contains aProfile

/-- `ProfileDirectory::getName`. -/
def getName (pd : ProfileDirectory) (aProfile : ProfileToken) : Str :=
  match pd.shareProfiles.find? (fun e => e.1 == aProfile) with
  | none => []
  | some e => e.2

end ProfileDirectory

/-! ## Directories seen from below: the `parent` chain -/

/-- A `Directory*` as far as the upward walks of the source can see it:
`realName`, `profileDir` and `parent` (`top` is a directory whose `parent` is null). -/
inductive DirRef where
  | top (realName : Str) (profileDir : Option ProfileDirectory)
  | sub (realName : Str) (profileDir : Option ProfileDirectory) (parent : DirRef)

namespace DirRef

/-- The field `realName`. -/
def realName : DirRef → Str
  | top n _ => n
  | sub n _ _ => n

/-- The field `profileDir`. -/
def profileDir : DirRef → Option ProfileDirectory
  | top _ pd => pd
  | sub _ pd _ => pd

/-- The field `parent`. -/
def parent : DirRef → Option DirRef
  | top _ _ => none
  | sub _ _ p => some p

/-- `Directory::isLevelExcluded`. -/
def isLevelExcluded (d : DirRef) (aProfile : ProfileToken) : Bool :=
  match d.profileDir with
  | some pd => pd.isExcluded aProfile
  | none => false

/-- `Directory::isRootLevel`. -/
def isRootLevel (d : DirRef) (aProfile : ProfileToken) : Bool :=
  match d.profileDir with
  | some pd => pd.hasProfile aProfile
  | none => false

/-- `Directory::hasProfile(ProfileToken)`. -/
def hasProfile : DirRef → ProfileToken → Bool
  | top n pd, aProfile =>
    if pd.isSome && (top n pd).isLevelExcluded aProfile then false
    else if (top n pd).isRootLevel aProfile then true
    else false
  | sub n pd p, aProfile =>
    if pd.isSome && (sub n pd p).isLevelExcluded aProfile then false
    else if (sub n pd p).isRootLevel aProfile then true
    else p.hasProfile aProfile

/-- `Directory::hasProfile(const ProfileTokenSet&)`. -/
def hasProfiles : DirRef → ProfileTokenSet → Bool
  | top _ pd, aProfiles =>
    match pd with
    | some x => if x.hasProfiles aProfiles then true else false
    | none => false
  | sub _ pd p, aProfiles =>
    match pd with
    | some x => if x.hasProfiles aProfiles then true else p.hasProfiles aProfiles
    | none => p.hasProfiles aProfiles

/-- The directories from `d` up to its top-most ancestor, `d` first. -/
def chain : DirRef → List DirRef
  | top n pd => [top n pd]
  | sub n pd p => sub n pd p :: p.chain

end DirRef

/-! ## Faults -/

/-- The ways in which an operation of the source ends without a value:
`ShareException(UserConnection::FILE_NOT_AVAILABLE)`, and the dereference of a null
`parent` or `profileDir`, which the source does not guard against. -/
inductive Fault where
  | FILE_NOT_AVAILABLE
  | nullDereference
  deriving DecidableEq, Repr

/-- `PATH_SEPARATOR`. -/
def PATH_SEPARATOR : Char := '\\'

namespace DirRef

/-- `Directory::getFullName`. -/
def getFullName : DirRef → ProfileToken → Except Fault Str
  | top n pd, aProfile =>
    if (top n pd).isRootLevel aProfile then
      match pd with
      | some x => .ok (x.getName aProfile ++ ['\\'])
      | none => .error .nullDereference
    else .error .nullDereference
  | sub n pd p, aProfile =>
    if (sub n pd p).isRootLevel aProfile then
      match pd with
      | some x => .ok (x.getName aProfile ++ ['\\'])
      | none => .error .nullDereference
    else
      match p.getFullName aProfile with
      | .ok x => .ok (x ++ n ++ ['\\'])
      | .error e => .error e

/-- `Directory::getADCPath`. -/
def getADCPath : DirRef → ProfileToken → Except Fault Str
  | top n pd, aProfile =>
    if (top n pd).isRootLevel aProfile then
      match pd with
      | some x => .ok ('/' :: x.getName aProfile ++ ['/'])
      | none => .error .nullDereference
    else .error .nullDereference
  | sub n pd p, aProfile =>
    if (sub n pd p).isRootLevel aProfile then
      match pd with
      | some x => .ok ('/' :: x.getName aProfile ++ ['/'])
      | none => .error .nullDereference
    else
      match p.getADCPath aProfile with
      | .ok x => .ok (x ++ n ++ ['/'])
      | .error e => .error e

end DirRef

/-! ## Directories seen from above: the owned tree -/

/-- `TTHValue`, written in base32. -/
abbrev TTHValue := Str

/-- `ShareManager::Directory::File` without its `parent` back-reference. -/
structure File where
  name : Str
  size : Int
  tth : TTHValue

mutual
/-- `ShareManager::Directory` with the subtree it owns. -/
inductive Directory where
  | mk (realName : Str) (profileDir : Option ProfileDirectory) (fileTypes : Nat)
      (size : Int) (lastWrite : Nat) (files : List File) (directories : DirList)
/-- `Directory::Map`, in iteration order; the key of an entry is the `realName`
of the directory. -/
inductive DirList where
  | nil
  | cons (dir : Directory) (rest : DirList)
end

namespace Directory

/-- The field `realName`. -/
def realName : Directory → Str
  | mk n _ _ _ _ _ _ => n

/-- The field `profileDir`. -/
def profileDir : Directory → Option ProfileDirectory
  | mk _ pd _ _ _ _ _ => pd

/-- The field `fileTypes`. -/
def fileTypes : Directory → Nat
  | mk _ _ ft _ _ _ _ => ft

/-- The field `size`. -/
def size : Directory → Int
  | mk _ _ _ sz _ _ _ => sz

/-- The field `files`. -/
def files : Directory → List File
  | mk _ _ _ _ _ fs _ => fs

/-- The field `directories`. -/
def directories : Directory → DirList
  | mk _ _ _ _ _ _ ds => ds

/-- `Directory::isLevelExcluded`. -/
def isLevelExcluded (d : Directory) (aProfile : ProfileToken) : Bool :=
  match d.profileDir with
  | some pd => pd.isExcluded aProfile
  | none => false

/-- The directory as a `DirRef`, given the `DirRef` of its parent. -/
def ref (parent : Option DirRef) (d : Directory) : DirRef :=
  match parent with
  | none => .top d.realName d.profileDir
  | some p => .sub d.realName d.profileDir p

/-- The name a search matches tokens against:
`profileDir ? profileDir->getName(aProfile) : realName`. -/
def searchName (d : Directory) (aProfile : ProfileToken) : Str :=
  match d.profileDir with
  | some pd => pd.getName aProfile
  | none => d.realName

end Directory

mutual
/-- `Directory::getSize(ProfileToken)`. -/
def Directory.getSize (aProfile : ProfileToken) : Directory → Int
  | .mk _ _ _ sz _ _ ds => sz + DirList.getSize aProfile ds
/-- The loop of `Directory::getSize` over `directories`. -/
def DirList.getSize (aProfile : ProfileToken) : DirList → Int
  | .nil => 0
  | .cons d rest =>
    if d.isLevelExcluded aProfile then DirList.getSize aProfile rest
    else Directory.getSize aProfile d + DirList.getSize aProfile rest
end

/-- `Directory::Ptr` for a directory that is walked downwards: the directory and
what its `parent` pointer leads to. -/
structure DirPtr where
  parent : Option DirRef
  dir : Directory

/-- The directory of a `DirPtr` as a `DirRef`. -/
def DirPtr.ref (d : DirPtr) : DirRef := d.dir.ref d.parent

/-! ## Searches: tokens, queries, results -/

/-- `x` occurs in `y` as a contiguous run of characters. -/
def isSubstring (x y : Str) : Bool := y.tails.any (fun t => x.isPrefixOf t)

/-- Modelled from the spec: `StringSearch` (its header is not among the sources);
a search token, kept lowercased. -/
structure StringSearch where
  pattern : Str
  deriving DecidableEq

/-- Modelled from the spec: `StringSearch(aPattern)` (its header is not among the
sources) keeps the lowercased token. -/
def StringSearch.new (aPattern : Str) : StringSearch := ⟨Text.toLower aPattern⟩

/-- Modelled from the spec: `StringSearch::match` (its header is not among the
sources); the token matches a name when it occurs in the name, ignoring the case of
the name. -/
def StringSearch.match (k : StringSearch) (aText : Str) : Bool :=
  isSubstring k.pattern (Text.toLower aText)

/-- `SearchResult::Types`. -/
inductive SearchResult.Types where
  | TYPE_FILE
  | TYPE_DIRECTORY
  deriving DecidableEq, Repr

/-- `SearchResult` as built by the share: type, size, path and TTH. -/
structure SearchResult where
  type : SearchResult.Types
  size : Int
  file : Str
  tth : TTHValue
  deriving DecidableEq

/-- `SearchResultList`. -/
abbrev SearchResultList := List SearchResult

/-- `AdcSearch`, the parsed ADC query. The class lives outside the sources at hand, so
its predicates (`isExcluded`, `hasExt`, `matchesDirectDirectoryName`,
`matchesDirectFile`, `matchesSize`) are fields of the query; `includePtr` is the list
the pointer `include` refers to (initially `includeX`). -/
structure AdcSearch where
  includePtr : List StringSearch
  includeX : List StringSearch
  hasRoot : Bool
  root : TTHValue
  gt : Int
  lt : Int
  ext : List Str
  isDirectory : Bool
  isExcluded : Str → Bool
  hasExt : Str → Bool
  matchesDirectDirectoryName : Str → Bool
  matchesDirectFile : Str → Int → Bool
  matchesSize : Int → Bool

/-- The first loop of the ADC `Directory::search`: the copy of the include list with
every token that matches the directory name removed, or `none` when no token matched
(`newStr` stays null). -/
def AdcSearch.pruneInclude (aStrings : AdcSearch) (name : Str) : Option (List StringSearch) :=
  aStrings.includePtr.foldl
    (fun newStr k =>
      if k.match name && !aStrings.isExcluded name then
        some ((newStr.getD aStrings.includePtr).filter (fun x => !(x == k)))
      else newStr)
    none

/-- The file loop of the ADC `Directory::search`. The flag of the result is true when
the loop left the whole function through `return` (the result limit was reached). -/
def Directory.searchAdcFiles (self : DirRef) (aStrings : AdcSearch) (maxResults : Nat)
    (aProfile : ProfileToken) : List File → SearchResultList → Except Fault (SearchResultList × Bool)
  | [], aResults => .ok (aResults, false)
  | f :: fs, aResults =>
    if !(decide (f.size ≥ aStrings.gt)) then
      Directory.searchAdcFiles self aStrings maxResults aProfile fs aResults
    else if !(decide (f.size ≤ aStrings.lt)) then
      Directory.searchAdcFiles self aStrings maxResults aProfile fs aResults
    else if aStrings.isExcluded f.name then
      Directory.searchAdcFiles self aStrings maxResults aProfile fs aResults
    else if !(aStrings.includePtr.all (fun j => j.match f.name)) then
      Directory.searchAdcFiles self aStrings maxResults aProfile fs aResults
    else if aStrings.hasExt f.name then
      match self.getFullName aProfile with
      | .error e => .error e
      | .ok fullName =>
        let aResults1 := aResults ++ [⟨.TYPE_FILE, f.size, fullName ++ f.name, f.tth⟩]
        if aResults1.length ≥ maxResults then .ok (aResults1, true)
        else Directory.searchAdcFiles self aStrings maxResults aProfile fs aResults1
    else Directory.searchAdcFiles self aStrings maxResults aProfile fs aResults

mutual
/-- `Directory::search` (ADC). The query is passed in and handed back, since the
function assigns to `aStrings.includePtr`. -/
def Directory.searchAdc (parent : Option DirRef) (maxResults : Nat) (aProfile : ProfileToken) :
    Directory → SearchResultList → AdcSearch → Except Fault (SearchResultList × AdcSearch)
  | .mk n pd ft sz lw fs ds, aResults, aStrings =>
    let d := Directory.mk n pd ft sz lw fs ds
    let self := d.ref parent
    let old := aStrings.includePtr
    let aStrings1 : AdcSearch :=
      match aStrings.pruneInclude (d.searchName aProfile) with
      | some newStr => { aStrings with includePtr := newStr }
      | none => aStrings
    let sizeOk := decide (aStrings1.gt = 0)
    let withDir : Except Fault SearchResultList :=
      if aStrings1.includePtr.isEmpty && aStrings1.ext.isEmpty && sizeOk then
        match self.getFullName aProfile with
        | .error e => .error e
        | .ok fullName =>
          .ok (aResults ++ [⟨.TYPE_DIRECTORY, Directory.getSize aProfile d, fullName, []⟩])
      else .ok aResults
    match withDir with
    | .error e => .error e
    | .ok aResults1 =>
      let withFiles : Except Fault (SearchResultList × Bool) :=
        if !aStrings1.isDirectory then
          Directory.searchAdcFiles self aStrings1 maxResults aProfile fs aResults1
        else .ok (aResults1, false)
      match withFiles with
      | .error e => .error e
      | .ok (aResults2, true) => .ok (aResults2, aStrings1)
      | .ok (aResults2, false) =>
        match DirList.searchAdc (some self) maxResults aProfile ds aResults2 aStrings1 with
        | .error e => .error e
        | .ok (aResults3, aStrings2) =>
          if aStrings2.includePtr.length != old.length then
            .ok (aResults3, { aStrings2 with includePtr := old })
          else .ok (aResults3, aStrings2)
/-- The loop of the ADC `Directory::search` over `directories`. -/
def DirList.searchAdc (parent : Option DirRef) (maxResults : Nat) (aProfile : ProfileToken) :
    DirList → SearchResultList → AdcSearch → Except Fault (SearchResultList × AdcSearch)
  | .nil, aResults, aStrings => .ok (aResults, aStrings)
  | .cons d rest, aResults, aStrings =>
    if aResults.length < maxResults then
      if d.isLevelExcluded aProfile then
        DirList.searchAdc parent maxResults aProfile rest aResults aStrings
      else
        match Directory.searchAdc parent maxResults aProfile d aResults aStrings with
        | .error e => .error e
        | .ok (aResults1, aStrings1) =>
          DirList.searchAdc parent maxResults aProfile rest aResults1 aStrings1
    else .ok (aResults, aStrings)
end

/-! ## The share manager -/

/-- `ShareManager::TempShareInfo`. -/
structure TempShareInfo where
  key : Str
  path : Str
  size : Int

/-- An entry of `tthIndex`: the file the stored iterator points to and the directory
its `parent` pointer leads to. The key of the entry is the TTH of the file. -/
structure IndexedFile where
  file : File
  parent : DirRef

/-- The state of `ShareManager` that lookups read: the `shares` map in iteration
order, the TTH index in the order in which the container yields equal keys, the
temp-share table, and the outcome of `bloom.match` on a string. -/
structure ShareManager where
  shares : List (Str × DirPtr)
  tthIndex : List IndexedFile
  tempShares : List (TTHValue × TempShareInfo)
  bloom : Str → Bool

/-- What the file system answers: `Util::fileExists` and whether a `FileFindIter`
finds an entry. -/
structure FileSystem where
  fileExists : Str → Bool
  found : Str → Bool

/-- `Util::getFileName`: what follows the last path separator. -/
def Util.getFileName (path : Str) : Str :=
  (path.reverse.takeWhile (fun c => c != PATH_SEPARATOR)).reverse

namespace ShareManager

/-- `tthIndex.find`: the first entry the container holds for the key. -/
def findTTH (st : ShareManager) (tth : TTHValue) : Option IndexedFile :=
  st.tthIndex.find? (fun e => e.file.tth == tth)

/-- `tthIndex.equal_range`: all entries for the key. -/
def equalRangeTTH (st : ShareManager) (tth : TTHValue) : List IndexedFile :=
  st.tthIndex.filter (fun e => e.file.tth == tth)

/-- The temp-share lookup at the end of the root branch of the ADC search. -/
def searchTempShares (st : ShareManager) (root : TTHValue) (cid : Str) : SearchResultList :=
  (st.tempShares.filter
      (fun i => i.1 == root && (i.2.key.isEmpty || i.2.key == cid))).map
    (fun i => ⟨.TYPE_FILE, i.2.size, str "tmp\\" ++ Util.getFileName i.2.path, i.1⟩)

/-- The loop of the ADC `ShareManager::search` over `shares`. -/
def searchAdcShares (maxResults : Nat) (aProfile : ProfileToken) :
    List (Str × DirPtr) → SearchResultList → AdcSearch → Except Fault SearchResultList
  | [], results, _ => .ok results
  | j :: rest, results, srch =>
    if results.length < maxResults then
      match j.2.dir.profileDir with
      | none => .error .nullDereference
      | some pd =>
        if pd.hasProfile aProfile then
          match Directory.searchAdc j.2.parent maxResults aProfile j.2.dir results srch with
          | .error e => .error e
          | .ok (results1, srch1) => searchAdcShares maxResults aProfile rest results1 srch1
        else searchAdcShares maxResults aProfile rest results srch
    else .ok results

/-- `ShareManager::search` (ADC); `srch` is the query `AdcSearch(params)`. The
counters `allSearches` and `stoppedSearches` are left out. -/
def searchAdc (st : ShareManager) (results : SearchResultList) (srch : AdcSearch)
    (maxResults : Nat) (aProfile : ProfileToken) (cid : Str) : Except Fault SearchResultList :=
  if srch.hasRoot then
    match st.findTTH srch.root with
    | some i =>
      if i.parent.hasProfile aProfile then
        match i.parent.getFullName aProfile with
        | .error e => .error e
        | .ok fullName => .ok (results ++ [⟨.TYPE_FILE, i.file.size, fullName ++ i.file.name, i.file.tth⟩])
      else .ok (results ++ st.searchTempShares srch.root cid)
    | none => .ok (results ++ st.searchTempShares srch.root cid)
  else if srch.includeX.any (fun i => !st.bloom i.pattern) then .ok results
  else searchAdcShares maxResults aProfile st.shares results srch

/-- `ShareManager::findRealRoot`. -/
def findRealRoot (st : ShareManager) (fs : FileSystem) (virtualRoot virtualPath : Str) :
    Except Fault Str :=
  let candidates := st.shares.map (fun i =>
    match i.2.dir.profileDir with
    | none => (.error .nullDereference : Except Fault (List Str))
    | some pd =>
      .ok ((pd.shareProfiles.filter (fun k => stricmp k.2 virtualRoot)).map
        (fun k => k.2 ++ virtualPath)))
  let rec go : List (Except Fault (List Str)) → Except Fault Str
    | [] => .error .FILE_NOT_AVAILABLE
    | .error e :: _ => .error e
    | .ok names :: rest =>
      match names.find? fs.found with
      | some name => .ok name
      | none => go rest
  go candidates

/-- `Directory::getRealPath(path, checkExistance)`. -/
def getRealPath (st : ShareManager) (fs : FileSystem) : DirRef → Str → Bool → Except Fault Str
  | .sub n _ p, path, checkExistance =>
    getRealPath st fs p (n ++ [PATH_SEPARATOR] ++ path) checkExistance
  | .top n pd, path, checkExistance =>
    match pd with
    | none => .error .nullDereference
    | some x =>
      let rootDir := x.path ++ path
      if !checkExistance then .ok rootDir
      else if fs.fileExists rootDir then .ok rootDir
      else st.findRealRoot fs n path

/-- `Directory::File::getRealPath()`, which asks the parent for the path of the file
name, checking existence. -/
def fileRealPath (st : ShareManager) (fs : FileSystem) (f : IndexedFile) : Except Fault Str :=
  st.getRealPath fs f.parent f.file.name true

/-- `ShareManager::toRealWithSize(virtualFile, aProfiles, aUser)`; `cid` is
`aUser.user->getCID().toBase32()`. -/
def toRealWithSize (st : ShareManager) (fs : FileSystem) (virtualFile : Str)
    (aProfiles : ProfileTokenSet) (cid : Str) : Except Fault (Str × Int) :=
  if virtualFile.take 4 = str "TTH/" then
    let tth : TTHValue := virtualFile.drop 4
    let shared : Option IndexedFile :=
      if aProfiles.any (fun p => p != SP_HIDDEN) then
        (st.equalRangeTTH tth).find? (fun f => f.parent.hasProfiles aProfiles)
      else none
    match shared with
    | some f =>
      match st.fileRealPath fs f with
      | .error e => .error e
      | .ok path => .ok (path, f.file.size)
    | none =>
      match (st.tempShares.filter (fun i => i.1 == tth)).find?
          (fun i => i.2.key.isEmpty || i.2.key == cid) with
      | some i => .ok (i.2.path, i.2.size)
      | none => .error .FILE_NOT_AVAILABLE
  else .error .FILE_NOT_AVAILABLE

end ShareManager

/-! ## Virtual paths -/

/-- The index of the first `c` in `x`, counted from `k`. -/
def findFrom (c : Char) : Str → Nat → Option Nat
  | [], _ => none
  | a :: rest, k => if a = c then some k else findFrom c rest (k + 1)

/-- `std::string::find(c, pos)`; `none` is `npos`. -/
def strFind (x : Str) (c : Char) (pos : Nat) : Option Nat := findFrom c (x.drop pos) pos

/-- `std::string::substr(pos, n)`. -/
def substr (x : Str) (pos n : Nat) : Str := (x.drop pos).take n

/-- Modelled from the spec: `directories.find(name)` (the comparator of
`Directory::Map` is declared in a header that is not among the sources); the lookup is
by case-insensitive name. -/
def DirList.find (name : Str) : DirList → Option Directory
  | .nil => none
  | .cons d rest => if stricmp d.realName name then some d else DirList.find name rest

namespace ShareManager

/-- The loop of `ShareManager::getByVirtual` over `shares`. -/
def getByVirtualLoop (virtualName : Str) (aProfile : ProfileToken) :
    List (Str × DirPtr) → List DirPtr → Except Fault (List DirPtr)
  | [], dirs => .ok dirs
  | i :: rest, dirs =>
    match i.2.dir.profileDir with
    | none => .error .nullDereference
    | some pd =>
      if (decide (aProfile < 0) || pd.hasProfile aProfile)
          && stricmp (pd.getName aProfile) virtualName then
        getByVirtualLoop virtualName aProfile rest (dirs ++ [i.2])
      else getByVirtualLoop virtualName aProfile rest dirs

/-- `ShareManager::getByVirtual`. -/
def getByVirtual (st : ShareManager) (virtualName : Str) (aProfile : ProfileToken)
    (dirs : List DirPtr) : Except Fault (List DirPtr) :=
  getByVirtualLoop virtualName aProfile st.shares dirs

/-- The `while` loop of `ShareManager::findVirtuals` for one candidate: `j` is the
start of the next segment, the result is `d` after the loop (`none` for `nullptr`).
The first argument bounds the number of iterations; every iteration moves `j` past
one more `'/'`, so the length of the path is enough. -/
def walkVirtual (virtualPath : Str) (aProfile : ProfileToken) : Nat → Nat → DirPtr → Option DirPtr
  | 0, _, d => some d
  | fuel + 1, j, d =>
    match strFind virtualPath '/' j with
    | none => some d
    | some i =>
      match d.dir.directories.find (substr virtualPath j (i - j)) with
      | some child =>
        if !child.isLevelExcluded aProfile then
          walkVirtual virtualPath aProfile fuel (i + 1) ⟨some d.ref, child⟩
        else none
      | none => none

/-- The body of the `for` loop of `ShareManager::findVirtuals` for the candidate `k`. -/
def findVirtualsStep (virtualPath : Str) (aProfile : ProfileToken) (start : Nat)
    (dirs : List DirPtr) (k : DirPtr) : List DirPtr :=
  let j := start + 1
  if strFind virtualPath '/' j = none then dirs ++ [k]
  else
    match walkVirtual virtualPath aProfile virtualPath.length j k with
    | some d => dirs ++ [d]
    | none => dirs

/-- `ShareManager::findVirtuals`; the result is `dirs` after the call. -/
def findVirtuals (st : ShareManager) (virtualPath : Str) (aProfile : ProfileToken)
    (dirs : List DirPtr) : Except Fault (List DirPtr) :=
  if virtualPath.isEmpty || virtualPath.head? != some '/' then .error .FILE_NOT_AVAILABLE
  else
    match strFind virtualPath '/' 1 with
    | none => .error .FILE_NOT_AVAILABLE
    | some start =>
      if start = 1 then .error .FILE_NOT_AVAILABLE
      else
        match st.getByVirtual (substr virtualPath 1 (start - 1)) aProfile [] with
        | .error e => .error e
        | .ok virtuals =>
          if virtuals.isEmpty then .error .FILE_NOT_AVAILABLE
          else
            let dirs1 := virtuals.foldl (findVirtualsStep virtualPath aProfile start) dirs
            if dirs1.isEmpty then .error .FILE_NOT_AVAILABLE else .ok dirs1

/-- The share roots whose virtual name for the profile equals a name up to case. -/
def rootsByVirtual (st : ShareManager) (first : Str) (aProfile : ProfileToken) : List DirPtr :=
  (st.shares.filter (fun i =>
    match i.2.dir.profileDir with
    | some pd => stricmp (pd.getName aProfile) first
    | none => false)).map (fun i => i.2)

end ShareManager

/-- A list of path segments written out, each followed by `'/'`. -/
def joinSegments : List Str → Str
  | [] => []
  | seg :: rest => seg ++ '/' :: joinSegments rest

/-- Following segments down from a directory through `directories`: the candidate is
dropped as soon as a segment is missing or the child is excluded for the profile. -/
def followSegments (aProfile : ProfileToken) : List Str → DirPtr → Option DirPtr
  | [], d => some d
  | seg :: rest, d =>
    match d.dir.directories.find seg with
    | some child =>
      if child.isLevelExcluded aProfile then none
      else followSegments aProfile rest ⟨some d.ref, child⟩
    | none => none

/-! ## File types -/

/-- `SearchManager::TYPE_ANY`. -/
def TYPE_ANY : Nat := 0
/-- `SearchManager::TYPE_AUDIO`. -/
def TYPE_AUDIO : Nat := 1
/-- `SearchManager::TYPE_COMPRESSED`. -/
def TYPE_COMPRESSED : Nat := 2
/-- `SearchManager::TYPE_DOCUMENT`. -/
def TYPE_DOCUMENT : Nat := 3
/-- `SearchManager::TYPE_EXECUTABLE`. -/
def TYPE_EXECUTABLE : Nat := 4
/-- `SearchManager::TYPE_PICTURE`. -/
def TYPE_PICTURE : Nat := 5
/-- `SearchManager::TYPE_VIDEO`. -/
def TYPE_VIDEO : Nat := 6
/-- `SearchManager::TYPE_DIRECTORY`. -/
def TYPE_DIRECTORY : Nat := 7
/-- `SearchManager::TYPE_TTH`. -/
def TYPE_TTH : Nat := 8

/-- `SearchManager::SizeModes`. -/
inductive SizeModes where
  | SIZE_DONTCARE
  | SIZE_ATLEAST
  | SIZE_ATMOST
  deriving DecidableEq, Repr

/-- The table `typeAudio`. -/
def typeAudio : List Str :=
  [".mp3", ".mp2", ".mid", ".wav", ".ogg", ".wma", ".669", ".aac", ".aif", ".amf", ".ams",
   ".ape", ".dbm", ".dmf", ".dsm", ".far", ".mdl", ".med", ".mod", ".mol", ".mp1", ".mp4",
   ".mpa", ".mpc", ".mpp", ".mtm", ".nst", ".okt", ".psm", ".ptm", ".rmi", ".s3m", ".stm",
   ".ult", ".umx", ".wow"].map String.toList

/-- The table `typeCompressed`. -/
def typeCompressed : List Str :=
  [".rar", ".zip", ".ace", ".arj", ".hqx", ".lha", ".sea", ".tar", ".tgz", ".uc2"].map
    String.toList

/-- The table `typeDocument`. -/
def typeDocument : List Str :=
  [".nfo", ".htm", ".doc", ".txt", ".pdf", ".chm"].map String.toList

/-- The table `typeExecutable`. -/
def typeExecutable : List Str := [".exe", ".com"].map String.toList

/-- The table `typePicture`. -/
def typePicture : List Str :=
  [".jpg", ".gif", ".png", ".eps", ".img", ".pct", ".psp", ".pic", ".tif", ".rle", ".bmp",
   ".pcx", ".jpe", ".dcx", ".emf", ".ico", ".psd", ".tga", ".wmf", ".xif"].map String.toList

/-- The table `typeVideo`. -/
def typeVideo : List Str :=
  [".vob", ".mpg", ".mov", ".asf", ".avi", ".wmv", ".ogm", ".mkv", ".pxp", ".m1v", ".m2v",
   ".mpe", ".mps", ".mpv", ".ram"].map String.toList

/-- The table `type2Audio`. -/
def type2Audio : List Str :=
  [".au", ".it", ".ra", ".xm", ".aiff", ".flac", ".midi"].map String.toList

/-- The table `type2Compressed`. -/
def type2Compressed : List Str := [".gz"].map String.toList

/-- The table `type2Picture`. -/
def type2Picture : List Str := [".jpeg", ".ai", ".ps", ".pict", ".tiff"].map String.toList

/-- The table `type2Video`. -/
def type2Video : List Str :=
  [".mpeg", ".rm", ".divx", ".mp1v", ".mp2v", ".mpv1", ".mpv2", ".qt", ".rv", ".vivo"].map
    String.toList

/-- `*((uint32_t*)x)`: the first four characters of `x` read as one 32-bit integer,
lowest byte first. -/
def asUInt32 (x : Str) : Nat :=
  ((x.getD 0 '\x00').toNat ||| ((x.getD 1 '\x00').toNat <<< 8) |||
    ((x.getD 2 '\x00').toNat <<< 16) ||| ((x.getD 3 '\x00').toNat <<< 24)) % 2 ^ 32

/-- The macro `IS_TYPE(x)`. -/
def IS_TYPE (type : Nat) (x : Str) : Bool := type == asUInt32 x

/-- The macro `IS_TYPE2(x)`. -/
def IS_TYPE2 (aString : Str) (x : Str) : Bool :=
  stricmp (aString.drop (aString.length - x.length)) x

/-- `ShareManager::checkType`. -/
def checkType (aString : Str) (aType : Nat) : Bool :=
  if aType = TYPE_ANY then true
  else if aString.length < 5 then false
  else
    let c := aString.drop (aString.length - 3)
    if !Text.isAscii c then false
    else
      let type : Nat :=
        ('.'.toNat ||| ((Text.asciiToLower (c.getD 0 '\x00')).toNat <<< 8) |||
          ((Text.asciiToLower (c.getD 1 '\x00')).toNat <<< 16) |||
          ((Text.asciiToLower (c.getD 2 '\x00')).toNat <<< 24)) % 2 ^ 32
      if aType = TYPE_AUDIO then
        typeAudio.any (IS_TYPE type) || type2Audio.any (IS_TYPE2 aString)
      else if aType = TYPE_COMPRESSED then
        typeCompressed.any (IS_TYPE type) || IS_TYPE2 aString (type2Compressed.getD 0 [])
      else if aType = TYPE_DOCUMENT then
        typeDocument.any (IS_TYPE type)
      else if aType = TYPE_EXECUTABLE then
        IS_TYPE type (typeExecutable.getD 0 []) || IS_TYPE type (typeExecutable.getD 1 [])
      else if aType = TYPE_PICTURE then
        typePicture.any (IS_TYPE type) || type2Picture.any (IS_TYPE2 aString)
      else if aType = TYPE_VIDEO then
        typeVideo.any (IS_TYPE type) || type2Video.any (IS_TYPE2 aString)
      else false

/-- The name ends with the extension, ignoring case. -/
def endsWithNoCase (name ext : Str) : Bool :=
  decide (ext.length ≤ name.length) && stricmp (name.drop (name.length - ext.length)) ext

/-- The short- and long-extension tables of a file type. -/
def extensionsOf (aType : Nat) : List Str :=
  if aType = TYPE_AUDIO then typeAudio ++ type2Audio
  else if aType = TYPE_COMPRESSED then typeCompressed ++ type2Compressed
  else if aType = TYPE_DOCUMENT then typeDocument
  else if aType = TYPE_EXECUTABLE then typeExecutable
  else if aType = TYPE_PICTURE then typePicture ++ type2Picture
  else if aType = TYPE_VIDEO then typeVideo ++ type2Video
  else []

/-! ## The NMDC search -/

/-- Modelled from the spec: `Directory::hasType` (declared in a header that is not
among the sources); `fileTypes` is a bitmask over the file types, and every directory
may hold files of type `ANY`. -/
def Directory.hasType (d : Directory) (type : Nat) : Bool :=
  type == TYPE_ANY || (d.fileTypes &&& (1 <<< type)) != 0

/-- The first loop of the NMDC `Directory::search`: the copy of the token list with
every token that matches the directory name removed, or `none` when no token matched
(`newStr` stays null). -/
def pruneTokens (aStrings : List StringSearch) (name : Str) : Option (List StringSearch) :=
  aStrings.foldl
    (fun newStr k =>
      if k.match name then some ((newStr.getD aStrings).filter (fun x => !(x == k)))
      else newStr)
    none

/-- The file loop of the NMDC `Directory::search`. -/
def Directory.searchFiles (self : DirRef) (cur : List StringSearch) (aSearchType : SizeModes)
    (aSize : Int) (aFileType : Nat) (maxResults : Nat) :
    List File → SearchResultList → Except Fault SearchResultList
  | [], aResults => .ok aResults
  | f :: fs, aResults =>
    if aSearchType = .SIZE_ATLEAST ∧ aSize > f.size then
      Directory.searchFiles self cur aSearchType aSize aFileType maxResults fs aResults
    else if aSearchType = .SIZE_ATMOST ∧ aSize < f.size then
      Directory.searchFiles self cur aSearchType aSize aFileType maxResults fs aResults
    else if !(cur.all (fun j => j.match f.name)) then
      Directory.searchFiles self cur aSearchType aSize aFileType maxResults fs aResults
    else if checkType f.name aFileType then
      match self.getFullName SP_DEFAULT with
      | .error e => .error e
      | .ok fullName =>
        let aResults1 := aResults ++ [⟨.TYPE_FILE, f.size, fullName ++ f.name, f.tth⟩]
        if aResults1.length ≥ maxResults then .ok aResults1
        else Directory.searchFiles self cur aSearchType aSize aFileType maxResults fs aResults1
    else Directory.searchFiles self cur aSearchType aSize aFileType maxResults fs aResults

mutual
/-- `Directory::search` (NMDC). -/
def Directory.search (parent : Option DirRef) (aSearchType : SizeModes) (aSize : Int)
    (aFileType : Nat) (maxResults : Nat) :
    Directory → SearchResultList → List StringSearch → Except Fault SearchResultList
  | .mk n pd ft sz lw fs ds, aResults, aStrings =>
    let d := Directory.mk n pd ft sz lw fs ds
    let self := d.ref parent
    if !d.hasType aFileType then .ok aResults
    else
      let cur : List StringSearch := (pruneTokens aStrings (d.searchName SP_DEFAULT)).getD aStrings
      let sizeOk : Bool := aSearchType != .SIZE_ATLEAST || aSize == 0
      let withDir : Except Fault SearchResultList :=
        if cur.isEmpty && ((aFileType == TYPE_ANY && sizeOk) || aFileType == TYPE_DIRECTORY) then
          match self.getFullName SP_DEFAULT with
          | .error e => .error e
          | .ok fullName => .ok (aResults ++ [⟨.TYPE_DIRECTORY, 0, fullName, []⟩])
        else .ok aResults
      match withDir with
      | .error e => .error e
      | .ok aResults1 =>
        let withFiles : Except Fault SearchResultList :=
          if aFileType != TYPE_DIRECTORY then
            Directory.searchFiles self cur aSearchType aSize aFileType maxResults fs aResults1
          else .ok aResults1
        match withFiles with
        | .error e => .error e
        | .ok aResults2 =>
          DirList.search (some self) aSearchType aSize aFileType maxResults ds aResults2 cur
/-- The loop of the NMDC `Directory::search` over `directories`. -/
def DirList.search (parent : Option DirRef) (aSearchType : SizeModes) (aSize : Int)
    (aFileType : Nat) (maxResults : Nat) :
    DirList → SearchResultList → List StringSearch → Except Fault SearchResultList
  | .nil, aResults, _ => .ok aResults
  | .cons d rest, aResults, cur =>
    if aResults.length < maxResults then
      if d.isLevelExcluded SP_DEFAULT then
        DirList.search parent aSearchType aSize aFileType maxResults rest aResults cur
      else
        match Directory.search parent aSearchType aSize aFileType maxResults d aResults cur with
        | .error e => .error e
        | .ok aResults1 =>
          DirList.search parent aSearchType aSize aFileType maxResults rest aResults1 cur
    else .ok aResults
end

/-- The loop of `StringTokenizer` over the occurrences of the separator: `j` is the
start of the next token; the first argument bounds the number of iterations. -/
def tokenizeFrom (aString : Str) (aToken : Char) : Nat → Nat → List Str → List Str
  | 0, _, tokens => tokens
  | fuel + 1, j, tokens =>
    match strFind aString aToken j with
    | some i => tokenizeFrom aString aToken fuel (i + 1) (tokens ++ [substr aString j (i - j)])
    | none =>
      if j < aString.length then tokens ++ [substr aString j (aString.length - j)] else tokens

/-- Modelled from the spec: `StringTokenizer<string>(aString, aToken).getTokens()` (its
header is not among the sources): the pieces between the separators, a last piece
being kept only when it is not empty. -/
def StringTokenizer (aString : Str) (aToken : Char) : List Str :=
  tokenizeFrom aString aToken (aString.length + 1) 0 []

namespace ShareManager

/-- The loop of the NMDC `ShareManager::search` over `shares`. -/
def searchShares (aSearchType : SizeModes) (aSize : Int) (aFileType : Nat) (maxResults : Nat)
    (ssl : List StringSearch) : List (Str × DirPtr) → SearchResultList → Except Fault SearchResultList
  | [], results => .ok results
  | j :: rest, results =>
    if results.length < maxResults then
      match j.2.dir.profileDir with
      | none => .error .nullDereference
      | some pd =>
        if pd.hasProfile SP_DEFAULT then
          match Directory.search j.2.parent aSearchType aSize aFileType maxResults j.2.dir
              results ssl with
          | .error e => .error e
          | .ok results1 => searchShares aSearchType aSize aFileType maxResults ssl rest results1
        else searchShares aSearchType aSize aFileType maxResults ssl rest results
    else .ok results

/-- `ShareManager::search` (NMDC). The counters `allSearches` and `stoppedSearches`
are left out. -/
def search (st : ShareManager) (results : SearchResultList) (aString : Str)
    (aSearchType : SizeModes) (aSize : Int) (aFileType : Nat) (maxResults : Nat) :
    Except Fault SearchResultList :=
  if aFileType = TYPE_TTH then
    if aString.take 4 = str "TTH:" then
      match st.findTTH (aString.drop 4) with
      | some i =>
        if i.parent.hasProfile SP_DEFAULT then
          match i.parent.getFullName SP_DEFAULT with
          | .error e => .error e
          | .ok fullName =>
            .ok (results ++ [⟨.TYPE_FILE, i.file.size, fullName ++ i.file.name, i.file.tth⟩])
        else .ok results
      | none => .ok results
    else .ok results
  else
    let sl := StringTokenizer (Text.toLower aString) '$'
    if !(sl.all st.bloom) then .ok results
    else
      let ssl := (sl.filter (fun i => !i.isEmpty)).map StringSearch.new
      if ssl.isEmpty then .ok results
      else searchShares aSearchType aSize aFileType maxResults ssl st.shares results

end ShareManager

/-! ## The direct search -/

/-- `DirectSearchResultList`: the path of every result. -/
abbrev DirectSearchResultList := List Str

mutual
/-- `Directory::directSearch`. -/
def Directory.directSearch (parent : Option DirRef) (aStrings : AdcSearch) (maxResults : Nat)
    (aProfile : ProfileToken) : Directory → DirectSearchResultList → Except Fault DirectSearchResultList
  | .mk n pd ft sz lw fs ds, aResults =>
    let d := Directory.mk n pd ft sz lw fs ds
    let self := d.ref parent
    let withDir : Except Fault DirectSearchResultList :=
      if aStrings.matchesDirectDirectoryName (d.searchName aProfile) then
        let parentPath : Except Fault Str :=
          match parent with
          | some p => p.getADCPath aProfile
          | none => .ok ['/']
        match parentPath with
        | .error e => .error e
        | .ok path =>
          if !(aResults.any (fun sr => sr == path))
              && aStrings.matchesSize (Directory.getSize aProfile d) then
            .ok (aResults ++ [path])
          else .ok aResults
      else .ok aResults
    match withDir with
    | .error e => .error e
    | .ok aResults1 =>
      let withFiles : Except Fault DirectSearchResultList :=
        if !aStrings.isDirectory then
          if fs.any (fun i => aStrings.matchesDirectFile i.name i.size) then
            match self.getADCPath aProfile with
            | .error e => .error e
            | .ok path => .ok (aResults1 ++ [path])
          else .ok aResults1
        else .ok aResults1
      match withFiles with
      | .error e => .error e
      | .ok aResults2 => DirList.directSearch (some self) aStrings maxResults aProfile ds aResults2
/-- The loop of `Directory::directSearch` over `directories`. -/
def DirList.directSearch (parent : Option DirRef) (aStrings : AdcSearch) (maxResults : Nat)
    (aProfile : ProfileToken) : DirList → DirectSearchResultList → Except Fault DirectSearchResultList
  | .nil, aResults => .ok aResults
  | .cons d rest, aResults =>
    if aResults.length < maxResults then
      if d.isLevelExcluded aProfile then
        DirList.directSearch parent aStrings maxResults aProfile rest aResults
      else
        match Directory.directSearch parent aStrings maxResults aProfile d aResults with
        | .error e => .error e
        | .ok aResults1 => DirList.directSearch parent aStrings maxResults aProfile rest aResults1
    else .ok aResults
end

namespace ShareManager

/-- The loop of `ShareManager::directSearch` over the index entries of the root. -/
def directSearchRoot (aProfile : ProfileToken) :
    List IndexedFile → DirectSearchResultList → Except Fault DirectSearchResultList
  | [], results => .ok results
  | f :: rest, results =>
    if f.parent.hasProfile aProfile then
      match f.parent.getADCPath aProfile with
      | .error e => .error e
      | .ok path => directSearchRoot aProfile rest (results ++ [path])
    else directSearchRoot aProfile rest results

/-- The loop of `ShareManager::directSearch` over `shares`. -/
def directSearchShares (srch : AdcSearch) (maxResults : Nat) (aProfile : ProfileToken) :
    List (Str × DirPtr) → DirectSearchResultList → Except Fault DirectSearchResultList
  | [], results => .ok results
  | j :: rest, results =>
    if results.length < maxResults then
      match j.2.dir.profileDir with
      | none => .error .nullDereference
      | some pd =>
        if pd.hasProfile aProfile then
          match Directory.directSearch j.2.parent srch maxResults aProfile j.2.dir results with
          | .error e => .error e
          | .ok results1 => directSearchShares srch maxResults aProfile rest results1
        else directSearchShares srch maxResults aProfile rest results
    else .ok results

/-- The loop of `ShareManager::directSearch` over the directories `findVirtuals` found. -/
def directSearchVirtuals (srch : AdcSearch) (maxResults : Nat) (aProfile : ProfileToken) :
    List DirPtr → DirectSearchResultList → Except Fault DirectSearchResultList
  | [], results => .ok results
  | it :: rest, results =>
    if !it.dir.isLevelExcluded aProfile then
      match Directory.directSearch it.parent srch maxResults aProfile it.dir results with
      | .error e => .error e
      | .ok results1 => directSearchVirtuals srch maxResults aProfile rest results1
    else directSearchVirtuals srch maxResults aProfile rest results

/-- `ShareManager::directSearch`. -/
def directSearch (st : ShareManager) (results : DirectSearchResultList) (srch : AdcSearch)
    (maxResults : Nat) (aProfile : ProfileToken) (aDirectory : Str) :
    Except Fault DirectSearchResultList :=
  if srch.hasRoot then directSearchRoot aProfile (st.equalRangeTTH srch.root) results
  else if srch.includeX.any (fun i => !st.bloom i.pattern) then .ok results
  else if aDirectory.isEmpty || aDirectory == ['/'] then
    directSearchShares srch maxResults aProfile st.shares results
  else
    match st.findVirtuals aDirectory aProfile [] with
    | .error e => .error e
    | .ok result => directSearchVirtuals srch maxResults aProfile result results

end ShareManager

/-! ## The remote listing: dupe states -/

namespace DirectoryListing

/-- `DupeType`. -/
inductive DupeType where
  | DUPE_NONE
  | SHARE_DUPE
  | PARTIAL_SHARE_DUPE
  | QUEUE_DUPE
  | PARTIAL_QUEUE_DUPE
  | SHARE_QUEUE_DUPE
  deriving DecidableEq, Repr

/-- `DirectoryListing::File` without its `parent` back-reference. -/
structure File where
  name : Str
  size : Int
  tthRoot : TTHValue
  adls : Bool
  dupe : DupeType

/-- Modelled from the spec: `File::isQueued` (declared in a header that is not among
the sources); a file the queue reports carries the state `QUEUE_DUPE`. -/
def File.isQueued (f : File) : Bool := f.dupe == .QUEUE_DUPE

mutual
/-- `DirectoryListing::Directory` with the subtree it owns. -/
inductive Directory where
  | mk (name : Str) (complete : Bool) (partialSize : Int) (date : Nat) (adls : Bool)
      (dupe : DupeType) (files : List File) (directories : DirList)
/-- The vector `directories`. -/
inductive DirList where
  | nil
  | cons (dir : Directory) (rest : DirList)
end

/-- `Directory::getDupe`. -/
def Directory.getDupe : Directory → DupeType
  | .mk _ _ _ _ _ dupe _ _ => dupe

/-- The field `files`. -/
def Directory.files : Directory → List File
  | .mk _ _ _ _ _ _ files _ => files

/-- The field `directories`. -/
def Directory.directories : Directory → DirList
  | .mk _ _ _ _ _ _ _ ds => ds

/-- `directories.empty()`. -/
def DirList.empty : DirList → Bool
  | .nil => true
  | .cons _ _ => false

/-- The body of the loop of `checkShareDupes` over `directories`: the dupe state of
the directory after the child has answered `result`. -/
def dirStep (dupe : DupeType) (first : Bool) (result : DupeType) : DupeType :=
  if dupe = .DUPE_NONE ∧ first = true then result
  else if (result = .SHARE_DUPE ∨ result = .PARTIAL_SHARE_DUPE) ∧ dupe = .DUPE_NONE
      ∧ first = false then .PARTIAL_SHARE_DUPE
  else if (result = .QUEUE_DUPE ∨ result = .PARTIAL_QUEUE_DUPE) ∧ dupe = .DUPE_NONE
      ∧ first = false then .PARTIAL_QUEUE_DUPE
  else if (dupe = .SHARE_DUPE ∨ dupe = .PARTIAL_SHARE_DUPE)
      ∧ (result = .QUEUE_DUPE ∨ result = .PARTIAL_QUEUE_DUPE) then .SHARE_QUEUE_DUPE
  else if (dupe = .QUEUE_DUPE ∨ dupe = .PARTIAL_QUEUE_DUPE)
      ∧ (result = .SHARE_DUPE ∨ result = .PARTIAL_SHARE_DUPE) then .SHARE_QUEUE_DUPE
  else if result = .SHARE_QUEUE_DUPE then .SHARE_QUEUE_DUPE
  else dupe

/-- The body of the loop of `checkShareDupes` over `files`, for a file of positive
size: the dupe state of the directory after the file; `noDirs` is
`directories.empty()`. -/
def fileStep (dupe : DupeType) (first : Bool) (noDirs : Bool) (f : File) : DupeType :=
  if dupe = .DUPE_NONE ∧ f.dupe = .SHARE_DUPE ∧ noDirs = true ∧ first = true then .SHARE_DUPE
  else if dupe = .DUPE_NONE ∧ f.isQueued = true ∧ noDirs = true ∧ first = true then .QUEUE_DUPE
  else if dupe = .DUPE_NONE ∧ f.dupe = .SHARE_DUPE ∧ noDirs = false ∧ first = true then
    .PARTIAL_SHARE_DUPE
  else if dupe = .DUPE_NONE ∧ f.isQueued = true ∧ noDirs = false ∧ first = true then
    .PARTIAL_QUEUE_DUPE
  else if dupe = .DUPE_NONE ∧ f.dupe = .SHARE_DUPE ∧ first = false then .PARTIAL_SHARE_DUPE
  else if dupe = .DUPE_NONE ∧ f.isQueued = true ∧ first = false then .PARTIAL_QUEUE_DUPE
  else if dupe = .SHARE_DUPE ∧ f.dupe ≠ .SHARE_DUPE then .PARTIAL_SHARE_DUPE
  else if dupe = .QUEUE_DUPE ∧ f.isQueued = false then .PARTIAL_QUEUE_DUPE
  else if (dupe = .SHARE_DUPE ∨ dupe = .PARTIAL_SHARE_DUPE) ∧ f.isQueued = true then
    .SHARE_QUEUE_DUPE
  else if (dupe = .QUEUE_DUPE ∨ dupe = .PARTIAL_QUEUE_DUPE) ∧ f.dupe = .SHARE_DUPE then
    .SHARE_QUEUE_DUPE
  else dupe

/-- The loop of `checkShareDupes` over `files`. -/
def checkFiles (noDirs : Bool) : List File → DupeType → Bool → DupeType
  | [], dupe, _ => dupe
  | f :: fs, dupe, first =>
    if f.size > 0 then checkFiles noDirs fs (fileStep dupe first noDirs f) false
    else checkFiles noDirs fs dupe first

mutual
/-- `Directory::checkShareDupes`: the directory after the call, with the dupe state of
the directory and of every descendant set; the value the call returns is `getDupe` of
the result. -/
def Directory.checkShareDupes : Directory → Directory
  | .mk name complete partialSize date adls dupe files ds =>
    let r := DirList.checkShareDupes ds dupe true
    .mk name complete partialSize date adls (checkFiles ds.empty files r.2 true) files r.1
/-- The loop of `checkShareDupes` over `directories`: the directories after the loop
and the dupe state of the parent. -/
def DirList.checkShareDupes : DirList → DupeType → Bool → DirList × DupeType
  | .nil, dupe, _ => (.nil, dupe)
  | .cons d rest, dupe, first =>
    let d1 := Directory.checkShareDupes d
    let r := DirList.checkShareDupes rest (dirStep dupe first d1.getDupe) false
    (.cons d1 r.1, r.2)
end

end DirectoryListing

/-! ## The remote listing: construction of files and directories -/

namespace DirectoryListing

/-- `DirectoryListing::File::File(aDir, aName, aSize, aTTH, checkDupe)`;
`airCheckDupe` is `AirUtil::checkDupe(tth, name)`, which asks the share and the
queue. -/
def File.new (airCheckDupe : TTHValue → Str → DupeType) (aName : Str) (aSize : Int)
    (aTTH : TTHValue) (checkDupe : Bool) : File :=
  { name := aName, size := aSize, tthRoot := aTTH, adls := false,
    dupe := if checkDupe && decide (aSize > 0) then airCheckDupe aTTH aName else .DUPE_NONE }

end DirectoryListing

namespace Util

/-- The value of the leading decimal digits of a string, continuing from `acc`. -/
def parseDigits : Str → Nat → Nat
  | [], acc => acc
  | c :: cs, acc =>
    if '0' ≤ c ∧ c ≤ '9' then parseDigits cs (acc * 10 + (c.toNat - '0'.toNat)) else acc

/-- `Util::toInt64` (a thin wrapper around the C library, declared outside the
sources): an optional minus sign followed by decimal digits; what follows the digits
is ignored. Values outside the 64-bit range are not modelled. -/
def toInt64 (x : Str) : Int :=
  match x with
  | '-' :: cs => - (parseDigits cs 0 : Int)
  | _ => (parseDigits x 0 : Int)

end Util

namespace DirectoryListing

/-- What can be thrown on the listing side: `AbortException`, `SimpleXMLException`,
`ShareException`, any other class derived from `Exception` (`FileException`,
`QueueException`, ...), a thrown C string, and the dereference of a null pointer,
which the source does not guard against. -/
inductive Thrown where
  | AbortException
  | SimpleXMLException (msg : Str)
  | ShareException (msg : Str)
  | Exception (msg : Str)
  | cstring (msg : Str)
  | nullDereference
  deriving DecidableEq

/-- What the listing asks of the rest of the program while it builds its tree:
`AirUtil::checkDupe(tth, name)`, `AirUtil::checkDupe(path, size)`, and the time stamp
`setDate` computes from a non-empty `Date` attribute. -/
structure Env where
  fileDupe : TTHValue → Str → DupeType
  dirDupe : Str → Int → DupeType
  toDate : Str → Nat

namespace Directory

/-- The field `name`. -/
def name : Directory → Str
  | mk n _ _ _ _ _ _ _ => n

/-- `Directory::getComplete`. -/
def getComplete : Directory → Bool
  | mk _ c _ _ _ _ _ _ => c

/-- The field `partialSize`. -/
def partialSize : Directory → Int
  | mk _ _ ps _ _ _ _ _ => ps

/-- `Directory::getDate`. -/
def getDate : Directory → Nat
  | mk _ _ _ dt _ _ _ _ => dt

/-- `Directory::getAdls`. -/
def getAdls : Directory → Bool
  | mk _ _ _ _ a _ _ _ => a

/-- `Directory::setComplete`. -/
def setComplete (c : Bool) : Directory → Directory
  | mk n _ ps dt a du fs ds => mk n c ps dt a du fs ds

/-- `Directory::setDate`. -/
def setDate (env : Env) (aDate : Str) : Directory → Directory
  | mk n c ps _ a du fs ds => mk n c ps (if aDate.isEmpty then 0 else env.toDate aDate) a du fs ds

/-- `Directory::setDupe`. -/
def setDupe (du : DupeType) : Directory → Directory
  | mk n c ps dt a _ fs ds => mk n c ps dt a du fs ds

/-- Assignment to the vector `files`. -/
def setFiles (fs : List File) : Directory → Directory
  | mk n c ps dt a du _ ds => mk n c ps dt a du fs ds

/-- Assignment to the vector `directories`. -/
def setDirectories (ds : DirList) : Directory → Directory
  | mk n c ps dt a du fs _ => mk n c ps dt a du fs ds

end Directory

namespace DirList

/-- `directories.size()`. -/
def length : DirList → Nat
  | nil => 0
  | cons _ rest => rest.length + 1

/-- The directory at an index of the vector. -/
def get? : DirList → Nat → Option Directory
  | nil, _ => none
  | cons d _, 0 => some d
  | cons _ rest, i + 1 => rest.get? i

/-- The vector with the directory at an index replaced by its image. -/
def modify (g : Directory → Directory) : DirList → Nat → DirList
  | nil, _ => nil
  | cons d rest, 0 => cons (g d) rest
  | cons d rest, i + 1 => cons d (modify g rest i)

/-- `directories.push_back(d)`. -/
def push : DirList → Directory → DirList
  | nil, d => cons d nil
  | cons x rest, d => cons x (rest.push d)

/-- `find_if` over the vector: the index of the first directory that satisfies the
predicate. -/
def findIdx? (p : Directory → Bool) : DirList → Option Nat
  | nil => none
  | cons d rest => if p d then some 0 else (rest.findIdx? p).map (fun i => i + 1)

/-- The directories of the vector as a list. -/
def toList : DirList → List Directory
  | nil => []
  | cons d rest => d :: rest.toList

end DirList

/-- The position of a directory in the tree: the indices to follow through the
`directories` vectors, starting at the root. A `Directory*` of the source is such a
position. -/
abbrev Pos := List Nat

/-- The directory at a position of the tree. -/
def getAt : Pos → Directory → Option Directory
  | [], d => some d
  | i :: rest, d =>
    match d.directories.get? i with
    | some c => getAt rest c
    | none => none

/-- The tree with the directory at a position replaced by its image. -/
def modifyAt (g : Directory → Directory) : Pos → Directory → Directory
  | [], d => g d
  | i :: rest, d => d.setDirectories (d.directories.modify (modifyAt g rest) i)

/-- The names of the directories on the way from the root to a position, the root
excluded. -/
def namesAlong : Pos → Directory → List Str
  | [], _ => []
  | i :: rest, d =>
    match d.directories.get? i with
    | some c => c.name :: namesAlong rest c
    | none => []

/-- `getParent()` of the directory at a position; `none` is the null parent of the
root. -/
def parentPos (p : Pos) : Option Pos :=
  if p.isEmpty then none else some p.dropLast

/-- `Directory::getPath()` of a directory that is not the root, from the names on the
way to it: every name followed by a backslash. -/
def pathOfNames (names : List Str) : Str :=
  (names.map (fun n => n ++ ['\\'])).flatten

/-- `Directory::Directory(aParent, aName, _adls, aComplete, checkDupe, aSize, aDate)`;
`parentNames` are the names on the way from the root to the parent. -/
def Directory.new (env : Env) (parentNames : List Str) (aName : Str) (_adls aComplete : Bool)
    (checkDupe : Bool) (aSize aDate : Str) : Directory :=
  let partialSize : Int := if aSize.isEmpty then 0 else Util.toInt64 aSize
  .mk aName aComplete partialSize (if aDate.isEmpty then 0 else env.toDate aDate) _adls
    (if checkDupe then env.dirDupe (pathOfNames (parentNames ++ [aName])) partialSize
      else .DUPE_NONE)
    [] .nil

/-! ## The remote listing: the parser callbacks -/

/-- What `SimpleXMLReader` reports to its callback: `startTag(name, attribs, simple)`
and `endTag(name, data)`. A self-closing element is reported by one `startTag` with
`simple = true` and no `endTag`. -/
inductive XmlEvent where
  | startTag (name : Str) (attribs : List (Str × Str)) (simple : Bool)
  | endTag (name : Str)

/-- Modelled from the spec: `getAttrib(attribs, name, hint)` (declared in the header of
the XML reader, which is not among the sources): the value of the attribute, looked
for from position `hint` on and then before it, or the empty string. -/
def getAttrib (attribs : List (Str × Str)) (name : Str) (hint : Nat) : Str :=
  match (attribs.drop hint).find? (fun a => a.1 == name) with
  | some a => a.2
  | none =>
    match (attribs.take hint).find? (fun a => a.1 == name) with
    | some a => a.2
    | none => []

/-- The constant `sFileListing`. -/
def sFileListing : Str := str "FileListing"
/-- The constant `sBase`. -/
def sBase : Str := str "Base"
/-- The constant `sBaseDate`. -/
def sBaseDate : Str := str "BaseDate"
/-- The constant `sDirectory`. -/
def sDirectory : Str := str "Directory"
/-- The constant `sIncomplete`. -/
def sIncomplete : Str := str "Incomplete"
/-- The constant `sFile`. -/
def sFile : Str := str "File"
/-- The constant `sName`. -/
def sName : Str := str "Name"
/-- The constant `sSize`. -/
def sSize : Str := str "Size"
/-- The constant `sTTH`. -/
def sTTH : Str := str "TTH"
/-- The constant `sDate`. -/
def sDate : Str := str "Date"

/-- Modelled from the spec: the visited cache `visitedDirs`, a map from a name to the
directory created under that name (its type is declared in a header that is not among
the sources); `visitedDirs[name] = d`. -/
def visitedInsert (m : List (Str × Pos)) (name : Str) (d : Pos) : List (Str × Pos) :=
  (name, d) :: m.filter (fun e => !(e.1 == name))

/-- Modelled from the spec: `visitedDirs.find(name)`. -/
def visitedFind (m : List (Str × Pos)) (name : Str) : Option Pos :=
  (m.find? (fun e => e.1 == name)).map (fun e => e.2)

/-- `ListLoader`, together with what it reaches through `list`: the tree under
`list->getRoot()` and `list->visitedDirs`. `cur` is a position in the tree, `none`
being the null pointer. -/
structure ListLoader where
  root : Directory
  visitedDirs : List (Str × Pos)
  cur : Option Pos
  base : Str
  inListing : Bool
  updating : Bool
  checkDupe : Bool
  partialList : Bool
  useCache : Bool

namespace ListLoader

/-- The directory `cur` points to, with its position; a null or dangling `cur` is a
fault. -/
def curDir (ll : ListLoader) : Except Thrown (Pos × Directory) :=
  match ll.cur with
  | none => .error .nullDereference
  | some p =>
    match getAt p ll.root with
    | some d => .ok (p, d)
    | none => .error .nullDereference

/-- `ListLoader::endTag`. -/
def endTag (ll : ListLoader) (name : Str) : Except Thrown ListLoader :=
  if ll.inListing then
    if name = sDirectory then
      match ll.cur with
      | none => .error .nullDereference
      | some p => .ok { ll with cur := parentPos p }
    else if name = sFileListing then .ok { ll with inListing := false }
    else .ok ll
  else .ok ll

/-- The `File` branch of `ListLoader::startTag`. -/
def startFile (env : Env) (ll : ListLoader) (attribs : List (Str × Str)) :
    Except Thrown ListLoader :=
  let n := getAttrib attribs sName 0
  if n.isEmpty then .ok ll
  else
    let s := getAttrib attribs sSize 1
    if s.isEmpty then .ok ll
    else
      let size := Util.toInt64 s
      let h := getAttrib attribs sTTH 2
      if h.isEmpty then .ok ll
      else
        match ll.curDir with
        | .error e => .error e
        | .ok (p, d) =>
          let existing : Option Nat :=
            if ll.updating && !ll.useCache then
              d.files.findIdx? (fun file => file.tthRoot == h || file.name == n)
            else none
          match existing with
          | some i =>
            let root1 := modifyAt (fun x => x.setFiles (x.files.modify
              (fun file => { file with name := n, size := size, tthRoot := h }) i)) p ll.root
            .ok { ll with root := root1 }
          | none =>
            let root1 := modifyAt (fun x => x.setFiles
              (x.files ++ [File.new env.fileDupe n size h ll.checkDupe])) p ll.root
            .ok { ll with root := root1 }

/-- The `Directory` branch of `ListLoader::startTag`. -/
def startDirectory (env : Env) (ll : ListLoader) (attribs : List (Str × Str)) (simple : Bool) :
    Except Thrown ListLoader :=
  let n := getAttrib attribs sName 0
  if n.isEmpty then .error (.SimpleXMLException (str "Directory missing name attribute"))
  else
    let incomp : Bool := getAttrib attribs sIncomplete 1 == str "1"
    let size := getAttrib attribs sSize 2
    let date := getAttrib attribs sDate 3
    let found : Except Thrown (Option Pos) :=
      if ll.updating then
        if ll.useCache then .ok (visitedFind ll.visitedDirs n)
        else
          match ll.curDir with
          | .error e => .error e
          | .ok (p, d) =>
            .ok ((d.directories.findIdx? (fun dir => dir.name == n)).map (fun k => p ++ [k]))
      else .ok none
    match found with
    | .error e => .error e
    | .ok found =>
      let moved : Except Thrown ListLoader :=
        match found with
        | none =>
          match ll.curDir with
          | .error e => .error e
          | .ok (p, d) =>
            let nd := Directory.new env (namesAlong p ll.root) n false (!incomp)
              (ll.partialList && ll.checkDupe) size date
            let root1 := modifyAt (fun x => x.setDirectories (x.directories.push nd)) p ll.root
            .ok { ll with root := root1, cur := some (p ++ [d.directories.length]) }
        | some dp =>
          match getAt dp ll.root with
          | none => .error .nullDereference
          | some _ =>
            let root1 := modifyAt (fun x =>
              (if !x.getComplete then x.setComplete (!incomp) else x).setDate env date) dp ll.root
            .ok { ll with root := root1, cur := some dp }
      match moved with
      | .error e => .error e
      | .ok ll1 => if simple then ll1.endTag sDirectory else .ok ll1

/-- The loop of `ListLoader::startTag` over the segments of the base path. -/
def walkBase (env : Env) : List Str → ListLoader → Except Thrown ListLoader
  | [], ll => .ok ll
  | i :: rest, ll =>
    match ll.curDir with
    | .error e => .error e
    | .ok (p, d) =>
      match d.directories.findIdx? (fun dir => dir.name == i) with
      | none =>
        let nd := Directory.new env (namesAlong p ll.root) i false false true [] []
        let root1 := modifyAt (fun x => x.setDirectories (x.directories.push nd)) p ll.root
        walkBase env rest { ll with
          root := root1,
          visitedDirs := visitedInsert ll.visitedDirs i (p ++ [d.directories.length]),
          cur := some (p ++ [d.directories.length]) }
      | some k => walkBase env rest { ll with cur := some (p ++ [k]) }

/-- The `FileListing` branch of `ListLoader::startTag`. -/
def startFileListing (env : Env) (ll : ListLoader) (attribs : List (Str × Str)) (simple : Bool) :
    Except Thrown ListLoader :=
  let prepared : Except Thrown ListLoader :=
    if ll.updating then
      let b := getAttrib attribs sBase 2
      let ll1 : ListLoader :=
        if decide (b.length ≥ 1) && b.head? == some '/' && b.getLast? == some '/' then
          { ll with base := b }
        else ll
      let date := getAttrib attribs sBaseDate 3
      match walkBase env (StringTokenizer (ll1.base.drop 1) '/') ll1 with
      | .error e => .error e
      | .ok ll2 =>
        match ll2.curDir with
        | .error e => .error e
        | .ok (p, d) =>
          let ll3 : ListLoader :=
            if !d.directories.empty || !d.files.isEmpty then { ll2 with useCache := false }
            else ll2
          .ok { ll3 with root := modifyAt (fun x => x.setDate env date) p ll3.root }
    else .ok ll
  match prepared with
  | .error e => .error e
  | .ok ll4 =>
    match ll4.curDir with
    | .error e => .error e
    | .ok (p, _) =>
      let ll5 : ListLoader :=
        { ll4 with root := modifyAt (fun x => x.setComplete true) p ll4.root, inListing := true }
      if simple then ll5.endTag sFileListing else .ok ll5

/-- `ListLoader::startTag`; `abort` is what `list->getAbort()` answers at this call. -/
def startTag (env : Env) (abort : Bool) (ll : ListLoader) (name : Str)
    (attribs : List (Str × Str)) (simple : Bool) : Except Thrown ListLoader :=
  if abort then .error .AbortException
  else if ll.inListing then
    if name = sFile then ll.startFile env attribs
    else if name = sDirectory then ll.startDirectory env attribs simple
    else .ok ll
  else if name = sFileListing then ll.startFileListing env attribs simple
  else .ok ll

/-- One callback of the reader; the flag is the value of the abort flag of the
listing at that moment. -/
def step (env : Env) (ll : ListLoader) : Bool × XmlEvent → Except Thrown ListLoader
  | (abort, .startTag name attribs simple) => ll.startTag env abort name attribs simple
  | (_, .endTag name) => ll.endTag name

/-- `SimpleXMLReader(&ll).parse(is)` as far as the callbacks go: the callbacks are made
in order until one throws; the result is what was thrown, if anything, and the loader
as the last completed callback left it. -/
def parse (env : Env) : List (Bool × XmlEvent) → ListLoader → Option Thrown × ListLoader
  | [], ll => (none, ll)
  | e :: rest, ll =>
    match ll.step env e with
    | .ok ll1 => parse env rest ll1
    | .error t => (some t, ll)

end ListLoader

mutual
/-- `Directory::getTotalSize(adl)`. -/
def Directory.getTotalSize (adl : Bool) : Directory → Int
  | .mk _ complete partialSize _ adls _ files ds =>
    if !complete then partialSize
    else (files.map (fun f => f.size)).sum + DirList.getTotalSize adl adls ds
/-- The loop of `getTotalSize` over `directories`; `adls` is the field of the
directory that owns the vector, which the source passes down. -/
def DirList.getTotalSize (adl adls : Bool) : DirList → Int
  | .nil => 0
  | .cons d rest =>
    (if !(adl && d.getAdls) then Directory.getTotalSize adls d else 0)
      + DirList.getTotalSize adl adls rest
end

/-- The part of `DirectoryListing` that loading reads and writes: the tree, the
visited cache and the flags the loader is built from (`dupesInFilelist` is the
setting `DUPES_IN_FILELIST`). -/
structure Listing where
  root : Directory
  visitedDirs : List (Str × Pos)
  partialList : Bool
  isOwnList : Bool
  isClientView : Bool
  dupesInFilelist : Bool

/-- `DirectoryListing::DirectoryListing`: the root is an incomplete directory with an
empty name. -/
def Listing.new (aPartial aIsClientView aIsOwnList dupesInFilelist : Bool) : Listing :=
  { root := .mk [] false 0 0 false .DUPE_NONE [] .nil, visitedDirs := [],
    partialList := aPartial, isOwnList := aIsOwnList, isClientView := aIsClientView,
    dupesInFilelist := dupesInFilelist }

/-- The `ListLoader` that `loadXML` constructs. -/
def Listing.loader (l : Listing) (updating : Bool) : ListLoader :=
  { root := l.root, visitedDirs := l.visitedDirs, cur := some [], base := ['/'],
    inListing := false, updating := updating,
    checkDupe := !l.isOwnList && l.isClientView && l.dupesInFilelist,
    partialList := l.partialList, useCache := true }

/-- An `InputStream` as `loadXML` consumes it through the XML reader: the callbacks the
reader makes, each with the value of the abort flag of the listing at that moment, and
what the reader or the stream throws after them, if anything (malformed XML is a
`SimpleXMLException`, a read error another `Exception`). -/
structure InputStream where
  events : List (Bool × XmlEvent)
  failure : Option Thrown := none

/-- `DirectoryListing::loadXML`: a `SimpleXMLException` is logged and swallowed,
anything else leaves the function. The result is what leaves the function, the base
the function returns when it returns, and the listing afterwards. -/
def Listing.loadXML (env : Env) (l : Listing) (is : InputStream) (updating : Bool) :
    Option Thrown × Str × Listing :=
  let r := (l.loader updating).parse env is.events
  let l1 : Listing := { l with root := r.2.root, visitedDirs := r.2.visitedDirs }
  let thrown : Option Thrown :=
    match r.1 with
    | some x => some x
    | none => is.failure
  match thrown with
  | some (.SimpleXMLException _) => (none, r.2.base, l1)
  | other => (other, r.2.base, l1)

/-- `DirectoryListing::updateXML`. -/
def Listing.updateXML (env : Env) (l : Listing) (is : InputStream) :
    Option Thrown × Str × Listing :=
  l.loadXML env is true

end DirectoryListing

/-! ## The remote listing: the worker -/

namespace Util

/-- `Util::toNmdcFile`: the leading slash is dropped and every other slash becomes a
backslash; the empty path stays empty. -/
def toNmdcFile (file : Str) : Str :=
  match file with
  | [] => []
  | _ :: rest => rest.map (fun c => if c = '/' then '\\' else c)

/-- `Util::toAdcFile`: the two names of the full list are kept, any other path gets a
leading slash and its backslashes become slashes. -/
def toAdcFile (file : Str) : Str :=
  if file = str "files.xml.bz2" ∨ file = str "files.xml" then file
  else ('/' :: file).map (fun c => if c = '\\' then '/' else c)

/-- `Util::getFileExt`: from the last dot on, empty when the path has no dot. -/
def getFileExt (path : Str) : Str :=
  if path.contains '.' then
    '.' :: (path.reverse.takeWhile (fun c => c != '.')).reverse
  else []

end Util

/-- The product of two `int` values, as the machine computes it on 32 bits. -/
def mulInt32 (a b : Int) : Int := (a * b + 2 ^ 31) % 2 ^ 32 - 2 ^ 31

namespace DirectoryListing

mutual
/-- `Directory::getHashList`: the roots of the subdirectories first, then those of the
files of the directory; the set is kept as a list. -/
def Directory.getHashList : Directory → List TTHValue → List TTHValue
  | .mk _ _ _ _ _ _ files directories, l =>
    (directories.getHashList l) ++ files.map (fun f => f.tthRoot)
/-- The loop of `getHashList` over the subdirectories. -/
def DirList.getHashList : DirList → List TTHValue → List TTHValue
  | .nil, l => l
  | .cons d rest, l => rest.getHashList (d.getHashList l)
end

mutual
/-- `Directory::filterList(TTHSet&)`: the subdirectories are filtered, those left with
no file and no subdirectory are dropped, the files whose root is in the set are
dropped, and where fewer than two files are left and the setting `SKIP_SUBTRACT` is
positive, the files smaller than `SKIP_SUBTRACT * 1024` go as well (an erased
position is looked at again, so the loop visits every file; the product is one of
`int` values). -/
def Directory.filterList (skipSubtract : Int) (l : List TTHValue) : Directory → Directory
  | .mk name complete partialSize date adls dupe files directories =>
    let files1 := files.filter (fun f => !(l.contains f.tthRoot))
    let files2 :=
      if skipSubtract > 0 ∧ files1.length < 2 then
        files1.filter (fun f => !(decide (f.size < mulInt32 skipSubtract 1024)))
      else files1
    .mk name complete partialSize date adls dupe files2
      (directories.filterList skipSubtract l)
/-- The loop of `filterList` over the subdirectories, with the `remove_if` of
`DirectoryEmpty` that follows it. -/
def DirList.filterList (skipSubtract : Int) (l : List TTHValue) : DirList → DirList
  | .nil => .nil
  | .cons d rest =>
    let d1 := d.filterList skipSubtract l
    if d1.files.length + d1.directories.length = 0 then rest.filterList skipSubtract l
    else .cons d1 (rest.filterList skipSubtract l)
end

/-- The loop of `Directory::clearAdls` over the subdirectories of the directory. -/
def DirList.clearAdls : DirList → DirList
  | .nil => .nil
  | .cons d rest => if d.getAdls then rest.clearAdls else .cons d rest.clearAdls

/-- `Directory::clearAdls`: the subdirectories flagged `adls` are deleted. -/
def Directory.clearAdls (d : Directory) : Directory :=
  d.setDirectories d.directories.clearAdls

/-- What a `SearchTask` carries. -/
structure SearchTask where
  searchString : Str
  size : Int
  typeMode : Nat
  sizeMode : Nat
  extList : List Str
  directory : Str

/-- An entry of the task queue: the tag with the payload that `run` casts it to. -/
inductive Task where
  | LISTDIFF (file : Str)
  | MATCH_ADL
  | LOAD_FILE (dir : Str)
  | REFRESH_DIR (xml : Str)
  | CLOSE
  | MATCH_QUEUE
  | SEARCH (s : SearchTask)

/-- What `run` fires on the listeners; the start tick of `LoadingFinished` is left
out. -/
inductive Fired where
  | LoadingStarted
  | LoadingFinished (path : Str) (convertPartial : Bool)
  | LoadingFailed (msg : Str)
  | UpdateStatusMessage (msg : Str)
  | QueueMatched (msg : Str)
  | SearchStarted
  | SearchFailed (timedOut : Bool)
  | ChangeDirectory (path : Str) (isSearchChange : Bool)
  | Close
  deriving DecidableEq

/-- The `DirectoryListing` object as its worker thread sees it: the listing, the file
name (for the own list the profile token), the queue, the static flag `running` and
the events fired so far, oldest first. -/
structure State where
  list : Listing
  fileName : Str
  matchADL : Bool
  tasks : List Task
  running : Bool
  fired : List Fired

/-- What `run` calls outside `DirectoryListing`. Streams come as the callbacks the XML
reader makes on them. -/
structure RunEnv where
  env : Env
  /-- The `dcpp::File` constructor: what it throws when the file cannot be opened. -/
  openFile : Str → Option Thrown
  /-- The content of a file, expanded by `UnBZFilter` when the flag is set. -/
  fileStream : Str → Bool → InputStream
  /-- `MemoryInputStream` over a text. -/
  memoryStream : Str → InputStream
  /-- `ShareManager::generatePartialList` by path, recursion flag and profile; `none`
  is the null pointer. -/
  generatePartialList : Str → Bool → Int → Option InputStream
  /-- `ADLSearchManager::matchListing`. -/
  matchADL : Listing → Except Thrown Listing
  /-- `QueueManager::matchListing` with `AirUtil::formatMatchResults` on its counts. -/
  matchQueue : Listing → Except Thrown Str
  /-- The `SEARCH` branch, which runs in the search and client managers: the listing
  it leaves and what it fires. -/
  search : State → SearchTask → Except Thrown (Listing × List Fired)
  /-- The first nick of the user of the list. -/
  nick : Str
  /-- The setting `SKIP_SUBTRACT`. -/
  skipSubtract : Int
  /-- `Util::toInt`. -/
  toInt : Str → Int
  /-- The texts `CSTRING(MATCHING_ADL)` and `CSTRING(FILE_NOT_AVAILABLE)`. -/
  MATCHING_ADL : Str
  FILE_NOT_AVAILABLE : Str

/-- A stream read for a listing whose abort flag is never set. -/
def InputStream.withoutAbort (is : InputStream) : InputStream :=
  { is with events := is.events.map (fun e => (false, e.2)) }

/-- `DirectoryListing::loadFile`: the file is opened, then read as a list according to
its ending; a file with another ending is opened and not read. -/
def Listing.loadFile (re : RunEnv) (l : Listing) (name : Str)
    (onStream : InputStream → InputStream) : Option Thrown × Listing :=
  let ext := Util.getFileExt name
  match re.openFile name with
  | some t => (some t, l)
  | none =>
    if stricmp ext (str ".bz2") then
      let r := l.loadXML re.env (onStream (re.fileStream name true)) false
      (r.1, r.2.2)
    else if stricmp ext (str ".xml") then
      let r := l.loadXML re.env (onStream (re.fileStream name false)) false
      (r.1, r.2.2)
    else (none, l)

/-- `fire`: the event is appended to the record of the state. -/
def State.fire (s : State) (e : Fired) : State :=
  { s with fired := s.fired ++ [e] }

/-- How the `try` block of `run` ends for one task: at its end, by `return 0`, or
with something thrown. -/
inductive Step where
  | done (s : State)
  | returned (s : State)
  | thrown (s : State) (t : Thrown)

/-- The `try` block of `DirectoryListing::run` for the task taken from the queue. -/
def tryTask (re : RunEnv) (s : State) : Task → Step
  | .LISTDIFF file =>
    let dirList := Listing.new s.list.partialList true false s.list.dupesInFilelist
    match dirList.loadFile re file InputStream.withoutAbort with
    | (some t, _) => .thrown s t
    | (none, dl) =>
      let root1 := s.list.root.filterList re.skipSubtract (dl.root.getHashList [])
      .done ({ s with list := { s.list with root := root1 } }.fire
        (.LoadingFinished [] false))
  | .MATCH_ADL =>
    let l1 : Listing := { s.list with root := s.list.root.clearAdls }
    match re.matchADL l1 with
    | .error t => .thrown { s with list := l1 } t
    | .ok l2 => .done ({ s with list := l2 }.fire (.LoadingFinished [] false))
  | .LOAD_FILE dir =>
    let convertPartial := s.list.partialList
    let s1 := s.fire .LoadingStarted
    let l1 : Listing :=
      if convertPartial then
        { s1.list with root := s1.list.root.setDirectories .nil, visitedDirs := [] }
      else s1.list
    let loaded : Option Thrown × Listing :=
      if l1.isOwnList then
        match re.generatePartialList (str "/") true (re.toInt s1.fileName) with
        | none => (some .nullDereference, l1)
        | some mis =>
          let r := l1.loadXML re.env mis true
          (r.1, r.2.2)
      else l1.loadFile re s1.fileName id
    match loaded with
    | (some t, l2) => .thrown { s1 with list := l2 } t
    | (none, l2) =>
      let s2 : State := { s1 with list := l2 }
      if s2.matchADL then
        let s3 := s2.fire (.UpdateStatusMessage re.MATCHING_ADL)
        match re.matchADL l2 with
        | .error t => .thrown s3 t
        | .ok l3 =>
          .done ({ s3 with list := { l3 with partialList := false } }.fire
            (.LoadingFinished dir convertPartial))
      else
        .done ({ s2 with list := { l2 with partialList := false } }.fire
          (.LoadingFinished dir convertPartial))
  | .REFRESH_DIR xml =>
    if !s.list.partialList then .returned s
    else
      let loaded : Option Thrown × Str × Listing :=
        if s.list.isOwnList then
          match re.generatePartialList (Util.toAdcFile xml) false (re.toInt s.fileName) with
          | some mis => s.list.loadXML re.env mis true
          | none => (some (.cstring re.FILE_NOT_AVAILABLE), [], s.list)
        else s.list.updateXML re.env (re.memoryStream xml)
      match loaded with
      | (some t, _, l1) => .thrown { s with list := l1 } t
      | (none, path, l1) =>
        .done ({ s with list := l1 }.fire (.LoadingFinished (Util.toNmdcFile path) false))
  | .CLOSE => .returned (s.fire .Close)
  | .MATCH_QUEUE =>
    match re.matchQueue s.list with
    | .error t => .thrown s t
    | .ok msg => .done (s.fire (.QueueMatched msg))
  | .SEARCH st =>
    match re.search s st with
    | .error t => .thrown s t
    | .ok (l1, fired) => .done { s with list := l1, fired := s.fired ++ fired }

/-- How a call of `run` ends: by `return 0`, or with something thrown that none of its
`catch` clauses takes. -/
inductive Outcome where
  | returned
  | escaped (t : Thrown)
  deriving DecidableEq

/-- The loop of `DirectoryListing::run` over the tasks in the queue, with its `catch`
clauses: `AbortException`, `ShareException&`, `Exception&`. A thrown C string and a
null dereference match none of them. -/
def runLoop (re : RunEnv) : List Task → State → State × Outcome
  | [], s => ({ s with tasks := [], running := false }, .returned)
  | t :: rest, s =>
    match tryTask re { s with tasks := rest } t with
    | .done s1 => runLoop re rest s1
    | .returned s1 => (s1, .returned)
    | .thrown s1 .AbortException =>
      ({ s1.fire (.LoadingFailed []) with running := false }, .returned)
    | .thrown s1 (.ShareException e) => runLoop re rest (s1.fire (.LoadingFailed e))
    | .thrown s1 (.Exception e) =>
      runLoop re rest (s1.fire (.LoadingFailed (re.nick ++ str ": " ++ e)))
    | .thrown s1 (.SimpleXMLException e) =>
      runLoop re rest (s1.fire (.LoadingFailed (re.nick ++ str ": " ++ e)))
    | .thrown s1 (.cstring e) => (s1, .escaped (.cstring e))
    | .thrown s1 .nullDereference => (s1, .escaped .nullDereference)

/-- `DirectoryListing::run`, on the tasks that are in the queue when it starts. -/
def run (re : RunEnv) (s : State) : State × Outcome :=
  runLoop re s.tasks s

end DirectoryListing

/-! ## The remote listing: paths of names -/

namespace DirectoryListing

/-- The directories a path of names leads to from `d`: at every step all the
subdirectories of that name are followed, so a name that occurs twice under one
directory yields two directories. -/
def dirsAtPath : List Str → Directory → List Directory
  | [], d => [d]
  | n :: rest, d =>
    (d.directories.toList.filter (fun c => c.name == n)).flatMap (dirsAtPath rest)

/-- The directory `d` with the directories `nodes` hung below it one under the other,
the last of them (or `d` itself when there is none) being written to by `g`. -/
def chainOf (g : Directory → Directory) : List Directory → Directory → Directory
  | [], d => g d
  | c :: rest, d => d.setDirectories (d.directories.push (chainOf g rest c))

/-- The last directory of such a chain before `g` is applied. -/
def chainLeaf : List Directory → Directory → Directory
  | [], d => d
  | c :: rest, _ => chainLeaf rest c

end DirectoryListing

/-! ## The file list document -/

namespace Util

/-- The decimal digit with the given value. -/
def digitChar (d : Nat) : Char := Char.ofNat ('0'.toNat + d)

/-- The decimal digits of `n` in front of `acc`; the first argument bounds the number of
digits. -/
def natDigits : Nat → Nat → Str → Str
  | 0, _, acc => acc
  | fuel + 1, n, acc =>
    if n < 10 then digitChar n :: acc
    else natDigits fuel (n / 10) (digitChar (n % 10) :: acc)

/-- `Util::toString` on an unsigned number (declared outside the sources): its decimal
digits. -/
def toStringNat (n : Nat) : Str := natDigits (n + 1) n []

/-- `Util::toString` on a signed number (declared outside the sources): a minus sign
for a negative number, then the decimal digits. -/
def toString (n : Int) : Str :=
  if n < 0 then '-' :: toStringNat n.natAbs else toStringNat n.natAbs

/-- `Util::toUInt32` (declared outside the sources): the leading decimal digits, as a
32-bit number. -/
def toUInt32 (x : Str) : Nat := parseDigits x 0 % 2 ^ 32

end Util

mutual
/-- Modelled from the spec: a tag of a `SimpleXML` document (the class is not among the
sources): its name, its attributes in the order in which they were added, whether
`forceEndTag` was called on it, and its children. -/
inductive XmlTag where
  | mk (name : Str) (attribs : List (Str × Str)) (forceEndTag : Bool) (children : XmlList)
/-- The children of a tag, in document order. -/
inductive XmlList where
  | nil
  | cons (tag : XmlTag) (rest : XmlList)
end

namespace XmlTag

/-- The field `name`. -/
def name : XmlTag → Str
  | mk n _ _ _ => n

/-- The field `attribs`. -/
def attribs : XmlTag → List (Str × Str)
  | mk _ a _ _ => a

/-- The field `children`. -/
def children : XmlTag → XmlList
  | mk _ _ _ c => c

/-- Assignment to the children of a tag. -/
def setChildren (c : XmlList) : XmlTag → XmlTag
  | mk n a f _ => mk n a f c

/-- Modelled from the spec: `getChildAttrib(name)`: the value of the first attribute of
that name, or the empty string. -/
def getChildAttrib (t : XmlTag) (aName : Str) : Str :=
  match t.attribs.find? (fun a => a.1 == aName) with
  | some a => a.2
  | none => []

/-- Modelled from the spec: `replaceChildAttrib(name, value)`: the value of the
attribute of that name is replaced, and the attribute is added when the tag has none
of that name. -/
def replaceChildAttrib (aName aValue : Str) : XmlTag → XmlTag
  | mk n a f c =>
    if a.any (fun x => x.1 == aName) then
      mk n (a.map (fun x => if x.1 == aName then (x.1, aValue) else x)) f c
    else mk n (a ++ [(aName, aValue)]) f c

end XmlTag

namespace XmlList

/-- The tag with the given number. -/
def get? : XmlList → Nat → Option XmlTag
  | nil, _ => none
  | cons t _, 0 => some t
  | cons _ rest, i + 1 => rest.get? i

/-- The list with one of its tags written to. -/
def modify (g : XmlTag → XmlTag) : XmlList → Nat → XmlList
  | nil, _ => nil
  | cons t rest, 0 => cons (g t) rest
  | cons t rest, i + 1 => cons t (modify g rest i)

/-- Modelled from the spec: `addTag`: the new tag becomes the last child. -/
def push : XmlList → XmlTag → XmlList
  | nil, t => cons t nil
  | cons x rest, t => cons x (rest.push t)

/-- `children.empty()`. -/
def isEmpty : XmlList → Bool
  | nil => true
  | cons _ _ => false

/-- The loop of `Directory::toXml` over `findChild("Directory")`: the number of the
first child named `Directory` whose `Name` is `vName` up to case. -/
def findDirectory (vName : Str) : XmlList → Option Nat
  | nil => none
  | cons t rest =>
    if t.name = str "Directory" ∧ stricmp (t.getChildAttrib (str "Name")) vName then some 0
    else (rest.findDirectory vName).map (fun i => i + 1)

end XmlList

/-- `Directory::getVirtualName`. -/
def Directory.getVirtualName (d : Directory) (aProfile : ProfileToken) : Str :=
  match d.profileDir with
  | some pd => if pd.hasProfile aProfile then pd.getName aProfile else d.realName
  | none => d.realName

/-- `Directory::filesToXml`: one `File` tag for every file, added after the children
the tag has. -/
def filesToXml : List File → XmlList → XmlList
  | [], xmlFile => xmlFile
  | f :: rest, xmlFile =>
    filesToXml rest (xmlFile.push (.mk (str "File")
      [(str "Name", f.name), (str "Size", Util.toString f.size), (str "TTH", f.tth)] false .nil))

mutual
/-- `Directory::toXml(xmlFile, true, aProfile)` on the children of the current tag of
`xmlFile`. -/
def Directory.toXml (aProfile : ProfileToken) : Directory → XmlList → XmlList
  | .mk realName profileDir fileTypes size lastWrite files directories, xmlFile =>
    let vName :=
      (Directory.mk realName profileDir fileTypes size lastWrite files directories).getVirtualName
        aProfile
    match xmlFile.findDirectory vName with
    | some k =>
      xmlFile.modify (fun t =>
        let curdate := t.getChildAttrib (str "Date")
        let t1 :=
          if !curdate.isEmpty ∧ Util.toUInt32 curdate < lastWrite then
            t.replaceChildAttrib (str "Date") (Util.toStringNat lastWrite)
          else t
        t1.setChildren (filesToXml files (DirList.toXml aProfile directories t1.children))) k
    | none =>
      xmlFile.push (.mk (str "Directory")
        [(str "Name", vName), (str "Date", Util.toStringNat lastWrite)] true
        (filesToXml files (DirList.toXml aProfile directories .nil)))
/-- The loop of `toXml` over the subdirectories that are not excluded from the
profile. -/
def DirList.toXml (aProfile : ProfileToken) : DirList → XmlList → XmlList
  | .nil, xmlFile => xmlFile
  | .cons d rest, xmlFile =>
    if d.isLevelExcluded aProfile then DirList.toXml aProfile rest xmlFile
    else DirList.toXml aProfile rest (Directory.toXml aProfile d xmlFile)
end

namespace ShareManager

end ShareManager

mutual
/-- Modelled from the spec: what `SimpleXMLReader` reports for the text that
`SimpleXML::toXML` writes for a tag (neither is among the sources): a tag without
children on which `forceEndTag` was not called is written in the self-closing form
and reported by one `startTag` with `simple = true`, any other tag by a `startTag`,
the reports of its children and an `endTag`. -/
def XmlTag.events : XmlTag → List DirectoryListing.XmlEvent
  | .mk name attribs forceEndTag children =>
    if children.isEmpty && !forceEndTag then [.startTag name attribs true]
    else .startTag name attribs false :: (XmlList.events children ++ [.endTag name])
/-- The reports for the tags of a list, in order. -/
def XmlList.events : XmlList → List DirectoryListing.XmlEvent
  | .nil => []
  | .cons t rest => XmlTag.events t ++ XmlList.events rest
end

namespace DirectoryListing

mutual
/-- The files that the `File` tags of a list describe: name, size and TTH as the
attributes of the tag give them. -/
def mirrorFiles : XmlList → List File
  | .nil => []
  | .cons (.mk name attribs _ _) rest =>
    if name = sFile then
      { name := getAttrib attribs sName 0, size := Util.toInt64 (getAttrib attribs sSize 1),
        tthRoot := getAttrib attribs sTTH 2, adls := false, dupe := .DUPE_NONE }
        :: mirrorFiles rest
    else mirrorFiles rest
/-- The directories that the `Directory` tags of a list describe, each with the files
and directories its children describe; date and dupe state are left at their
defaults. -/
def mirrorDirs : XmlList → DirList
  | .nil => .nil
  | .cons (.mk name attribs _ children) rest =>
    if name = sDirectory then
      .cons (.mk (getAttrib attribs sName 0)
          (!(getAttrib attribs sIncomplete 1 == str "1"))
          (if (getAttrib attribs sSize 2).isEmpty then 0
            else Util.toInt64 (getAttrib attribs sSize 2))
          0 false .DUPE_NONE (mirrorFiles children) (mirrorDirs children))
        (mirrorDirs rest)
    else mirrorDirs rest
end

mutual
/-- A remote directory with the date and the dupe states, of the directory, its files
and everything below, put back to their defaults. -/
def Directory.plain : Directory → Directory
  | .mk name complete partialSize _ adls _ files directories =>
    .mk name complete partialSize 0 adls .DUPE_NONE
      (files.map (fun f => { f with dupe := .DUPE_NONE })) (DirList.plain directories)
/-- The same for the directories of a vector. -/
def DirList.plain : DirList → DirList
  | .nil => .nil
  | .cons d rest => .cons (Directory.plain d) (DirList.plain rest)
end

mutual
/-- The tags of a list are `File` tags without children that carry a name, a size and
a TTH, and `Directory` tags that carry a name and whose children are of that kind. -/
def wellFormed : XmlList → Bool
  | .nil => true
  | .cons (.mk name attribs forceEndTag children) rest =>
    (if name = sFile then
      !(getAttrib attribs sName 0).isEmpty && !(getAttrib attribs sSize 1).isEmpty
        && !(getAttrib attribs sTTH 2).isEmpty && children.isEmpty && !forceEndTag
    else
      decide (name = sDirectory) && !(getAttrib attribs sName 0).isEmpty
        && wellFormed children)
    && wellFormed rest
end

end DirectoryListing

namespace DirectoryListing

/-- The vector followed by another. -/
def DirList.append : DirList → DirList → DirList
  | .nil, e => e
  | .cons d rest, e => .cons d (rest.append e)

/-- The directory with more files and directories behind those it has. -/
def Directory.extend (fs : List File) (ds : DirList) : Directory → Directory
  | .mk n c ps dt a du files dirs => .mk n c ps dt a du (files ++ fs) (dirs.append ds)

end DirectoryListing

mutual
/-- The directory can be listed for the profile: its virtual name is not empty, its
files carry a name and a TTH, and so it is with every subdirectory that is not
excluded from the profile. -/
def Directory.listable (aProfile : ProfileToken) : Directory → Bool
  | .mk realName profileDir fileTypes size lastWrite files directories =>
    !((Directory.mk realName profileDir fileTypes size lastWrite files directories).getVirtualName
        aProfile).isEmpty
      && files.all (fun f => !f.name.isEmpty && !f.tth.isEmpty)
      && DirList.listable aProfile directories
/-- The same for the subdirectories of a directory. -/
def DirList.listable (aProfile : ProfileToken) : DirList → Bool
  | .nil => true
  | .cons d rest =>
    (d.isLevelExcluded aProfile || Directory.listable aProfile d)
      && DirList.listable aProfile rest
end

/-! ## Refreshing the share -/

namespace DirList

/-- `directories.size()`. -/
def length : DirList → Nat
  | nil => 0
  | cons _ rest => rest.length + 1

/-- The entry with the given number, in iteration order. -/
def get? : DirList → Nat → Option Directory
  | nil, _ => none
  | cons d _, 0 => some d
  | cons _ rest, i + 1 => rest.get? i

/-- The map with one of its directories written to. -/
def modify (g : Directory → Directory) : DirList → Nat → DirList
  | nil, _ => nil
  | cons d rest, 0 => cons (g d) rest
  | cons d rest, i + 1 => cons d (modify g rest i)

/-- The map with a new entry, which takes the next number. -/
def push : DirList → Directory → DirList
  | nil, d => cons d nil
  | cons e rest, d => cons e (rest.push d)

/-- The number of the entry `directories.find(name)` yields, see `DirList.find`. -/
def findIdx? (name : Str) : DirList → Option Nat
  | nil => none
  | cons d rest =>
    if stricmp d.realName name then some 0
    else (rest.findIdx? name).map (fun i => i + 1)

end DirList

namespace Directory

/-- The field `lastWrite`. -/
def lastWrite : Directory → Nat
  | mk _ _ _ _ lw _ _ => lw

/-- Assignment to the field `size`. -/
def setSize (sz : Int) : Directory → Directory
  | mk n pd ft _ lw fs ds => mk n pd ft sz lw fs ds

/-- Assignment to the field `fileTypes`. -/
def setFileTypes (ft : Nat) : Directory → Directory
  | mk n pd _ sz lw fs ds => mk n pd ft sz lw fs ds

/-- Assignment to the set `files`. -/
def setFiles (fs : List File) : Directory → Directory
  | mk n pd ft sz lw _ ds => mk n pd ft sz lw fs ds

/-- Assignment to the map `directories`. -/
def setDirectories (ds : DirList) : Directory → Directory
  | mk n pd ft sz lw fs _ => mk n pd ft sz lw fs ds

/-- The directory reached from `d` by the given child numbers. -/
def getAt : List Nat → Directory → Option Directory
  | [], d => some d
  | i :: rest, d =>
    match d.directories.get? i with
    | some c => getAt rest c
    | none => none

/-- The tree with the directory at the given child numbers written to. -/
def modifyAt (g : Directory → Directory) : List Nat → Directory → Directory
  | [], d => g d
  | i :: rest, d => d.setDirectories (d.directories.modify (modifyAt g rest) i)

/-- The directory reached from `d` by the given child numbers, as a `DirRef`: its
`parent` chain leads back to `d` and on to `parent`. -/
def refAt (parent : Option DirRef) : List Nat → Directory → Option DirRef
  | [], d => some (d.ref parent)
  | i :: rest, d =>
    match d.directories.get? i with
    | some c => refAt (some (d.ref parent)) rest c
    | none => none

end Directory

/-- `Directory::getRealPath(path, false)`: the path of the profile directory of the
top-most ancestor, then the real names down to the directory, then `path`. -/
def DirRef.getRealPathUnchecked : DirRef → Str → Except Fault Str
  | .sub n _ p, path => p.getRealPathUnchecked (n ++ [PATH_SEPARATOR] ++ path)
  | .top _ pd, path =>
    match pd with
    | none => .error .nullDereference
    | some x => .ok (x.path ++ path)

namespace ShareManager

/-- The tags of the tasks of the refresh thread. -/
inductive TaskType where
  | ADD_DIR
  | REFRESH_ALL
  | REFRESH_STARTUP
  | REFRESH_DIR
  | REFRESH_INCOMING
  deriving DecidableEq

/-- The values the `refresh` functions return. -/
inductive RefreshResult where
  | REFRESH_STARTED
  | REFRESH_PATH_NOT_FOUND
  | REFRESH_IN_PROGRESS
  deriving DecidableEq

/-- A `Directory::Ptr` as the functions that change the share use it: the number of
the directory object without parent that owns the directory, and the child numbers
that lead from that object down to it. Two pointers to one directory are one
address. -/
structure Addr where
  tree : Nat
  pos : List Nat
  deriving DecidableEq

/-- A `File::Set::iterator`: the directory and the name of the file, by which the set
holds it. -/
structure FileAddr where
  dir : Addr
  name : Str
  deriving DecidableEq

/-- The state of `ShareManager` that refreshing and hashing read and write: the
directory objects without parent with the trees they own, the maps `shares` and
`dirNameMap` and the TTH index in the order in which the containers yield their
entries (an entry of the TTH index is the iterator; its key is the TTH of the file
the iterator points to), the outcome of `bloom.match`, `sharedSize`, the task queue
with the `StringListTask` of each task, the flag `refreshing`, the field
`refreshRunning`, and how often `start()` has started the refresh thread. -/
structure Manager where
  trees : List Directory
  shares : List (Str × Addr)
  dirNameMap : List (Str × Addr)
  tthIndex : List FileAddr
  bloom : Str → Bool
  sharedSize : Int
  tasks : List (TaskType × List Str)
  refreshing : Bool
  refreshRunning : Bool
  starts : Nat

namespace Manager

/-- The directory a pointer leads to; `none` for a pointer that leads nowhere. -/
def getDir (m : Manager) (a : Addr) : Option Directory :=
  match m.trees.get? a.tree with
  | some t => t.getAt a.pos
  | none => none

/-- The directory a pointer leads to with its `parent` chain. -/
def getRef (m : Manager) (a : Addr) : Option DirRef :=
  match m.trees.get? a.tree with
  | some t => t.refAt none a.pos
  | none => none

/-- The file an iterator points to. -/
def getFile (m : Manager) (f : FileAddr) : Option File :=
  match m.getDir f.dir with
  | some d => d.files.find? (fun x => x.name = f.name)
  | none => none

/-- A write to the directory a pointer leads to. -/
def modifyDir (m : Manager) (a : Addr) (g : Directory → Directory) : Manager :=
  { m with trees := m.trees.modify (Directory.modifyAt g a.pos) a.tree }

/-- `atomic_flag::test_and_set` on `refreshing`: the value before, and the state with
the flag set. -/
def testAndSet (m : Manager) : Bool × Manager :=
  (m.refreshing, { m with refreshing := true })

end Manager

/-- What the `refresh` functions meet outside `ShareManager`: `AirUtil::isSub`, the
flag `FLAG_INCOMING` of a profile directory, whether `start()` throws a
`ThreadException`, and what the refresh thread has done to the state when `join()`
returns. -/
structure RefreshEnv where
  isSub : Str → Str → Bool
  FLAG_INCOMING : ProfileDirectory → Bool
  startThrows : Bool
  joined : Manager → Manager

/-- `ShareManager::initTaskThread`. -/
def Manager.initTaskThread (env : RefreshEnv) (m : Manager) (isStartup : Bool) :
    RefreshResult × Manager :=
  if env.startThrows then (.REFRESH_STARTED, { m with refreshing := false })
  else
    let m1 := { m with starts := m.starts + 1 }
    if isStartup then (.REFRESH_STARTED, env.joined m1) else (.REFRESH_STARTED, m1)

/-- `i->second->getProfileDir()` for an entry of `shares`. -/
def Manager.profileDirOf (m : Manager) (a : Addr) : Except Fault ProfileDirectory :=
  match m.getDir a with
  | none => .error .nullDereference
  | some d =>
    match d.profileDir with
    | none => .error .nullDereference
    | some pd => .ok pd

/-- The loop of `refresh(const string&)` over `shares` when the path is not a key:
every share contributes its key once for each of its profiles whose virtual name is
`aDir` up to case. -/
def Manager.refreshByVirtualName (m : Manager) (aDir : Str) :
    List (Str × Addr) → Except Fault (List Str)
  | [] => .ok []
  | j :: rest =>
    match m.profileDirOf j.2 with
    | .error e => .error e
    | .ok pd =>
      match m.refreshByVirtualName aDir rest with
      | .error e => .error e
      | .ok more =>
        .ok (((pd.shareProfiles.filter (fun k => stricmp k.2 aDir)).map (fun _ => j.1))
          ++ more)

/-- `ShareManager::refresh(const string&)`, for a non-empty `aDir`; `result` is
`REFRESH_STARTED` exactly when a path was pushed to `refreshPaths`. -/
def Manager.refreshPath (env : RefreshEnv) (m : Manager) (aDir : Str) :
    Except Fault (RefreshResult × Manager) :=
  let path := if aDir.getLast? ≠ some PATH_SEPARATOR then aDir ++ [PATH_SEPARATOR] else aDir
  let found : Except Fault (List Str) :=
    match m.shares.find? (fun e => stricmp e.1 path) with
    | none => m.refreshByVirtualName aDir m.shares
    | some _ => .ok [path]
  match found with
  | .error e => .error e
  | .ok refreshPaths =>
    let result : RefreshResult :=
      if refreshPaths.isEmpty then .REFRESH_PATH_NOT_FOUND else .REFRESH_STARTED
    let m1 := if result = .REFRESH_PATH_NOT_FOUND then { m with refreshing := false } else m
    let m2 := { m1 with tasks := m1.tasks ++ [(TaskType.REFRESH_DIR, refreshPaths)] }
    let ts := m2.testAndSet
    if ts.1 then .ok (.REFRESH_IN_PROGRESS, ts.2)
    else if result = .REFRESH_STARTED then .ok (ts.2.initTaskThread env false)
    else .ok (result, ts.2)

/-- `ShareManager::getParents`: the shares whose key is under no other key. -/
def getParents (isSub : Str → Str → Bool) (shares : List (Str × Addr)) :
    List (Str × Addr) :=
  shares.filter (fun i => !(shares.any (fun dir => isSub i.1 dir.1)))

/-- The loop of `refresh(bool, bool)` over the parents. -/
def Manager.refreshDirs (m : Manager) (env : RefreshEnv) (incoming : Bool) :
    List (Str × Addr) → Except Fault (List Str)
  | [] => .ok []
  | i :: rest =>
    match m.refreshDirs env incoming rest with
    | .error e => .error e
    | .ok more =>
      if incoming then
        match m.profileDirOf i.2 with
        | .error e => .error e
        | .ok pd => if !(env.FLAG_INCOMING pd) then .ok more else .ok (i.1 :: more)
      else .ok (i.1 :: more)

/-- `ShareManager::refresh(bool incoming, bool isStartup)`. -/
def Manager.refreshAll (env : RefreshEnv) (m : Manager) (incoming isStartup : Bool) :
    Except Fault (RefreshResult × Manager) :=
  let ts := m.testAndSet
  if ts.1 then .ok (.REFRESH_IN_PROGRESS, ts.2)
  else
    match ts.2.refreshDirs env incoming (getParents env.isSub ts.2.shares) with
    | .error e => .error e
    | .ok dirs =>
      if dirs.isEmpty then .ok (.REFRESH_PATH_NOT_FOUND, { ts.2 with refreshing := false })
      else
        let m1 := { ts.2 with
          tasks := ts.2.tasks ++
            [(if incoming then TaskType.REFRESH_INCOMING else TaskType.REFRESH_ALL, dirs)] }
        .ok (.REFRESH_STARTED, (m1.initTaskThread env isStartup).2)

end ShareManager

/-! ## The indices of the share -/

namespace ShareManager

/-- A scan of one directory of a task by `buildTree`: the files and directories it
hangs under the new directory object, and the value of `aShutdown` when it returns. -/
structure Scan where
  files : List File
  directories : DirList
  aShutdown : Bool

/-- What the functions that change the share meet outside `ShareManager`:
`AirUtil::isSub` and `AirUtil::isParentOrExact`, `Util::getLastDir` and
`Util::getFilePath`, the outcome of `RAR_regexp.match` on a file name, `bloom.add`
and the cleared filter, the flags of a profile directory, `checkHidden` and
`findLastWrite` on a path, the scan of a path, `checkSharedName(path, isDir)`,
`profileDirs.find`, `File::getSize`, `GET_TIME()`, and the order of `File::Set` on
names. -/
structure ShareEnv where
  isSub : Str → Str → Bool
  isParentOrExact : Str → Str → Bool
  getLastDir : Str → Str
  getFilePath : Str → Str
  rarMatch : Str → Bool
  bloomAdd : (Str → Bool) → Str → (Str → Bool)
  bloomClear : Str → Bool
  FLAG_ROOT : ProfileDirectory → Bool
  FLAG_EXCLUDE_TOTAL : ProfileDirectory → Bool
  checkHidden : Str → Bool
  findLastWrite : Str → Nat
  scan : Str → Scan
  checkSharedName : Str → Bool → Bool
  profileDirs : Str → Option ProfileDirectory
  getSize : Str → Int
  GET_TIME : Nat
  fileLess : Str → Str → Bool

/-- `ShareManager::getType`. -/
def getType (env : ShareEnv) (aFileName : Str) : Nat :=
  if aFileName.getLast? = some PATH_SEPARATOR then TYPE_DIRECTORY
  else if env.rarMatch aFileName then TYPE_COMPRESSED
  else if checkType aFileName TYPE_AUDIO then TYPE_AUDIO
  else if checkType aFileName TYPE_VIDEO then TYPE_VIDEO
  else if checkType aFileName TYPE_DOCUMENT then TYPE_DOCUMENT
  else if checkType aFileName TYPE_COMPRESSED then TYPE_COMPRESSED
  else if checkType aFileName TYPE_PICTURE then TYPE_PICTURE
  else if checkType aFileName TYPE_EXECUTABLE then TYPE_EXECUTABLE
  else TYPE_ANY

end ShareManager

/-- `Directory::addType` on the directory at the given child numbers of `d`: the bit
is set where it is missing, and the call goes on to the parent as long as it was. The
flag tells whether the call goes on above `d`. -/
def Directory.addTypeAt (type : Nat) : List Nat → Directory → Directory × Bool
  | [], d =>
    if !d.hasType type then (d.setFileTypes (d.fileTypes ||| (1 <<< type)), true)
    else (d, false)
  | i :: rest, d =>
    match d.directories.get? i with
    | none => (d, false)
    | some c =>
      let r := Directory.addTypeAt type rest c
      let d1 := d.setDirectories (d.directories.modify (fun _ => r.1) i)
      if r.2 then
        if !d1.hasType type then (d1.setFileTypes (d1.fileTypes ||| (1 <<< type)), true)
        else (d1, false)
      else (d1, false)

namespace ShareManager

namespace Manager

/-- `dir.addType(type)` for the directory a pointer leads to. -/
def addType (m : Manager) (a : Addr) (type : Nat) : Manager :=
  { m with trees := m.trees.modify (fun t => (t.addTypeAt type a.pos).1) a.tree }

/-- `ShareManager::updateIndices(Directory& dir, const File::Set::iterator& i)`. -/
def updateIndicesFile (env : ShareEnv) (m : Manager) (i : FileAddr) : Manager :=
  match m.getFile i with
  | none => m
  | some f =>
    let m1 := m.modifyDir i.dir (fun d => d.setSize (d.size + f.size))
    let m2 := { m1 with sharedSize := m1.sharedSize + f.size }
    let m3 := m2.addType i.dir (getType env f.name)
    { m3 with tthIndex := m3.tthIndex ++ [i],
              bloom := env.bloomAdd m3.bloom (Text.toLower f.name) }

end Manager

mutual
/-- `ShareManager::updateIndices(Directory& dir, bool first)` for the directory `a`
leads to, whose value on entry is the first argument. -/
def updateIndicesDir (env : ShareEnv) : Directory → Addr → Manager → Manager
  | .mk realName profileDir _ _ _ files directories, a, m =>
    let m1 := m.modifyDir a (fun d => d.setSize 0)
    let names : List Str :=
      match profileDir with
      | some pd =>
        if !pd.shareProfiles.isEmpty then pd.shareProfiles.map (fun k => Text.toLower k.2)
        else [Text.toLower realName]
      | none => [Text.toLower realName]
    let m2 := { m1 with bloom := names.foldl env.bloomAdd m1.bloom }
    let m3 := updateIndicesList env directories a 0 m2
    files.foldl (fun acc f => acc.updateIndicesFile env ⟨a, f.name⟩) m3
/-- The loop of `updateIndices` over `dir.directories`, from child number `i` on. -/
def updateIndicesList (env : ShareEnv) : DirList → Addr → Nat → Manager → Manager
  | .nil, _, _, m => m
  | .cons d rest, a, i, m =>
    updateIndicesList env rest a (i + 1) (updateIndicesDir env d ⟨a.tree, a.pos ++ [i]⟩ m)
end

namespace Manager

/-- `updateIndices(*dir)` through a pointer. -/
def updateIndices (env : ShareEnv) (m : Manager) (a : Addr) : Manager :=
  match m.getDir a with
  | some d => updateIndicesDir env d a m
  | none => m

/-- `ShareManager::rebuildIndices`. -/
def rebuildIndices (env : ShareEnv) (m : Manager) : Manager :=
  let m1 := { m with sharedSize := 0, bloom := env.bloomClear, tthIndex := [] }
  (getParents env.isSub m1.shares).foldl (fun acc i => acc.updateIndices env i.2) m1

end Manager

end ShareManager

/-! ## The refresh thread -/

namespace ShareManager

/-- The `find_if` of `removeDir` over the entries of an equal range: the number,
within the range, of the first entry whose directory has the real path `realPath`. -/
def findByRealPath (resolve : Addr → Option DirRef) (realPath : Str) :
    List (Str × Addr) → Except Fault (Option Nat)
  | [] => .ok none
  | sdp :: rest =>
    match resolve sdp.2 with
    | none => .error .nullDereference
    | some r =>
      match r.getRealPathUnchecked [] with
      | .error e => .error e
      | .ok p =>
        if p = realPath then .ok (some 0)
        else
          match findByRealPath resolve realPath rest with
          | .error e => .error e
          | .ok none => .ok none
          | .ok (some i) => .ok (some (i + 1))

/-- The last four statements of `removeDir` for a directory with the given name and
real path: the equal range of the name in `dirNameMap` (its entries stand together),
the search for the entry of the same real path, and the erasure of what the search
returns unless that is `dirNameMap.end()`; a search that fails returns the end of the
range. -/
def eraseNameEntry (resolve : Addr → Option DirRef) (names : List (Str × Addr))
    (realName realPath : Str) : Except Fault (List (Str × Addr)) :=
  match names.findIdx? (fun e => stricmp e.1 realName) with
  | none => .ok names
  | some first =>
    let range := (names.drop first).takeWhile (fun e => stricmp e.1 realName)
    match findByRealPath resolve realPath range with
    | .error e => .error e
    | .ok (some i) => .ok (names.eraseIdx (first + i))
    | .ok none => .ok (names.eraseIdx (first + range.length))

mutual
/-- `ShareManager::removeDir` on `dirNameMap`; `parent` is the `parent` chain of the
directory. -/
def removeDirFrom (resolve : Addr → Option DirRef) (parent : Option DirRef) :
    Directory → List (Str × Addr) → Except Fault (List (Str × Addr))
  | .mk realName profileDir _ _ _ _ directories, names =>
    let self : DirRef :=
      match parent with
      | none => .top realName profileDir
      | some p => .sub realName profileDir p
    match removeDirList resolve self directories names with
    | .error e => .error e
    | .ok names1 =>
      match self.getRealPathUnchecked [] with
      | .error e => .error e
      | .ok realPath => eraseNameEntry resolve names1 realName realPath
/-- The loop of `removeDir` over the subdirectories. -/
def removeDirList (resolve : Addr → Option DirRef) (parent : DirRef) :
    DirList → List (Str × Addr) → Except Fault (List (Str × Addr))
  | .nil, names => .ok names
  | .cons d rest, names =>
    match removeDirFrom resolve (some parent) d names with
    | .error e => .error e
    | .ok names1 => removeDirList resolve parent rest names1
end

namespace Manager

/-- `removeDir(aDir)` through a pointer. -/
def removeDir (m : Manager) (a : Addr) : Except Fault Manager :=
  match m.getDir a, m.getRef a with
  | some d, some r =>
    match removeDirFrom m.getRef r.parent d m.dirNameMap with
    | .error e => .error e
    | .ok names => .ok { m with dirNameMap := names }
  | _, _ => .error .nullDereference

end Manager

/-- `newShares[key] = dir` on a map whose keys compare without case. -/
def assignShare (shares : List (Str × Addr)) (key : Str) (dir : Addr) : List (Str × Addr) :=
  if shares.any (fun e => stricmp e.1 key) then
    shares.map (fun e => if stricmp e.1 key then (e.1, dir) else e)
  else shares ++ [(key, dir)]

mutual
/-- What `buildTree` has added to `aDirs` and to `newShares` for the directories below
the one at `pos` of tree `tree`, whose path is `aPath`: an entry of `aDirs` for every
directory, an entry of `newShares` for every directory whose profile directory
carries `FLAG_ROOT`. -/
def scanEntries (env : ShareEnv) (tree : Nat) :
    Directory → List Nat → Str → List (Str × Addr) × List (Str × Addr)
  | .mk _ _ _ _ _ _ directories, pos, aPath =>
    scanEntriesList env tree directories pos 0 aPath
/-- The same for the subdirectories from child number `i` on. -/
def scanEntriesList (env : ShareEnv) (tree : Nat) :
    DirList → List Nat → Nat → Str → List (Str × Addr) × List (Str × Addr)
  | .nil, _, _, _ => ([], [])
  | .cons d rest, pos, i, aPath =>
    let a : Addr := ⟨tree, pos ++ [i]⟩
    let curPath := aPath ++ d.realName ++ [PATH_SEPARATOR]
    let roots : List (Str × Addr) :=
      match d.profileDir with
      | some pd => if env.FLAG_ROOT pd then [(curPath, a)] else []
      | none => []
    let sub := scanEntries env tree d (pos ++ [i]) curPath
    let more := scanEntriesList env tree rest pos (i + 1) aPath
    ((d.realName, a) :: sub.1 ++ more.1, roots ++ sub.2 ++ more.2)
end

/-- The locals of `run` while it scans the directories of a task: the directory
objects created so far, `newShareDirs` and `newShares`. -/
structure Scanned where
  created : List Directory
  newShareDirs : List (Str × Addr)
  newShares : List (Str × Addr)

/-- The scanning loop of `run` over `dirs`: the locals when the loop ends, and whether
it ended at `goto end`. -/
def scanDirs (env : ShareEnv) (m : Manager) :
    List (Str × Addr) → Scanned → Except Fault (Scanned × Bool)
  | [], s => .ok (s, false)
  | i :: rest, s =>
    if env.checkHidden i.1 then
      match m.getDir i.2 with
      | none => .error .nullDereference
      | some old =>
        let sc := env.scan i.1
        let tree := m.trees.length + s.created.length
        let dp : Directory :=
          .mk (env.getLastDir i.1) old.profileDir (1 <<< TYPE_DIRECTORY) 0
            (env.findLastWrite i.1) sc.files sc.directories
        let found := scanEntries env tree dp [] i.1
        let s1 : Scanned :=
          { created := s.created ++ [dp],
            newShareDirs := s.newShareDirs ++ (env.getLastDir i.1, ⟨tree, []⟩) :: found.1,
            newShares :=
              found.2.foldl (fun acc e => assignShare acc e.1 e.2)
                (assignShare s.newShares i.1 ⟨tree, []⟩) }
        if sc.aShutdown then .ok (s1, true) else scanDirs env m rest s1
    else scanDirs env m rest s

/-- The loop of `run` that takes from `newShares`, for every directory of the task,
the first entry whose key is under the directory. -/
def eraseSubShares (env : ShareEnv) :
    List (Str × Addr) → List (Str × Addr) → List (Str × Addr)
  | [], newShares => newShares
  | i :: rest, newShares =>
    match newShares.findIdx? (fun dir => env.isSub dir.1 i.1) with
    | some k => eraseSubShares env rest (newShares.eraseIdx k)
    | none => eraseSubShares env rest newShares

/-- The loop of `run` that calls `removeDir` for every directory of the task. -/
def removeDirs : List (Str × Addr) → Manager → Except Fault Manager
  | [], m => .ok m
  | i :: rest, m =>
    match m.removeDir i.2 with
    | .error e => .error e
    | .ok m1 => removeDirs rest m1

/-- The body of the loop of `ShareManager::run` for one task: the state it leaves, and
whether it left at `goto end`. Messages, time stamps, the forbidden paths of the
queue and the saved list are left out. -/
def runTask (env : ShareEnv) (m : Manager) (t : TaskType × List Str) :
    Except Fault (Manager × Bool) :=
  let dirs : List (Str × Addr) :=
    t.2.filterMap (fun i =>
      match m.shares.find? (fun e => stricmp e.1 i) with
      | some d => some (i, d.2)
      | none => none)
  let m1 : Manager :=
    if t.1 = .REFRESH_INCOMING ∨ t.1 = .REFRESH_ALL then { m with refreshRunning := true }
    else m
  let partly : Bool := t.1 = .REFRESH_DIR ∨ t.1 = .REFRESH_INCOMING ∨ t.1 = .ADD_DIR
  let removed : Except Fault Manager := if partly then removeDirs dirs m1 else .ok m1
  match removed with
  | .error e => .error e
  | .ok m2 =>
    let newShares : List (Str × Addr) :=
      if partly then eraseSubShares env dirs m2.shares else []
    match scanDirs env m2 dirs { created := [], newShareDirs := [], newShares := newShares } with
    | .error e => .error e
    | .ok (_, true) => .ok (m2, true)
    | .ok (s, false) =>
      let m3 : Manager :=
        { m2 with
          trees := m2.trees ++ s.created,
          shares := s.newShares,
          dirNameMap := if partly then m2.dirNameMap ++ s.newShareDirs else s.newShareDirs }
      .ok (m3.rebuildIndices env, false)

/-- The loop of `ShareManager::run` over the tasks in the queue. -/
def runTasks (env : ShareEnv) : List (TaskType × List Str) → Manager → Except Fault Manager
  | [], m => .ok { m with tasks := [], refreshRunning := false, refreshing := false }
  | t :: rest, m =>
    match runTask env { m with tasks := rest } t with
    | .error e => .error e
    | .ok (m1, true) => .ok { m1 with refreshRunning := false, refreshing := false }
    | .ok (m1, false) => runTasks env rest m1

/-- `ShareManager::run`, on the tasks that are in the queue when it starts. -/
def Manager.run (env : ShareEnv) (m : Manager) : Except Fault Manager :=
  runTasks env m.tasks m

end ShareManager

/-! ## Hashed files -/

namespace ShareManager

/-- The walk of `findDirectory` down the tokens of the path below a share: the state
it leaves and the directory it returns, if any. A directory that is missing is
created when the caller allows it, the name passes `checkSharedName` and no profile
directory excludes the path; `Directory::create` (its definition is in a header that
is not among the sources) enters the new directory in the map of its parent. -/
def findDirectoryWalk (env : ShareEnv) (allowAdd : Bool) :
    List Str → Str → Addr → Manager → Except Fault (Manager × Option Addr)
  | [], _, curDir, m => .ok (m, some curDir)
  | i :: rest, fullPath, curDir, m =>
    let fullPath1 := fullPath ++ i ++ [PATH_SEPARATOR]
    match m.getDir curDir with
    | none => .error .nullDereference
    | some d =>
      match d.directories.findIdx? i with
      | some j => findDirectoryWalk env allowAdd rest fullPath1 ⟨curDir.tree, curDir.pos ++ [j]⟩ m
      | none =>
        if !allowAdd || !env.checkSharedName fullPath1 true then .ok (m, none)
        else
          let found := env.profileDirs fullPath1
          let excluded : Bool :=
            match found with
            | some pd => env.FLAG_EXCLUDE_TOTAL pd
            | none => false
          if excluded then .ok (m, none)
          else
            let created : Directory :=
              .mk i found (1 <<< TYPE_DIRECTORY) 0 env.GET_TIME [] .nil
            let a : Addr := ⟨curDir.tree, curDir.pos ++ [d.directories.length]⟩
            let m1 := m.modifyDir curDir
              (fun x => x.setDirectories (x.directories.push created))
            let m2 := { m1 with dirNameMap := m1.dirNameMap ++ [(i, a)] }
            findDirectoryWalk env allowAdd rest fullPath1 a m2

/-- `ShareManager::findDirectory(fname, allowAdd, report)`. -/
def Manager.findDirectory (env : ShareEnv) (m : Manager) (fname : Str) (allowAdd : Bool) :
    Except Fault (Manager × Option Addr) :=
  match m.shares.find? (fun dp => env.isParentOrExact dp.1 fname) with
  | none => .ok (m, none)
  | some mi =>
    findDirectoryWalk env allowAdd
      (StringTokenizer (fname.drop mi.1.length) PATH_SEPARATOR) (Text.toLower mi.1) mi.2 m

/-- `File::getRealPath(false)` for the file an iterator points to. -/
def Manager.fileRealPath (m : Manager) (k : FileAddr) : Except Fault Str :=
  match m.getRef k.dir, m.getFile k with
  | some r, some f => r.getRealPathUnchecked f.name
  | _, _ => .error .nullDereference

/-- The loop of `onFileHashed` over `tthIndex.equal_range(tth)`: the index without the
first entry of that TTH whose file has the real path `fname` up to case. -/
def eraseHashed (m : Manager) (fname : Str) (tth : TTHValue) :
    List FileAddr → Except Fault (List FileAddr)
  | [] => .ok []
  | k :: rest =>
    match m.getFile k with
    | none =>
      match eraseHashed m fname tth rest with
      | .error e => .error e
      | .ok more => .ok (k :: more)
    | some f =>
      if f.tth = tth then
        match m.fileRealPath k with
        | .error e => .error e
        | .ok p =>
          if stricmp fname p then .ok rest
          else
            match eraseHashed m fname tth rest with
            | .error e => .error e
            | .ok more => .ok (k :: more)
      else
        match eraseHashed m fname tth rest with
        | .error e => .error e
        | .ok more => .ok (k :: more)

/-- `f->setTTH(root)` on the file `findFile` returned. -/
def setTTH (name : Str) (root : TTHValue) : List File → List File
  | [] => []
  | f :: rest =>
    if f.name = name then { f with tth := root } :: rest else f :: setTTH name root rest

/-- `files.insert(file)` on the ordered set. -/
def insertFile (env : ShareEnv) (file : File) : List File → List File
  | [] => [file]
  | f :: rest =>
    if env.fileLess file.name f.name then file :: f :: rest
    else f :: insertFile env file rest

/-- `ShareManager::onFileHashed`; `findFile` (declared in a header that is not among
the sources) looks the name up without case. -/
def Manager.onFileHashed (env : ShareEnv) (m : Manager) (fname : Str) (root : TTHValue) :
    Except Fault Manager :=
  match m.findDirectory env (env.getFilePath fname) true with
  | .error e => .error e
  | .ok (m1, none) => .ok m1
  | .ok (m1, some d) =>
    match m1.getDir d with
    | none => .error .nullDereference
    | some dir =>
      match dir.files.find? (fun f => stricmp f.name (Util.getFileName fname)) with
      | some i =>
        match eraseHashed m1 fname i.tth m1.tthIndex with
        | .error e => .error e
        | .ok index1 =>
          let m2 := { m1 with tthIndex := index1 }
          let m3 := m2.modifyDir d (fun x => x.setFiles (setTTH i.name root x.files))
          .ok { m3 with tthIndex := m3.tthIndex ++ [⟨d, i.name⟩] }
      | none =>
        let name := Util.getFileName fname
        let size := env.getSize fname
        let m2 := m1.modifyDir d (fun x => x.setFiles (insertFile env ⟨name, size, root⟩ x.files))
        .ok (m2.updateIndicesFile env ⟨d, name⟩)

mutual
/-- The files in the subtree of the directory at `a`, each as the iterator that points
to it: those of the directory, then those of its subdirectories. -/
def filesBelow : Directory → Addr → List FileAddr
  | .mk _ _ _ _ _ files directories, a =>
    files.map (fun f => (⟨a, f.name⟩ : FileAddr)) ++ filesBelowList directories a 0
/-- The same for the subdirectories from child number `i` on. -/
def filesBelowList : DirList → Addr → Nat → List FileAddr
  | .nil, _, _ => []
  | .cons d rest, a, i =>
    filesBelow d ⟨a.tree, a.pos ++ [i]⟩ ++ filesBelowList rest a (i + 1)
end

/-- The file nodes reachable from a top-level share root: the files in the subtrees of
the directories that `getParents` yields. -/
def Manager.reachableFiles (env : ShareEnv) (m : Manager) : List FileAddr :=
  (getParents env.isSub m.shares).flatMap (fun i =>
    match m.getDir i.2 with
    | some d => filesBelow d i.2
    | none => [])

end ShareManager

/-! ## Temporary shares -/

namespace ShareManager

/-- `ShareManager::findTempShare`: the first record of the equal range of the TTH whose
key is empty or the key asked for; the name is `TTH/` followed by the TTH in base32. -/
def findTempShare (st : ShareManager) (aKey virtualFile : Str) : Except Fault TempShareInfo :=
  if virtualFile.take 4 = str "TTH/" then
    let Files := st.tempShares.filter (fun i => i.1 == virtualFile.drop 4)
    match Files.find? (fun i => i.2.key.isEmpty || i.2.key == aKey) with
    | some i => .ok i.2
    | none => .error .FILE_NOT_AVAILABLE
  else .error .FILE_NOT_AVAILABLE

end ShareManager

/-! ## Names that are not shared -/

/-- The loop of `std::string::rfind(pat)`: the last position at or below `i` at which
`pat` stands in `x`. -/
def rfindFrom (x pat : Str) : Nat → Option Nat
  | 0 => if pat.isPrefixOf x then some 0 else none
  | i + 1 => if pat.isPrefixOf (x.drop (i + 1)) then some (i + 1) else rfindFrom x pat i

/-- `std::string::rfind(pat)`; `none` is `npos`. -/
def strRfind (x pat : Str) : Option Nat := rfindFrom x pat x.length

/-- The loop of `std::string::find(pat)`: the first position from `k` on at which `pat`
stands. -/
def findStrFrom (pat : Str) : Str → Nat → Option Nat
  | [], k => if pat.isEmpty then some k else none
  | a :: rest, k =>
    if pat.isPrefixOf (a :: rest) then some k else findStrFrom pat rest (k + 1)

/-- `std::string::find(pat)`; `none` is `npos`. -/
def strFindStr (x pat : Str) : Option Nat := findStrFrom pat x 0

/-- `c_str()`: the characters before the first NUL. -/
def c_str (x : Str) : Str := x.takeWhile (fun c => c != Char.ofNat 0)

/-- `strcmp(a.c_str(), b) == 0`. -/
def strcmpEq (a b : Str) : Bool := decide (c_str a = c_str b)

namespace ShareManager

/-- What `checkSharedName` reads outside its arguments: `skipList.match`, the settings
`REMOVE_FORBIDDEN`, `NO_ZERO_BYTE` and `MAX_FILE_SIZE_SHARED`, the members
`privKeyFile`, `winDir` and `tempDLDir`, and `Util::getLastDir`. -/
structure NameEnv where
  skipListMatch : Str → Bool
  REMOVE_FORBIDDEN : Bool
  NO_ZERO_BYTE : Bool
  MAX_FILE_SIZE_SHARED : Int
  privKeyFile : Str
  winDir : Str
  tempDLDir : Str
  getLastDir : Str → Str

/-- The test of `checkSharedName` for the forbidden file patterns, on the lower-cased
name. -/
def forbiddenPattern (aName : Str) : Bool :=
  let fileExt := Util.getFileExt aName
  let nameLen := aName.length
  strcmpEq fileExt (str ".tdc") ||
  strcmpEq fileExt (str ".getright") ||
  strcmpEq fileExt (str ".temp") ||
  strcmpEq fileExt (str ".tmp") ||
  strcmpEq fileExt (str ".jc!") ||
  strcmpEq fileExt (str ".dmf") ||
  strcmpEq fileExt (str ".!ut") ||
  strcmpEq fileExt (str ".bc!") ||
  strcmpEq fileExt (str ".missing") ||
  strcmpEq fileExt (str ".bak") ||
  strcmpEq fileExt (str ".bad") ||
  (decide (nameLen > 9) && strRfind aName (str "part.met") == some (nameLen - 8)) ||
  strFindStr aName (str "__padding_") == some 0 ||
  strFindStr aName (str "__incomplete__") == some 0

/-- `ShareManager::checkSharedName(aPath, isDir, report, size)`; the log messages, and
with them `report`, are left out. -/
def checkSharedName (env : NameEnv) (aPath : Str) (isDir : Bool) (size : Int) : Bool :=
  let aName := if isDir then env.getLastDir aPath else Util.getFileName aPath
  if aName = str "." ∨ aName = str ".." then false
  else if env.skipListMatch aName then false
  else
    let aName := Text.toLower aName
    if !isDir then
      let fileExt := Util.getFileExt aName
      if strcmpEq aName (str "dcplusplus.xml") || strcmpEq aName (str "favorites.xml")
          || strcmpEq fileExt (str ".dctmp") || strcmpEq fileExt (str ".antifrag") then false
      else if env.REMOVE_FORBIDDEN && forbiddenPattern aName then false
      else if stricmp aPath env.privKeyFile then false
      else if env.NO_ZERO_BYTE && !(decide (size > 0)) then false
      else if env.MAX_FILE_SIZE_SHARED != 0
          && decide (size > mulInt32 (mulInt32 env.MAX_FILE_SIZE_SHARED 1024) 1024) then false
      else true
    else
      if decide (aPath.length ≥ env.winDir.length)
          && stricmp (substr aPath 0 env.winDir.length) env.winDir then false
      else if stricmp aPath env.tempDLDir then false
      else true

end ShareManager

/-! ## The remote listing: sizes -/

namespace DirectoryListing

mutual
/-- `Directory::findIncomplete`. -/
def Directory.findIncomplete : Directory → Bool
  | .mk _ complete _ _ _ _ _ directories =>
    if !complete then true else DirList.findIncomplete directories
/-- The `find_if` of `findIncomplete` over the subdirectories. -/
def DirList.findIncomplete : DirList → Bool
  | .nil => false
  | .cons d rest => Directory.findIncomplete d || DirList.findIncomplete rest
end

mutual
/-- What the specification asks of `getTotalSize(adl = true)` on a tree of complete
directories: the sizes of the files of the directory, and of the files in the subtrees
of those of its subdirectories that are not flagged `adls`, at every depth. -/
def Directory.sizeOutsideAdls : Directory → Int
  | .mk _ _ _ _ _ _ files directories =>
    (files.map (fun f => f.size)).sum + DirList.sizeOutsideAdls directories
/-- The same for the subdirectories. -/
def DirList.sizeOutsideAdls : DirList → Int
  | .nil => 0
  | .cons d rest =>
    (if d.getAdls then 0 else Directory.sizeOutsideAdls d) + DirList.sizeOutsideAdls rest
end

end DirectoryListing

/-! ## The remote listing: subtraction of a list -/

namespace DirectoryListing

/-- `Directory::filterList(DirectoryListing& dirList)`: the hash list of the root of
the other listing is collected and the directory is filtered with it. -/
def Directory.filterListing (skipSubtract : Int) (dirList : Listing) (d : Directory) :
    Directory :=
  d.filterList skipSubtract (dirList.root.getHashList [])

mutual
/-- The files in the subtree of a directory: its own, then those below. -/
def Directory.allFiles : Directory → List File
  | .mk _ _ _ _ _ _ files directories => files ++ DirList.allFiles directories
/-- The files in the subtrees of the directories of a vector. -/
def DirList.allFiles : DirList → List File
  | .nil => []
  | .cons d rest => Directory.allFiles d ++ DirList.allFiles rest
end

mutual
/-- The directories below a directory, at every depth. -/
def Directory.allDirs : Directory → List Directory
  | .mk _ _ _ _ _ _ _ directories => DirList.allDirs directories
/-- The directories of a vector with those below them. -/
def DirList.allDirs : DirList → List Directory
  | .nil => []
  | .cons d rest => d :: (Directory.allDirs d ++ DirList.allDirs rest)
end

end DirectoryListing

/-! ## The NMDC search: the tokens on the way down -/

/-- The token list with which the NMDC `Directory::search` is called on a subdirectory
after the descent through directories of the given names, outermost first: every call
hands its `cur` to the calls on its subdirectories. -/
def remainingTokens (aStrings : List StringSearch) : List Str → List StringSearch
  | [] => aStrings
  | n :: rest => remainingTokens ((pruneTokens aStrings n).getD aStrings) rest

/-! ## Regular expressions -/

/-- A regular expression of the kind the patterns of the source are written in:
nothing, the empty string, one character, any character, a set of character ranges, a
sequence, an alternative, an optional part. -/
inductive Regex where
  | nothing
  | eps
  | char (c : Char)
  | any
  | set (items : List (Char × Char))
  | seq (a b : Regex)
  | alt (a b : Regex)
  | opt (a : Regex)
  deriving DecidableEq, Repr

namespace Regex

/-- The expression `a{0,k}`. -/
def upTo (a : Regex) : Nat → Regex
  | 0 => eps
  | k + 1 => opt (seq a (upTo a k))

/-- The expression `a{m,m+k}`. -/
def times (a : Regex) : Nat → Nat → Regex
  | 0, k => upTo a k
  | m + 1, k => seq a (times a m k)

/-- The items of a set up to the closing bracket: `x-y` is a range, any other character
stands for itself. -/
def readSet : Nat → Str → List (Char × Char) → Option (Regex × Str)
  | 0, _, _ => none
  | _ + 1, [], _ => none
  | _ + 1, ']' :: rest, items => some (set items, rest)
  | fuel + 1, lo :: '-' :: hi :: rest, items =>
    if hi = ']' then readSet fuel ('-' :: hi :: rest) (items ++ [(lo, lo)])
    else readSet fuel rest (items ++ [(lo, hi)])
  | fuel + 1, c :: rest, items => readSet fuel rest (items ++ [(c, c)])

/-- A repeat count after an atom: `?`, or `{m,n}` with decimal bounds. -/
def readCount (a : Regex) (x : Str) : Regex × Str :=
  match x with
  | '?' :: rest => (opt a, rest)
  | '{' :: rest =>
    let m := rest.takeWhile Char.isDigit
    let rest1 := rest.dropWhile Char.isDigit
    match rest1 with
    | ',' :: rest2 =>
      let n := rest2.takeWhile Char.isDigit
      match rest2.dropWhile Char.isDigit with
      | '}' :: rest3 =>
        if m.isEmpty || n.isEmpty then (a, x)
        else
          (times a (Util.parseDigits m 0) (Util.parseDigits n 0 - Util.parseDigits m 0),
            rest3)
      | _ => (a, x)
    | _ => (a, x)
  | _ => (a, x)

mutual
/-- Alternatives separated by `|`; the first argument bounds the depth of the reading. -/
def readAlt : Nat → Str → Option (Regex × Str)
  | 0, _ => none
  | fuel + 1, x =>
    match readSeq fuel x with
    | none => none
    | some (a, '|' :: rest) =>
      match readAlt fuel rest with
      | some (b, rest1) => some (alt a b, rest1)
      | none => none
    | some (a, rest) => some (a, rest)
/-- A sequence of atoms, each with its repeat count, up to `|`, `)` or the end. -/
def readSeq : Nat → Str → Option (Regex × Str)
  | 0, _ => none
  | _ + 1, [] => some (eps, [])
  | _ + 1, '|' :: rest => some (eps, '|' :: rest)
  | _ + 1, ')' :: rest => some (eps, ')' :: rest)
  | fuel + 1, c :: rest =>
    match readAtom fuel (c :: rest) with
    | none => none
    | some (a, rest1) =>
      match readSeq fuel (readCount a rest1).2 with
      | some (b, rest2) => some (seq (readCount a rest1).1 b, rest2)
      | none => none
/-- An atom: a group in parentheses, a set in brackets, `.` for any character, or a
character that stands for itself. -/
def readAtom : Nat → Str → Option (Regex × Str)
  | 0, _ => none
  | _ + 1, [] => none
  | fuel + 1, '(' :: rest =>
    match readAlt fuel rest with
    | some (a, ')' :: rest1) => some (a, rest1)
    | _ => none
  | fuel + 1, '[' :: rest => readSet fuel rest []
  | _ + 1, '.' :: rest => some (any, rest)
  | _ + 1, c :: rest => some (char c, rest)
end

/-- `boost::regex::assign(pattern, boost::regex::icase)`, for patterns made of plain
characters, `.`, groups, sets, `|`, `?` and `{m,n}`; a pattern that cannot be read
matches nothing. -/
def assign (pattern : Str) : Regex :=
  match readAlt (3 * pattern.length + 3) pattern with
  | some (r, []) => r
  | _ => nothing

/-- Whether the expression matches the empty string. -/
def nullable : Regex → Bool
  | nothing => false
  | eps => true
  | char _ => false
  | any => false
  | set _ => false
  | seq a b => nullable a && nullable b
  | alt a b => nullable a || nullable b
  | opt _ => true

/-- What is left of the expression after the character `c`, case being ignored. -/
def deriv (c : Char) : Regex → Regex
  | nothing => nothing
  | eps => nothing
  | char x => if x.toLower = c.toLower then eps else nothing
  | any => eps
  | set items =>
    if items.any (fun i =>
        (decide (i.1 ≤ c) && decide (c ≤ i.2))
          || (decide (i.1 ≤ c.toLower) && decide (c.toLower ≤ i.2))
          || (decide (i.1 ≤ c.toUpper) && decide (c.toUpper ≤ i.2)))
    then eps else nothing
  | seq a b =>
    if nullable a then alt (seq (deriv c a) b) (deriv c b) else seq (deriv c a) b
  | alt a b => alt (deriv c a) (deriv c b)
  | opt a => deriv c a

/-- `boost::regex_match(text, re)` for an expression assigned with `icase`: the whole
text has to match. -/
def regex_match (text : Str) (re : Regex) : Bool :=
  nullable (text.foldl (fun r c => deriv c r) re)

end Regex

namespace ShareManager

/-- The member `subDirRegPlain` as the constructor of `ShareManager` assigns it. -/
def subDirRegPlain : Regex :=
  Regex.assign (str "(((DVD)|(CD)|(DIS(K|C))).?([0-9](0-9)?))|(Sample)|(Proof)|(Cover(s)?)|(.{0,5}Sub(s|pack)?)")

/-- The sub-directory pattern as the specification writes it. -/
def subDirRegSpecified : Regex :=
  Regex.assign (str "(DVD|CD|DIS[KC]).?[0-9][0-9]?|Sample|Proof|Cover(s)?|.{0,5}Sub(s|pack)?")

end ShareManager

/-! ## The remote listing: queueing tasks -/

namespace DirectoryListing

/-- The tags of the tasks of a listing. -/
inductive TaskTag where
  | LISTDIFF
  | MATCH_ADL
  | LOAD_FILE
  | REFRESH_DIR
  | CLOSE
  | MATCH_QUEUE
  | SEARCH
  deriving DecidableEq

/-- What is queued with a tag: a `StringTask`, a `SearchTask`, or `nullptr`. -/
inductive TaskData where
  | StringTask (str : Str)
  | SearchTask (s : SearchTask)
  | null

/-- The pair `(tag, data)` as `run` reads it: the tag alone decides which branch runs
and what the data is cast to; the branches of `MATCH_ADL`, `CLOSE` and `MATCH_QUEUE` do
not look at the data. A pair whose data the branch could not be cast to has no
reading. -/
def Task.ofPair : TaskTag → TaskData → Option Task
  | .LISTDIFF, .StringTask x => some (.LISTDIFF x)
  | .MATCH_ADL, _ => some .MATCH_ADL
  | .LOAD_FILE, .StringTask x => some (.LOAD_FILE x)
  | .REFRESH_DIR, .StringTask x => some (.REFRESH_DIR x)
  | .CLOSE, _ => some .CLOSE
  | .MATCH_QUEUE, _ => some .MATCH_QUEUE
  | .SEARCH, .SearchTask s => some (.SEARCH s)
  | _, _ => none

/-- `tasks.add(tag, data)`: the pair goes to the end of the queue. -/
def State.add (s : State) (tag : TaskTag) (data : TaskData) : State :=
  match Task.ofPair tag data with
  | some t => { s with tasks := s.tasks ++ [t] }
  | none => s

/-- `DirectoryListing::runTasks`: nothing happens while the flag `running` is set;
otherwise it is set and the worker thread is started, and cleared again when `start()`
throws. The flag of the result tells whether a worker was started. -/
def State.runTasks (startThrows : Bool) (s : State) : State × Bool :=
  if s.running then (s, false)
  else if startThrows then ({ s with running := false }, false)
  else ({ s with running := true }, true)

/-- `DirectoryListing::addListDiffTask`. -/
def State.addListDiffTask (startThrows : Bool) (s : State) (aFile : Str) : State × Bool :=
  (s.add .MATCH_ADL (.StringTask aFile)).runTasks startThrows

end DirectoryListing

/-! ## The remote listing: downloads -/

/-- The insertion of `a` before the first element it is less than. -/
def orderedInsertBy {α : Type} (less : α → α → Bool) (a : α) : List α → List α
  | [] => [a]
  | b :: l => if less a b then a :: b :: l else b :: orderedInsertBy less a l

/-- Modelled from the spec: `std::sort(first, last, comp)`: the elements in an order
in which none is less than one before it. -/
def sortBy {α : Type} (less : α → α → Bool) : List α → List α
  | [] => []
  | a :: l => orderedInsertBy less a (sortBy less l)

namespace DirectoryListing

/-- A `Bundle` as `download` constructs it: target, time of creation, priority and the
date of the directory. -/
structure Bundle where
  target : Str
  added : Nat
  priority : Nat
  dirDate : Nat
  deriving DecidableEq

/-- The calls `download` makes on the managers outside the listing:
`DirectoryListingManager::addDirectoryDownload` (the last flag tells whether the
seventh argument `true` was given), `QueueManager::add` for a file with target, size,
TTH, priority and bundle, and `QueueManager::addBundle`. -/
inductive Submitted where
  | addDirectoryDownload (path target : Str) (targetType priority : Nat) (recursive : Bool)
  | add (target : Str) (size : Int) (tth : TTHValue) (priority : Nat) (bundle : Bundle)
  | addBundle (bundle : Bundle)
  deriving DecidableEq

/-- How a call of `QueueManager::add` ends: it returns, or it throws a
`QueueException`, a `FileException`, or something else. -/
inductive AddResult where
  | ok
  | QueueException
  | FileException
  | other (t : Thrown)
  deriving DecidableEq

/-- What `download` reads outside its arguments: the field `partialList`,
`Util::validateFileName`, `Util::formatTime`, the setting `FORMAT_DIR_REMOTE_TIME`,
`GET_TIME()`, whether a name matches `AirUtil::getReleaseRegBasic()` as a whole, the
orders `Directory::DirSort` and `File::FileSort` on names (declared in a header that is
not among the sources), `QueueItem::DEFAULT`, and how `QueueManager::add` ends. -/
structure PlanEnv where
  partialList : Bool
  validateFileName : Str → Str
  formatTime : Str → Nat → Str
  FORMAT_DIR_REMOTE_TIME : Bool
  GET_TIME : Nat
  releaseMatch : Str → Bool
  nameLess : Str → Str → Bool
  DEFAULT : Nat
  add : Str → Int → TTHValue → Nat → Bundle → AddResult

/-- What a call of `download` has done when it ends: the calls it made, in order, and
what it throws, if anything. -/
structure Planned where
  calls : List Submitted
  thrown : Option Thrown

/-- A loop over directories that ends when a call throws. -/
def downloadEach (f : Directory → Option Planned) : List Directory → Option Planned
  | [] => some ⟨[], none⟩
  | d :: rest =>
    match f d with
    | none => none
    | some r =>
      match r.thrown with
      | some t => some ⟨r.calls, some t⟩
      | none =>
        match downloadEach f rest with
        | none => none
        | some r1 => some ⟨r.calls ++ r1.calls, r1.thrown⟩

/-- The loop of `download` over the sorted files: `download(File*, ...)` for each, a
`QueueException` or `FileException` being caught. -/
def downloadFiles (re : PlanEnv) (target : Str) (aBundle : Bundle) : List File → Planned
  | [] => ⟨[], none⟩
  | f :: rest =>
    let call := Submitted.add (target ++ f.name) f.size f.tthRoot re.DEFAULT aBundle
    match re.add (target ++ f.name) f.size f.tthRoot re.DEFAULT aBundle with
    | .other t => ⟨[call], some t⟩
    | _ =>
      let r := downloadFiles re target aBundle rest
      ⟨call :: r.calls, r.thrown⟩

/-- The target a first call of `download` validates: the time placeholders of the
target, followed by the name of the directory unless it is the root, are filled in
from the date of the directory when the setting asks for it and the date is set, from
the clock otherwise. -/
def formatTarget (re : PlanEnv) (aDir : Directory) (isRoot : Bool) (aTarget : Str) : Str :=
  re.validateFileName (re.formatTime
    (aTarget ++ (if isRoot then [] else aDir.name ++ [PATH_SEPARATOR]))
    (if re.FORMAT_DIR_REMOTE_TIME && decide (aDir.getDate > 0) then aDir.getDate
      else re.GET_TIME))

/-- `QueueManager::addBundle` among the calls. -/
def Submitted.isAddBundle : Submitted → Bool
  | .addBundle _ => true
  | _ => false

/-- `DirectoryListing::download(Directory* aDir, aTarget, aTargetType, highPrio, prio,
recursiveList, first, aBundle)`. The first argument bounds the depth of the calls, and
`none` is returned where it does not suffice; `isRoot` is `aDir == getRoot()` and
`path` is `aDir->getPath()`, both read in a first call only. The vectors stay sorted
after the call, which the result does not show. -/
def download (re : PlanEnv) : Nat → Directory → Bool → Str → Str → Nat → Nat → Bool → Bool →
    Option Bundle → Option Planned
  | 0, _, _, _, _, _, _, _, _, _ => none
  | fuel + 1, aDir, isRoot, path, aTarget, aTargetType, prio, recursiveList, first, aBundle =>
    if first && re.partialList && aDir.findIncomplete then
      some ⟨[.addDirectoryDownload path aTarget aTargetType prio recursiveList], none⟩
    else
      let target : Str :=
        if first then formatTarget re aDir isRoot aTarget
        else aTarget ++ aDir.name ++ [PATH_SEPARATOR]
      if first && !re.releaseMatch aDir.name && aDir.files.isEmpty
          && decide (aDir.directories.toList.countP (fun d => re.releaseMatch d.name)
            = aDir.directories.toList.length) then
        downloadEach
          (fun dir => download re fuel dir false [] target aTargetType prio false false none)
          aDir.directories.toList
      else
        let bundle : Bundle :=
          match aBundle with
          | some b => b
          | none => ⟨target, re.GET_TIME, prio, aDir.getDate⟩
        let first1 : Bool := if aBundle.isSome then first else true
        match downloadEach
            (fun dir =>
              download re fuel dir false [] target aTargetType prio false false (some bundle))
            (sortBy (fun a b => re.nameLess a.name b.name) aDir.directories.toList) with
        | none => none
        | some r =>
          match r.thrown with
          | some t => some ⟨r.calls, some t⟩
          | none =>
            let rf := downloadFiles re target bundle
              (sortBy (fun a b => re.nameLess a.name b.name) aDir.files)
            match rf.thrown with
            | some t => some ⟨r.calls ++ rf.calls, some t⟩
            | none =>
              if first1 then some ⟨r.calls ++ rf.calls ++ [.addBundle bundle], none⟩
              else some ⟨r.calls ++ rf.calls, none⟩

mutual
/-- The number of levels of a tree. -/
def Directory.depth : Directory → Nat
  | .mk _ _ _ _ _ _ _ directories => DirList.depth directories + 1
/-- The number of levels of the deepest tree of a vector. -/
def DirList.depth : DirList → Nat
  | .nil => 0
  | .cons d rest => max (Directory.depth d) (DirList.depth rest)
end

mutual
/-- The files in the subtree of a directory, each with its path below the directory:
the name of a file of the directory, and for a file further down the names of the
directories on the way, each followed by the separator, and the name of the file. -/
def Directory.filesWithPath : Directory → List (Str × File)
  | .mk _ _ _ _ _ _ files directories =>
    DirList.filesWithPath directories ++ files.map (fun f => (f.name, f))
/-- The same for the directories of a vector. -/
def DirList.filesWithPath : DirList → List (Str × File)
  | .nil => []
  | .cons d rest =>
    (Directory.filesWithPath d).map (fun p => (d.name ++ [PATH_SEPARATOR] ++ p.1, p.2))
      ++ DirList.filesWithPath rest
end

/-- The calls of `QueueManager::add` that the specification asks for the subtree of a
directory, for the first `fuel` levels: the subdirectories in the order of their names,
each with its own subtree, then the files of the directory in the order of their
names; every file goes to the bundle, at the target followed by its path. -/
def expectedAdds (re : PlanEnv) (bundle : Bundle) : Nat → Str → Directory → List Submitted
  | 0, _, _ => []
  | fuel + 1, target, d =>
    (sortBy (fun a b => re.nameLess a.name b.name) d.directories.toList).flatMap
        (fun c => expectedAdds re bundle fuel (target ++ c.name ++ [PATH_SEPARATOR]) c)
      ++ (sortBy (fun a b => re.nameLess a.name b.name) d.files).map
        (fun f => Submitted.add (target ++ f.name) f.size f.tthRoot re.DEFAULT bundle)

end DirectoryListing

/-! ## Hashed bundles -/

namespace ShareManager

/-- The inner loop of `cleanIndices` for the file `i` of TTH `tth`: the index without
the first entry of that TTH whose file has the real path of `i` up to case; the path
of `i` is computed where an entry is compared. -/
def eraseCleaned (m : Manager) (i : FileAddr) (tth : TTHValue) :
    List FileAddr → Except Fault (List FileAddr)
  | [] => .ok []
  | k :: rest =>
    match m.getFile k with
    | none =>
      match eraseCleaned m i tth rest with
      | .error e => .error e
      | .ok more => .ok (k :: more)
    | some f =>
      if f.tth = tth then
        match m.fileRealPath k with
        | .error e => .error e
        | .ok p =>
          match m.fileRealPath i with
          | .error e => .error e
          | .ok q =>
            if stricmp p q then .ok rest
            else
              match eraseCleaned m i tth rest with
              | .error e => .error e
              | .ok more => .ok (k :: more)
      else
        match eraseCleaned m i tth rest with
        | .error e => .error e
        | .ok more => .ok (k :: more)

/-- The loop of `cleanIndices` over the files of the directory at `a`. -/
def cleanFiles (a : Addr) : List File → Manager → Except Fault Manager
  | [], m => .ok m
  | f :: rest, m =>
    match eraseCleaned m ⟨a, f.name⟩ f.tth m.tthIndex with
    | .error e => .error e
    | .ok index1 => cleanFiles a rest { m with tthIndex := index1 }

mutual
/-- `ShareManager::cleanIndices` for the directory `a` leads to, whose value on entry
is the first argument: the subdirectories are cleaned, the files leave the TTH index,
`removeDir` takes the names out of the name index, and the files and subdirectories of
the directory are cleared. A pointer to a directory below `a` leads nowhere
afterwards. -/
def cleanIndicesDir : Directory → Addr → Manager → Except Fault Manager
  | .mk _ _ _ _ _ files directories, a, m =>
    match cleanIndicesList directories a 0 m with
    | .error e => .error e
    | .ok m1 =>
      match cleanFiles a files m1 with
      | .error e => .error e
      | .ok m2 =>
        match m2.removeDir a with
        | .error e => .error e
        | .ok m3 => .ok (m3.modifyDir a (fun x => (x.setFiles []).setDirectories .nil))
/-- The loop of `cleanIndices` over the subdirectories, from child number `i` on. -/
def cleanIndicesList : DirList → Addr → Nat → Manager → Except Fault Manager
  | .nil, _, _, m => .ok m
  | .cons d rest, a, i, m =>
    match cleanIndicesDir d ⟨a.tree, a.pos ++ [i]⟩ m with
    | .error e => .error e
    | .ok m1 => cleanIndicesList rest a (i + 1) m1
end

/-- `ShareManager::on(QueueManagerListener::BundleHashed, path)`; `sc` is what
`buildTree(path, dir, false, profileDirs, dirNameMap, newShares)` hangs under the
cleaned directory. The messages and `setDirty` are left out. -/
def Manager.onBundleHashed (env : ShareEnv) (m : Manager) (path : Str) (sc : Scan) :
    Except Fault Manager :=
  match m.findDirectory env path true with
  | .error e => .error e
  | .ok (m1, none) => .ok m1
  | .ok (m1, some dir) =>
    match m1.getDir dir with
    | none => .error .nullDereference
    | some d =>
      match cleanIndicesDir d dir m1 with
      | .error e => .error e
      | .ok m2 =>
        let m3 := m2.modifyDir dir (fun x => (x.setFiles sc.files).setDirectories sc.directories)
        let found : List (Str × Addr) × List (Str × Addr) :=
          match m3.getDir dir with
          | some x => scanEntries env dir.tree x dir.pos path
          | none => ([], [])
        let m4 := { m3 with dirNameMap := m3.dirNameMap ++ found.1 }
        .ok (m4.updateIndices env dir)

end ShareManager

/-! ## The sizes of the directories -/

mutual
/-- The tree with the fields `size` and `fileTypes` of every directory set to what `h`
makes of the size, the types and the files of the directory. -/
def Directory.relabel (h : Int → Nat → List File → Int × Nat) : Directory → Directory
  | .mk n pd ft sz lw fs ds =>
    .mk n pd (h sz ft fs).2 (h sz ft fs).1 lw fs (DirList.relabel h ds)
/-- The same for the directories of a map. -/
def DirList.relabel (h : Int → Nat → List File → Int × Nat) : DirList → DirList
  | .nil => .nil
  | .cons d rest => .cons (Directory.relabel h d) (DirList.relabel h rest)
end

/-- The tree without its file types. -/
def Directory.noTypes (d : Directory) : Directory := d.relabel (fun sz _ _ => (sz, 0))

/-- The tree with every size recomputed as the sum of the sizes of the files of the
directory. -/
def Directory.recount (d : Directory) : Directory :=
  d.relabel (fun _ ft fs => ((fs.map (fun f => f.size)).sum, ft))

/-- The tree without sizes and file types. -/
def Directory.shape (d : Directory) : Directory := d.relabel (fun _ _ _ => (0, 0))

/-- The tail of a map from the entry with the given number on. -/
def DirList.drop : Nat → DirList → DirList
  | 0, ds => ds
  | _ + 1, .nil => .nil
  | i + 1, .cons _ rest => DirList.drop i rest

/-- The map with the sizes recomputed in the entries from the given number on. -/
def DirList.recountFrom : Nat → DirList → DirList
  | 0, ds => ds.relabel (fun _ ft fs => ((fs.map (fun f => f.size)).sum, ft))
  | _ + 1, .nil => .nil
  | i + 1, .cons d rest => .cons d (DirList.recountFrom i rest)

mutual
/-- In every directory of the tree `size` is the sum of the sizes of the files of the
directory. -/
def Directory.sizesOk : Directory → Bool
  | .mk _ _ _ sz _ fs ds =>
    decide (sz = (fs.map (fun f => f.size)).sum) && DirList.sizesOk ds
/-- The same for the directories of a map. -/
def DirList.sizesOk : DirList → Bool
  | .nil => true
  | .cons d rest => Directory.sizesOk d && DirList.sizesOk rest
end

mutual
/-- No two files of a directory of the tree have the same name, as in the set
`files`. -/
def Directory.distinctNames : Directory → Bool
  | .mk _ _ _ _ _ fs ds =>
    decide ((fs.map (fun f => f.name)).Nodup) && DirList.distinctNames ds
/-- The same for the directories of a map. -/
def DirList.distinctNames : DirList → Bool
  | .nil => true
  | .cons d rest => Directory.distinctNames d && DirList.distinctNames rest
end

namespace ShareManager

/-- The directory at an address among the directory objects. -/
def nodeAt (ts : List Directory) (a : Addr) : Option Directory :=
  match ts.get? a.tree with
  | some t => t.getAt a.pos
  | none => none

/-- The directory objects with a write to the directory at an address. -/
def upd (ts : List Directory) (a : Addr) (g : Directory → Directory) : List Directory :=
  ts.modify (Directory.modifyAt g a.pos) a.tree

/-- Every directory reachable from a top-level share root has as its `size` the sum of
the sizes of its files. -/
def Manager.sizesHold (env : ShareEnv) (m : Manager) : Prop :=
  ∀ i ∈ getParents env.isSub m.shares, ∀ (q : List Nat) (d : Directory),
    m.getDir ⟨i.2.tree, i.2.pos ++ q⟩ = some d → d.size = (d.files.map (fun f => f.size)).sum

/-- In every directory reachable from a top-level share root no two files have the
same name. -/
def Manager.namesDistinct (env : ShareEnv) (m : Manager) : Prop :=
  ∀ i ∈ getParents env.isSub m.shares, ∀ d : Directory,
    m.getDir i.2 = some d → d.distinctNames = true

end ShareManager

/-- The directory at the child numbers `q` of the tree, if there is one, has sizes that
hold in its whole subtree. -/
def Directory.okAt (t : Directory) (q : List Nat) : Prop :=
  ∀ y, t.getAt q = some y → y.sizesOk = true

/-- A write to a directory after which the sizes hold wherever they held before. -/
def Directory.keepsSizes (g : Directory → Directory) : Prop :=
  ∀ (x : Directory) (q : List Nat), x.okAt q → (g x).okAt q

namespace ShareManager

/-- The directory at an address, if there is one, has sizes that hold in its whole
subtree. -/
def okAtAddr (ts : List Directory) (b : Addr) : Prop :=
  ∀ y, nodeAt ts b = some y → y.sizesOk = true

/-- The directory at an address, if there is one, has no two files of one name in a
directory of its subtree. -/
def namesAtAddr (ts : List Directory) (b : Addr) : Prop :=
  ∀ y, nodeAt ts b = some y → y.distinctNames = true

end ShareManager

/-! ## The calls that follow a rebuild of the indices -/

namespace ShareManager

/-- A call that changes the share when a hash has finished: `onFileHashed(fname, root)`,
or `on(QueueManagerListener::BundleHashed, path)` together with what `buildTree` finds
under the path at that time. -/
inductive Hashed where
  | file (fname : Str) (root : TTHValue)
  | bundle (path : Str) (sc : Scan)

/-- What `buildTree` has found holds no two files of one name in a directory, as the
sets `files` it fills do. -/
def Hashed.distinctNames : Hashed → Bool
  | .file _ _ => true
  | .bundle _ sc =>
    decide ((sc.files.map (fun f => f.name)).Nodup) && sc.directories.distinctNames

/-- The state after one of the calls. -/
def Manager.onHashed (env : ShareEnv) (m : Manager) : Hashed → Except Fault Manager
  | .file fname root => m.onFileHashed env fname root
  | .bundle path sc => m.onBundleHashed env path sc

/-- The state after the calls of a list, one after the other. -/
def Manager.onAllHashed (env : ShareEnv) : List Hashed → Manager → Except Fault Manager
  | [], m => .ok m
  | e :: rest, m =>
    match m.onHashed env e with
    | .error err => .error err
    | .ok m1 => Manager.onAllHashed env rest m1

end ShareManager

/-! ## The remote listing: paths and their lookup -/

namespace DirectoryListing

/-- The loop of `DirectoryListing::getPath(d)`: `cur` is the directory `n` steps below
the root on the way to `d`, and `dir` the path put together so far. -/
def getPathLoop (root : Directory) (d : Pos) : Nat → Str → Option Str
  | 0, dir => some dir
  | n + 1, dir =>
    match getAt (d.take (n + 1)) root with
    | some cur => getPathLoop root d n (cur.name ++ ['\\'] ++ dir)
    | none => none

/-- `DirectoryListing::getPath(const Directory* d)` for the directory at position `d`
of the tree under `root`; `none` when the position leads nowhere. -/
def getPath (root : Directory) (d : Pos) : Option Str :=
  if d.isEmpty then some []
  else
    match getAt d root with
    | some x => getPathLoop root d (d.length - 1) (x.name ++ ['\\'])
    | none => none

/-- `Directory::getPath()` of the directory `n` steps below the root on the way to
position `p`: the directory itself has a parent from one step on, and its parent has
one from two steps on. -/
def Directory.getPathAt (root : Directory) (p : Pos) : Nat → Option Str
  | 0 => some (root.name ++ ['\\'])
  | n + 1 =>
    match getAt (p.take (n + 1)) root with
    | none => none
    | some x =>
      if n ≥ 1 then
        match Directory.getPathAt root p n with
        | some parentPath => some (parentPath ++ x.name ++ ['\\'])
        | none => none
      else some (x.name ++ ['\\'])

/-- `d->getPath()` for the directory at position `p` of the tree under `root`. -/
def Directory.getPath (root : Directory) (p : Pos) : Option Str :=
  Directory.getPathAt root p p.length

mutual
/-- `DirectoryListing::findDirectory(aName, current)`: the position, seen from
`current`, of the directory the path leads to; `none` is the null pointer. `sameName`
is the comparison `std::find` makes between a directory and the name (an `operator==`
declared in a header that is not among the sources). Where the path holds no
backslash `end` is `npos`, the largest value of `size_type`: `aName.substr(0, end)` is
the whole path, `aName.size() - 1` is `npos` for the empty path only, and `end + 1`
is 0. -/
def findDirectory (sameName : Str → Str → Bool) (aName : Str) : Directory → Option Pos
  | .mk _ _ _ _ _ _ _ directories => findDirectoryIn sameName aName directories 0
/-- The `std::find` of `findDirectory` over `current->directories` from index `k` on,
with what follows it. -/
def findDirectoryIn (sameName : Str → Str → Bool) (aName : Str) : DirList → Nat → Option Pos
  | .nil, _ => none
  | .cons d rest, k =>
    let pos := strFind aName '\\' 0
    let name : Str :=
      match pos with
      | some e => substr aName 0 e
      | none => aName
    if sameName d.name name then
      let last : Bool :=
        match pos with
        | some e => e + 1 == aName.length
        | none => aName.isEmpty
      if last then some [k]
      else
        let next : Str :=
          match pos with
          | some e => aName.drop (e + 1)
          | none => aName
        (findDirectory sameName next d).map (fun q => k :: q)
    else findDirectoryIn sameName aName rest (k + 1)
end

mutual
/-- No name of a directory below this one holds a backslash, and no directory is
taken for a sibling that stands behind it in `directories` by the comparison. -/
def Directory.namesApart (sameName : Str → Str → Bool) : Directory → Bool
  | .mk _ _ _ _ _ _ _ directories => DirList.namesApart sameName directories
/-- The same for the directories of a vector. -/
def DirList.namesApart (sameName : Str → Str → Bool) : DirList → Bool
  | .nil => true
  | .cons d rest =>
    !(d.name.contains '\\') && rest.toList.all (fun c => !(sameName d.name c.name))
      && Directory.namesApart sameName d && DirList.namesApart sameName rest
end

end DirectoryListing

/-! ## The remote listing: the search in a loaded list -/

namespace DirectoryListing

mutual
/-- `DirectoryListing::Directory::search`; the results are kept as the paths of the
`DirectSearchResult` objects. `parent` is `none` for a directory without parent, else
`parent->getPath()` and whether the parent has a parent itself, from which
`getPath()` of the directory follows. `adl` is the argument of `getTotalSize()`, whose
default value stands in a header that is not among the sources. -/
def Directory.search (adl : Bool) (maxResults : Nat) (aStrings : AdcSearch)
    (parent : Option (Str × Bool)) : Directory → List Str → List Str
  | .mk name complete partialSize date adls dupe files directories, aResults =>
    let path : Str :=
      match parent with
      | some (pp, true) => pp ++ name ++ ['\\']
      | _ => name ++ ['\\']
    let own : List Str :=
      if aStrings.hasRoot then
        if files.any (fun aFile => aFile.tthRoot == aStrings.root) then
          aResults ++ [Util.toAdcFile path]
        else aResults
      else
        let r1 : List Str :=
          if aStrings.matchesDirectDirectoryName name then
            let ppath : Str :=
              match parent with
              | some (pp, _) => Util.toAdcFile pp
              | none => str "/"
            if !(aResults.contains ppath)
                && aStrings.matchesSize
                  (Directory.getTotalSize adl
                    (.mk name complete partialSize date adls dupe files directories)) then
              aResults ++ [ppath]
            else aResults
          else aResults
        if !aStrings.isDirectory then
          if files.any (fun i => aStrings.matchesDirectFile i.name i.size) then
            r1 ++ [Util.toAdcFile path]
          else r1
        else r1
    DirList.search adl maxResults aStrings (some (path, parent.isSome)) directories own
/-- The loop of `Directory::search` over `directories`. -/
def DirList.search (adl : Bool) (maxResults : Nat) (aStrings : AdcSearch)
    (parent : Option (Str × Bool)) : DirList → List Str → List Str
  | .nil, aResults => aResults
  | .cons l rest, aResults =>
    if aResults.length < maxResults then
      DirList.search adl maxResults aStrings parent rest
        (Directory.search adl maxResults aStrings parent l aResults)
    else aResults
end

/-- The last branch of the `SEARCH` task in `run`, taken for a list that is not
partial: what `searchResults`, cleared before, holds when `endSearch` is called.
`directory` is the directory of the task and `sameName` the comparison of
`findDirectory`. -/
def searchFullList (sameName : Str → Str → Bool) (adl : Bool) (root : Directory)
    (curSearch : AdcSearch) (directory : Str) : List Str :=
  let dir : Option Pos :=
    if directory.isEmpty then some [] else findDirectory sameName directory root
  match dir with
  | some _ => Directory.search adl 100 curSearch none root []
  | none => []

end DirectoryListing

/-! ## Loading the profiles -/

namespace ShareManager

/-- `ShareManager::validateVirtual`: every backslash and every slash becomes an
underscore. -/
def validateVirtual (aVirt : Str) : Str :=
  aVirt.map (fun c => if c = '\\' ∨ c = '/' then '_' else c)

/-- A `ProfileDirectory` object with its flags. -/
structure ProfileDirObj where
  pd : ProfileDirectory
  FLAG_ROOT : Bool
  FLAG_EXCLUDE_PROFILE : Bool
  FLAG_INCOMING : Bool

/-- `shareProfiles[aProfile] = aName` on the map of a profile directory. -/
def assignProfile (profiles : List (ProfileToken × Str)) (aProfile : ProfileToken)
    (aName : Str) : List (ProfileToken × Str) :=
  if profiles.any (fun e => e.1 == aProfile) then
    profiles.map (fun e => if e.1 == aProfile then (e.1, aName) else e)
  else profiles ++ [(aProfile, aName)]

/-- `ProfileDirectory::ProfileDirectory(aRootPath, aVname, aProfile)`. -/
def ProfileDirObj.newRoot (aRootPath aVname : Str) (aProfile : ProfileToken) : ProfileDirObj :=
  { pd := { path := aRootPath, shareProfiles := [(aProfile, aVname)], excludedProfiles := [] },
    FLAG_ROOT := true, FLAG_EXCLUDE_PROFILE := false, FLAG_INCOMING := false }

/-- `ProfileDirectory::ProfileDirectory(aRootPath, aProfile)`. -/
def ProfileDirObj.newExclude (aRootPath : Str) (aProfile : ProfileToken) : ProfileDirObj :=
  { pd := { path := aRootPath, shareProfiles := [], excludedProfiles := [aProfile] },
    FLAG_ROOT := false, FLAG_EXCLUDE_PROFILE := true, FLAG_INCOMING := false }

/-- `ProfileDirectory::addRootProfile`. -/
def ProfileDirObj.addRootProfile (o : ProfileDirObj) (aName : Str) (aProfile : ProfileToken) :
    ProfileDirObj :=
  { o with pd := { o.pd with shareProfiles := assignProfile o.pd.shareProfiles aProfile aName },
           FLAG_ROOT := true }

/-- `ProfileDirectory::addExclude`; the set of excluded profiles holds a profile
once. -/
def ProfileDirObj.addExclude (o : ProfileDirObj) (aProfile : ProfileToken) : ProfileDirObj :=
  { o with pd := { o.pd with excludedProfiles :=
                    if o.pd.excludedProfiles.contains aProfile then o.pd.excludedProfiles
                    else o.pd.excludedProfiles ++ [aProfile] },
           FLAG_EXCLUDE_PROFILE := true }

/-- A `<Directory Virtual=".." Incoming="..">data</Directory>` child of a profile
element, as `loadProfile` reads it through `SimpleXML`. -/
structure RootElement where
  data : Str
  Virtual : Str
  Incoming : Bool

/-- The children of a `<Share>` or `<ShareProfile>` element that `loadProfile` reads:
the `<Directory>` children in order, and the data of the `<Directory>` children of the
first `<NoShare>` child, if there is one. -/
structure ProfileElement where
  directories : List RootElement
  noShare : Option (List Str)

/-- The part of `ShareManager` that `loadProfile` writes: `shareProfiles` as pairs of
name and token, `profileDirs`, and of every entry of `shares` the key and the real name
of its directory object; the profile directory of a root created here is the entry of
`profileDirs` for its path. -/
structure Profiles where
  shareProfiles : List (Str × ProfileToken)
  profileDirs : List (Str × ProfileDirObj)
  shares : List (Str × Str)

/-- What `loadProfile` reads outside its arguments: the comparison of the keys of the
maps `profileDirs` and `shares` (their types are declared in a header that is not among
the sources), and `Util::getLastDir`. -/
structure LoadEnv where
  sameKey : Str → Str → Bool
  getLastDir : Str → Str

/-- The body of the first loop of `loadProfile` for one `<Directory>` child. -/
def loadRoot (env : LoadEnv) (aToken : ProfileToken) (st : Profiles) (e : RootElement) :
    Profiles :=
  if e.data.isEmpty then st
  else
    let realPath :=
      if e.data.getLast? ≠ some PATH_SEPARATOR then e.data ++ [PATH_SEPARATOR] else e.data
    let virtualName := e.Virtual
    let _vName := validateVirtual (if virtualName.isEmpty then env.getLastDir realPath
      else virtualName)
    let found := st.profileDirs.any (fun p => env.sameKey p.1 realPath)
    let setIncoming : ProfileDirObj → ProfileDirObj := fun o =>
      if e.Incoming then { o with FLAG_INCOMING := true } else o
    let profileDirs1 : List (Str × ProfileDirObj) :=
      if found then
        st.profileDirs.map (fun p =>
          if env.sameKey p.1 realPath then
            (p.1, setIncoming (p.2.addRootProfile virtualName aToken))
          else p)
      else
        st.profileDirs ++ [(realPath, setIncoming (.newRoot realPath virtualName aToken))]
    let shares1 : List (Str × Str) :=
      if st.shares.any (fun j => env.sameKey j.1 realPath) then st.shares
      else st.shares ++ [(realPath, virtualName)]
    { st with profileDirs := profileDirs1, shares := shares1 }

/-- The body of the second loop of `loadProfile` for one `<Directory>` child of
`<NoShare>`. -/
def loadExclude (env : LoadEnv) (aToken : ProfileToken) (st : Profiles) (path : Str) :
    Profiles :=
  if st.profileDirs.any (fun p => env.sameKey p.1 path) then
    { st with profileDirs := st.profileDirs.map (fun p =>
        if env.sameKey p.1 path then (p.1, p.2.addExclude aToken) else p) }
  else
    { st with profileDirs := st.profileDirs ++ [(path, .newExclude path aToken)] }

/-- `ShareManager::loadProfile`. -/
def loadProfile (env : LoadEnv) (st : Profiles) (aXml : ProfileElement) (aName : Str)
    (aToken : ProfileToken) : Profiles :=
  let st1 := { st with shareProfiles := st.shareProfiles ++ [(aName, aToken)] }
  let st2 := aXml.directories.foldl (loadRoot env aToken) st1
  match aXml.noShare with
  | some paths => paths.foldl (loadExclude env aToken) st2
  | none => st2

/-- The virtual name a profile has registered for the root at a path:
`getProfileDir()->getName(aProfile)` of the entry of `profileDirs`. -/
def Profiles.rootName (env : LoadEnv) (st : Profiles) (path : Str) (aProfile : ProfileToken) :
    Option Str :=
  (st.profileDirs.find? (fun p => env.sameKey p.1 path)).map (fun p => p.2.pd.getName aProfile)

end ShareManager

/-! ## The size of the share -/

namespace ShareManager

/-- The sum of the sizes of the file nodes reachable from a top-level share root. -/
def Manager.reachableSize (env : ShareEnv) (m : Manager) : Int :=
  (((m.reachableFiles env).filterMap m.getFile).map (fun f => f.size)).sum

end ShareManager

/-! ## The remote listing: where the directories flagged `adls` stand -/

namespace DirectoryListing

mutual
/-- No directory below this one is flagged `adls`, as in every tree the parser
builds: it creates each directory with `adls = false`. -/
def Directory.noAdlsBelow : Directory → Bool
  | .mk _ _ _ _ _ _ _ directories => DirList.noAdls directories
/-- No directory of the vector is flagged `adls` and none below them is. -/
def DirList.noAdls : DirList → Bool
  | .nil => true
  | .cons d rest => !d.getAdls && Directory.noAdlsBelow d && DirList.noAdls rest
end

end DirectoryListing

/-! ## The virtual tree of a share -/

/-- The file of a listing that stands for a shared file: its name, its size and its
TTH. -/
def File.listed (f : File) : DirectoryListing.File :=
  { name := f.name, size := f.size, tthRoot := f.tth, adls := false, dupe := .DUPE_NONE }

mutual
/-- What the specification calls the emitted virtual tree, one shared directory at a
time: the directories of a level of the listing after the shared directory has been
entered among them. A shared directory goes to the directory of the level that carries
its virtual name up to case, which keeps its name and gets the files behind those it
has and the subdirectories entered among those it has; where the level has no
directory of that name, a complete directory of that name with the files and the
subdirectories is put behind the others. Subdirectories that are excluded from the
profile are left out. -/
def Directory.virtualInto (aProfile : ProfileToken) :
    Directory → DirectoryListing.DirList → DirectoryListing.DirList
  | .mk realName profileDir fileTypes size lastWrite files directories, level =>
    let vName :=
      (Directory.mk realName profileDir fileTypes size lastWrite files directories).getVirtualName
        aProfile
    match level.findIdx? (fun r => stricmp r.name vName) with
    | some k =>
      level.modify (fun r =>
        (r.setDirectories (DirList.virtualInto aProfile directories r.directories)).setFiles
          (r.files ++ files.map File.listed)) k
    | none =>
      level.push (.mk vName true 0 0 false .DUPE_NONE (files.map File.listed)
        (DirList.virtualInto aProfile directories .nil))
/-- The same for the subdirectories of a shared directory, in their order. -/
def DirList.virtualInto (aProfile : ProfileToken) :
    DirList → DirectoryListing.DirList → DirectoryListing.DirList
  | .nil, level => level
  | .cons d rest, level =>
    if d.isLevelExcluded aProfile then DirList.virtualInto aProfile rest level
    else DirList.virtualInto aProfile rest (Directory.virtualInto aProfile d level)
end

/-- The files of a listing show the shared file: one of them carries its name, its size
and its TTH. -/
def File.shownIn (f : File) (fs : List DirectoryListing.File) : Bool :=
  fs.any (fun g => g.name == f.name && g.size == f.size && g.tthRoot == f.tth)

mutual
/-- A directory of a listing holds the shared directory: it carries the virtual name of
the shared directory up to case, its files show every file of the shared directory,
and its directories hold every subdirectory of the shared directory that is not
excluded from the profile. -/
def Directory.heldBy (aProfile : ProfileToken) : Directory → DirectoryListing.Directory → Bool
  | .mk realName profileDir fileTypes size lastWrite files directories, e =>
    stricmp e.name
        ((Directory.mk realName profileDir fileTypes size lastWrite files
          directories).getVirtualName aProfile)
      && files.all (fun f => f.shownIn e.files)
      && DirList.heldBy aProfile directories e.directories
/-- The directories of a level of a listing hold every shared directory of the map that
is not excluded from the profile. -/
def DirList.heldBy (aProfile : ProfileToken) : DirList → DirectoryListing.DirList → Bool
  | .nil, _ => true
  | .cons d rest, level =>
    (d.isLevelExcluded aProfile || level.toList.any (fun e => Directory.heldBy aProfile d e))
      && DirList.heldBy aProfile rest level
end

namespace ShareManager

end ShareManager

namespace DirectoryListing

/-- The directory that a `Directory` tag describes, with the files and directories its
children describe. -/
def mirrorTag (t : XmlTag) : Directory :=
  .mk (getAttrib t.attribs sName 0)
    (!(getAttrib t.attribs sIncomplete 1 == str "1"))
    (if (getAttrib t.attribs sSize 2).isEmpty then 0
      else Util.toInt64 (getAttrib t.attribs sSize 2))
    0 false .DUPE_NONE (mirrorFiles t.children) (mirrorDirs t.children)

end DirectoryListing

/-! ## Example states -/

/-- A profile directory that registers one profile under a virtual name. -/
def rootFor (path : Str) (aProfile : ProfileToken) (vname : Str) : ProfileDirectory :=
  { path := path, shareProfiles := [(aProfile, vname)], excludedProfiles := [] }

/-- A profile directory that is an exclusion marker for one profile. -/
def excludeFor (path : Str) (aProfile : ProfileToken) : ProfileDirectory :=
  { path := path, shareProfiles := [], excludedProfiles := [aProfile] }

/-- The root `/home/a/` shared as `a` for the default profile. -/
def exTop : DirRef := .top (str "a") (some (rootFor (str "/home/a/") 0 (str "a")))

/-- Its child `b`, excluded from the default profile. -/
def exExcluded : DirRef := .sub (str "b") (some (excludeFor (str "/home/a/b/") 0)) exTop

/-- The grandchild `c`, shared again as a root `c` of the default profile. -/
def exNestedRoot : DirRef := .sub (str "c") (some (rootFor (str "/home/a/b/c/") 0 (str "c"))) exExcluded

/-- The directory `/home/a/` itself, holding two files with the same TTH. -/
def exTopDir : Directory :=
  .mk (str "a") (some (rootFor (str "/home/a/") 0 (str "a"))) 129 12 0
    [⟨str "x.bin", 5, str "H1"⟩, ⟨str "y.bin", 7, str "H1"⟩] .nil

/-- A share of the one root `/home/a/`, whose two files carry the same TTH `H1`. -/
def exTwinShare : ShareManager :=
  { shares := [(str "/home/a/", ⟨none, exTopDir⟩)],
    tthIndex := [⟨⟨str "x.bin", 5, str "H1"⟩, exTop⟩, ⟨⟨str "y.bin", 7, str "H1"⟩, exTop⟩],
    tempShares := [],
    bloom := fun _ => true }

/-- An ADC query that carries the root `h` and nothing else. -/
def rootQuery (h : TTHValue) : AdcSearch :=
  { includePtr := [], includeX := [], hasRoot := true, root := h, gt := 0, lt := 0, ext := [],
    isDirectory := false, isExcluded := fun _ => false, hasExt := fun _ => true,
    matchesDirectDirectoryName := fun _ => false, matchesDirectFile := fun _ _ => false,
    matchesSize := fun _ => true }

/-- The result the ADC root search builds for an index entry. -/
def IndexedFile.result? (e : IndexedFile) (aProfile : ProfileToken) : Option SearchResult :=
  match e.parent.getFullName aProfile with
  | .ok fullName => some ⟨.TYPE_FILE, e.file.size, fullName ++ e.file.name, e.file.tth⟩
  | .error _ => none

/-- The results C1 asks for: one for every indexed file with TTH `h` whose directory
is visible for the profile. -/
def ShareManager.visibleByTTH (st : ShareManager) (h : TTHValue) (aProfile : ProfileToken) :
    List SearchResult :=
  ((st.equalRangeTTH h).filter (fun e => e.parent.hasProfile aProfile)).filterMap
    (fun e => e.result? aProfile)

/-- The directory `/home/a/b/`, excluded from the default profile, with one file. -/
def exExcludedDir : Directory :=
  .mk (str "b") (some (excludeFor (str "/home/a/b/") 0)) 129 7 0 [⟨str "f.bin", 7, str "H2"⟩] .nil

/-- A share of the root `/home/a/` whose only file lies in the excluded `b`. -/
def exExcludedShare : ShareManager :=
  { shares := [(str "/home/a/",
      ⟨none, .mk (str "a") (some (rootFor (str "/home/a/") 0 (str "a"))) 129 0 0 []
        (.cons exExcludedDir .nil)⟩)],
    tthIndex := [⟨⟨str "f.bin", 7, str "H2"⟩, exExcluded⟩],
    tempShares := [],
    bloom := fun _ => true }

/-- A file system in which every path exists. -/
def fsAll : FileSystem := { fileExists := fun _ => true, found := fun _ => true }

/-- A share with two roots that both carry the virtual name `Music`: `/d1/` with the
subdirectory `Rock` (itself holding `Queen`), and `/d2/` with a subdirectory `Rock`
that is excluded from the default profile. -/
def exMusicShare : ShareManager :=
  { shares :=
      [(str "/d1/", ⟨none, .mk (str "d1") (some (rootFor (str "/d1/") 0 (str "Music"))) 129 0 0 []
          (.cons (.mk (str "Rock") none 129 0 0 []
            (.cons (.mk (str "Queen") none 129 0 0 [] .nil) .nil)) .nil)⟩),
       (str "/d2/", ⟨none, .mk (str "d2") (some (rootFor (str "/d2/") 0 (str "music"))) 129 0 0 []
          (.cons (.mk (str "Rock") (some (excludeFor (str "/d2/Rock/") 0)) 129 0 0 [] .nil) .nil)⟩)],
    tthIndex := [], tempShares := [], bloom := fun _ => true }

/-- A share of one root whose virtual name is `song`, holding the file `a.txt`. -/
def exSongShare : ShareManager :=
  { shares := [(str "/song/", ⟨none, .mk (str "song") (some (rootFor (str "/song/") 0 (str "song")))
      255 1 0 [⟨str "a.txt", 1, str "T1"⟩] .nil⟩)],
    tthIndex := [⟨⟨str "a.txt", 1, str "T1"⟩,
      .top (str "song") (some (rootFor (str "/song/") 0 (str "song")))⟩],
    tempShares := [], bloom := fun _ => true }

/-- The root of the `song$mp3` scenario: a root of the default profile with the
virtual name `vname`, whose directory `albums` holds the one file `f`. -/
def albumsRoot (path rootName vname : Str) (ftRoot ftAlbums : Nat) (f : File) : Directory :=
  .mk rootName (some (rootFor path 0 vname)) ftRoot 0 0 []
    (.cons (.mk (str "albums") none ftAlbums f.size 0 [f] .nil) .nil)

/-- The share of the `song$mp3` scenario: the one root `albumsRoot`. -/
def albumsShare (path rootName vname : Str) (ftRoot ftAlbums : Nat) (f : File)
    (bloom : Str → Bool) : ShareManager :=
  { shares := [(path, ⟨none, albumsRoot path rootName vname ftRoot ftAlbums f⟩)],
    tthIndex := [⟨f, .sub (str "albums") none (.top rootName (some (rootFor path 0 vname)))⟩],
    tempShares := [], bloom := bloom }

/-- A share with two roots `/d1/` and `/d2/` that carry the same virtual name `music`,
each holding one file. -/
def exTwoRoots : ShareManager :=
  { shares :=
      [(str "/d1/", ⟨none, .mk (str "d1") (some (rootFor (str "/d1/") 0 (str "music"))) 131 3 0
          [⟨str "x.mp3", 3, str "T1"⟩] .nil⟩),
       (str "/d2/", ⟨none, .mk (str "d2") (some (rootFor (str "/d2/") 0 (str "music"))) 131 4 0
          [⟨str "y.mp3", 4, str "T2"⟩] .nil⟩)],
    tthIndex :=
      [⟨⟨str "x.mp3", 3, str "T1"⟩, .top (str "d1") (some (rootFor (str "/d1/") 0 (str "music")))⟩,
       ⟨⟨str "y.mp3", 4, str "T2"⟩, .top (str "d2") (some (rootFor (str "/d2/") 0 (str "music")))⟩],
    tempShares := [], bloom := fun _ => true }

/-- A direct-search query without a root that every file satisfies and no directory
name does. -/
def anyFileQuery : AdcSearch :=
  { includePtr := [], includeX := [], hasRoot := false, root := [], gt := 0, lt := 0, ext := [],
    isDirectory := false, isExcluded := fun _ => false, hasExt := fun _ => true,
    matchesDirectDirectoryName := fun _ => false, matchesDirectFile := fun _ _ => true,
    matchesSize := fun _ => true }

namespace DirectoryListing

/-- A remote file of size 1 with the given dupe state. -/
def exFile (name : Str) (dupe : DupeType) : File :=
  { name := name, size := 1, tthRoot := name, adls := false, dupe := dupe }

/-- A complete remote directory with dupe state `NONE`. -/
def exDir (name : Str) (files : List File) (ds : DirList) : Directory :=
  .mk name true 0 0 false .DUPE_NONE files ds

end DirectoryListing

namespace DirectoryListing

/-- An environment in which nothing is a dupe and every date reads as 0. -/
def exEnv : Env :=
  { fileDupe := fun _ _ => .DUPE_NONE, dirDupe := fun _ _ => .DUPE_NONE, toDate := fun _ => 0 }

/-- The opening of a full list followed by the self-closing directory `a`. -/
def exOpening : List (Bool × XmlEvent) :=
  [(false, .startTag sFileListing [(str "Version", str "1"), (sBase, str "/")] false),
   (false, .startTag sDirectory [(sName, str "a")] true)]

end DirectoryListing

namespace DirectoryListing

/-- The text of a partial list with two incomplete directories under the root. -/
def exTwoDirsXml : Str :=
  str "<FileListing Base=\"/\"><Directory Name=\"a\" Incomplete=\"1\"/><Directory Name=\"b\" Incomplete=\"1\"/></FileListing>"

/-- The callbacks of the reader on `exTwoDirsXml`, the abort flag being set after the
element of directory `a` has been handled. -/
def exTwoDirsAborted : InputStream :=
  { events :=
      [(false, .startTag sFileListing [(sBase, str "/")] false),
       (false, .startTag sDirectory [(sName, str "a"), (sIncomplete, str "1")] true),
       (true, .startTag sDirectory [(sName, str "b"), (sIncomplete, str "1")] true),
       (true, .endTag sFileListing)],
    failure := none }

/-- An environment of the worker: the own share has no list to give, no file can be
opened beyond `list.xml`, and the reader is as above on `exTwoDirsXml`. -/
def exRunEnv : RunEnv :=
  { env := exEnv,
    openFile := fun _ => none,
    fileStream := fun name _ =>
      if name = str "list.xml" then exTwoDirsAborted else { events := [] },
    memoryStream := fun xml =>
      if xml = exTwoDirsXml then exTwoDirsAborted else { events := [] },
    generatePartialList := fun _ _ _ => none,
    matchADL := fun l => .ok l,
    matchQueue := fun _ => .ok [],
    search := fun s _ => .ok (s.list, []),
    nick := str "nick",
    skipSubtract := 0,
    toInt := Util.toInt64,
    MATCHING_ADL := str "Matching ADL",
    FILE_NOT_AVAILABLE := str "File Not Available" }

/-- A worker on an empty partial list of another user with one task queued. -/
def exWorker (own : Bool) (task : Task) : State :=
  { list := Listing.new true true own true,
    fileName := if own then str "0" else str "list.xml",
    matchADL := false,
    tasks := [task],
    running := true,
    fired := [] }

end DirectoryListing

namespace ShareManager

/-- An environment in which the refresh thread starts, `isSub` is the strict prefix
test up to case, and no profile directory carries `FLAG_INCOMING`. -/
def exRefreshEnv : RefreshEnv :=
  { isSub := fun aDir aParent =>
      decide (aDir.length > aParent.length) && stricmp (aDir.take aParent.length) aParent,
    FLAG_INCOMING := fun _ => false,
    startThrows := false,
    joined := fun m => m }

/-- The share of `/song/` while a refresh is in progress: the flag is set and the
queue is empty. -/
def exRefreshing : Manager :=
  { trees := [.mk (str "song") (some (rootFor (str "/song/") 0 (str "song")))
      255 1 0 [⟨str "a.txt", 1, str "T1"⟩] .nil],
    shares := [(str "/song/", ⟨0, []⟩)],
    dirNameMap := [(str "song", ⟨0, []⟩)],
    tthIndex := [⟨⟨0, []⟩, str "a.txt"⟩],
    bloom := fun _ => true,
    sharedSize := 1,
    tasks := [], refreshing := true, refreshRunning := true, starts := 1 }

end ShareManager

namespace ShareManager

/-- An environment of the functions that change the share: paths are compared up to
case, the flag `FLAG_ROOT` stands for a profile directory with share profiles, the
bloom filter is kept as the exact set of strings added, the scan of `C:\a\b\` finds
the file `x.bin` with TTH `H1`, every other scan the file `new.bin`, and `aShutdown`
is found set when the scan of `/song/` returns. -/
def exShareEnv : ShareEnv :=
  { isSub := fun aDir aParent =>
      decide (aDir.length > aParent.length) && stricmp (aDir.take aParent.length) aParent,
    isParentOrExact := fun aDir aSub =>
      decide (aSub.length ≥ aDir.length) && stricmp (aSub.take aDir.length) aDir,
    getLastDir := fun path =>
      ((path.reverse.drop 1).takeWhile (fun c => c != PATH_SEPARATOR)).reverse,
    getFilePath := fun path =>
      (path.reverse.dropWhile (fun c => c != PATH_SEPARATOR)).reverse,
    rarMatch := fun _ => false,
    bloomAdd := fun b x => fun y => b y || decide (y = x),
    bloomClear := fun _ => false,
    FLAG_ROOT := fun pd => !pd.shareProfiles.isEmpty,
    FLAG_EXCLUDE_TOTAL := fun _ => false,
    checkHidden := fun _ => true,
    findLastWrite := fun _ => 0,
    scan := fun path =>
      { files :=
          if path = str "C:\\a\\b\\" then [⟨str "x.bin", 7, str "H1"⟩]
          else [⟨str "new.bin", 3, str "T9"⟩],
        directories := .nil,
        aShutdown := decide (path = str "/song/") },
    checkSharedName := fun _ _ => true,
    profileDirs := fun _ => none,
    getSize := fun _ => 3,
    GET_TIME := 0,
    fileLess := fun a b => decide (a.length < b.length) }

/-- The share of `/song/` when its refresh thread starts on a refresh of that
directory. -/
def exSongRefresh (type : TaskType) : Manager :=
  { exRefreshing with tasks := [(type, [str "/song/"])] }

end ShareManager

namespace ShareManager

/-- The root `C:\a\`, shared as `a`, with its subdirectory `b`, which is a root of its
own shared as `b` and holds the file `x.bin` with TTH `H1`. -/
def exNestedTree : Directory :=
  .mk (str "a") (some (rootFor (str "C:\\a\\") 0 (str "a"))) 128 0 0 []
    (.cons (.mk (str "b") (some (rootFor (str "C:\\a\\b\\") 0 (str "b"))) 128 7 0
      [⟨str "x.bin", 7, str "H1"⟩] .nil) .nil)

/-- A share of the root `C:\a\` and the root `C:\a\b\` below it, the latter being
the subdirectory `b` of the former, with its indices; a refresh of `C:\a\b\` is
queued. -/
def exNested : Manager :=
  { trees := [exNestedTree],
    shares := [(str "C:\\a\\b\\", ⟨0, [0]⟩), (str "C:\\a\\", ⟨0, []⟩)],
    dirNameMap := [(str "a", ⟨0, []⟩), (str "b", ⟨0, [0]⟩)],
    tthIndex := [⟨⟨0, [0]⟩, str "x.bin"⟩],
    bloom := fun _ => true,
    sharedSize := 7,
    tasks := [(.REFRESH_DIR, [str "C:\\a\\b\\"])],
    refreshing := true, refreshRunning := false, starts := 1 }

/-- The state `run` leaves when it has refreshed `C:\a\b\`: the share of that path
is a new directory object without parent, the tree of `C:\a\` still holds the old
subdirectory `b`, and `rebuildIndices` has indexed the tree of `C:\a\`. -/
def exNestedRefreshed : Manager :=
  { trees := [exNestedTree,
      .mk (str "b") (some (rootFor (str "C:\\a\\b\\") 0 (str "b"))) 128 0 0
        [⟨str "x.bin", 7, str "H1"⟩] .nil],
    shares := [(str "C:\\a\\b\\", ⟨1, []⟩), (str "C:\\a\\", ⟨0, []⟩)],
    dirNameMap := [(str "a", ⟨0, []⟩), (str "b", ⟨1, []⟩)],
    tthIndex := [⟨⟨0, [0]⟩, str "x.bin"⟩],
    bloom := fun y =>
      (((false || decide (y = str "a")) || decide (y = str "b")) || decide (y = str "x.bin")),
    sharedSize := 7,
    tasks := [], refreshing := false, refreshRunning := false, starts := 1 }

end ShareManager

namespace DirectoryListing

/-- The attributes of `<FileListing Base="/music/rock/">`. -/
def exBaseRock : List (Str × Str) := [(str "Version", str "1"), (sBase, str "/music/rock/")]

/-- The attributes of `<Directory Name="queen" Incomplete="1" Size="500"/>`. -/
def exQueen : List (Str × Str) :=
  [(sName, str "queen"), (sIncomplete, str "1"), (sSize, str "500")]

/-- The attributes of `<FileListing Base="/music/rock/queen/">`. -/
def exBaseQueen : List (Str × Str) :=
  [(str "Version", str "1"), (sBase, str "/music/rock/queen/")]

/-- The attributes of `<File Name="a.mp3" Size="10" TTH="AAAA"/>`. -/
def exFileA : List (Str × Str) := [(sName, str "a.mp3"), (sSize, str "10"), (sTTH, str "AAAA")]

/-- The attributes of `<File Name="b.mp3" Size="32" TTH="BBBB"/>`. -/
def exFileB : List (Str × Str) := [(sName, str "b.mp3"), (sSize, str "32"), (sTTH, str "BBBB")]

end DirectoryListing


/-- A temp-share table with three records under the TTH `H1`: one for the user `U2`,
a public one, and one for the user `U1`. -/
def exTempShares : ShareManager :=
  { shares := [], tthIndex := [],
    tempShares :=
      [(str "H1", ⟨str "U2", str "C:\\tmp\\b.bin", 2⟩),
       (str "H1", ⟨[], str "C:\\tmp\\a.bin", 1⟩),
       (str "H1", ⟨str "U1", str "C:\\tmp\\c.bin", 3⟩)],
    bloom := fun _ => true }

namespace ShareManager

/-- Settings with `REMOVE_FORBIDDEN` on, a skip list that matches nothing, no rule
against empty files and no size limit. -/
def exNameEnv : NameEnv :=
  { skipListMatch := fun _ => false, REMOVE_FORBIDDEN := true, NO_ZERO_BYTE := false,
    MAX_FILE_SIZE_SHARED := 0, privKeyFile := str "C:\\keys\\client.key",
    winDir := str "c:\\windows\\", tempDLDir := str "C:\\temp\\",
    getLastDir := fun path => Util.getFileName (path.take (path.length - 1)) }

end ShareManager

namespace DirectoryListing

/-- A tree of complete directories: the root holds `music`, which holds the directory
`hits` flagged `adls` with one file of size 1. -/
def exAdlsBelow : Directory :=
  exDir [] []
    (.cons (exDir (str "music") []
      (.cons (.mk (str "hits") true 0 0 true .DUPE_NONE [exFile (str "a.mp3") .DUPE_NONE] .nil)
        .nil)) .nil)

end DirectoryListing

namespace DirectoryListing

/-- A listing tree: `keep` holds `a` and `b`; `small` holds `a` and the file `tiny` of
size 1; `gone` holds `a` alone. -/
def exMine : Directory :=
  exDir [] []
    (.cons (exDir (str "keep") [exFile (str "a") .DUPE_NONE,
        { name := str "b", size := 4096, tthRoot := str "b", adls := false, dupe := .DUPE_NONE }]
        .nil)
      (.cons (exDir (str "small") [exFile (str "a") .DUPE_NONE, exFile (str "tiny") .DUPE_NONE]
          .nil)
        (.cons (exDir (str "gone") [exFile (str "a") .DUPE_NONE] .nil) .nil)))

/-- The other listing: it holds the file `a` in a subdirectory. -/
def exOther : Listing :=
  { Listing.new false true false false with
    root := exDir [] [] (.cons (exDir (str "x") [exFile (str "a") .DUPE_NONE] .nil) .nil) }

end DirectoryListing

/-- A root with the virtual name `music` and nothing in it. -/
def exMusicRoot : Directory :=
  .mk (str "d1") (some (rootFor (str "C:\\d1\\") 0 (str "music"))) 129 0 0 [] .nil

namespace DirectoryListing

/-- The environment `exRunEnv` with a file `other.xml` that lists the one file `a`. -/
def exDiffEnv : RunEnv :=
  { exRunEnv with
    fileStream := fun name _ =>
      if name = str "other.xml" then
        { events :=
            [(false, .startTag sFileListing [(str "Version", str "1"), (sBase, str "/")] false),
             (false, .startTag sFile [(sName, str "a"), (sSize, str "1"), (sTTH, str "a")] true),
             (false, .endTag sFileListing)] }
      else { events := [] } }

/-- A full list of another user with the tree `exMine`, an empty queue and no worker
running. -/
def exDiffState : State :=
  { list := { Listing.new false true false true with root := exMine },
    fileName := str "list.xml",
    matchADL := false,
    tasks := [],
    running := false,
    fired := [] }

end DirectoryListing

namespace DirectoryListing

/-- A planner environment for a full list: the target is taken as it is, the release
pattern is met by the names that contain `.release.`, names are ordered as `Str`
orders them, and the queue refuses every file named `bad.bin` with a
`QueueException`. -/
def exPlanEnv : PlanEnv :=
  { partialList := false,
    validateFileName := fun x => x,
    formatTime := fun x _ => x,
    FORMAT_DIR_REMOTE_TIME := false,
    GET_TIME := 100,
    releaseMatch := fun n => isSubstring (str ".release.") n,
    nameLess := fun a b => decide (a < b),
    DEFAULT := 3,
    add := fun target _ _ _ _ =>
      if Util.getFileName target = str "bad.bin" then .QueueException else .ok }

/-- The root of a list with the two release directories `beta.release.720p` and
`alpha.release.1080p`, each with one file. -/
def exReleases : Directory :=
  exDir [] []
    (.cons (exDir (str "beta.release.720p") [exFile (str "b.mkv") .DUPE_NONE] .nil)
      (.cons (exDir (str "alpha.release.1080p") [exFile (str "a.mkv") .DUPE_NONE] .nil)
        .nil))

/-- A directory `album` with the files `z.mp3`, `bad.bin` and `a.mp3` and the
subdirectory `covers` holding `front.jpg`. -/
def exAlbum : Directory :=
  exDir (str "album")
    [exFile (str "z.mp3") .DUPE_NONE, exFile (str "bad.bin") .DUPE_NONE,
      exFile (str "a.mp3") .DUPE_NONE]
    (.cons (exDir (str "covers") [exFile (str "front.jpg") .DUPE_NONE] .nil) .nil)

end DirectoryListing

namespace ShareManager

/-- A share of the root `C:\a\` and the root `C:\a\b\` below it whose sizes are stale:
the root claims 99 bytes and has no file, `b` claims none and holds `x.bin` of 7
bytes. -/
def exStale : Manager :=
  { trees := [.mk (str "a") (some (rootFor (str "C:\\a\\") 0 (str "a"))) 128 99 0 []
      (.cons (.mk (str "b") (some (rootFor (str "C:\\a\\b\\") 0 (str "b"))) 128 0 0
        [⟨str "x.bin", 7, str "H1"⟩] .nil) .nil)],
    shares := [(str "C:\\a\\b\\", ⟨0, [0]⟩), (str "C:\\a\\", ⟨0, []⟩)],
    dirNameMap := [(str "a", ⟨0, []⟩), (str "b", ⟨0, [0]⟩)],
    tthIndex := [],
    bloom := fun _ => false,
    sharedSize := 0,
    tasks := [],
    refreshing := false, refreshRunning := false, starts := 1 }

/-- The file `C:\a\b\y.bin` is hashed, then the bundle `C:\a\b\`, where the scan finds
the file `p.bin` of 5 bytes and the directory `s`, which claims no bytes and holds
`q.bin` of 6, then the file `C:\a\z.bin`. -/
def exHashed : List Hashed :=
  [.file (str "C:\\a\\b\\y.bin") (str "H2"),
   .bundle (str "C:\\a\\b\\")
     { files := [⟨str "p.bin", 5, str "H3"⟩],
       directories := .cons (.mk (str "s") none 128 0 0 [⟨str "q.bin", 6, str "H4"⟩] .nil) .nil,
       aShutdown := false },
   .file (str "C:\\a\\z.bin") (str "H5")]

end ShareManager

namespace DirectoryListing

/-- A worker on the full list of another user, with the tasks given queued. -/
def exFullWorker (tasks : List Task) : State :=
  { list := Listing.new false true false true,
    fileName := str "list.xml",
    matchADL := false,
    tasks := tasks,
    running := true,
    fired := [] }

end DirectoryListing

namespace DirectoryListing

/-- The callbacks of the reader on the partial list
`<FileListing Base="/a/"><Directory Name="N" Incomplete="1"/><File Name="f.txt"
Size="1" TTH="T"/></FileListing>` for the name `N` given. -/
def exBaseChild (n : Str) : InputStream :=
  { events :=
      [(false, .startTag sFileListing [(str "Version", str "1"), (sBase, str "/a/")] false),
       (false, .startTag sDirectory [(sName, n), (sIncomplete, str "1")] true),
       (false, .startTag sFile [(sName, str "f.txt"), (sSize, str "1"), (sTTH, str "T")] true),
       (false, .endTag sFileListing)],
    failure := none }

end DirectoryListing

namespace DirectoryListing

/-- A listing tree: the root holds `Music` and `Video`, and `Music` holds `Rock`, which
holds `Queen`. -/
def exPaths : Directory :=
  exDir [] []
    (.cons (exDir (str "Music") []
      (.cons (exDir (str "Rock") [] (.cons (exDir (str "Queen") [] .nil) .nil)) .nil))
    (.cons (exDir (str "Video") [] .nil) .nil))

/-- A listing tree whose root holds the two directories `Music` and `music`. -/
def exTwins : Directory :=
  exDir [] [] (.cons (exDir (str "Music") [] .nil) (.cons (exDir (str "music") [] .nil) .nil))

end DirectoryListing

namespace DirectoryListing

/-- A full list whose root holds the directory `A` with the file `x.mp3` and the
directory `B` with the file `y.mp3`. -/
def exTwoAlbums : Directory :=
  exDir [] []
    (.cons (exDir (str "A") [exFile (str "x.mp3") .DUPE_NONE] .nil)
    (.cons (exDir (str "B") [exFile (str "y.mp3") .DUPE_NONE] .nil) .nil))

/-- A query without root that every file matches and no directory name does. -/
def exAnyFile : AdcSearch :=
  { includePtr := [], includeX := [], hasRoot := false, root := [], gt := 0, lt := 0, ext := [],
    isDirectory := false, isExcluded := fun _ => false, hasExt := fun _ => true,
    matchesDirectDirectoryName := fun _ => false, matchesDirectFile := fun _ _ => true,
    matchesSize := fun _ => true }

end DirectoryListing

namespace ShareManager

/-- The share of `/song/` at rest: no refresh is in progress and the queue is empty. -/
def exIdle : Manager :=
  { exRefreshing with refreshing := false, refreshRunning := false }

/-- The share of `/song/` with the flag `refreshing` set, no refresh running and a
`REFRESH_DIR` task of no paths in the queue. -/
def exAfterNotFound : Manager :=
  { exIdle with refreshing := true, tasks := [(TaskType.REFRESH_DIR, [])] }

end ShareManager

namespace ShareManager

/-- Keys compared up to case, `Util::getLastDir` as the name before the last
separator. -/
def exLoadEnv : LoadEnv :=
  { sameKey := fun a b => stricmp a b,
    getLastDir := fun path => Util.getFileName (path.take (path.length - 1)) }

end ShareManager

/-- The root of `exSongShare`: the directory shared as `song`, holding `a.txt`. -/
def exSongDir : Directory :=
  .mk (str "song") (some (rootFor (str "/song/") 0 (str "song"))) 255 1 0
    [⟨str "a.txt", 1, str "T1"⟩] .nil

/-- An ADC query for the one token `song`, with no excluded name, no extension and no
bound on the size that a file of up to 100 bytes could miss. -/
def exSongQuery : AdcSearch :=
  { includePtr := [StringSearch.new (str "song")], includeX := [StringSearch.new (str "song")],
    hasRoot := false, root := [], gt := 0, lt := 100, ext := [],
    isDirectory := false, isExcluded := fun _ => false, hasExt := fun _ => true,
    matchesDirectDirectoryName := fun _ => false, matchesDirectFile := fun _ _ => false,
    matchesSize := fun _ => true }

namespace ShareManager

/-- What `buildTree` finds under `C:\a\b\` when the bundle has been hashed: the file
`x.bin` of 7 bytes that the share holds there already. -/
def exSameScan : Scan :=
  { files := [⟨str "x.bin", 7, str "H1"⟩], directories := .nil, aShutdown := false }

end ShareManager

namespace DirectoryListing

end DirectoryListing

namespace DirectoryListing

/-- A directory that holds the one file `tiny` of 1 byte. -/
def exLone : Directory :=
  exDir (str "lone") [exFile (str "tiny") .DUPE_NONE] .nil

end DirectoryListing

namespace DirectoryListing

end DirectoryListing

/-! ## Properties -/

theorem DirRef.self_mem_chain (d : DirRef) : d ∈ d.chain := by
  cases d <;> simp [DirRef.chain]

/-- C3 (as stated, refuted): in the chain `c → b → a`, where `a` and `c` are roots of
the default profile and `b` is excluded from it, `hasProfile` is true on `c` although
a directory of the chain carries the exclusion marker. -/
theorem hasProfile_nested_root_counterexample :
    ¬ ((∃ x ∈ exNestedRoot.chain, x.isRootLevel 0 = true) →
        (exNestedRoot.hasProfile 0 = true ↔
          ∀ x ∈ exNestedRoot.chain, x.isLevelExcluded 0 = false)) := by
  intro h
  have h1 : ∃ x ∈ exNestedRoot.chain, x.isRootLevel 0 = true :=
    ⟨exNestedRoot, DirRef.self_mem_chain _, by decide⟩
  have h2 : exNestedRoot.hasProfile 0 = true := by decide
  have h3 := (h h1).1 h2 exExcluded (List.mem_cons_of_mem _ (DirRef.self_mem_chain _))
  exact absurd h3 (by decide)

/-- C3 (amended): `hasProfile(P)` on `d` is true exactly when some directory `r` of the
chain from `d` upwards is registered as a root for `P` and no directory of the chain
from `d` up to `r`, both included, carries an `EXCLUDE_PROFILE` marker containing `P`. -/
theorem hasProfile_iff_nearest_root (d : DirRef) (P : ProfileToken) :
    d.hasProfile P = true ↔
      ∃ pre r post, d.chain = pre ++ r :: post ∧ r.isRootLevel P = true ∧
        ∀ x ∈ pre ++ [r], x.isLevelExcluded P = false := by
  induction d with
  | top n pd =>
    constructor
    · intro h
      refine ⟨[], .top n pd, [], by simp [DirRef.chain], ?_, ?_⟩
      · by_contra hc
        simp [DirRef.hasProfile, hc] at h
      · intro x hx
        simp at hx
        subst hx
        by_contra hc
        cases pd with
        | none => simp [DirRef.isLevelExcluded, DirRef.profileDir] at hc
        | some y => simp [DirRef.hasProfile, hc] at h
    · rintro ⟨pre, r, post, hch, hr, hex⟩
      cases pre with
      | nil =>
        simp [DirRef.chain] at hch
        obtain ⟨rfl, -⟩ := hch
        have := hex (.top n pd) (by simp)
        simp [DirRef.hasProfile, this, hr]
      | cons a t =>
        simp [DirRef.chain] at hch
  | sub n pd p ih =>
    constructor
    · intro h
      by_cases hx : (DirRef.sub n pd p).isLevelExcluded P = true
      · cases pd with
        | none => simp [DirRef.isLevelExcluded, DirRef.profileDir] at hx
        | some y => simp [DirRef.hasProfile, hx] at h
      · have hx2 : (DirRef.sub n pd p).isLevelExcluded P = false := by simpa using hx
        by_cases hr : (DirRef.sub n pd p).isRootLevel P = true
        · refine ⟨[], .sub n pd p, p.chain, by simp [DirRef.chain], hr, ?_⟩
          intro x hx3
          simp at hx3
          subst hx3
          exact hx2
        · have hp : p.hasProfile P = true := by
            simpa [DirRef.hasProfile, hx2, hr] using h
          obtain ⟨pre, r, post, hch, hr2, hex⟩ := ih.1 hp
          refine ⟨.sub n pd p :: pre, r, post, by simp [DirRef.chain, hch], hr2, ?_⟩
          intro x hx3
          simp at hx3
          rcases hx3 with rfl | hx3 | rfl
          · exact hx2
          · exact hex x (by simp [hx3])
          · exact hex x (by simp)
    · rintro ⟨pre, r, post, hch, hr, hex⟩
      cases pre with
      | nil =>
        simp [DirRef.chain] at hch
        obtain ⟨rfl, -⟩ := hch
        have := hex (.sub n pd p) (by simp)
        simp [DirRef.hasProfile, this, hr]
      | cons a t =>
        simp [DirRef.chain] at hch
        obtain ⟨rfl, hch⟩ := hch
        have hself := hex (.sub n pd p) (by simp)
        have hp : p.hasProfile P = true :=
          ih.2 ⟨t, r, post, hch, hr, fun x hx => hex x (by
            simp at hx ⊢
            rcases hx with hx | hx
            · exact Or.inr (Or.inl hx)
            · exact Or.inr (Or.inr hx))⟩
        simp [DirRef.hasProfile, hself, hp]

theorem DirRef.getFullName_ok_of_hasProfile (d : DirRef) (P : ProfileToken)
    (h : d.hasProfile P = true) : ∃ x, d.getFullName P = .ok x := by
  induction d with
  | top n pd =>
    cases pd with
    | none => simp [DirRef.hasProfile, DirRef.isRootLevel, DirRef.profileDir] at h
    | some y =>
      by_cases hr : (DirRef.top n (some y)).isRootLevel P = true
      · exact ⟨y.getName P ++ ['\\'], by simp [DirRef.getFullName, hr]⟩
      · simp [DirRef.hasProfile, hr] at h
  | sub n pd p ih =>
    by_cases hr : (DirRef.sub n pd p).isRootLevel P = true
    · cases pd with
      | none => simp [DirRef.isRootLevel, DirRef.profileDir] at hr
      | some y => exact ⟨y.getName P ++ ['\\'], by simp [DirRef.getFullName, hr]⟩
    · have hp : p.hasProfile P = true := by
        by_cases hx : (pd.isSome && (DirRef.sub n pd p).isLevelExcluded P) = true
        · simp [DirRef.hasProfile, hx] at h
        · simpa [DirRef.hasProfile, hx, hr] using h
      obtain ⟨x, hx⟩ := ih hp
      exact ⟨x ++ n ++ ['\\'], by simp [DirRef.getFullName, hr, hx]⟩

/-- C1 (as stated, refuted): in a share whose two visible files carry the same TTH, the
ADC root search does not return one result per visible file with that TTH. -/
theorem searchAdc_root_twins_counterexample :
    ¬ ∃ rs, exTwinShare.searchAdc [] (rootQuery (str "H1")) 10 0 (str "CID") = .ok rs ∧
        rs.Perm (exTwinShare.visibleByTTH (str "H1") 0) := by
  rintro ⟨rs, h1, h2⟩
  have e1 : exTwinShare.searchAdc [] (rootQuery (str "H1")) 10 0 (str "CID")
      = .ok [⟨.TYPE_FILE, 5, str "a\\x.bin", str "H1"⟩] := by rfl
  have e2 : (exTwinShare.visibleByTTH (str "H1") 0).length = 2 := by rfl
  rw [e1] at h1
  injection h1 with h1
  subst h1
  have := h2.length_eq
  rw [e2] at this
  simp at this

/-- C1 (amended): with an empty temp-share table, the ADC search for a root `h` returns
normally with at most one result; a result it returns is built from an indexed file
whose TTH is `h` and whose directory is visible for the profile; it returns exactly one
result when `h` is indexed and every file indexed under `h` is visible, and none when
no file indexed under `h` is visible. -/
theorem searchAdc_root_at_most_one (st : ShareManager) (srch : AdcSearch) (maxResults : Nat)
    (P : ProfileToken) (cid : Str) (htemp : st.tempShares = []) (hroot : srch.hasRoot = true) :
    ∃ rs, st.searchAdc [] srch maxResults P cid = .ok rs ∧ rs.length ≤ 1 ∧
      (∀ r ∈ rs, ∃ e ∈ st.tthIndex, e.file.tth = srch.root ∧ e.parent.hasProfile P = true ∧
        e.result? P = some r) ∧
      ((∃ e ∈ st.tthIndex, e.file.tth = srch.root) →
        (∀ e ∈ st.tthIndex, e.file.tth = srch.root → e.parent.hasProfile P = true) →
        rs.length = 1) ∧
      ((∀ e ∈ st.tthIndex, e.file.tth = srch.root → e.parent.hasProfile P = false) →
        rs = []) := by
  have htmp : st.searchTempShares srch.root cid = [] := by
    simp [ShareManager.searchTempShares, htemp]
  cases hf : st.findTTH srch.root with
  | none =>
    refine ⟨[], by simp [ShareManager.searchAdc, hroot, hf, htmp], by simp, by simp, ?_, by simp⟩
    rintro ⟨e, he, hk⟩ -
    have := List.find?_eq_none.1 hf e he
    simp [hk] at this
  | some i =>
    have hi : i ∈ st.tthIndex := List.mem_of_find?_eq_some hf
    have hk : i.file.tth = srch.root := by
      have := List.find?_some hf
      simpa using this
    by_cases hv : i.parent.hasProfile P = true
    · obtain ⟨x, hx⟩ := DirRef.getFullName_ok_of_hasProfile _ _ hv
      refine ⟨[⟨.TYPE_FILE, i.file.size, x ++ i.file.name, i.file.tth⟩],
        by simp [ShareManager.searchAdc, hroot, hf, hv, hx], by simp, ?_, by simp, ?_⟩
      · intro r hr
        simp at hr
        subst hr
        exact ⟨i, hi, hk, hv, by simp [IndexedFile.result?, hx]⟩
      · intro hall
        have := hall i hi hk
        simp [hv] at this
    · refine ⟨[], by simp [ShareManager.searchAdc, hroot, hf, hv, htmp], by simp, by simp,
        ?_, by simp⟩
      intro _ hall
      exact absurd (hall i hi hk) hv

/-- C1 (amended), at a concrete input: the share with the two twin files. -/
theorem searchAdc_root_at_most_one_witness :
    ∃ rs, exTwinShare.searchAdc [] (rootQuery (str "H1")) 10 0 (str "CID") = .ok rs ∧
      rs.length ≤ 1 ∧
      (∀ r ∈ rs, ∃ e ∈ exTwinShare.tthIndex, e.file.tth = (rootQuery (str "H1")).root ∧
        e.parent.hasProfile 0 = true ∧ e.result? 0 = some r) ∧
      ((∃ e ∈ exTwinShare.tthIndex, e.file.tth = (rootQuery (str "H1")).root) →
        (∀ e ∈ exTwinShare.tthIndex, e.file.tth = (rootQuery (str "H1")).root →
          e.parent.hasProfile 0 = true) → rs.length = 1) ∧
      ((∀ e ∈ exTwinShare.tthIndex, e.file.tth = (rootQuery (str "H1")).root →
          e.parent.hasProfile 0 = false) → rs = []) :=
  searchAdc_root_at_most_one exTwinShare (rootQuery (str "H1")) 10 0 (str "CID") rfl rfl

/-- C2 (the code at the failing input): the only file with TTH `H2` lies in a directory
that carries the exclusion marker for the default profile, the temp-share table is
empty, and still `toRealWithSize` hands out its real path and size. -/
theorem toRealWithSize_serves_excluded_file :
    (0 : ProfileToken) ≠ SP_HIDDEN ∧ exExcludedShare.tempShares = [] ∧
      (∀ e ∈ exExcludedShare.tthIndex, e.file.tth = str "H2" →
        ∃ x ∈ e.parent.chain, x.isLevelExcluded 0 = true) ∧
      exExcludedShare.toRealWithSize fsAll (str "TTH/H2") [0] (str "CID")
        = .ok (str "/home/a/b\\f.bin", 7) := by
  refine ⟨by decide, rfl, ?_, by rfl⟩
  intro e he _
  simp [exExcludedShare] at he
  subst he
  exact ⟨exExcluded, DirRef.self_mem_chain _, by decide⟩


/-! ### Virtual path resolution -/

theorem findFrom_segment (c : Char) (seg rest : Str) (k : Nat) (h : c ∉ seg) :
    findFrom c (seg ++ c :: rest) k = some (k + seg.length) := by
  induction seg generalizing k with
  | nil => simp [findFrom]
  | cons a t ih =>
    have ha : a ≠ c := fun e => h (by simp [e])
    have ht : c ∉ t := fun e => h (by simp [e])
    simp [findFrom, ha, ih (k + 1) ht]
    omega

theorem findFrom_none (c : Char) (x : Str) (k : Nat) (h : c ∉ x) : findFrom c x k = none := by
  induction x generalizing k with
  | nil => simp [findFrom]
  | cons a t ih =>
    have ha : a ≠ c := fun e => h (by simp [e])
    have ht : c ∉ t := fun e => h (by simp [e])
    simp [findFrom, ha, ih (k + 1) ht]

theorem strFind_segment (pre seg rest : Str) (h : '/' ∉ seg) :
    strFind (pre ++ (seg ++ '/' :: rest)) '/' pre.length = some (pre.length + seg.length) := by
  simp [strFind, findFrom_segment _ _ _ _ h]

theorem strFind_tail (pre tail : Str) (h : '/' ∉ tail) :
    strFind (pre ++ tail) '/' pre.length = none := by
  simp [strFind, findFrom_none _ _ _ h]

theorem substr_segment (pre seg rest : Str) :
    substr (pre ++ (seg ++ rest)) pre.length seg.length = seg := by
  simp [substr]

theorem joinSegments_length (segs : List Str) : segs.length ≤ (joinSegments segs).length := by
  induction segs with
  | nil => simp [joinSegments]
  | cons a t ih => simp [joinSegments]; omega

theorem walkVirtual_eq_followSegments (P : ProfileToken) (tail : Str) (htail : '/' ∉ tail)
    (segs : List Str) (hsegs : ∀ x ∈ segs, '/' ∉ x) (pre : Str) (fuel : Nat) (d : DirPtr)
    (hfuel : segs.length ≤ fuel) :
    ShareManager.walkVirtual (pre ++ (joinSegments segs ++ tail)) P fuel pre.length d
      = followSegments P segs d := by
  induction segs generalizing pre fuel d with
  | nil =>
    cases fuel with
    | zero => simp [ShareManager.walkVirtual, followSegments]
    | succ f =>
      simp [ShareManager.walkVirtual, followSegments, joinSegments, strFind_tail _ _ htail]
  | cons seg rest ih =>
    cases fuel with
    | zero => simp at hfuel
    | succ f =>
      have hseg : '/' ∉ seg := hsegs seg (by simp)
      have hrest : ∀ x ∈ rest, '/' ∉ x := fun x hx => hsegs x (by simp [hx])
      have hf : rest.length ≤ f := by simpa using hfuel
      have hfind : strFind (pre ++ (joinSegments (seg :: rest) ++ tail)) '/' pre.length
          = some (pre.length + seg.length) := by
        have := strFind_segment pre seg (joinSegments rest ++ tail) hseg
        simpa [joinSegments] using this
      have hsub : substr (pre ++ (joinSegments (seg :: rest) ++ tail)) pre.length
          (pre.length + seg.length - pre.length) = seg := by
        have := substr_segment pre seg ('/' :: (joinSegments rest ++ tail))
        simpa [joinSegments] using this
      have hpath : pre ++ (joinSegments (seg :: rest) ++ tail)
          = (pre ++ seg ++ ['/']) ++ (joinSegments rest ++ tail) := by
        simp [joinSegments]
      have hlen : pre.length + seg.length + 1 = (pre ++ seg ++ ['/']).length := by
        simp
        omega
      rw [ShareManager.walkVirtual, hfind]
      simp only [hsub]
      rw [followSegments]
      cases hd : d.dir.directories.find seg with
      | none => rfl
      | some child =>
        have hrec := ih hrest (pre ++ seg ++ ['/']) f ⟨some d.ref, child⟩ hf
        rw [← hpath, ← hlen] at hrec
        cases hx : child.isLevelExcluded P with
        | true => simp [hx]
        | false => simp [hx, hrec]

theorem stricmp_nonempty (a b : Str) (h : stricmp a b = true) (hb : b ≠ []) : a ≠ [] := by
  intro ha
  subst ha
  cases b with
  | nil => exact hb rfl
  | cons c t => simp [stricmp, Text.toLower] at h

theorem ProfileDirectory.hasProfile_of_getName (pd : ProfileDirectory) (P : ProfileToken)
    (h : pd.getName P ≠ []) : pd.hasProfile P = true := by
  unfold ProfileDirectory.getName at h
  cases hf : pd.shareProfiles.find? (fun e => e.1 == P) with
  | none => simp [hf] at h
  | some e =>
    have hm := List.mem_of_find?_eq_some hf
    have hp := List.find?_some hf
    simp only [ProfileDirectory.hasProfile, List.any_eq_true]
    exact ⟨e, hm, hp⟩

theorem ShareManager.getByVirtualLoop_eq (first : Str) (P : ProfileToken) (hfirst : first ≠ [])
    (l : List (Str × DirPtr)) (hroots : ∀ i ∈ l, i.2.dir.profileDir.isSome = true)
    (dirs : List DirPtr) :
    ShareManager.getByVirtualLoop first P l dirs
      = .ok (dirs ++ (l.filter (fun i =>
          match i.2.dir.profileDir with
          | some pd => stricmp (pd.getName P) first
          | none => false)).map (fun i => i.2)) := by
  induction l generalizing dirs with
  | nil => simp [ShareManager.getByVirtualLoop]
  | cons i rest ih =>
    have hrest : ∀ x ∈ rest, x.2.dir.profileDir.isSome = true :=
      fun x hx => hroots x (by simp [hx])
    have hi := hroots i (by simp)
    cases hpd : i.2.dir.profileDir with
    | none => simp [hpd] at hi
    | some pd =>
      cases hs : stricmp (pd.getName P) first with
      | false =>
        simp [ShareManager.getByVirtualLoop, hpd, hs, ih hrest]
      | true =>
        have hp : pd.hasProfile P = true :=
          pd.hasProfile_of_getName P (stricmp_nonempty _ _ hs hfirst)
        simp [ShareManager.getByVirtualLoop, hpd, hs, hp, ih hrest]

theorem foldl_append_toList {α β : Type} (g : α → Option β) (l : List α) (acc : List β) :
    l.foldl (fun dirs k => dirs ++ (g k).toList) acc = acc ++ l.filterMap g := by
  induction l generalizing acc with
  | nil => simp
  | cons a t ih =>
    cases h : g a <;> simp [ih, h, List.filterMap_cons]

theorem ShareManager.findVirtualsStep_eq (P : ProfileToken) (first tail : Str) (segs : List Str)
    (hsegs : ∀ x ∈ segs, '/' ∉ x) (htail : '/' ∉ tail)
    (dirs : List DirPtr) (k : DirPtr) :
    ShareManager.findVirtualsStep ('/' :: (first ++ '/' :: (joinSegments segs ++ tail))) P
        (1 + first.length) dirs k
      = dirs ++ (followSegments P segs k).toList := by
  have hpath : '/' :: (first ++ '/' :: (joinSegments segs ++ tail))
      = ('/' :: first ++ ['/']) ++ (joinSegments segs ++ tail) := by simp
  have hlen : 1 + first.length + 1 = ('/' :: first ++ ['/']).length := by simp; omega
  have hfuel : segs.length ≤ ('/' :: (first ++ '/' :: (joinSegments segs ++ tail))).length := by
    have := joinSegments_length segs
    simp
    omega
  have hwalk := walkVirtual_eq_followSegments P tail htail segs hsegs ('/' :: first ++ ['/'])
    ('/' :: (first ++ '/' :: (joinSegments segs ++ tail))).length k hfuel
  rw [← hpath, ← hlen] at hwalk
  unfold ShareManager.findVirtualsStep
  simp only []
  by_cases hnone : strFind ('/' :: (first ++ '/' :: (joinSegments segs ++ tail))) '/'
      (1 + first.length + 1) = none
  · rw [if_pos hnone]
    have : ShareManager.walkVirtual ('/' :: (first ++ '/' :: (joinSegments segs ++ tail))) P
        ('/' :: (first ++ '/' :: (joinSegments segs ++ tail))).length (1 + first.length + 1) k
        = some k := by
      simp only [List.length_cons]
      rw [ShareManager.walkVirtual, hnone]
    rw [← hwalk, this]
    rfl
  · rw [if_neg hnone, hwalk]
    cases followSegments P segs k <;> simp

/-- C4: `findVirtuals`, called with an empty output list, fails with
`FILE_NOT_AVAILABLE` when the path is empty, does not start with `'/'`, has no second
`'/'` or has an empty first segment; on a path `/first/seg₁/…/segₙ/tail` it returns
the directories reached from the share roots whose virtual name for the profile equals
`first` up to case by following `seg₁ … segₙ` through `directories`, a candidate being
dropped as soon as a segment is missing or the child is excluded for the profile, and
it fails with `FILE_NOT_AVAILABLE` exactly when no directory is reached. -/
theorem findVirtuals_spec (st : ShareManager) (P : ProfileToken)
    (hroots : ∀ i ∈ st.shares, i.2.dir.profileDir.isSome = true) :
    st.findVirtuals [] P [] = .error .FILE_NOT_AVAILABLE ∧
    (∀ c rest, c ≠ '/' → st.findVirtuals (c :: rest) P [] = .error .FILE_NOT_AVAILABLE) ∧
    (∀ rest, '/' ∉ rest → st.findVirtuals ('/' :: rest) P [] = .error .FILE_NOT_AVAILABLE) ∧
    (∀ rest, st.findVirtuals ('/' :: '/' :: rest) P [] = .error .FILE_NOT_AVAILABLE) ∧
    (∀ (first : Str) (segs : List Str) (tail : Str), first ≠ [] → '/' ∉ first →
      (∀ x ∈ segs, '/' ∉ x) → '/' ∉ tail →
      st.findVirtuals ('/' :: (first ++ '/' :: (joinSegments segs ++ tail))) P []
        = if ((st.rootsByVirtual first P).filterMap (followSegments P segs)).isEmpty
          then .error .FILE_NOT_AVAILABLE
          else .ok ((st.rootsByVirtual first P).filterMap (followSegments P segs))) := by
  refine ⟨by simp [ShareManager.findVirtuals], ?_, ?_, ?_, ?_⟩
  · intro c rest hc
    simp [ShareManager.findVirtuals, hc]
  · intro rest hrest
    have : strFind ('/' :: rest) '/' 1 = none := by
      simpa using strFind_tail ['/'] rest hrest
    simp [ShareManager.findVirtuals, this]
  · intro rest
    have : strFind ('/' :: '/' :: rest) '/' 1 = some 1 := by
      simp [strFind, findFrom]
    simp [ShareManager.findVirtuals, this]
  · intro first segs tail hne hfirst hsegs htail
    have hstart : strFind ('/' :: (first ++ '/' :: (joinSegments segs ++ tail))) '/' 1
        = some (1 + first.length) := by
      simpa using strFind_segment ['/'] first (joinSegments segs ++ tail) hfirst
    have hsub : substr ('/' :: (first ++ '/' :: (joinSegments segs ++ tail))) 1
        (1 + first.length - 1) = first := by
      simpa using substr_segment ['/'] first ('/' :: (joinSegments segs ++ tail))
    have hlen : ¬ (1 + first.length = 1) := by
      have : 0 < first.length := List.length_pos.2 hne
      omega
    have hby : st.getByVirtual first P [] = .ok (st.rootsByVirtual first P) := by
      simpa [ShareManager.getByVirtual, ShareManager.rootsByVirtual]
        using ShareManager.getByVirtualLoop_eq first P hne st.shares hroots []
    have hstep : ShareManager.findVirtualsStep
        ('/' :: (first ++ '/' :: (joinSegments segs ++ tail))) P (1 + first.length)
        = fun dirs k => dirs ++ (followSegments P segs k).toList := by
      funext dirs k
      exact ShareManager.findVirtualsStep_eq P first tail segs hsegs htail dirs k
    unfold ShareManager.findVirtuals
    simp only [List.isEmpty_cons, List.head?_cons, bne_self_eq_false, Bool.or_self,
      Bool.false_eq_true, if_false, hstart, hsub, hlen, hby, hstep, foldl_append_toList,
      List.nil_append]
    cases hr : st.rootsByVirtual first P with
    | nil => simp
    | cons a t => simp

/-- C4, at a concrete input: the path `/music/rock/queen/x.mp3` in the share with two
roots named `Music` and `music`; the hypotheses hold there and the one directory
`Queen` is returned. -/
theorem findVirtuals_spec_witness :
    (∀ i ∈ exMusicShare.shares, i.2.dir.profileDir.isSome = true) ∧
      str "music" ≠ [] ∧ '/' ∉ str "music" ∧
      (∀ x ∈ [str "rock", str "queen"], '/' ∉ x) ∧ '/' ∉ str "x.mp3" ∧
      exMusicShare.findVirtuals (str "/music/rock/queen/x.mp3") 0 []
        = (if ((exMusicShare.rootsByVirtual (str "music") 0).filterMap
              (followSegments 0 [str "rock", str "queen"])).isEmpty
          then .error .FILE_NOT_AVAILABLE
          else .ok ((exMusicShare.rootsByVirtual (str "music") 0).filterMap
              (followSegments 0 [str "rock", str "queen"]))) ∧
      ((exMusicShare.rootsByVirtual (str "music") 0).filterMap
          (followSegments 0 [str "rock", str "queen"])).length = 1 :=
  ⟨by decide, by decide, by decide, by decide, by decide,
    (findVirtuals_spec exMusicShare 0 (by decide)).2.2.2.2 (str "music")
      [str "rock", str "queen"] (str "x.mp3") (by decide) (by decide) (by decide) (by decide),
    by rfl⟩

theorem exists_joinSegments (x : Str) :
    ∃ segs tail, x = joinSegments segs ++ tail ∧ (∀ y ∈ segs, '/' ∉ y) ∧ '/' ∉ tail := by
  induction x with
  | nil => exact ⟨[], [], by simp [joinSegments], by simp, by simp⟩
  | cons a t ih =>
    obtain ⟨segs, tail, hx, hsegs, htail⟩ := ih
    by_cases ha : a = '/'
    · refine ⟨[] :: segs, tail, by simp [joinSegments, ha, hx], ?_, htail⟩
      intro y hy
      simp at hy
      rcases hy with rfl | hy
      · simp
      · exact hsegs y hy
    · cases segs with
      | nil =>
        refine ⟨[], a :: tail, by simpa [joinSegments] using hx, by simp, ?_⟩
        simp
        exact ⟨fun e => ha e.symm, htail⟩
      | cons y ys =>
        refine ⟨(a :: y) :: ys, tail, by simpa [joinSegments] using hx, ?_, htail⟩
        intro z hz
        simp at hz
        rcases hz with rfl | hz
        · simp
          exact ⟨fun e => ha e.symm, hsegs y (by simp)⟩
        · exact hsegs z (by simp [hz])

/-- Every virtual path falls under one of the five cases of `findVirtuals_spec`. -/
theorem virtualPath_cases (v : Str) :
    v = [] ∨ (∃ c rest, v = c :: rest ∧ c ≠ '/') ∨ (∃ rest, v = '/' :: rest ∧ '/' ∉ rest) ∨
      (∃ rest, v = '/' :: '/' :: rest) ∨
      ∃ first segs tail, v = '/' :: (first ++ '/' :: (joinSegments segs ++ tail)) ∧
        first ≠ [] ∧ '/' ∉ first ∧ (∀ x ∈ segs, '/' ∉ x) ∧ '/' ∉ tail := by
  cases v with
  | nil => exact Or.inl rfl
  | cons c rest =>
    by_cases hc : c = '/'
    · subst hc
      obtain ⟨segs, tail, hx, hsegs, htail⟩ := exists_joinSegments rest
      cases segs with
      | nil =>
        refine Or.inr (Or.inr (Or.inl ⟨rest, rfl, ?_⟩))
        simpa [hx, joinSegments] using htail
      | cons first ys =>
        cases first with
        | nil =>
          exact Or.inr (Or.inr (Or.inr (Or.inl ⟨joinSegments ys ++ tail, by simp [hx, joinSegments]⟩)))
        | cons a f =>
          refine Or.inr (Or.inr (Or.inr (Or.inr ⟨a :: f, ys, tail, by simp [hx, joinSegments],
            by simp, hsegs _ (by simp), fun x hx2 => hsegs x (by simp [hx2]), htail⟩)))
    · exact Or.inr (Or.inl ⟨c, rest, rfl, hc⟩)

/-! ### The NMDC search -/

/-- C5 (the code at the failing input): with `maxResults = 1`, the query `song` over a
root named `song` that holds one file returns two results, the directory and the file. -/
theorem search_exceeds_maxResults :
    exSongShare.search [] (str "song") .SIZE_DONTCARE 0 TYPE_ANY 1
      = .ok [⟨.TYPE_DIRECTORY, 0, str "song\\", []⟩,
             ⟨.TYPE_FILE, 1, str "song\\a.txt", str "T1"⟩] := by
  rfl

/-- C6 (as stated, refuted): in the scenario with the file `song.flac`, the query
`song$mp3` gives no result, so the three outcomes of the claim do not hold together. -/
theorem search_song_mp3_flac_counterexample :
    ¬ ((∃ r, (albumsShare (str "/music/") (str "music") (str "music") 130 130
            ⟨str "my_song.mp3", 10, str "T1"⟩ (fun _ => true)).search []
            (str "song$mp3") .SIZE_ATLEAST 0 TYPE_AUDIO 10 = .ok [r]) ∧
        (albumsShare (str "/music/") (str "music") (str "music") 136 136
            ⟨str "my_song.txt", 10, str "T1"⟩ (fun _ => true)).search []
            (str "song$mp3") .SIZE_ATLEAST 0 TYPE_AUDIO 10 = .ok [] ∧
        (∃ r, (albumsShare (str "/music/") (str "music") (str "music") 130 130
            ⟨str "song.flac", 10, str "T1"⟩ (fun _ => true)).search []
            (str "song$mp3") .SIZE_ATLEAST 0 TYPE_AUDIO 10 = .ok [r])) := by
  rintro ⟨-, -, r, hr⟩
  have h : (albumsShare (str "/music/") (str "music") (str "music") 130 130
      ⟨str "song.flac", 10, str "T1"⟩ (fun _ => true)).search []
      (str "song$mp3") .SIZE_ATLEAST 0 TYPE_AUDIO 10 = .ok [] := by rfl
  rw [h] at hr
  injection hr with hr
  simp at hr

theorem foldl_prune_keep (orig : List StringSearch) (name : Str) (l : List StringSearch)
    (acc : Option (List StringSearch)) (h : ∀ k ∈ l, k.match name = false) :
    l.foldl (fun newStr k =>
        if k.match name then some ((newStr.getD orig).filter (fun x => !(x == k)))
        else newStr) acc = acc := by
  induction l generalizing acc with
  | nil => rfl
  | cons a t ih =>
    have ha := h a (by simp)
    have ht : ∀ k ∈ t, k.match name = false := fun k hk => h k (by simp [hk])
    simp [List.foldl, ha, ih acc ht]

theorem pruneTokens_none (aStrings : List StringSearch) (name : Str)
    (h : ∀ k ∈ aStrings, k.match name = false) : pruneTokens aStrings name = none :=
  foldl_prune_keep aStrings name aStrings none h

theorem albumsRoot_search (path rootName vname : Str) (ftRoot ftAlbums : Nat) (f : File)
    (ssl : List StringSearch) (maxResults : Nat)
    (hv : ∀ k ∈ ssl, k.match vname = false)
    (ha : ∀ k ∈ ssl, k.match (str "albums") = false)
    (hsz : 0 ≤ f.size) (hmax : 1 ≤ maxResults) :
    Directory.search none .SIZE_ATLEAST 0 TYPE_AUDIO maxResults
        (albumsRoot path rootName vname ftRoot ftAlbums f) [] ssl
      = .ok (if (ftRoot &&& 2 != 0) && (ftAlbums &&& 2 != 0) && ssl.all (fun k => k.match f.name)
            && checkType f.name TYPE_AUDIO
          then [⟨.TYPE_FILE, f.size, vname ++ str "\\albums\\" ++ f.name, f.tth⟩] else []) := by
  have hname : (rootFor path 0 vname).getName SP_DEFAULT = vname := by
    simp [rootFor, ProfileDirectory.getName, SP_DEFAULT]
  have hp1 : pruneTokens ssl vname = none := pruneTokens_none ssl vname hv
  have hp2 : pruneTokens ssl (str "albums") = none := pruneTokens_none ssl _ ha
  have hfull : (DirRef.sub (str "albums") none
      (DirRef.top rootName (some (rootFor path 0 vname)))).getFullName SP_DEFAULT
      = .ok (vname ++ str "\\albums\\") := by
    simp [DirRef.getFullName, DirRef.isRootLevel, DirRef.profileDir, rootFor,
      ProfileDirectory.hasProfile, ProfileDirectory.getName, SP_DEFAULT]
  have hsz2 : ¬ (0 > f.size) := by omega
  have hmax2 : ¬ (maxResults = 0) := by omega
  have hmax3 : 0 < maxResults := by omega
  simp only [str, String.toList] at hp2 hfull
  unfold albumsRoot
  rw [Directory.search]
  by_cases h1 : (ftRoot &&& 2 != 0) = true
  · by_cases h2 : (ftAlbums &&& 2 != 0) = true
    · by_cases h3 : ssl.all (fun k => k.match f.name) = true
      · by_cases h4 : checkType f.name 1 = true
        · simp [Directory.hasType, TYPE_AUDIO, TYPE_ANY, TYPE_DIRECTORY, Directory.fileTypes,
            Directory.searchName, Directory.profileDir, Directory.realName, hname, hp1, hp2,
            Directory.searchFiles,
            DirList.search, Directory.search, Directory.isLevelExcluded, Directory.ref, hfull,
            h1, h2, h3, h4, hsz2, hmax2, hmax3]
        · simp [Directory.hasType, TYPE_AUDIO, TYPE_ANY, TYPE_DIRECTORY, Directory.fileTypes,
            Directory.searchName, Directory.profileDir, Directory.realName, hname, hp1, hp2,
            Directory.searchFiles,
            DirList.search, Directory.search, Directory.isLevelExcluded, Directory.ref, hfull,
            h1, h2, h3, h4, hsz2, hmax2, hmax3]
      · simp [Directory.hasType, TYPE_AUDIO, TYPE_ANY, TYPE_DIRECTORY, Directory.fileTypes,
            Directory.searchName, Directory.profileDir, Directory.realName, hname, hp1, hp2,
            Directory.searchFiles,
            DirList.search, Directory.search, Directory.isLevelExcluded, Directory.ref, hfull,
            h1, h2, h3, hsz2, hmax2, hmax3]
    · simp [Directory.hasType, TYPE_AUDIO, TYPE_ANY, TYPE_DIRECTORY, Directory.fileTypes,
            Directory.searchName, Directory.profileDir, Directory.realName, hname, hp1, hp2,
            Directory.searchFiles,
            DirList.search, Directory.search, Directory.isLevelExcluded, Directory.ref, hfull,
            h1, h2, hsz2, hmax2, hmax3]
  · simp [Directory.hasType, TYPE_AUDIO, TYPE_ANY, TYPE_DIRECTORY, Directory.fileTypes, h1]

theorem albumsShare_search (path rootName vname : Str) (ftRoot ftAlbums : Nat) (f : File)
    (bloom : Str → Bool) (q : Str) (maxResults : Nat) (sl : List Str) (ssl : List StringSearch)
    (hq : StringTokenizer (Text.toLower q) '$' = sl)
    (hssl : (sl.filter (fun i => !i.isEmpty)).map StringSearch.new = ssl) (hne : ssl ≠ [])
    (hmax : 1 ≤ maxResults) :
    (albumsShare path rootName vname ftRoot ftAlbums f bloom).search [] q .SIZE_ATLEAST 0
        TYPE_AUDIO maxResults
      = if sl.all bloom then
          Directory.search none .SIZE_ATLEAST 0 TYPE_AUDIO maxResults
            (albumsRoot path rootName vname ftRoot ftAlbums f) [] ssl
        else .ok [] := by
  have hmax3 : 0 < maxResults := by omega
  have hne2 : ssl.isEmpty = false := by
    cases ssl with
    | nil => exact absurd rfl hne
    | cons a t => rfl
  have hprof : (rootFor path 0 vname).hasProfile SP_DEFAULT = true := by
    simp [rootFor, ProfileDirectory.hasProfile, SP_DEFAULT]
  have hpd : (albumsRoot path rootName vname ftRoot ftAlbums f).profileDir
      = some (rootFor path 0 vname) := rfl
  have htype : ¬ ( TYPE_AUDIO = TYPE_TTH) := by decide
  unfold ShareManager.search
  simp only [htype, if_false, hq, hssl, hne2]
  by_cases hb : sl.all bloom = true
  · simp only [albumsShare, hb, Bool.not_true, Bool.false_eq_true, if_false, if_true,
      ShareManager.searchShares, List.length_nil, hmax3, hpd, hprof]
    cases Directory.search none .SIZE_ATLEAST 0 TYPE_AUDIO maxResults
      (albumsRoot path rootName vname ftRoot ftAlbums f) [] ssl <;> rfl
  · simp [albumsShare, hb]

/-- C6 (amended): in the scenario (a root of the default profile whose virtual name
contains neither `song` nor `mp3`, a directory `albums` with one file of size `sz ≥ 0`),
the NMDC search for `song$mp3` with type `AUDIO` and size mode `ATLEAST 0` returns no
result for `my_song.txt` and no result for `song.flac`; when the Bloom filter lets the
tokens through and the type flags of the two directories include audio, it returns
exactly one result for `my_song.mp3`, and the query `song` alone returns exactly one
result for `song.flac`. -/
theorem search_song_mp3_scenario (path rootName vname : Str) (ftRoot ftAlbums : Nat) (sz : Int)
    (tth : TTHValue) (bloom : Str → Bool) (maxResults : Nat)
    (hsong : (StringSearch.new (str "song")).match vname = false)
    (hmp3 : (StringSearch.new (str "mp3")).match vname = false)
    (hsz : 0 ≤ sz) (hmax : 1 ≤ maxResults) :
    (albumsShare path rootName vname ftRoot ftAlbums ⟨str "my_song.txt", sz, tth⟩ bloom).search []
        (str "song$mp3") .SIZE_ATLEAST 0 TYPE_AUDIO maxResults = .ok [] ∧
    (albumsShare path rootName vname ftRoot ftAlbums ⟨str "song.flac", sz, tth⟩ bloom).search []
        (str "song$mp3") .SIZE_ATLEAST 0 TYPE_AUDIO maxResults = .ok [] ∧
    (bloom (str "song") = true → bloom (str "mp3") = true →
      ftRoot &&& (1 <<< TYPE_AUDIO) ≠ 0 → ftAlbums &&& (1 <<< TYPE_AUDIO) ≠ 0 →
      (albumsShare path rootName vname ftRoot ftAlbums ⟨str "my_song.mp3", sz, tth⟩ bloom).search []
          (str "song$mp3") .SIZE_ATLEAST 0 TYPE_AUDIO maxResults
        = .ok [⟨.TYPE_FILE, sz, vname ++ str "\\albums\\my_song.mp3", tth⟩] ∧
      (albumsShare path rootName vname ftRoot ftAlbums ⟨str "song.flac", sz, tth⟩ bloom).search []
          (str "song") .SIZE_ATLEAST 0 TYPE_AUDIO maxResults
        = .ok [⟨.TYPE_FILE, sz, vname ++ str "\\albums\\song.flac", tth⟩]) := by
  have hq2 : StringTokenizer (Text.toLower (str "song$mp3")) '$' = [str "song", str "mp3"] := by
    rfl
  have hq1 : StringTokenizer (Text.toLower (str "song")) '$' = [str "song"] := by rfl
  have hs2 : ([str "song", str "mp3"].filter (fun i => !i.isEmpty)).map StringSearch.new
      = [StringSearch.new (str "song"), StringSearch.new (str "mp3")] := by rfl
  have hs1 : ([str "song"].filter (fun i => !i.isEmpty)).map StringSearch.new
      = [StringSearch.new (str "song")] := by rfl
  have hv2 : ∀ k ∈ [StringSearch.new (str "song"), StringSearch.new (str "mp3")],
      k.match vname = false := by
    intro k hk
    simp only [List.mem_cons, List.mem_singleton, List.not_mem_nil, or_false] at hk
    rcases hk with rfl | rfl
    · exact hsong
    · exact hmp3
  have hv1 : ∀ k ∈ [StringSearch.new (str "song")], k.match vname = false := by
    intro k hk
    simp only [List.mem_singleton] at hk
    subst hk
    exact hsong
  have ha2 : ∀ k ∈ [StringSearch.new (str "song"), StringSearch.new (str "mp3")],
      k.match (str "albums") = false := by decide
  have ha1 : ∀ k ∈ [StringSearch.new (str "song")], k.match (str "albums") = false := by decide
  have e_txt := albumsRoot_search path rootName vname ftRoot ftAlbums
    ⟨str "my_song.txt", sz, tth⟩ _ maxResults hv2 ha2 hsz hmax
  have e_flac := albumsRoot_search path rootName vname ftRoot ftAlbums
    ⟨str "song.flac", sz, tth⟩ _ maxResults hv2 ha2 hsz hmax
  have e_mp3 := albumsRoot_search path rootName vname ftRoot ftAlbums
    ⟨str "my_song.mp3", sz, tth⟩ _ maxResults hv2 ha2 hsz hmax
  have e_flac1 := albumsRoot_search path rootName vname ftRoot ftAlbums
    ⟨str "song.flac", sz, tth⟩ _ maxResults hv1 ha1 hsz hmax
  have c_txt : checkType (str "my_song.txt") TYPE_AUDIO = false := by rfl
  have c_mp3 : checkType (str "my_song.mp3") TYPE_AUDIO = true := by rfl
  have c_flac : checkType (str "song.flac") TYPE_AUDIO = true := by rfl
  have m_flac : [StringSearch.new (str "song"), StringSearch.new (str "mp3")].all
      (fun k => k.match (str "song.flac")) = false := by rfl
  have m_mp3 : [StringSearch.new (str "song"), StringSearch.new (str "mp3")].all
      (fun k => k.match (str "my_song.mp3")) = true := by rfl
  have m_flac1 : [StringSearch.new (str "song")].all
      (fun k => k.match (str "song.flac")) = true := by rfl
  refine ⟨?_, ?_, ?_⟩
  · rw [albumsShare_search _ _ _ _ _ _ _ _ _ _ _ hq2 hs2 (by simp) hmax, e_txt]
    simp only [c_txt, Bool.and_false, Bool.false_eq_true, if_false, ite_self]
  · rw [albumsShare_search _ _ _ _ _ _ _ _ _ _ _ hq2 hs2 (by simp) hmax, e_flac]
    simp only [m_flac, Bool.and_false, Bool.false_and, Bool.false_eq_true, if_false, ite_self]
  · intro hb1 hb2 hr ha
    have hb : [str "song", str "mp3"].all bloom = true := by
      simp only [List.all_cons, List.all_nil, hb1, hb2, Bool.and_self]
    have hbs : [str "song"].all bloom = true := by
      simp only [List.all_cons, List.all_nil, hb1, Bool.and_self]
    have hr2 : (ftRoot &&& 2 != 0) = true := by simpa [ TYPE_AUDIO] using hr
    have ha3 : (ftAlbums &&& 2 != 0) = true := by simpa [ TYPE_AUDIO] using ha
    constructor
    · rw [albumsShare_search _ _ _ _ _ _ _ _ _ _ _ hq2 hs2 (by simp) hmax, e_mp3]
      simp only [hb, hr2, ha3, m_mp3, c_mp3, Bool.and_self, if_true]
      simp [str]
    · rw [albumsShare_search _ _ _ _ _ _ _ _ _ _ _ hq1 hs1 (by simp) hmax, e_flac1]
      simp only [hbs, hr2, ha3, m_flac1, c_flac, Bool.and_self, if_true]
      simp [str]

/-- C6 (amended), at a concrete input: the root `music` with audio type flags and a
Bloom filter that lets every token through. -/
theorem search_song_mp3_scenario_witness :
    (albumsShare (str "/music/") (str "music") (str "music") 130 130
        ⟨str "my_song.txt", 10, str "T1"⟩ (fun _ => true)).search []
        (str "song$mp3") .SIZE_ATLEAST 0 TYPE_AUDIO 10 = .ok [] ∧
    (albumsShare (str "/music/") (str "music") (str "music") 130 130
        ⟨str "song.flac", 10, str "T1"⟩ (fun _ => true)).search []
        (str "song$mp3") .SIZE_ATLEAST 0 TYPE_AUDIO 10 = .ok [] ∧
    (albumsShare (str "/music/") (str "music") (str "music") 130 130
        ⟨str "my_song.mp3", 10, str "T1"⟩ (fun _ => true)).search []
        (str "song$mp3") .SIZE_ATLEAST 0 TYPE_AUDIO 10
      = .ok [⟨.TYPE_FILE, 10, str "music" ++ str "\\albums\\my_song.mp3", str "T1"⟩] ∧
    (albumsShare (str "/music/") (str "music") (str "music") 130 130
        ⟨str "song.flac", 10, str "T1"⟩ (fun _ => true)).search []
        (str "song") .SIZE_ATLEAST 0 TYPE_AUDIO 10
      = .ok [⟨.TYPE_FILE, 10, str "music" ++ str "\\albums\\song.flac", str "T1"⟩] := by
  have h := search_song_mp3_scenario (str "/music/") (str "music") (str "music") 130 130 10
    (str "T1") (fun _ => true) 10 (by rfl) (by rfl) (by decide) (by decide)
  exact ⟨h.1, h.2.1, (h.2.2 rfl rfl (by decide) (by decide)).1,
    (h.2.2 rfl rfl (by decide) (by decide)).2⟩

/-- C7 (the code at the failing input): the name `abmp3` has five characters and ends
with none of the audio extensions, and `checkType` accepts it as audio. -/
theorem checkType_accepts_missing_dot :
    5 ≤ (str "abmp3").length ∧ checkType (str "abmp3") TYPE_AUDIO = true ∧
      ∀ ext ∈ extensionsOf TYPE_AUDIO, endsWithNoCase (str "abmp3") ext = false := by
  refine ⟨by decide, by rfl, by decide⟩

/-- C8 (the code at the failing input): two roots share the virtual name `music` and
each holds a matching file; the direct search emits the path `/music/` twice. -/
theorem directSearch_emits_path_twice :
    exTwoRoots.directSearch [] anyFileQuery 10 0 [] = .ok [str "/music/", str "/music/"] ∧
      ¬ [str "/music/", str "/music/"].Nodup := by
  refine ⟨by rfl, by decide⟩

namespace DirectoryListing

/-- C9 (the code at the failing input): the files `a` (share dupe) and `b` (queue dupe)
give `PARTIAL_SHARE_DUPE` in the order `a, b` and `PARTIAL_QUEUE_DUPE` in the order
`b, a`; the subdirectories `p` (all files shared) and `q` (no dupes) give `SHARE_DUPE`
in the order `p, q` and `PARTIAL_SHARE_DUPE` in the order `q, p`. -/
theorem checkShareDupes_depends_on_order :
    [exFile (str "b") .QUEUE_DUPE, exFile (str "a") .SHARE_DUPE].Perm
        [exFile (str "a") .SHARE_DUPE, exFile (str "b") .QUEUE_DUPE] ∧
      (exDir (str "d") [exFile (str "a") .SHARE_DUPE, exFile (str "b") .QUEUE_DUPE]
        .nil).checkShareDupes.getDupe = .PARTIAL_SHARE_DUPE ∧
      (exDir (str "d") [exFile (str "b") .QUEUE_DUPE, exFile (str "a") .SHARE_DUPE]
        .nil).checkShareDupes.getDupe = .PARTIAL_QUEUE_DUPE ∧
      (exDir (str "d") []
        (.cons (exDir (str "p") [exFile (str "a") .SHARE_DUPE] .nil)
          (.cons (exDir (str "q") [exFile (str "c") .DUPE_NONE] .nil) .nil))
        ).checkShareDupes.getDupe = .SHARE_DUPE ∧
      (exDir (str "d") []
        (.cons (exDir (str "q") [exFile (str "c") .DUPE_NONE] .nil)
          (.cons (exDir (str "p") [exFile (str "a") .SHARE_DUPE] .nil) .nil))
        ).checkShareDupes.getDupe = .PARTIAL_SHARE_DUPE := by
  refine ⟨List.Perm.swap _ _ _, by rfl, by rfl, by rfl, by rfl⟩

/-- C10 (the code at the failing input): a directory without subdirectories whose two
files of size 1 are a share dupe and a queue dupe, in this order, gets
`PARTIAL_SHARE_DUPE`, not `SHARE_QUEUE_DUPE`. -/
theorem checkShareDupes_share_then_queue :
    (exDir (str "d") [exFile (str "a") .SHARE_DUPE, exFile (str "b") .QUEUE_DUPE]
        .nil).checkShareDupes.getDupe = .PARTIAL_SHARE_DUPE ∧
      DupeType.PARTIAL_SHARE_DUPE ≠ DupeType.SHARE_QUEUE_DUPE := by
  refine ⟨by rfl, by decide⟩

end DirectoryListing

namespace DirectoryListing

/-! ### Dupe states of a directory without subdirectories -/

theorem checkFiles_filter (noDirs : Bool) (fs : List File) (dupe : DupeType) (first : Bool) :
    checkFiles noDirs fs dupe first
      = checkFiles noDirs (fs.filter (fun f => decide (f.size ≠ 0))) dupe first := by
  induction fs generalizing dupe first with
  | nil => rfl
  | cons f t ih =>
    by_cases h0 : f.size = 0
    · have hz : ¬ (f.size > 0) := by omega
      simp [checkFiles, List.filter_cons, h0, ih]
    · by_cases hp : f.size > 0
      · simp [checkFiles, List.filter_cons, h0, hp, ih]
      · simp [checkFiles, List.filter_cons, h0, hp, ih]

theorem checkFiles_partialShare (fs : List File) (first : Bool)
    (hq : ∀ f ∈ fs, f.size > 0 → f.isQueued = false) :
    checkFiles true fs .PARTIAL_SHARE_DUPE first = .PARTIAL_SHARE_DUPE := by
  induction fs generalizing first with
  | nil => rfl
  | cons f t ih =>
    have ht : ∀ g ∈ t, g.size > 0 → g.isQueued = false := fun g hg => hq g (by simp [hg])
    by_cases hp : f.size > 0
    · have hf := hq f (by simp) hp
      have : fileStep .PARTIAL_SHARE_DUPE first true f = .PARTIAL_SHARE_DUPE := by
        simp [fileStep, hf]
      simp [checkFiles, hp, this, ih false ht]
    · simp [checkFiles, hp, ih first ht]

theorem checkFiles_share (fs : List File) (first : Bool)
    (hq : ∀ f ∈ fs, f.size > 0 → f.isQueued = false) :
    (((∀ f ∈ fs, f.size > 0 → f.dupe = .SHARE_DUPE) →
        checkFiles true fs .SHARE_DUPE first = .SHARE_DUPE) ∧
      ((∃ f ∈ fs, f.size > 0 ∧ f.dupe ≠ .SHARE_DUPE) →
        checkFiles true fs .SHARE_DUPE first = .PARTIAL_SHARE_DUPE)) := by
  induction fs generalizing first with
  | nil => simp [checkFiles]
  | cons f t ih =>
    have ht : ∀ g ∈ t, g.size > 0 → g.isQueued = false := fun g hg => hq g (by simp [hg])
    by_cases hp : f.size > 0
    · have hf := hq f (by simp) hp
      by_cases hs : f.dupe = .SHARE_DUPE
      · have hstep : fileStep .SHARE_DUPE first true f = .SHARE_DUPE := by
          simp [fileStep, hf, hs]
        constructor
        · intro hall
          simp only [checkFiles, hp, if_true, hstep]
          exact (ih false ht).1 (fun g hg => hall g (by simp [hg]))
        · rintro ⟨g, hg, hgp, hgs⟩
          simp only [checkFiles, hp, if_true, hstep]
          simp only [List.mem_cons] at hg
          rcases hg with rfl | hg
          · exact absurd hs hgs
          · exact (ih false ht).2 ⟨g, hg, hgp, hgs⟩
      · have hstep : fileStep .SHARE_DUPE first true f = .PARTIAL_SHARE_DUPE := by
          simp [fileStep, hs]
        constructor
        · intro hall
          exact absurd (hall f (by simp) hp) hs
        · intro _
          simp only [checkFiles, hp, if_true, hstep]
          exact checkFiles_partialShare t false ht
    · constructor
      · intro hall
        simp only [checkFiles, hp, if_false]
        exact (ih first ht).1 (fun g hg => hall g (by simp [hg]))
      · rintro ⟨g, hg, hgp, hgs⟩
        simp only [checkFiles, hp, if_false]
        simp only [List.mem_cons] at hg
        rcases hg with rfl | hg
        · exact absurd hgp hp
        · exact (ih first ht).2 ⟨g, hg, hgp, hgs⟩

theorem checkFiles_none_later (fs : List File)
    (hq : ∀ f ∈ fs, f.size > 0 → f.isQueued = false) :
    (((∃ f ∈ fs, f.size > 0 ∧ f.dupe = .SHARE_DUPE) →
        checkFiles true fs .DUPE_NONE false = .PARTIAL_SHARE_DUPE) ∧
      ((∀ f ∈ fs, f.size > 0 → f.dupe ≠ .SHARE_DUPE) →
        checkFiles true fs .DUPE_NONE false = .DUPE_NONE)) := by
  induction fs with
  | nil => simp [checkFiles]
  | cons f t ih =>
    have ht : ∀ g ∈ t, g.size > 0 → g.isQueued = false := fun g hg => hq g (by simp [hg])
    by_cases hp : f.size > 0
    · have hf := hq f (by simp) hp
      by_cases hs : f.dupe = .SHARE_DUPE
      · have hstep : fileStep .DUPE_NONE false true f = .PARTIAL_SHARE_DUPE := by
          simp [fileStep, hf, hs]
        constructor
        · intro _
          simp only [checkFiles, hp, if_true, hstep]
          exact checkFiles_partialShare t false ht
        · intro hall
          exact absurd hs (hall f (by simp) hp)
      · have hstep : fileStep .DUPE_NONE false true f = .DUPE_NONE := by
          simp [fileStep, hf, hs]
        constructor
        · rintro ⟨g, hg, hgp, hgs⟩
          simp only [checkFiles, hp, if_true, hstep]
          simp only [List.mem_cons] at hg
          rcases hg with rfl | hg
          · exact absurd hgs hs
          · exact (ih ht).1 ⟨g, hg, hgp, hgs⟩
        · intro hall
          simp only [checkFiles, hp, if_true, hstep]
          exact (ih ht).2 (fun g hg => hall g (by simp [hg]))
    · constructor
      · rintro ⟨g, hg, hgp, hgs⟩
        simp only [checkFiles, hp, if_false]
        simp only [List.mem_cons] at hg
        rcases hg with rfl | hg
        · exact absurd hgp hp
        · exact (ih ht).1 ⟨g, hg, hgp, hgs⟩
      · intro hall
        simp only [checkFiles, hp, if_false]
        exact (ih ht).2 (fun g hg => hall g (by simp [hg]))

end DirectoryListing

namespace DirectoryListing

theorem checkFiles_none_first (fs : List File)
    (hq : ∀ f ∈ fs, f.size > 0 → f.isQueued = false) :
    (((∃ f ∈ fs, f.size > 0) → (∀ f ∈ fs, f.size > 0 → f.dupe = .SHARE_DUPE) →
        checkFiles true fs .DUPE_NONE true = .SHARE_DUPE) ∧
      ((∃ f ∈ fs, f.size > 0 ∧ f.dupe = .SHARE_DUPE) →
        (∃ f ∈ fs, f.size > 0 ∧ f.dupe ≠ .SHARE_DUPE) →
        checkFiles true fs .DUPE_NONE true = .PARTIAL_SHARE_DUPE) ∧
      ((∀ f ∈ fs, f.size > 0 → f.dupe ≠ .SHARE_DUPE) →
        checkFiles true fs .DUPE_NONE true = .DUPE_NONE)) := by
  induction fs with
  | nil => simp [checkFiles]
  | cons f t ih =>
    have ht : ∀ g ∈ t, g.size > 0 → g.isQueued = false := fun g hg => hq g (by simp [hg])
    by_cases hp : f.size > 0
    · have hf := hq f (by simp) hp
      by_cases hs : f.dupe = .SHARE_DUPE
      · have hstep : fileStep .DUPE_NONE true true f = .SHARE_DUPE := by
          simp [fileStep, hs]
        refine ⟨?_, ?_, ?_⟩
        · intro _ hall
          simp only [checkFiles, hp, if_true, hstep]
          exact (checkFiles_share t false ht).1 (fun g hg => hall g (by simp [hg]))
        · rintro - ⟨g, hg, hgp, hgs⟩
          simp only [checkFiles, hp, if_true, hstep]
          simp only [List.mem_cons] at hg
          rcases hg with rfl | hg
          · exact absurd hs hgs
          · exact (checkFiles_share t false ht).2 ⟨g, hg, hgp, hgs⟩
        · intro hall
          exact absurd hs (hall f (by simp) hp)
      · have hstep : fileStep .DUPE_NONE true true f = .DUPE_NONE := by
          simp [fileStep, hf, hs]
        refine ⟨?_, ?_, ?_⟩
        · intro _ hall
          exact absurd (hall f (by simp) hp) hs
        · rintro ⟨g, hg, hgp, hgs⟩ -
          simp only [checkFiles, hp, if_true, hstep]
          simp only [List.mem_cons] at hg
          rcases hg with rfl | hg
          · exact absurd hgs hs
          · exact (checkFiles_none_later t ht).1 ⟨g, hg, hgp, hgs⟩
        · intro hall
          simp only [checkFiles, hp, if_true, hstep]
          exact (checkFiles_none_later t ht).2 (fun g hg => hall g (by simp [hg]))
    · refine ⟨?_, ?_, ?_⟩
      · rintro ⟨g, hg, hgp⟩ hall
        simp only [checkFiles, hp, if_false]
        simp only [List.mem_cons] at hg
        rcases hg with rfl | hg
        · exact absurd hgp hp
        · exact (ih ht).1 ⟨g, hg, hgp⟩ (fun g hg => hall g (by simp [hg]))
      · rintro ⟨g, hg, hgp, hgs⟩ ⟨k, hk, hkp, hks⟩
        simp only [checkFiles, hp, if_false]
        simp only [List.mem_cons] at hg hk
        rcases hg with rfl | hg
        · exact absurd hgp hp
        · rcases hk with rfl | hk
          · exact absurd hkp hp
          · exact (ih ht).2.1 ⟨g, hg, hgp, hgs⟩ ⟨k, hk, hkp, hks⟩
      · intro hall
        simp only [checkFiles, hp, if_false]
        exact (ih ht).2.2 (fun g hg => hall g (by simp [hg]))

theorem checkFiles_partialQueue (fs : List File) (first : Bool)
    (hs : ∀ f ∈ fs, f.size > 0 → f.dupe ≠ .SHARE_DUPE) :
    checkFiles true fs .PARTIAL_QUEUE_DUPE first = .PARTIAL_QUEUE_DUPE := by
  induction fs generalizing first with
  | nil => rfl
  | cons f t ih =>
    have ht : ∀ g ∈ t, g.size > 0 → g.dupe ≠ .SHARE_DUPE := fun g hg => hs g (by simp [hg])
    by_cases hp : f.size > 0
    · have hf := hs f (by simp) hp
      have : fileStep .PARTIAL_QUEUE_DUPE first true f = .PARTIAL_QUEUE_DUPE := by
        simp [fileStep, hf]
      simp [checkFiles, hp, this, ih false ht]
    · simp [checkFiles, hp, ih first ht]

theorem checkFiles_queue (fs : List File) (first : Bool)
    (hs : ∀ f ∈ fs, f.size > 0 → f.dupe ≠ .SHARE_DUPE) :
    (((∀ f ∈ fs, f.size > 0 → f.isQueued = true) →
        checkFiles true fs .QUEUE_DUPE first = .QUEUE_DUPE) ∧
      ((∃ f ∈ fs, f.size > 0 ∧ f.isQueued = false) →
        checkFiles true fs .QUEUE_DUPE first = .PARTIAL_QUEUE_DUPE)) := by
  induction fs generalizing first with
  | nil => simp [checkFiles]
  | cons f t ih =>
    have ht : ∀ g ∈ t, g.size > 0 → g.dupe ≠ .SHARE_DUPE := fun g hg => hs g (by simp [hg])
    by_cases hp : f.size > 0
    · have hf := hs f (by simp) hp
      by_cases hq : f.isQueued = true
      · have hstep : fileStep .QUEUE_DUPE first true f = .QUEUE_DUPE := by
          simp [fileStep, hf, hq]
        constructor
        · intro hall
          simp only [checkFiles, hp, if_true, hstep]
          exact (ih false ht).1 (fun g hg => hall g (by simp [hg]))
        · rintro ⟨g, hg, hgp, hgq⟩
          simp only [checkFiles, hp, if_true, hstep]
          simp only [List.mem_cons] at hg
          rcases hg with rfl | hg
          · simp [hq] at hgq
          · exact (ih false ht).2 ⟨g, hg, hgp, hgq⟩
      · have hq2 : f.isQueued = false := by simpa using hq
        have hstep : fileStep .QUEUE_DUPE first true f = .PARTIAL_QUEUE_DUPE := by
          simp [fileStep, hq2]
        constructor
        · intro hall
          exact absurd (hall f (by simp) hp) hq
        · intro _
          simp only [checkFiles, hp, if_true, hstep]
          exact checkFiles_partialQueue t false ht
    · constructor
      · intro hall
        simp only [checkFiles, hp, if_false]
        exact (ih first ht).1 (fun g hg => hall g (by simp [hg]))
      · rintro ⟨g, hg, hgp, hgq⟩
        simp only [checkFiles, hp, if_false]
        simp only [List.mem_cons] at hg
        rcases hg with rfl | hg
        · exact absurd hgp hp
        · exact (ih first ht).2 ⟨g, hg, hgp, hgq⟩

theorem checkFiles_none_later_queue (fs : List File)
    (hs : ∀ f ∈ fs, f.size > 0 → f.dupe ≠ .SHARE_DUPE) :
    (((∃ f ∈ fs, f.size > 0 ∧ f.isQueued = true) →
        checkFiles true fs .DUPE_NONE false = .PARTIAL_QUEUE_DUPE) ∧
      ((∀ f ∈ fs, f.size > 0 → f.isQueued = false) →
        checkFiles true fs .DUPE_NONE false = .DUPE_NONE)) := by
  induction fs with
  | nil => simp [checkFiles]
  | cons f t ih =>
    have ht : ∀ g ∈ t, g.size > 0 → g.dupe ≠ .SHARE_DUPE := fun g hg => hs g (by simp [hg])
    by_cases hp : f.size > 0
    · have hf := hs f (by simp) hp
      by_cases hq : f.isQueued = true
      · have hstep : fileStep .DUPE_NONE false true f = .PARTIAL_QUEUE_DUPE := by
          simp [fileStep, hf, hq]
        constructor
        · intro _
          simp only [checkFiles, hp, if_true, hstep]
          exact checkFiles_partialQueue t false ht
        · intro hall
          exact absurd hq (by simp [hall f (by simp) hp])
      · have hq2 : f.isQueued = false := by simpa using hq
        have hstep : fileStep .DUPE_NONE false true f = .DUPE_NONE := by
          simp [fileStep, hf, hq2]
        constructor
        · rintro ⟨g, hg, hgp, hgq⟩
          simp only [checkFiles, hp, if_true, hstep]
          simp only [List.mem_cons] at hg
          rcases hg with rfl | hg
          · exact absurd hgq hq
          · exact (ih ht).1 ⟨g, hg, hgp, hgq⟩
        · intro hall
          simp only [checkFiles, hp, if_true, hstep]
          exact (ih ht).2 (fun g hg => hall g (by simp [hg]))
    · constructor
      · rintro ⟨g, hg, hgp, hgq⟩
        simp only [checkFiles, hp, if_false]
        simp only [List.mem_cons] at hg
        rcases hg with rfl | hg
        · exact absurd hgp hp
        · exact (ih ht).1 ⟨g, hg, hgp, hgq⟩
      · intro hall
        simp only [checkFiles, hp, if_false]
        exact (ih ht).2 (fun g hg => hall g (by simp [hg]))

theorem checkFiles_none_first_queue (fs : List File)
    (hs : ∀ f ∈ fs, f.size > 0 → f.dupe ≠ .SHARE_DUPE) :
    (((∃ f ∈ fs, f.size > 0) → (∀ f ∈ fs, f.size > 0 → f.isQueued = true) →
        checkFiles true fs .DUPE_NONE true = .QUEUE_DUPE) ∧
      ((∃ f ∈ fs, f.size > 0 ∧ f.isQueued = true) →
        (∃ f ∈ fs, f.size > 0 ∧ f.isQueued = false) →
        checkFiles true fs .DUPE_NONE true = .PARTIAL_QUEUE_DUPE) ∧
      ((∀ f ∈ fs, f.size > 0 → f.isQueued = false) →
        checkFiles true fs .DUPE_NONE true = .DUPE_NONE)) := by
  induction fs with
  | nil => simp [checkFiles]
  | cons f t ih =>
    have ht : ∀ g ∈ t, g.size > 0 → g.dupe ≠ .SHARE_DUPE := fun g hg => hs g (by simp [hg])
    by_cases hp : f.size > 0
    · have hf := hs f (by simp) hp
      by_cases hq : f.isQueued = true
      · have hstep : fileStep .DUPE_NONE true true f = .QUEUE_DUPE := by
          simp [fileStep, hf, hq]
        refine ⟨?_, ?_, ?_⟩
        · intro _ hall
          simp only [checkFiles, hp, if_true, hstep]
          exact (checkFiles_queue t false ht).1 (fun g hg => hall g (by simp [hg]))
        · rintro - ⟨g, hg, hgp, hgq⟩
          simp only [checkFiles, hp, if_true, hstep]
          simp only [List.mem_cons] at hg
          rcases hg with rfl | hg
          · simp [hq] at hgq
          · exact (checkFiles_queue t false ht).2 ⟨g, hg, hgp, hgq⟩
        · intro hall
          exact absurd hq (by simp [hall f (by simp) hp])
      · have hq2 : f.isQueued = false := by simpa using hq
        have hstep : fileStep .DUPE_NONE true true f = .DUPE_NONE := by
          simp [fileStep, hf, hq2]
        refine ⟨?_, ?_, ?_⟩
        · intro _ hall
          exact absurd (hall f (by simp) hp) hq
        · rintro ⟨g, hg, hgp, hgq⟩ -
          simp only [checkFiles, hp, if_true, hstep]
          simp only [List.mem_cons] at hg
          rcases hg with rfl | hg
          · exact absurd hgq hq
          · exact (checkFiles_none_later_queue t ht).1 ⟨g, hg, hgp, hgq⟩
        · intro hall
          simp only [checkFiles, hp, if_true, hstep]
          exact (checkFiles_none_later_queue t ht).2 (fun g hg => hall g (by simp [hg]))
    · refine ⟨?_, ?_, ?_⟩
      · rintro ⟨g, hg, hgp⟩ hall
        simp only [checkFiles, hp, if_false]
        simp only [List.mem_cons] at hg
        rcases hg with rfl | hg
        · exact absurd hgp hp
        · exact (ih ht).1 ⟨g, hg, hgp⟩ (fun g hg => hall g (by simp [hg]))
      · rintro ⟨g, hg, hgp, hgq⟩ ⟨k, hk, hkp, hkq⟩
        simp only [checkFiles, hp, if_false]
        simp only [List.mem_cons] at hg hk
        rcases hg with rfl | hg
        · exact absurd hgp hp
        · rcases hk with rfl | hk
          · exact absurd hkp hp
          · exact (ih ht).2.1 ⟨g, hg, hgp, hgq⟩ ⟨k, hk, hkp, hkq⟩
      · intro hall
        simp only [checkFiles, hp, if_false]
        exact (ih ht).2.2 (fun g hg => hall g (by simp [hg]))

/-- C11: for a directory with dupe state `NONE`, no subdirectories and at least one
file of positive size. When no positive-size file is queued, `checkShareDupes` gives
`SHARE_DUPE` if every positive-size file is a share dupe, `PARTIAL_SHARE_DUPE` if one is
and one is not, and `NONE` if none is. When no positive-size file is a share dupe, it
gives `QUEUE_DUPE`, `PARTIAL_QUEUE_DUPE` and `NONE` in the same way for queued files. -/
theorem checkShareDupes_files_only (name : Str) (complete : Bool) (partialSize : Int)
    (date : Nat) (adls : Bool) (files : List File) (hpos : ∃ f ∈ files, f.size > 0) :
    ((∀ f ∈ files, f.size > 0 → f.isQueued = false) →
      ((∀ f ∈ files, f.size > 0 → f.dupe = .SHARE_DUPE) →
        (Directory.mk name complete partialSize date adls .DUPE_NONE files
          .nil).checkShareDupes.getDupe = .SHARE_DUPE) ∧
      ((∃ f ∈ files, f.size > 0 ∧ f.dupe = .SHARE_DUPE) →
        (∃ f ∈ files, f.size > 0 ∧ f.dupe ≠ .SHARE_DUPE) →
        (Directory.mk name complete partialSize date adls .DUPE_NONE files
          .nil).checkShareDupes.getDupe = .PARTIAL_SHARE_DUPE) ∧
      ((∀ f ∈ files, f.size > 0 → f.dupe ≠ .SHARE_DUPE) →
        (Directory.mk name complete partialSize date adls .DUPE_NONE files
          .nil).checkShareDupes.getDupe = .DUPE_NONE)) ∧
    ((∀ f ∈ files, f.size > 0 → f.dupe ≠ .SHARE_DUPE) →
      ((∀ f ∈ files, f.size > 0 → f.isQueued = true) →
        (Directory.mk name complete partialSize date adls .DUPE_NONE files
          .nil).checkShareDupes.getDupe = .QUEUE_DUPE) ∧
      ((∃ f ∈ files, f.size > 0 ∧ f.isQueued = true) →
        (∃ f ∈ files, f.size > 0 ∧ f.isQueued = false) →
        (Directory.mk name complete partialSize date adls .DUPE_NONE files
          .nil).checkShareDupes.getDupe = .PARTIAL_QUEUE_DUPE) ∧
      ((∀ f ∈ files, f.size > 0 → f.isQueued = false) →
        (Directory.mk name complete partialSize date adls .DUPE_NONE files
          .nil).checkShareDupes.getDupe = .DUPE_NONE)) := by
  have hval : (Directory.mk name complete partialSize date adls .DUPE_NONE files
      .nil).checkShareDupes.getDupe = checkFiles true files .DUPE_NONE true := by
    simp [Directory.checkShareDupes, DirList.checkShareDupes, Directory.getDupe, DirList.empty]
  rw [hval]
  constructor
  · intro hq
    have h := checkFiles_none_first files hq
    exact ⟨h.1 hpos, h.2.1, h.2.2⟩
  · intro hs
    have h := checkFiles_none_first_queue files hs
    exact ⟨h.1 hpos, h.2.1, h.2.2⟩

/-- C11, at a concrete input: three files of size 1, two share dupes around a file
that is no dupe, give `PARTIAL_SHARE_DUPE`. -/
theorem checkShareDupes_files_only_witness :
    (Directory.mk (str "d") true 0 0 false .DUPE_NONE
        [exFile (str "a") .SHARE_DUPE, exFile (str "c") .DUPE_NONE, exFile (str "b") .SHARE_DUPE]
        .nil).checkShareDupes.getDupe = .PARTIAL_SHARE_DUPE :=
  ((checkShareDupes_files_only (str "d") true 0 0 false
      [exFile (str "a") .SHARE_DUPE, exFile (str "c") .DUPE_NONE, exFile (str "b") .SHARE_DUPE]
      ⟨exFile (str "a") .SHARE_DUPE, by simp, by decide⟩).1 (by decide)).2.1
    ⟨exFile (str "a") .SHARE_DUPE, by simp, by decide, by decide⟩
    ⟨exFile (str "c") .DUPE_NONE, by simp, by decide, by decide⟩

end DirectoryListing

namespace DirectoryListing

/-- C12: a file created with size 0 has dupe state `NONE`, whatever the share and the
queue say; and the value of `checkShareDupes` on a directory depends on its file list
only through the files whose size is not 0, so that inserting a file of size 0 at any
position, or removing one, leaves it unchanged. -/
theorem checkShareDupes_ignores_empty_files :
    (∀ (airCheckDupe : TTHValue → Str → DupeType) (aName : Str) (aTTH : TTHValue)
        (checkDupe : Bool), (File.new airCheckDupe aName 0 aTTH checkDupe).dupe = .DUPE_NONE) ∧
    (∀ (name : Str) (complete : Bool) (partialSize : Int) (date : Nat) (adls : Bool)
        (dupe : DupeType) (ds : DirList) (files1 files2 : List File),
        files1.filter (fun f => decide (f.size ≠ 0)) = files2.filter (fun f => decide (f.size ≠ 0)) →
        (Directory.mk name complete partialSize date adls dupe files1 ds).checkShareDupes.getDupe
          = (Directory.mk name complete partialSize date adls dupe files2
              ds).checkShareDupes.getDupe) ∧
    (∀ (name : Str) (complete : Bool) (partialSize : Int) (date : Nat) (adls : Bool)
        (dupe : DupeType) (ds : DirList) (pre post : List File) (z : File), z.size = 0 →
        (Directory.mk name complete partialSize date adls dupe (pre ++ z :: post)
            ds).checkShareDupes.getDupe
          = (Directory.mk name complete partialSize date adls dupe (pre ++ post)
              ds).checkShareDupes.getDupe) := by
  have hgen : ∀ (name : Str) (complete : Bool) (partialSize : Int) (date : Nat) (adls : Bool)
      (dupe : DupeType) (ds : DirList) (files1 files2 : List File),
      files1.filter (fun f => decide (f.size ≠ 0)) = files2.filter (fun f => decide (f.size ≠ 0)) →
      (Directory.mk name complete partialSize date adls dupe files1 ds).checkShareDupes.getDupe
        = (Directory.mk name complete partialSize date adls dupe files2
            ds).checkShareDupes.getDupe := by
    intro name complete partialSize date adls dupe ds files1 files2 h
    simp only [Directory.checkShareDupes, Directory.getDupe]
    rw [checkFiles_filter _ files1, checkFiles_filter _ files2, h]
  refine ⟨?_, hgen, ?_⟩
  · intro airCheckDupe aName aTTH checkDupe
    simp [File.new]
  · intro name complete partialSize date adls dupe ds pre post z hz
    apply hgen
    simp [List.filter_append, List.filter_cons, hz]

/-- C12, at a concrete input: an empty file marked as a queue dupe, put between a
share dupe and a file that is no dupe, does not change the value. -/
theorem checkShareDupes_ignores_empty_files_witness :
    ({ name := str "z", size := 0, tthRoot := str "Z", adls := false, dupe := .QUEUE_DUPE }
        : File).size = 0 ∧
      (Directory.mk (str "d") true 0 0 false .DUPE_NONE
        ([exFile (str "a") .SHARE_DUPE]
          ++ { name := str "z", size := 0, tthRoot := str "Z", adls := false, dupe := .QUEUE_DUPE }
            :: [exFile (str "c") .DUPE_NONE]) .nil).checkShareDupes.getDupe
      = (Directory.mk (str "d") true 0 0 false .DUPE_NONE
        ([exFile (str "a") .SHARE_DUPE] ++ [exFile (str "c") .DUPE_NONE])
        .nil).checkShareDupes.getDupe :=
  ⟨rfl, checkShareDupes_ignores_empty_files.2.2 (str "d") true 0 0 false .DUPE_NONE .nil
    [exFile (str "a") .SHARE_DUPE] [exFile (str "c") .DUPE_NONE]
    { name := str "z", size := 0, tthRoot := str "Z", adls := false, dupe := .QUEUE_DUPE } rfl⟩

end DirectoryListing

namespace DirectoryListing

/-! ### Loading a list -/

theorem ListLoader.parse_append (env : Env) (pre rest : List (Bool × XmlEvent)) (ll : ListLoader) :
    ListLoader.parse env (pre ++ rest) ll
      = if (ListLoader.parse env pre ll).1 = none
        then ListLoader.parse env rest (ListLoader.parse env pre ll).2
        else ListLoader.parse env pre ll := by
  induction pre generalizing ll with
  | nil => simp [ListLoader.parse]
  | cons e t ih =>
    cases h : ll.step env e with
    | ok ll1 => simp [ListLoader.parse, h, ih]
    | error x => simp [ListLoader.parse, h]

/-- C15: when the elements before it have been read without a throw and the reader is
inside the listing, a `<Directory>` element whose `Name` is missing or empty ends the
load: `loadXML` returns normally, whatever follows the element is not read, the value
returned is the base path as the elements before had set it, and the tree and the
visited cache are as those elements left them. -/
theorem loadXML_stops_at_nameless_directory (env : Env) (l : Listing) (updating : Bool)
    (pre post : List (Bool × XmlEvent)) (attribs : List (Str × Str)) (simple : Bool)
    (failure : Option Thrown)
    (hpre : ((l.loader updating).parse env pre).1 = none)
    (hin : ((l.loader updating).parse env pre).2.inListing = true)
    (hname : getAttrib attribs sName 0 = []) :
    l.loadXML env ⟨pre ++ (false, .startTag sDirectory attribs simple) :: post, failure⟩ updating
      = (none, ((l.loader updating).parse env pre).2.base,
          { l with root := ((l.loader updating).parse env pre).2.root,
                   visitedDirs := ((l.loader updating).parse env pre).2.visitedDirs }) := by
  have hne : ¬ (sDirectory = sFile) := by decide
  have hstep : (((l.loader updating).parse env pre).2).step env
      (false, .startTag sDirectory attribs simple)
      = .error (.SimpleXMLException (str "Directory missing name attribute")) := by
    simp [ListLoader.step, ListLoader.startTag, hin, hne, ListLoader.startDirectory, hname]
  unfold Listing.loadXML
  rw [ListLoader.parse_append, if_pos hpre]
  simp [ListLoader.parse, hstep]

end DirectoryListing

namespace DirectoryListing

/-- C15, at a concrete input: a full list whose second directory element has no `Name`;
the directory `a` read before it stays, the directory `b` after it is not read. -/
theorem loadXML_stops_at_nameless_directory_witness :
    (Listing.new false true false true).loadXML exEnv
        ⟨exOpening ++ (false, .startTag sDirectory [(sDate, str "1")] true)
          :: [(false, .startTag sDirectory [(sName, str "b")] true)], none⟩ false
      = (none, (((Listing.new false true false true).loader false).parse exEnv exOpening).2.base,
          { Listing.new false true false true with
            root := (((Listing.new false true false true).loader false).parse exEnv
              exOpening).2.root,
            visitedDirs := (((Listing.new false true false true).loader false).parse exEnv
              exOpening).2.visitedDirs }) ∧
      ((((Listing.new false true false true).loader false).parse exEnv
        exOpening).2.root.directories.toList.map (fun d => d.name)) = [str "a"] :=
  ⟨loadXML_stops_at_nameless_directory exEnv (Listing.new false true false true) false exOpening
    [(false, .startTag sDirectory [(sName, str "b")] true)] [(sDate, str "1")] true none
    (by rfl) (by rfl) (by rfl), by rfl⟩

end DirectoryListing

namespace DirectoryListing

/-! ### The worker -/

theorem ListLoader.parse_abort (env : Env) (ll : ListLoader)
    (pre post : List (Bool × XmlEvent)) (name : Str) (attribs : List (Str × Str))
    (simple : Bool) (hpre : (ll.parse env pre).1 = none) :
    ll.parse env (pre ++ (true, .startTag name attribs simple) :: post)
      = (some .AbortException, (ll.parse env pre).2) := by
  rw [ListLoader.parse_append]
  simp [hpre, ListLoader.parse, ListLoader.step, ListLoader.startTag]

theorem Listing.loadXML_abort (env : Env) (l : Listing) (updating : Bool)
    (pre post : List (Bool × XmlEvent)) (name : Str) (attribs : List (Str × Str))
    (simple : Bool) (failure : Option Thrown)
    (hpre : ((l.loader updating).parse env pre).1 = none) :
    l.loadXML env ⟨pre ++ (true, .startTag name attribs simple) :: post, failure⟩ updating
      = (some .AbortException, ((l.loader updating).parse env pre).2.base,
          { l with root := ((l.loader updating).parse env pre).2.root,
                   visitedDirs := ((l.loader updating).parse env pre).2.visitedDirs }) := by
  simp [Listing.loadXML, ListLoader.parse_abort env _ pre post name attribs simple hpre]

/-- C17: when the worker of an own partial list takes a `REFRESH_DIR` task for which
`generatePartialList` gives no stream, the C string thrown in that branch is taken by
none of the `catch` clauses: it leaves `run`, nothing is fired, the tasks behind it
stay in the queue and the flag `running` is not cleared. -/
theorem run_refresh_dir_without_stream_escapes (re : RunEnv) (s : State) (xml : Str)
    (rest : List Task)
    (hpart : s.list.partialList = true) (hown : s.list.isOwnList = true)
    (hnone : re.generatePartialList (Util.toAdcFile xml) false (re.toInt s.fileName) = none) :
    run re { s with tasks := .REFRESH_DIR xml :: rest }
      = ({ s with tasks := rest }, .escaped (.cstring re.FILE_NOT_AVAILABLE)) := by
  simp [run, runLoop, tryTask, hpart, hown, hnone]

theorem run_refresh_dir_without_stream_escapes_witness :
    (exWorker true (.REFRESH_DIR (str "music"))).list.partialList = true
    ∧ (exWorker true (.REFRESH_DIR (str "music"))).list.isOwnList = true
    ∧ run exRunEnv (exWorker true (.REFRESH_DIR (str "music")))
        = ({ exWorker true (.REFRESH_DIR (str "music")) with tasks := [] },
            .escaped (.cstring (str "File Not Available"))) :=
  ⟨by rfl, by rfl,
    run_refresh_dir_without_stream_escapes exRunEnv (exWorker true (.REFRESH_DIR (str "music")))
      (str "music") [] (by rfl) (by rfl) (by rfl)⟩

end DirectoryListing

namespace DirectoryListing

/-- C16, counterexample: a `REFRESH_DIR` task on an empty partial list whose parse is
aborted after the element of directory `a` fires `LoadingFailed` with empty text and
returns, and the tree holds directory `a`, which it did not hold before the task. -/
theorem run_abort_keeps_directory_counterexample :
    (run exRunEnv (exWorker false (.REFRESH_DIR exTwoDirsXml))).2 = .returned
    ∧ (run exRunEnv (exWorker false (.REFRESH_DIR exTwoDirsXml))).1.fired
        = [.LoadingFailed []]
    ∧ (exWorker false (.REFRESH_DIR exTwoDirsXml)).list.root
        = .mk [] false 0 0 false .DUPE_NONE [] .nil
    ∧ (run exRunEnv (exWorker false (.REFRESH_DIR exTwoDirsXml))).1.list.root
        = .mk [] true 0 0 false .DUPE_NONE []
            (.cons (.mk (str "a") false 0 0 false .DUPE_NONE [] .nil) .nil)
    ∧ (run exRunEnv (exWorker false (.REFRESH_DIR exTwoDirsXml))).1.list.root
        ≠ (exWorker false (.REFRESH_DIR exTwoDirsXml)).list.root := by
  refine ⟨by rfl, by rfl, by rfl, by rfl, ?_⟩
  intro h
  have h2 := congrArg (fun r => r.directories.length) h
  revert h2
  decide

/-- C16, amended: when the abort flag is found set at a start tag while the list of a
`REFRESH_DIR` or `LOAD_FILE` task is parsed, the callbacks before that tag having
thrown nothing, the worker fires `LoadingFailed` with empty text, leaves its loop with
the later tasks still queued, clears `running` and returns; the tree and the visited
cache are what the callbacks before the tag made of them, for `LOAD_FILE` starting
from the root whose subdirectories were deleted if the list was partial. Nothing is
rolled back. -/
theorem run_abort_keeps_parsed_elements (re : RunEnv) (s : State) (rest : List Task)
    (pre post : List (Bool × XmlEvent)) (name : Str) (attribs : List (Str × Str))
    (simple : Bool) (failure : Option Thrown) :
    (∀ xml : Str,
      s.list.partialList = true →
      (if s.list.isOwnList then
          re.generatePartialList (Util.toAdcFile xml) false (re.toInt s.fileName)
        else some (re.memoryStream xml))
        = some ⟨pre ++ (true, .startTag name attribs simple) :: post, failure⟩ →
      ((s.list.loader true).parse re.env pre).1 = none →
      run re { s with tasks := .REFRESH_DIR xml :: rest }
        = ({ s with
              tasks := rest, running := false,
              fired := s.fired ++ [.LoadingFailed []],
              list := { s.list with
                root := ((s.list.loader true).parse re.env pre).2.root,
                visitedDirs := ((s.list.loader true).parse re.env pre).2.visitedDirs } },
            .returned))
    ∧ (∀ (dir : Str) (l1 : Listing),
      l1 = (if s.list.partialList then
              { s.list with root := s.list.root.setDirectories .nil, visitedDirs := [] }
            else s.list) →
      (if s.list.isOwnList then
          re.generatePartialList (str "/") true (re.toInt s.fileName)
        else if re.openFile s.fileName = none then
          if stricmp (Util.getFileExt s.fileName) (str ".bz2") then
            some (re.fileStream s.fileName true)
          else if stricmp (Util.getFileExt s.fileName) (str ".xml") then
            some (re.fileStream s.fileName false)
          else none
        else none)
        = some ⟨pre ++ (true, .startTag name attribs simple) :: post, failure⟩ →
      ((l1.loader s.list.isOwnList).parse re.env pre).1 = none →
      run re { s with tasks := .LOAD_FILE dir :: rest }
        = ({ s with
              tasks := rest, running := false,
              fired := s.fired ++ [.LoadingStarted, .LoadingFailed []],
              list := { l1 with
                root := ((l1.loader s.list.isOwnList).parse re.env pre).2.root,
                visitedDirs :=
                  ((l1.loader s.list.isOwnList).parse re.env pre).2.visitedDirs } },
            .returned)) := by
  constructor
  · intro xml hpart hstream hpre
    have hab := Listing.loadXML_abort re.env s.list true pre post name attribs simple failure hpre
    cases hown : s.list.isOwnList with
    | true =>
      rw [hown] at hstream
      simp only [if_true] at hstream
      simp [run, runLoop, tryTask, hpart, hown, hstream, hab, State.fire]
    | false =>
      rw [hown] at hstream
      simp only [Bool.false_eq_true, if_false, Option.some.injEq] at hstream
      simp [run, runLoop, tryTask, hpart, hown, hstream, hab, State.fire,
        Listing.updateXML]
  · intro dir l1 hl1 hstream hpre
    have hab := Listing.loadXML_abort re.env l1 s.list.isOwnList pre post name attribs simple
      failure hpre
    have hl1own : l1.isOwnList = s.list.isOwnList := by
      rw [hl1]; split <;> rfl
    cases hown : s.list.isOwnList with
    | true =>
      rw [hown] at hstream hab hl1own
      simp only [if_true] at hstream
      simp only [run, runLoop, tryTask, State.fire, ← hl1, hl1own, hstream, if_true, hab]
      simp [hown]
    | false =>
      rw [hown] at hstream hab hl1own
      simp only [Bool.false_eq_true, if_false] at hstream
      cases hopen : re.openFile s.fileName with
      | some x => simp [hopen] at hstream
      | none =>
        simp only [hopen, if_true] at hstream
        cases hbz : stricmp (Util.getFileExt s.fileName) (str ".bz2") with
        | true =>
          simp only [hbz, if_true, Option.some.injEq] at hstream
          simp only [run, runLoop, tryTask, State.fire, ← hl1, hl1own, Bool.false_eq_true,
            if_false, Listing.loadFile, hopen, hbz, if_true, id, hstream, hab]
          simp [hown]
        | false =>
          simp only [hbz, Bool.false_eq_true, if_false] at hstream
          cases hxml : stricmp (Util.getFileExt s.fileName) (str ".xml") with
          | false =>
            simp only [hxml, Bool.false_eq_true, if_false, reduceCtorEq] at hstream
          | true =>
            simp only [hxml, if_true, Option.some.injEq] at hstream
            simp only [run, runLoop, tryTask, State.fire, ← hl1, hl1own, Bool.false_eq_true,
              if_false, Listing.loadFile, hopen, hbz, hxml, if_true, id, hstream, hab]
            simp [hown]

end DirectoryListing

namespace DirectoryListing

theorem run_abort_keeps_parsed_elements_witness :
    (exWorker false .CLOSE).list.partialList = true
    ∧ (((exWorker false .CLOSE).list.loader true).parse exRunEnv.env
        (exTwoDirsAborted.events.take 2)).1 = none
    ∧ run exRunEnv (exWorker false (.REFRESH_DIR exTwoDirsXml))
        = ({ exWorker false .CLOSE with
              tasks := [], running := false, fired := [.LoadingFailed []],
              list := { (exWorker false .CLOSE).list with
                root := .mk [] true 0 0 false .DUPE_NONE []
                  (.cons (.mk (str "a") false 0 0 false .DUPE_NONE [] .nil) .nil) } },
            .returned)
    ∧ run exRunEnv (exWorker false (.LOAD_FILE (str "a")))
        = ({ exWorker false .CLOSE with
              tasks := [], running := false,
              fired := [.LoadingStarted, .LoadingFailed []],
              list := { (exWorker false .CLOSE).list with
                root := .mk [] true 0 0 false .DUPE_NONE []
                  (.cons (.mk (str "a") false 0 0 false .DUPE_NONE [] .nil) .nil) } },
            .returned) :=
  ⟨by rfl, by rfl,
    (run_abort_keeps_parsed_elements exRunEnv (exWorker false .CLOSE) []
      (exTwoDirsAborted.events.take 2) [(true, .endTag sFileListing)] sDirectory
      [(sName, str "b"), (sIncomplete, str "1")] true none).1 exTwoDirsXml
      (by rfl) (by rfl) (by rfl),
    (run_abort_keeps_parsed_elements exRunEnv (exWorker false .CLOSE) []
      (exTwoDirsAborted.events.take 2) [(true, .endTag sFileListing)] sDirectory
      [(sName, str "b"), (sIncomplete, str "1")] true none).2 (str "a") _ rfl
      (by rfl) (by rfl)⟩

end DirectoryListing

namespace ShareManager

/-! ### The refresh entry points while a refresh is in progress -/

/-- C18: with the flag `refreshing` set on entry, `refresh(bool, bool)` returns
`REFRESH_IN_PROGRESS` and changes nothing, but `refresh(const string&)`, whenever it
returns, has appended a `REFRESH_DIR` task to the queue before it tests the flag: the
queue is one task longer, the flag is set, and the value returned is
`REFRESH_IN_PROGRESS` when a path was found and `REFRESH_PATH_NOT_FOUND` when none
was. -/
theorem refreshPath_queues_while_refreshing (env : RefreshEnv) (m : Manager)
    (hflag : m.refreshing = true) :
    (∀ incoming isStartup : Bool,
        m.refreshAll env incoming isStartup = .ok (.REFRESH_IN_PROGRESS, m))
    ∧ (∀ (aDir : Str) (r : RefreshResult × Manager), m.refreshPath env aDir = .ok r →
        ∃ refreshPaths : List Str,
          r.2 = { m with tasks := m.tasks ++ [(TaskType.REFRESH_DIR, refreshPaths)] }
          ∧ r.1 = (if refreshPaths.isEmpty then RefreshResult.REFRESH_PATH_NOT_FOUND
                    else RefreshResult.REFRESH_IN_PROGRESS)) := by
  obtain ⟨trees, shares, dirNameMap, tthIndex, bloom, sharedSize, tasks, refreshing,
    refreshRunning, starts⟩ := m
  simp only at hflag
  subst hflag
  constructor
  · intro incoming isStartup
    simp [Manager.refreshAll, Manager.testAndSet]
  · intro aDir r hr
    simp only [Manager.refreshPath, Manager.testAndSet] at hr
    split at hr
    · exact absurd hr (by simp)
    · rename_i refreshPaths _
      refine ⟨refreshPaths, ?_⟩
      by_cases hemp : refreshPaths.isEmpty = true
      · simp only [hemp, if_true, Bool.false_eq_true, if_false, reduceCtorEq,
          Except.ok.injEq] at hr
        subst hr
        simp [hemp]
      · simp only [hemp, Bool.false_eq_true, if_false, reduceCtorEq, if_true,
          Except.ok.injEq] at hr
        subst hr
        simp [hemp]

end ShareManager

namespace ShareManager

theorem refreshPath_queues_while_refreshing_witness :
    exRefreshing.refreshing = true
    ∧ exRefreshing.refreshAll exRefreshEnv false false
        = .ok (.REFRESH_IN_PROGRESS, exRefreshing)
    ∧ exRefreshing.refreshPath exRefreshEnv (str "song")
        = .ok (.REFRESH_IN_PROGRESS,
            { exRefreshing with tasks := [(TaskType.REFRESH_DIR, [str "/song/"])] })
    ∧ ∃ refreshPaths : List Str,
        { exRefreshing with tasks := [(TaskType.REFRESH_DIR, [str "/song/"])] }
          = { exRefreshing with
                tasks := exRefreshing.tasks ++ [(TaskType.REFRESH_DIR, refreshPaths)] }
        ∧ RefreshResult.REFRESH_IN_PROGRESS
          = (if refreshPaths.isEmpty then RefreshResult.REFRESH_PATH_NOT_FOUND
              else RefreshResult.REFRESH_IN_PROGRESS) :=
  ⟨by rfl,
    (refreshPath_queues_while_refreshing exRefreshEnv exRefreshing (by rfl)).1 false false,
    by rfl,
    (refreshPath_queues_while_refreshing exRefreshEnv exRefreshing (by rfl)).2 (str "song")
      (.REFRESH_IN_PROGRESS,
        { exRefreshing with tasks := [(TaskType.REFRESH_DIR, [str "/song/"])] }) (by rfl)⟩

end ShareManager

namespace ShareManager

/-! ### Shutdown during a refresh -/

theorem Manager.removeDir_frame (m m2 m1 : Manager) (a : Addr)
    (ht : m2.trees = m.trees) (hn : m2.dirNameMap = m.dirNameMap)
    (h : m.removeDir a = .ok m1) :
    m2.removeDir a = .ok { m2 with dirNameMap := m1.dirNameMap } := by
  have hfun : m2.getRef = m.getRef := by
    funext x
    simp [Manager.getRef, ht]
  simp only [Manager.removeDir, Manager.getDir, hfun, ht, hn] at h ⊢
  simp only [Manager.getRef, ht] at h ⊢
  split at h
  · rename_i d r hd hr
    split at h
    · exact absurd h (by simp)
    · rename_i names hnames
      simp only [Except.ok.injEq] at h
      subst h
      rfl
  · exact absurd h (by simp)

/-- C19: when `aShutdown` is found set after the scan of the one directory of a task,
`run` leaves at `goto end` with `shares`, the directory objects, the TTH index, the
bloom filter and `sharedSize` as they were. For `REFRESH_ALL` the name index is as it
was too. For `REFRESH_DIR`, `REFRESH_INCOMING` and `ADD_DIR` the name index is what
`removeDir` made of it before the scan: the entries of the refreshed directory and of
the directories below it are gone although the refresh was abandoned. -/
theorem run_shutdown_drops_refreshed_names (env : ShareEnv) (m : Manager) (type : TaskType)
    (path key : Str) (a : Addr) (old : Directory) (rest : List (TaskType × List Str))
    (htasks : m.tasks = (type, [path]) :: rest)
    (hfind : m.shares.find? (fun e => stricmp e.1 path) = some (key, a))
    (hold : m.getDir a = some old)
    (hhidden : env.checkHidden path = true)
    (hshutdown : (env.scan path).aShutdown = true) :
    (type = .REFRESH_ALL →
      m.run env = .ok { m with tasks := rest, refreshRunning := false, refreshing := false })
    ∧ (type = .REFRESH_DIR ∨ type = .REFRESH_INCOMING ∨ type = .ADD_DIR →
        ∀ m1 : Manager, m.removeDir a = .ok m1 →
          m.run env = .ok { m with tasks := rest, refreshRunning := false,
                                   refreshing := false, dirNameMap := m1.dirNameMap }) := by
  have hrun : m.run env = runTasks env ((type, [path]) :: rest) m := by
    simp [Manager.run, htasks]
  simp only [Manager.getDir, List.get?_eq_getElem?] at hold
  constructor
  · intro ht
    subst ht
    rw [hrun]
    simp [runTasks, runTask, hfind, scanDirs, hhidden, Manager.getDir, hold, hshutdown]
  · intro ht m1 hm1
    rw [hrun]
    have key1 : ∀ m2 : Manager, m2.trees = m.trees → m2.dirNameMap = m.dirNameMap →
        removeDirs [(path, a)] m2 = .ok { m2 with dirNameMap := m1.dirNameMap } := by
      intro m2 h1 h2
      simp [removeDirs, Manager.removeDir_frame m m2 m1 a h1 h2 hm1]
    rcases ht with ht | ht | ht <;> subst ht <;>
      simp [runTasks, runTask, hfind, key1, scanDirs, hhidden, Manager.getDir, hold,
        hshutdown]

end ShareManager

namespace ShareManager

theorem run_shutdown_drops_refreshed_names_witness :
    (exSongRefresh .REFRESH_DIR).dirNameMap = [(str "song", ⟨0, []⟩)]
    ∧ (exSongRefresh .REFRESH_DIR).removeDir ⟨0, []⟩
        = .ok { exSongRefresh .REFRESH_DIR with dirNameMap := [] }
    ∧ (exSongRefresh .REFRESH_DIR).run exShareEnv
        = .ok { exSongRefresh .REFRESH_DIR with
                  tasks := [], refreshRunning := false, refreshing := false,
                  dirNameMap := [] }
    ∧ (exSongRefresh .REFRESH_ALL).run exShareEnv
        = .ok { exSongRefresh .REFRESH_ALL with
                  tasks := [], refreshRunning := false, refreshing := false } :=
  ⟨by rfl, by rfl,
    (run_shutdown_drops_refreshed_names exShareEnv (exSongRefresh .REFRESH_DIR) .REFRESH_DIR
      (str "/song/") (str "/song/") ⟨0, []⟩ _ [] (by rfl) (by rfl) (by rfl) (by rfl)
      (by rfl)).2 (Or.inl rfl) { exSongRefresh .REFRESH_DIR with dirNameMap := [] } (by rfl),
    (run_shutdown_drops_refreshed_names exShareEnv (exSongRefresh .REFRESH_ALL) .REFRESH_ALL
      (str "/song/") (str "/song/") ⟨0, []⟩ _ [] (by rfl) (by rfl) (by rfl) (by rfl)
      (by rfl)).1 rfl⟩

end ShareManager


namespace ShareManager

/-! ### The TTH index after a file has been hashed -/

/-- C20: the refresh of the root `C:\a\b\`, which lies below the root `C:\a\`, leaves
`shares` with a new directory object for `C:\a\b\` that is no part of the tree of
`C:\a\`; `rebuildIndices` has run and the TTH index holds exactly the files reachable
from the top-level root. When `C:\a\b\x.bin` is hashed after that, `findDirectory`
takes the new object, the entry of the reachable file `x.bin` is erased because its
real path is that of the hashed file, and an entry for the file of the new object is
inserted: the reachable file has no entry and the only entry of the index points to a
file that is not reachable from a top-level root. -/
theorem onFileHashed_indexes_detached_file :
    exNested.run exShareEnv = .ok exNestedRefreshed
    ∧ exNestedRefreshed.rebuildIndices exShareEnv = exNestedRefreshed
    ∧ exNestedRefreshed.reachableFiles exShareEnv = [⟨⟨0, [0]⟩, str "x.bin"⟩]
    ∧ exNestedRefreshed.tthIndex = [⟨⟨0, [0]⟩, str "x.bin"⟩]
    ∧ (exNestedRefreshed.onFileHashed exShareEnv (str "C:\\a\\b\\x.bin") (str "H2")).map
        (fun m => (m.reachableFiles exShareEnv, m.tthIndex))
        = .ok ([⟨⟨0, [0]⟩, str "x.bin"⟩], [⟨⟨1, []⟩, str "x.bin"⟩]) := by
  refine ⟨by rfl, by rfl, by rfl, by rfl, by rfl⟩

end ShareManager

namespace DirectoryListing

/-! ### Merging partial lists -/

theorem tokenizeFrom_joinSegments (segs : List Str) (hsegs : ∀ s ∈ segs, '/' ∉ s)
    (pre : Str) (fuel : Nat) (tokens : List Str) (hfuel : segs.length < fuel) :
    tokenizeFrom (pre ++ joinSegments segs) '/' fuel pre.length tokens = tokens ++ segs := by
  induction segs generalizing pre fuel tokens with
  | nil =>
    cases fuel with
    | zero => omega
    | succ f =>
      have h := strFind_tail pre [] (by simp)
      simp only [List.append_nil] at h
      simp [tokenizeFrom, joinSegments, h]
  | cons s rest ih =>
    cases fuel with
    | zero => omega
    | succ f =>
      have hs : '/' ∉ s := hsegs s (by simp)
      have hfind : strFind (pre ++ joinSegments (s :: rest)) '/' pre.length
          = some (pre.length + s.length) := by
        simpa [joinSegments] using strFind_segment pre s (joinSegments rest) hs
      have hsub : substr (pre ++ joinSegments (s :: rest)) pre.length s.length = s := by
        simpa [joinSegments] using substr_segment pre s ('/' :: joinSegments rest)
      have hpath : pre ++ joinSegments (s :: rest) = (pre ++ s ++ ['/']) ++ joinSegments rest := by
        simp [joinSegments]
      have hlen : (pre ++ s ++ ['/']).length = pre.length + s.length + 1 := by
        simp only [List.length_append, List.length_singleton]
      have := ih (fun x hx => hsegs x (by simp [hx])) (pre ++ s ++ ['/']) f (tokens ++ [s])
        (by simp at hfuel; omega)
      simp only [tokenizeFrom, hfind]
      rw [show pre.length + s.length - pre.length = s.length by omega, hsub, hpath, ← hlen, this]
      simp

theorem StringTokenizer_joinSegments (segs : List Str) (hsegs : ∀ s ∈ segs, '/' ∉ s) :
    StringTokenizer (joinSegments segs) '/' = segs := by
  have h := tokenizeFrom_joinSegments segs hsegs [] ((joinSegments segs).length + 1) []
    (by have := joinSegments_length segs; omega)
  simpa [StringTokenizer] using h

theorem joinSegments_append (a b : List Str) :
    joinSegments (a ++ b) = joinSegments a ++ joinSegments b := by
  induction a with
  | nil => simp [joinSegments]
  | cons x t ih => simp [joinSegments, ih]

end DirectoryListing

namespace DirectoryListing

@[simp] theorem Directory.directories_setDirectories (ds : DirList) (d : Directory) :
    (d.setDirectories ds).directories = ds := by cases d; rfl

@[simp] theorem Directory.files_setDirectories (ds : DirList) (d : Directory) :
    (d.setDirectories ds).files = d.files := by cases d; rfl

@[simp] theorem Directory.name_setDirectories (ds : DirList) (d : Directory) :
    (d.setDirectories ds).name = d.name := by cases d; rfl

@[simp] theorem Directory.directories_setFiles (fs : List File) (d : Directory) :
    (d.setFiles fs).directories = d.directories := by cases d; rfl

@[simp] theorem Directory.files_setFiles (fs : List File) (d : Directory) :
    (d.setFiles fs).files = fs := by cases d; rfl

@[simp] theorem Directory.name_setFiles (fs : List File) (d : Directory) :
    (d.setFiles fs).name = d.name := by cases d; rfl

@[simp] theorem Directory.directories_setComplete (c : Bool) (d : Directory) :
    (d.setComplete c).directories = d.directories := by cases d; rfl

@[simp] theorem Directory.files_setComplete (c : Bool) (d : Directory) :
    (d.setComplete c).files = d.files := by cases d; rfl

@[simp] theorem Directory.name_setComplete (c : Bool) (d : Directory) :
    (d.setComplete c).name = d.name := by cases d; rfl

@[simp] theorem Directory.directories_setDate (env : Env) (x : Str) (d : Directory) :
    (d.setDate env x).directories = d.directories := by cases d; rfl

@[simp] theorem Directory.files_setDate (env : Env) (x : Str) (d : Directory) :
    (d.setDate env x).files = d.files := by cases d; rfl

@[simp] theorem Directory.name_setDate (env : Env) (x : Str) (d : Directory) :
    (d.setDate env x).name = d.name := by cases d; rfl

@[simp] theorem Directory.new_directories (env : Env) (names : List Str) (n : Str) (a c k : Bool)
    (s dt : Str) : (Directory.new env names n a c k s dt).directories = .nil := rfl

@[simp] theorem Directory.new_files (env : Env) (names : List Str) (n : Str) (a c k : Bool)
    (s dt : Str) : (Directory.new env names n a c k s dt).files = [] := rfl

@[simp] theorem Directory.new_name (env : Env) (names : List Str) (n : Str) (a c k : Bool)
    (s dt : Str) : (Directory.new env names n a c k s dt).name = n := rfl

theorem getAt_append (p q : Pos) (root : Directory) :
    getAt (p ++ q) root = (getAt p root).bind (getAt q) := by
  induction p generalizing root with
  | nil => simp [getAt]
  | cons i rest ih =>
    simp only [List.cons_append, getAt]
    cases h : root.directories.get? i with
    | none => simp
    | some c => simpa using ih c

theorem DirList.get?_modify (g : Directory → Directory) :
    ∀ (ds : DirList) (i : Nat), (ds.modify g i).get? i = (ds.get? i).map g
  | .nil, _ => by simp [DirList.modify, DirList.get?]
  | .cons _ _, 0 => by simp [DirList.modify, DirList.get?]
  | .cons _ rest, k + 1 => by
    simpa [DirList.modify, DirList.get?] using DirList.get?_modify g rest k

theorem DirList.modify_modify (g h : Directory → Directory) :
    ∀ (ds : DirList) (i : Nat), (ds.modify h i).modify g i = ds.modify (fun x => g (h x)) i
  | .nil, _ => by simp [DirList.modify]
  | .cons _ _, 0 => by simp [DirList.modify]
  | .cons _ rest, k + 1 => by
    simpa [DirList.modify] using DirList.modify_modify g h rest k

theorem DirList.modify_congr (g h : Directory → Directory) :
    ∀ (ds : DirList) (i : Nat), (∀ c, ds.get? i = some c → g c = h c) →
      ds.modify g i = ds.modify h i
  | .nil, _, _ => by simp [DirList.modify]
  | .cons d _, 0, hgh => by simp [DirList.modify, hgh d (by simp [DirList.get?])]
  | .cons _ rest, k + 1, hgh => by
    simp only [DirList.modify]
    rw [DirList.modify_congr g h rest k (fun c hc => hgh c (by simpa [DirList.get?] using hc))]

theorem getAt_modifyAt (g : Directory → Directory) (p : Pos) (root d : Directory)
    (h : getAt p root = some d) : getAt p (modifyAt g p root) = some (g d) := by
  induction p generalizing root with
  | nil => simp [getAt] at h; simp [getAt, modifyAt, h]
  | cons i rest ih =>
    simp only [getAt] at h
    cases hc : root.directories.get? i with
    | none => simp [hc] at h
    | some c =>
      simp only [hc] at h
      simp [getAt, modifyAt, DirList.get?_modify, hc, ih c h]

theorem modifyAt_modifyAt (g h : Directory → Directory) (p : Pos) (root : Directory) :
    modifyAt g p (modifyAt h p root) = modifyAt (fun x => g (h x)) p root := by
  induction p generalizing root with
  | nil => simp [modifyAt]
  | cons i rest ih =>
    simp only [modifyAt, Directory.directories_setDirectories, DirList.modify_modify]
    cases root
    simp only [Directory.setDirectories, Directory.directories]
    congr 1
    apply DirList.modify_congr
    intro c _
    exact ih c

theorem modifyAt_append (g : Directory → Directory) (p q : Pos) (root : Directory) :
    modifyAt g (p ++ q) root = modifyAt (modifyAt g q) p root := by
  induction p generalizing root with
  | nil => simp [modifyAt]
  | cons i rest ih =>
    simp only [List.cons_append, modifyAt]
    congr 1
    apply DirList.modify_congr
    intro c _
    exact ih c

theorem modifyAt_congr (g h : Directory → Directory) (p : Pos) (root d : Directory)
    (hd : getAt p root = some d) (hgh : g d = h d) : modifyAt g p root = modifyAt h p root := by
  induction p generalizing root with
  | nil => simp [getAt] at hd; simp [modifyAt, hd, hgh]
  | cons i rest ih =>
    simp only [getAt] at hd
    cases hc : root.directories.get? i with
    | none => simp [hc] at hd
    | some c =>
      simp only [hc] at hd
      simp only [modifyAt]
      congr 1
      apply DirList.modify_congr
      intro c2 hc2
      rw [hc] at hc2
      cases hc2
      exact ih c hd

end DirectoryListing

namespace DirectoryListing

@[simp] theorem Directory.setDirectories_setDirectories (a b : DirList) (d : Directory) :
    (d.setDirectories a).setDirectories b = d.setDirectories b := by cases d; rfl

theorem DirList.modify_id : ∀ (ds : DirList) (i : Nat),
    (∀ c, ds.get? i = some c → True) → ds.modify (fun x => x) i = ds
  | .nil, _, _ => by simp [DirList.modify]
  | .cons _ _, 0, _ => by simp [DirList.modify]
  | .cons _ rest, k + 1, _ => by
    simp only [DirList.modify]
    rw [DirList.modify_id rest k (fun _ _ => trivial)]

theorem modifyAt_id (p : Pos) (root : Directory) : modifyAt (fun x => x) p root = root := by
  induction p generalizing root with
  | nil => simp [modifyAt]
  | cons i rest ih =>
    simp only [modifyAt]
    have : root.directories.modify (modifyAt (fun x => x) rest) i
        = root.directories.modify (fun x => x) i :=
      DirList.modify_congr _ _ _ _ (fun c _ => ih c)
    rw [this, DirList.modify_id _ _ (fun _ _ => trivial)]
    cases root
    rfl

theorem name_chainOf (g : Directory → Directory) (hg : ∀ x, (g x).name = x.name)
    (nodes : List Directory) (d : Directory) : (chainOf g nodes d).name = d.name := by
  cases nodes with
  | nil => simp [chainOf, hg]
  | cons c rest => simp [chainOf]

theorem getAt_chainOf (g : Directory → Directory) (nodes : List Directory) (d : Directory)
    (hd : d.directories = .nil) (hnodes : ∀ c ∈ nodes, c.directories = .nil) :
    getAt (List.replicate nodes.length 0) (chainOf g nodes d) = some (g (chainLeaf nodes d)) := by
  induction nodes generalizing d with
  | nil => simp [getAt, chainOf, chainLeaf]
  | cons c rest ih =>
    have hc : c.directories = .nil := hnodes c (by simp)
    simp only [List.length_cons, List.replicate_succ, getAt, chainOf,
      Directory.directories_setDirectories, hd, DirList.push, DirList.get?, chainLeaf]
    exact ih c hc (fun x hx => hnodes x (by simp [hx]))

theorem modifyAt_chainOf (g h : Directory → Directory) (nodes : List Directory) (d : Directory)
    (hd : d.directories = .nil) (hnodes : ∀ c ∈ nodes, c.directories = .nil) :
    modifyAt h (List.replicate nodes.length 0) (chainOf g nodes d)
      = chainOf (fun x => h (g x)) nodes d := by
  induction nodes generalizing d with
  | nil => simp [modifyAt, chainOf]
  | cons c rest ih =>
    have hc : c.directories = .nil := hnodes c (by simp)
    simp only [List.length_cons, List.replicate_succ, modifyAt, chainOf,
      Directory.directories_setDirectories, hd, DirList.push, DirList.modify,
      Directory.setDirectories_setDirectories]
    rw [ih c hc (fun x hx => hnodes x (by simp [hx]))]

theorem chainLeaf_mem (nodes : List Directory) (d : Directory) :
    chainLeaf nodes d = d ∨ chainLeaf nodes d ∈ nodes := by
  induction nodes generalizing d with
  | nil => simp [chainLeaf]
  | cons c rest ih =>
    simp only [chainLeaf]
    rcases ih c with h | h
    · right; simp [h]
    · right; simp [h]

theorem dirsAtPath_chainOf (g : Directory → Directory) (hg : ∀ x, (g x).name = x.name)
    (nodes : List Directory) (d : Directory) (rest : List Str)
    (hd : d.directories = .nil) (hnodes : ∀ c ∈ nodes, c.directories = .nil) :
    dirsAtPath (nodes.map (fun c => c.name) ++ rest) (chainOf g nodes d)
      = dirsAtPath rest (g (chainLeaf nodes d)) := by
  induction nodes generalizing d with
  | nil => simp [chainOf, chainLeaf]
  | cons c more ih =>
    have hc : c.directories = .nil := hnodes c (by simp)
    simp only [List.map_cons, List.cons_append, dirsAtPath, chainOf,
      Directory.directories_setDirectories, hd, DirList.push, DirList.toList, chainLeaf]
    simp [name_chainOf g hg more c, ih c hc (fun x hx => hnodes x (by simp [hx]))]

theorem visitedFind_insert_ne (v : List (Str × Pos)) (s m : Str) (p : Pos) (h : m ≠ s) :
    visitedFind (visitedInsert v s p) m = visitedFind v m := by
  have hsm : (s == m) = false := by
    simp only [beq_eq_false_iff_ne, ne_eq]
    exact fun e => h e.symm
  simp only [visitedFind, visitedInsert, List.find?_cons, hsm]
  congr 1
  induction v with
  | nil => simp
  | cons e rest ih =>
    by_cases hes : e.1 = s
    · simp only [List.filter_cons, hes, beq_self_eq_true, Bool.not_true, Bool.false_eq_true,
        if_false, List.find?_cons, hsm]
      exact ih
    · have : (e.1 == s) = false := by simpa using hes
      simp only [List.filter_cons, this, Bool.not_false, if_true, List.find?_cons]
      cases hem : (e.1 == m) with
      | true => rfl
      | false => exact ih

end DirectoryListing

namespace DirectoryListing

theorem ListLoader.curDir_of (ll : ListLoader) (p : Pos) (d : Directory)
    (hcur : ll.cur = some p) (hget : getAt p ll.root = some d) : ll.curDir = .ok (p, d) := by
  simp [ListLoader.curDir, hcur, hget]

theorem ListLoader.walkBase_fresh (env : Env) (segs : List Str) (ll : ListLoader) (p : Pos)
    (d : Directory) (hcur : ll.cur = some p) (hget : getAt p ll.root = some d)
    (hd : d.directories = .nil) :
    ∃ (nodes : List Directory) (v : List (Str × Pos)),
      nodes.map (fun c => c.name) = segs
      ∧ (∀ c ∈ nodes, c.directories = .nil ∧ c.files = [])
      ∧ (∀ m, m ∉ segs → visitedFind v m = visitedFind ll.visitedDirs m)
      ∧ ListLoader.walkBase env segs ll
          = .ok { ll with root := modifyAt (chainOf (fun x => x) nodes) p ll.root,
                          visitedDirs := v,
                          cur := some (p ++ List.replicate segs.length 0) } := by
  induction segs generalizing ll p d with
  | nil =>
    refine ⟨[], ll.visitedDirs, rfl, by simp, fun _ _ => rfl, ?_⟩
    have hid : modifyAt (chainOf (fun x => x) []) p ll.root = ll.root := modifyAt_id p ll.root
    simp only [ListLoader.walkBase, hid, List.length_nil, List.replicate_zero, List.append_nil,
      ← hcur]
  | cons s rest ih =>
    have hdir := ListLoader.curDir_of ll p d hcur hget
    let nd := Directory.new env (namesAlong p ll.root) s false false true [] []
    let root1 := modifyAt (fun x => x.setDirectories (x.directories.push nd)) p ll.root
    have hget1 : getAt (p ++ [0]) root1 = some nd := by
      rw [getAt_append, getAt_modifyAt _ p ll.root d hget]
      simp [getAt, hd, DirList.push, DirList.get?]
    obtain ⟨nodes, v, hnames, hfresh, hvis, hwalk⟩ :=
      ih { ll with root := root1,
                   visitedDirs := visitedInsert ll.visitedDirs s (p ++ [0]),
                   cur := some (p ++ [0]) } (p ++ [0]) nd rfl hget1 rfl
    refine ⟨nd :: nodes, v, by simp [hnames, nd], ?_, ?_, ?_⟩
    · intro c hc
      rcases List.mem_cons.mp hc with h | h
      · subst h; exact ⟨rfl, rfl⟩
      · exact hfresh c h
    · intro m hm
      have hms : m ≠ s := fun e => hm (by simp [e])
      have hmr : m ∉ rest := fun e => hm (by simp [e])
      rw [hvis m hmr]
      exact visitedFind_insert_ne _ _ _ _ hms
    · have hroot : modifyAt (chainOf (fun x => x) nodes) (p ++ [0]) root1
          = modifyAt (chainOf (fun x => x) (nd :: nodes)) p ll.root := by
        rw [modifyAt_append, modifyAt_modifyAt]
        apply modifyAt_congr _ _ p ll.root d hget
        simp [modifyAt, chainOf, hd, DirList.push, DirList.modify]
      simp only [ListLoader.walkBase, hdir, hd, DirList.findIdx?, DirList.length]
      rw [hwalk, hroot]
      simp [List.replicate_succ]

theorem ListLoader.walkBase_existing (env : Env) (g : Directory → Directory)
    (hg : ∀ x, (g x).name = x.name) (nodes : List Directory) (ll : ListLoader) (p : Pos)
    (d : Directory) (hcur : ll.cur = some p)
    (hget : getAt p ll.root = some (chainOf g nodes d))
    (hd : d.directories = .nil) (hnodes : ∀ c ∈ nodes, c.directories = .nil) :
    ListLoader.walkBase env (nodes.map (fun c => c.name)) ll
      = .ok { ll with cur := some (p ++ List.replicate nodes.length 0) } := by
  induction nodes generalizing ll p d with
  | nil => simp [ListLoader.walkBase, ← hcur]
  | cons c rest ih =>
    have hc : c.directories = .nil := hnodes c (by simp)
    have hdir := ListLoader.curDir_of ll p _ hcur hget
    have hget1 : getAt (p ++ [0]) ll.root = some (chainOf g rest c) := by
      rw [getAt_append, hget]
      simp [getAt, chainOf, hd, DirList.push, DirList.get?]
    have := ih { ll with cur := some (p ++ [0]) } (p ++ [0]) c rfl hget1 hc
      (fun x hx => hnodes x (by simp [hx]))
    simp only [List.map_cons, ListLoader.walkBase, hdir, chainOf,
      Directory.directories_setDirectories, hd, DirList.push, DirList.findIdx?,
      name_chainOf g hg rest c, beq_self_eq_true, if_true]
    rw [this]
    simp [List.replicate_succ]

theorem ListLoader.walkBase_append (env : Env) (a b : List Str) (ll : ListLoader) :
    ListLoader.walkBase env (a ++ b) ll
      = match ListLoader.walkBase env a ll with
        | .error e => .error e
        | .ok ll1 => ListLoader.walkBase env b ll1 := by
  induction a generalizing ll with
  | nil => simp [ListLoader.walkBase]
  | cons s rest ih =>
    simp only [List.cons_append, ListLoader.walkBase]
    split
    · rfl
    · split <;> exact ih _

end DirectoryListing

namespace DirectoryListing

theorem getLast?_joinSegments (segs : List Str) :
    ('/' :: joinSegments segs).getLast? = some '/' := by
  induction segs with
  | nil => simp [joinSegments]
  | cons s rest ih =>
    have h : '/' :: joinSegments (s :: rest) = ('/' :: s) ++ ('/' :: joinSegments rest) := by
      simp [joinSegments]
    rw [h, List.getLast?_append, ih]
    simp

theorem ListLoader.startFileListing_update (env : Env) (ll ll2 : ListLoader)
    (attribs : List (Str × Str)) (toks : List Str) (p : Pos) (d : Directory)
    (hup : ll.updating = true)
    (hbase : getAttrib attribs sBase 2 = '/' :: joinSegments toks)
    (htoks : ∀ s ∈ toks, '/' ∉ s)
    (hwalk : ListLoader.walkBase env toks { ll with base := '/' :: joinSegments toks } = .ok ll2)
    (hcur : ll2.cur = some p) (hget : getAt p ll2.root = some d)
    (hdirs : d.directories = .nil) (hfiles : d.files = []) :
    ll.startFileListing env attribs false
      = .ok { ll2 with
                root := modifyAt
                  (fun x => (x.setDate env (getAttrib attribs sBaseDate 3)).setComplete true)
                  p ll2.root,
                inListing := true } := by
  have hlast := getLast?_joinSegments toks
  have hget2 : getAt p (modifyAt (fun x => x.setDate env (getAttrib attribs sBaseDate 3)) p
      ll2.root) = some (d.setDate env (getAttrib attribs sBaseDate 3)) :=
    getAt_modifyAt _ p ll2.root d hget
  have htok : StringTokenizer (List.drop 1 ('/' :: joinSegments toks)) '/' = toks := by
    simpa using StringTokenizer_joinSegments toks htoks
  have hcond : (decide (('/' :: joinSegments toks).length ≥ 1)
      && ('/' :: joinSegments toks).head? == some '/'
      && ('/' :: joinSegments toks).getLast? == some '/') = true := by
    simp [hlast]
  obtain ⟨root, visited, cur, base, inL, upd, cd, pl, uc⟩ := ll
  simp only at hup
  subst hup
  simp only [ListLoader.startFileListing, if_true, hbase, hcond, htok, hwalk,
    ListLoader.curDir, hcur, hget, hdirs, hfiles, DirList.empty, List.isEmpty_nil,
    Bool.not_true, Bool.or_self, Bool.false_eq_true, if_false, hget2, modifyAt_modifyAt]

theorem ListLoader.startDirectory_new (env : Env) (ll : ListLoader)
    (attribs : List (Str × Str)) (p : Pos) (d : Directory)
    (hup : ll.updating = true) (hcache : ll.useCache = true) (hin : ll.inListing = true)
    (hname : getAttrib attribs sName 0 ≠ [])
    (hvis : visitedFind ll.visitedDirs (getAttrib attribs sName 0) = none)
    (hcur : ll.cur = some p) (hget : getAt p ll.root = some d) :
    ll.startDirectory env attribs true
      = .ok { ll with
                root := modifyAt (fun x => x.setDirectories (x.directories.push
                  (Directory.new env (namesAlong p ll.root) (getAttrib attribs sName 0) false
                    (!(getAttrib attribs sIncomplete 1 == str "1"))
                    (ll.partialList && ll.checkDupe) (getAttrib attribs sSize 2)
                    (getAttrib attribs sDate 3)))) p ll.root } := by
  have hdir := ListLoader.curDir_of ll p d hcur hget
  have hne : (getAttrib attribs sName 0).isEmpty = false := by
    cases h : getAttrib attribs sName 0 with
    | nil => exact absurd h hname
    | cons _ _ => rfl
  have hpar : parentPos (p ++ [d.directories.length]) = some p := by
    simp [parentPos]
  simp only [ListLoader.startDirectory, hne, Bool.false_eq_true, if_false, hup, hcache, if_true,
    hvis, hdir, ListLoader.endTag, hin, hpar, ← hcur]

theorem ListLoader.startFile_append (env : Env) (ll : ListLoader)
    (attribs : List (Str × Str)) (p : Pos) (d : Directory)
    (hcache : ll.useCache = true)
    (hname : getAttrib attribs sName 0 ≠ []) (hsize : getAttrib attribs sSize 1 ≠ [])
    (htth : getAttrib attribs sTTH 2 ≠ [])
    (hcur : ll.cur = some p) (hget : getAt p ll.root = some d) :
    ll.startFile env attribs
      = .ok { ll with
                root := modifyAt (fun x => x.setFiles (x.files ++
                  [File.new env.fileDupe (getAttrib attribs sName 0)
                    (Util.toInt64 (getAttrib attribs sSize 1)) (getAttrib attribs sTTH 2)
                    ll.checkDupe])) p ll.root } := by
  have hdir := ListLoader.curDir_of ll p d hcur hget
  have isEmpty_false : ∀ x : Str, x ≠ [] → x.isEmpty = false := by
    intro x hx
    cases x with
    | nil => exact absurd rfl hx
    | cons _ _ => rfl
  simp only [ListLoader.startFile, isEmpty_false _ hname, isEmpty_false _ hsize,
    isEmpty_false _ htth, Bool.false_eq_true, if_false, hdir, hcache, Bool.not_true,
    Bool.and_false]

end DirectoryListing

namespace DirectoryListing

theorem Listing.updateXML_eq (env : Env) (l : Listing) (events : List (Bool × XmlEvent))
    (ll : ListLoader) (h : (l.loader true).parse env events = (none, ll)) :
    l.updateXML env ⟨events, none⟩
      = (none, ll.base, { l with root := ll.root, visitedDirs := ll.visitedDirs }) := by
  simp [Listing.updateXML, Listing.loadXML, h]

theorem first_document (env : Env) (l : Listing) (segs : List Str) (n : Str)
    (a1 ad : List (Str × Str))
    (hroot : l.root.directories = .nil) (hfiles : l.root.files = []) (hvisited : l.visitedDirs = [])
    (hsegs : ∀ s ∈ segs, '/' ∉ s) (hn : n ≠ []) (hnew : n ∉ segs)
    (hbase1 : getAttrib a1 sBase 2 = '/' :: joinSegments segs)
    (hname : getAttrib ad sName 0 = n) :
    ∃ (nodes : List Directory) (v : List (Str × Pos)) (names : List Str),
      nodes.map (fun c => c.name) = segs
      ∧ (∀ c ∈ nodes, c.directories = .nil ∧ c.files = [])
      ∧ l.updateXML env
          ⟨[(false, .startTag sFileListing a1 false), (false, .startTag sDirectory ad true),
            (false, .endTag sFileListing)], none⟩
        = (none, '/' :: joinSegments segs,
            { l with
                root := chainOf (fun x =>
                    ((x.setDate env (getAttrib a1 sBaseDate 3)).setComplete true).setDirectories
                      (((x.setDate env (getAttrib a1 sBaseDate 3)).setComplete true).directories.push
                        (Directory.new env names n false
                          (!(getAttrib ad sIncomplete 1 == str "1"))
                          (l.partialList && (!l.isOwnList && l.isClientView && l.dupesInFilelist))
                          (getAttrib ad sSize 2) (getAttrib ad sDate 3))))
                    nodes l.root,
                visitedDirs := v }) := by
  obtain ⟨nodes, v, hnames, hfresh, hvis, hwalk⟩ :=
    ListLoader.walkBase_fresh env segs { l.loader true with base := '/' :: joinSegments segs } []
      l.root rfl rfl hroot
  have hlen : nodes.length = segs.length := by rw [← hnames]; simp
  have hnd : ∀ c ∈ nodes, c.directories = .nil := fun c hc => (hfresh c hc).1
  have hleaf : (chainLeaf nodes l.root).directories = .nil ∧ (chainLeaf nodes l.root).files = [] := by
    rcases chainLeaf_mem nodes l.root with h | h
    · rw [h]; exact ⟨hroot, hfiles⟩
    · exact hfresh _ h
  simp only [modifyAt, List.nil_append] at hwalk
  have hget : getAt (List.replicate segs.length 0) (chainOf (fun x => x) nodes l.root)
      = some (chainLeaf nodes l.root) := by
    rw [← hlen]; exact getAt_chainOf _ nodes l.root hroot hnd
  have hFL := ListLoader.startFileListing_update env (l.loader true) _ a1 segs
    (List.replicate segs.length 0) (chainLeaf nodes l.root) rfl hbase1 hsegs hwalk rfl hget
    hleaf.1 hleaf.2
  simp only [Listing.loader] at hFL hvis
  simp only [← hlen, modifyAt_chainOf _ _ nodes l.root hroot hnd] at hFL
  have hget5 : getAt (List.replicate nodes.length 0)
      (chainOf (fun x => (x.setDate env (getAttrib a1 sBaseDate 3)).setComplete true) nodes l.root)
      = some (((chainLeaf nodes l.root).setDate env (getAttrib a1 sBaseDate 3)).setComplete true) :=
    getAt_chainOf _ nodes l.root hroot hnd
  have hvn : visitedFind v (getAttrib ad sName 0) = none := by
    rw [hname, hvis n hnew]
    simp [hvisited, visitedFind]
  have hD := ListLoader.startDirectory_new env
    { root := chainOf (fun x => (x.setDate env (getAttrib a1 sBaseDate 3)).setComplete true)
        nodes l.root,
      visitedDirs := v, cur := some (List.replicate nodes.length 0),
      base := '/' :: joinSegments segs, inListing := true, updating := true,
      checkDupe := !l.isOwnList && l.isClientView && l.dupesInFilelist,
      partialList := l.partialList, useCache := true }
    ad (List.replicate nodes.length 0) _
    rfl rfl rfl (by rw [hname]; exact hn) hvn rfl hget5
  simp only [modifyAt_chainOf _ _ nodes l.root hroot hnd] at hD
  refine ⟨nodes, v, namesAlong (List.replicate nodes.length 0)
    (chainOf (fun x => (x.setDate env (getAttrib a1 sBaseDate 3)).setComplete true) nodes l.root),
    hnames, hfresh, ?_⟩
  simp only [Listing.updateXML, Listing.loadXML, Listing.loader, ListLoader.parse,
    ListLoader.step, ListLoader.startTag, Bool.false_eq_true, if_false, if_true, hFL]
  simp only [show sDirectory ≠ sFile by decide, if_false, if_true, hD, ListLoader.endTag,
    show sFileListing ≠ sDirectory by decide, hname]

end DirectoryListing

namespace DirectoryListing

theorem ListLoader.parse_cons_ok (env : Env) (ll ll1 : ListLoader) (e : Bool × XmlEvent)
    (rest : List (Bool × XmlEvent)) (h : ll.step env e = .ok ll1) :
    ll.parse env (e :: rest) = ll1.parse env rest := by
  simp [ListLoader.parse, h]

theorem ListLoader.parse_files (env : Env) (ll : ListLoader) (af1 af2 : List (Str × Str))
    (p : Pos) (d : Directory)
    (hin : ll.inListing = true) (hcache : ll.useCache = true)
    (hcur : ll.cur = some p) (hget : getAt p ll.root = some d)
    (hf1n : getAttrib af1 sName 0 ≠ []) (hf1s : getAttrib af1 sSize 1 ≠ [])
    (hf1t : getAttrib af1 sTTH 2 ≠ [])
    (hf2n : getAttrib af2 sName 0 ≠ []) (hf2s : getAttrib af2 sSize 1 ≠ [])
    (hf2t : getAttrib af2 sTTH 2 ≠ []) :
    ll.parse env [(false, .startTag sFile af1 true), (false, .startTag sFile af2 true),
        (false, .endTag sFileListing)]
      = (none, { ll with
          root := modifyAt (fun y => (y.setFiles (y.files ++
              [File.new env.fileDupe (getAttrib af1 sName 0)
                (Util.toInt64 (getAttrib af1 sSize 1)) (getAttrib af1 sTTH 2) ll.checkDupe])).setFiles
              ((y.files ++
                [File.new env.fileDupe (getAttrib af1 sName 0)
                  (Util.toInt64 (getAttrib af1 sSize 1)) (getAttrib af1 sTTH 2) ll.checkDupe]) ++
                [File.new env.fileDupe (getAttrib af2 sName 0)
                  (Util.toInt64 (getAttrib af2 sSize 1)) (getAttrib af2 sTTH 2) ll.checkDupe]))
            p ll.root,
          inListing := false }) := by
  obtain ⟨root, vd, cur, base, inL, upd, cd, pl, uc⟩ := ll
  simp only at hin hcache hcur hget
  subst hin hcache hcur
  have h1 := ListLoader.startFile_append env
    { root := root, visitedDirs := vd, cur := some p, base := base, inListing := true,
      updating := upd, checkDupe := cd, partialList := pl, useCache := true }
    af1 p d rfl hf1n hf1s hf1t rfl hget
  have hget1 := getAt_modifyAt (fun x => x.setFiles (x.files ++
      [File.new env.fileDupe (getAttrib af1 sName 0)
        (Util.toInt64 (getAttrib af1 sSize 1)) (getAttrib af1 sTTH 2) cd])) p root d hget
  have h2 := ListLoader.startFile_append env
    { root := modifyAt (fun x => x.setFiles (x.files ++
        [File.new env.fileDupe (getAttrib af1 sName 0)
          (Util.toInt64 (getAttrib af1 sSize 1)) (getAttrib af1 sTTH 2) cd])) p root,
      visitedDirs := vd, cur := some p, base := base, inListing := true,
      updating := upd, checkDupe := cd, partialList := pl, useCache := true }
    af2 p _ rfl hf2n hf2s hf2t rfl hget1
  simp only [ListLoader.parse, ListLoader.step, ListLoader.startTag, Bool.false_eq_true,
    if_false, if_true, h1, h2, ListLoader.endTag, show sFileListing ≠ sDirectory by decide,
    modifyAt_modifyAt, Directory.files_setFiles]

theorem second_document (env : Env) (l : Listing) (segs : List Str) (n : Str)
    (a2 af1 af2 : List (Str × Str)) (g : Directory → Directory) (nodes : List Directory)
    (top nd : Directory)
    (hg : ∀ x, (g x).name = x.name)
    (hroot : l.root = chainOf g nodes top) (htop : top.directories = .nil)
    (hnodes : ∀ c ∈ nodes, c.directories = .nil)
    (hnames : nodes.map (fun c => c.name) = segs)
    (hleaf : (g (chainLeaf nodes top)).directories = .cons nd .nil)
    (hndname : nd.name = n) (hnddirs : nd.directories = .nil) (hndfiles : nd.files = [])
    (hsegs : ∀ s ∈ segs, '/' ∉ s) (hnslash : '/' ∉ n)
    (hbase2 : getAttrib a2 sBase 2 = ('/' :: joinSegments segs) ++ n ++ ['/'])
    (hf1n : getAttrib af1 sName 0 ≠ []) (hf1s : getAttrib af1 sSize 1 ≠ [])
    (hf1t : getAttrib af1 sTTH 2 ≠ [])
    (hf2n : getAttrib af2 sName 0 ≠ []) (hf2s : getAttrib af2 sSize 1 ≠ [])
    (hf2t : getAttrib af2 sTTH 2 ≠ []) :
    l.updateXML env
        ⟨[(false, .startTag sFileListing a2 false), (false, .startTag sFile af1 true),
          (false, .startTag sFile af2 true), (false, .endTag sFileListing)], none⟩
      = (none, ('/' :: joinSegments segs) ++ n ++ ['/'],
          { l with
              root := chainOf (fun x => modifyAt (fun y =>
                  (((((y.setDate env (getAttrib a2 sBaseDate 3)).setComplete true).setFiles
                    ((((y.setDate env (getAttrib a2 sBaseDate 3)).setComplete true).files) ++
                      [File.new env.fileDupe (getAttrib af1 sName 0)
                        (Util.toInt64 (getAttrib af1 sSize 1)) (getAttrib af1 sTTH 2)
                        (!l.isOwnList && l.isClientView && l.dupesInFilelist)]))).setFiles
                    ((((y.setDate env (getAttrib a2 sBaseDate 3)).setComplete true).files ++
                      [File.new env.fileDupe (getAttrib af1 sName 0)
                        (Util.toInt64 (getAttrib af1 sSize 1)) (getAttrib af1 sTTH 2)
                        (!l.isOwnList && l.isClientView && l.dupesInFilelist)]) ++
                      [File.new env.fileDupe (getAttrib af2 sName 0)
                        (Util.toInt64 (getAttrib af2 sSize 1)) (getAttrib af2 sTTH 2)
                        (!l.isOwnList && l.isClientView && l.dupesInFilelist)]))) [0] (g x))
                nodes top }) := by
  have hbase : getAttrib a2 sBase 2 = '/' :: joinSegments (segs ++ [n]) := by
    rw [hbase2, joinSegments_append]; simp [joinSegments]
  have htoks : ∀ s ∈ segs ++ [n], '/' ∉ s := by
    intro s hs
    rcases List.mem_append.mp hs with h | h
    · exact hsegs s h
    · simp at h; subst h; exact hnslash
  have hgetleaf : getAt (List.replicate nodes.length 0) l.root = some (g (chainLeaf nodes top)) := by
    rw [hroot]; exact getAt_chainOf g nodes top htop hnodes
  have hgetnd : getAt (List.replicate nodes.length 0 ++ [0]) l.root = some nd := by
    rw [getAt_append, hgetleaf]
    simp [getAt, hleaf, DirList.get?]
  have hwalk : ListLoader.walkBase env (segs ++ [n])
      { l.loader true with base := '/' :: joinSegments (segs ++ [n]) }
      = .ok { l.loader true with base := '/' :: joinSegments (segs ++ [n]),
                                 cur := some (List.replicate nodes.length 0 ++ [0]) } := by
    rw [ListLoader.walkBase_append, ← hnames,
      ListLoader.walkBase_existing env g hg nodes _ [] top rfl
        (by simpa [Listing.loader, getAt] using hroot) htop hnodes]
    simp only [List.nil_append, ListLoader.walkBase, ListLoader.curDir, Listing.loader,
      hgetleaf, hleaf, DirList.findIdx?, hndname, beq_self_eq_true, if_true]
  have hFL := ListLoader.startFileListing_update env (l.loader true) _ a2 (segs ++ [n])
    (List.replicate nodes.length 0 ++ [0]) nd rfl hbase htoks hwalk rfl
    (by simpa [Listing.loader] using hgetnd) hnddirs hndfiles
  have hgetP := getAt_modifyAt (fun x => (x.setDate env (getAttrib a2 sBaseDate 3)).setComplete true)
    (List.replicate nodes.length 0 ++ [0]) l.root nd hgetnd
  simp only [Listing.loader] at hFL
  have hstep : (l.loader true).step env (false, .startTag sFileListing a2 false)
      = .ok { root := modifyAt
                (fun x => (x.setDate env (getAttrib a2 sBaseDate 3)).setComplete true)
                (List.replicate nodes.length 0 ++ [0]) l.root,
              visitedDirs := l.visitedDirs, cur := some (List.replicate nodes.length 0 ++ [0]),
              base := '/' :: joinSegments (segs ++ [n]), inListing := true, updating := true,
              checkDupe := !l.isOwnList && l.isClientView && l.dupesInFilelist,
              partialList := l.partialList, useCache := true } := by
    simp only [Listing.loader, ListLoader.step, ListLoader.startTag, Bool.false_eq_true,
      if_false, if_true]
    exact hFL
  simp only [Listing.updateXML, Listing.loadXML]
  rw [ListLoader.parse_cons_ok env _ _ _ _ hstep,
    ListLoader.parse_files env _ af1 af2 (List.replicate nodes.length 0 ++ [0]) _
      rfl rfl rfl hgetP hf1n hf1s hf1t hf2n hf2s hf2t]
  simp only [modifyAt_modifyAt, modifyAt_append, hroot,
    modifyAt_chainOf _ _ nodes top htop hnodes, joinSegments_append]
  simp [joinSegments]

end DirectoryListing

namespace DirectoryListing

/-- C13: starting from an empty partial listing, for every base path `B` written as a
slash followed by segments that each end with a slash, and every non-empty name `n`
without a slash that is none of the segments: `updateXML` of a document with `Base=B`
that holds the self-closing directory `n` with `Incomplete="1"` and `Size="500"`
returns `B` and leaves exactly one directory at `B/n`, incomplete, whose total size is
the 500 of its `Size` attribute; a following `updateXML` of a document with
`Base=B+n+"/"` that holds two files (with non-empty `Name`, `Size` and `TTH`) returns
that base and leaves exactly one directory at `B/n`, complete, holding exactly the two
files in the order of the document, whose total size is the sum of the two file
sizes. -/
theorem updateXML_merges_partial_directory (env : Env) (isClientView isOwnList dupes adl : Bool)
    (segs : List Str) (n : Str) (a1 ad a2 af1 af2 : List (Str × Str))
    (hsegs : ∀ s ∈ segs, '/' ∉ s) (hn : n ≠ []) (hnslash : '/' ∉ n) (hnew : n ∉ segs)
    (hbase1 : getAttrib a1 sBase 2 = '/' :: joinSegments segs)
    (hname : getAttrib ad sName 0 = n)
    (hinc : getAttrib ad sIncomplete 1 = str "1")
    (hsize : getAttrib ad sSize 2 = str "500")
    (hbase2 : getAttrib a2 sBase 2 = ('/' :: joinSegments segs) ++ n ++ ['/'])
    (hf1n : getAttrib af1 sName 0 ≠ []) (hf1s : getAttrib af1 sSize 1 ≠ [])
    (hf1t : getAttrib af1 sTTH 2 ≠ [])
    (hf2n : getAttrib af2 sName 0 ≠ []) (hf2s : getAttrib af2 sSize 1 ≠ [])
    (hf2t : getAttrib af2 sTTH 2 ≠ []) :
    ∃ (l1 l2 : Listing) (q1 q : Directory),
      (Listing.new true isClientView isOwnList dupes).updateXML env
          ⟨[(false, .startTag sFileListing a1 false), (false, .startTag sDirectory ad true),
            (false, .endTag sFileListing)], none⟩
        = (none, '/' :: joinSegments segs, l1)
      ∧ dirsAtPath (segs ++ [n]) l1.root = [q1]
      ∧ q1.getComplete = false
      ∧ q1.getTotalSize adl = 500
      ∧ l1.updateXML env
          ⟨[(false, .startTag sFileListing a2 false), (false, .startTag sFile af1 true),
            (false, .startTag sFile af2 true), (false, .endTag sFileListing)], none⟩
        = (none, ('/' :: joinSegments segs) ++ n ++ ['/'], l2)
      ∧ dirsAtPath (segs ++ [n]) l2.root = [q]
      ∧ q.getComplete = true
      ∧ q.files
        = [File.new env.fileDupe (getAttrib af1 sName 0) (Util.toInt64 (getAttrib af1 sSize 1))
            (getAttrib af1 sTTH 2) (!isOwnList && isClientView && dupes),
           File.new env.fileDupe (getAttrib af2 sName 0) (Util.toInt64 (getAttrib af2 sSize 1))
            (getAttrib af2 sTTH 2) (!isOwnList && isClientView && dupes)]
      ∧ q.getTotalSize adl
        = Util.toInt64 (getAttrib af1 sSize 1) + Util.toInt64 (getAttrib af2 sSize 1) := by
  obtain ⟨nodes, v, names, hnames, hfresh, h1⟩ :=
    first_document env (Listing.new true isClientView isOwnList dupes) segs n a1 ad rfl rfl rfl
      hsegs hn hnew hbase1 hname
  have hnd : ∀ c ∈ nodes, c.directories = .nil := fun c hc => (hfresh c hc).1
  have htop : (Listing.new true isClientView isOwnList dupes).root.directories = .nil := rfl
  have hleafdirs : (chainLeaf nodes (Listing.new true isClientView isOwnList dupes).root).directories
      = .nil := by
    rcases chainLeaf_mem nodes (Listing.new true isClientView isOwnList dupes).root with h | h
    · rw [h]; rfl
    · exact (hfresh _ h).1
  simp only [hinc, hsize, beq_self_eq_true, Bool.not_true] at h1
  have h2 := second_document env
    { Listing.new true isClientView isOwnList dupes with
      root := chainOf (fun x =>
          ((x.setDate env (getAttrib a1 sBaseDate 3)).setComplete true).setDirectories
            (((x.setDate env (getAttrib a1 sBaseDate 3)).setComplete true).directories.push
              (Directory.new env names n false false
                ((Listing.new true isClientView isOwnList dupes).partialList
                  && (!(Listing.new true isClientView isOwnList dupes).isOwnList
                    && (Listing.new true isClientView isOwnList dupes).isClientView
                    && (Listing.new true isClientView isOwnList dupes).dupesInFilelist))
                (str "500") (getAttrib ad sDate 3))))
          nodes (Listing.new true isClientView isOwnList dupes).root,
      visitedDirs := v }
    segs n a2 af1 af2
    (fun x =>
      ((x.setDate env (getAttrib a1 sBaseDate 3)).setComplete true).setDirectories
        (((x.setDate env (getAttrib a1 sBaseDate 3)).setComplete true).directories.push
          (Directory.new env names n false false
            ((Listing.new true isClientView isOwnList dupes).partialList
              && (!(Listing.new true isClientView isOwnList dupes).isOwnList
                && (Listing.new true isClientView isOwnList dupes).isClientView
                && (Listing.new true isClientView isOwnList dupes).dupesInFilelist))
            (str "500") (getAttrib ad sDate 3))))
    nodes (Listing.new true isClientView isOwnList dupes).root
    (Directory.new env names n false false
      ((Listing.new true isClientView isOwnList dupes).partialList
        && (!(Listing.new true isClientView isOwnList dupes).isOwnList
          && (Listing.new true isClientView isOwnList dupes).isClientView
          && (Listing.new true isClientView isOwnList dupes).dupesInFilelist))
      (str "500") (getAttrib ad sDate 3))
    (by intro x; simp) rfl htop hnd hnames (by simp [hleafdirs, DirList.push]) rfl rfl rfl
    hsegs hnslash hbase2 hf1n hf1s hf1t hf2n hf2s hf2t
  refine ⟨_, _, (Directory.new env names n false false
      ((Listing.new true isClientView isOwnList dupes).partialList
        && (!(Listing.new true isClientView isOwnList dupes).isOwnList
          && (Listing.new true isClientView isOwnList dupes).isClientView
          && (Listing.new true isClientView isOwnList dupes).dupesInFilelist))
      (str "500") (getAttrib ad sDate 3)),
    ((((((Directory.new env names n false false
      ((Listing.new true isClientView isOwnList dupes).partialList
        && (!(Listing.new true isClientView isOwnList dupes).isOwnList
          && (Listing.new true isClientView isOwnList dupes).isClientView
          && (Listing.new true isClientView isOwnList dupes).dupesInFilelist))
      (str "500") (getAttrib ad sDate 3)).setDate env (getAttrib a2 sBaseDate 3)).setComplete true).setFiles
      [File.new env.fileDupe (getAttrib af1 sName 0) (Util.toInt64 (getAttrib af1 sSize 1))
        (getAttrib af1 sTTH 2) (!isOwnList && isClientView && dupes)])).setFiles
      [File.new env.fileDupe (getAttrib af1 sName 0) (Util.toInt64 (getAttrib af1 sSize 1))
        (getAttrib af1 sTTH 2) (!isOwnList && isClientView && dupes),
       File.new env.fileDupe (getAttrib af2 sName 0) (Util.toInt64 (getAttrib af2 sSize 1))
        (getAttrib af2 sTTH 2) (!isOwnList && isClientView && dupes)]),
    h1, ?_, ?_, ?_, h2, ?_, ?_, ?_, ?_⟩
  · rw [← hnames]
    simp only []
    rw [dirsAtPath_chainOf _ (by intro x; simp) nodes _ [n] htop hnd]
    simp [dirsAtPath, hleafdirs, DirList.push, DirList.toList]
  · rfl
  · simp [Directory.new, Directory.getTotalSize]
    rfl
  · rw [← hnames]
    simp only []
    rw [dirsAtPath_chainOf _ (by intro x; simp [modifyAt]) nodes _ [n] htop hnd]
    simp [dirsAtPath, hleafdirs, DirList.push, DirList.toList, modifyAt, DirList.modify]
    rfl
  · rfl
  · rfl
  · simp [Directory.new, Directory.setDate, Directory.setComplete, Directory.setFiles,
      Directory.files, Directory.getTotalSize, DirList.getTotalSize, File.new]

end DirectoryListing

namespace DirectoryListing

theorem updateXML_merges_partial_directory_witness :
    (∀ s ∈ [str "music", str "rock"], '/' ∉ s)
    ∧ str "queen" ∉ [str "music", str "rock"]
    ∧ ∃ (l1 l2 : Listing) (q1 q : Directory),
      (Listing.new true true false true).updateXML exEnv
          ⟨[(false, .startTag sFileListing exBaseRock false),
            (false, .startTag sDirectory exQueen true),
            (false, .endTag sFileListing)], none⟩
        = (none, str "/music/rock/", l1)
      ∧ dirsAtPath [str "music", str "rock", str "queen"] l1.root = [q1]
      ∧ q1.getComplete = false
      ∧ q1.getTotalSize false = 500
      ∧ l1.updateXML exEnv
          ⟨[(false, .startTag sFileListing exBaseQueen false),
            (false, .startTag sFile exFileA true),
            (false, .startTag sFile exFileB true), (false, .endTag sFileListing)], none⟩
        = (none, str "/music/rock/queen/", l2)
      ∧ dirsAtPath [str "music", str "rock", str "queen"] l2.root = [q]
      ∧ q.getComplete = true
      ∧ q.files
        = [File.new exEnv.fileDupe (str "a.mp3") 10 (str "AAAA") true,
           File.new exEnv.fileDupe (str "b.mp3") 32 (str "BBBB") true]
      ∧ q.getTotalSize false = 10 + 32 :=
  ⟨by decide, by decide,
    updateXML_merges_partial_directory exEnv true false true false
      [str "music", str "rock"] (str "queen") exBaseRock exQueen exBaseQueen exFileA exFileB
      (by decide) (by decide) (by decide) (by decide) (by rfl) (by rfl) (by rfl) (by rfl)
      (by rfl) (by decide) (by decide) (by decide) (by decide) (by decide) (by decide)⟩

end DirectoryListing

namespace Util

/-! ### Numbers written and read back -/

theorem digitChar_spec (d : Nat) (h : d < 10) :
    ('0' ≤ digitChar d ∧ digitChar d ≤ '9') ∧ (digitChar d).toNat - '0'.toNat = d
      ∧ digitChar d ≠ '-' := by
  interval_cases d <;> decide

theorem parseDigits_natDigits (fuel n : Nat) (h : n < fuel) :
    ∃ L, ∀ (acc : Str) (a : Nat),
      parseDigits (natDigits fuel n acc) a = parseDigits acc (a * 10 ^ L + n) := by
  induction fuel generalizing n with
  | zero => omega
  | succ f ih =>
    by_cases hn : n < 10
    · refine ⟨1, fun acc a => ?_⟩
      have hd := digitChar_spec n hn
      have h48 : (digitChar n).toNat - 48 = n := hd.2.1
      simp [natDigits, hn, parseDigits, hd.1.1, hd.1.2, h48]
    · have hlt : n / 10 < f := by omega
      obtain ⟨L, hL⟩ := ih (n / 10) hlt
      refine ⟨L + 1, fun acc a => ?_⟩
      have hd := digitChar_spec (n % 10) (Nat.mod_lt _ (by norm_num))
      simp only [natDigits, hn, if_false, hL, parseDigits, hd.1.1, hd.1.2, hd.2.1, and_self,
        if_true]
      congr 1
      have := Nat.div_add_mod n 10
      rw [pow_succ]
      nlinarith [Nat.div_add_mod n 10]

theorem natDigits_head (fuel n : Nat) (acc : Str) (h : n < fuel) :
    ∃ (d : Nat) (rest : Str), d < 10 ∧ natDigits fuel n acc = digitChar d :: rest := by
  induction fuel generalizing n acc with
  | zero => omega
  | succ f ih =>
    by_cases hn : n < 10
    · exact ⟨n, acc, hn, by simp [natDigits, hn]⟩
    · have hlt : n / 10 < f := by omega
      obtain ⟨d, rest, hd, hrest⟩ := ih (n / 10) (digitChar (n % 10) :: acc) hlt
      exact ⟨d, rest, hd, by simp [natDigits, hn, hrest]⟩

theorem parseDigits_toStringNat (n : Nat) : parseDigits (toStringNat n) 0 = n := by
  obtain ⟨L, hL⟩ := parseDigits_natDigits (n + 1) n (by omega)
  simp [toStringNat, hL, parseDigits]

theorem toStringNat_ne_nil (n : Nat) : toStringNat n ≠ [] := by
  obtain ⟨d, rest, _, h⟩ := natDigits_head (n + 1) n [] (by omega)
  simp [toStringNat, h]

theorem toInt64_toStringNat (n : Nat) : toInt64 (toStringNat n) = (n : Int) := by
  obtain ⟨d, rest, hd, h⟩ := natDigits_head (n + 1) n [] (by omega)
  have hne := (digitChar_spec d hd).2.2
  have hp := parseDigits_toStringNat n
  unfold toStringNat at hp
  rw [h] at hp
  unfold toInt64 toStringNat
  rw [h]
  split
  · rename_i cs heq
    simp only [List.cons.injEq] at heq
    exact absurd heq.1 hne
  · simp [hp]

theorem toInt64_toString (n : Int) : toInt64 (toString n) = n := by
  by_cases hneg : n < 0
  · have hp := parseDigits_toStringNat n.natAbs
    simp only [toString, hneg, if_true, toInt64, hp]
    omega
  · simp only [toString, hneg, if_false, toInt64_toStringNat]
    omega

theorem toString_ne_nil (n : Int) : toString n ≠ [] := by
  by_cases hneg : n < 0
  · simp [toString, hneg]
  · simp [toString, hneg, toStringNat_ne_nil]

end Util

namespace DirectoryListing

/-! ### Reading a file list back -/

theorem DirList.append_nil : ∀ (ds : DirList), ds.append .nil = ds
  | .nil => rfl
  | .cons d rest => by simp [DirList.append, DirList.append_nil rest]

theorem DirList.append_assoc : ∀ (a b c : DirList), (a.append b).append c = a.append (b.append c)
  | .nil, _, _ => rfl
  | .cons d rest, b, c => by simp [DirList.append, DirList.append_assoc rest b c]

theorem DirList.push_eq_append : ∀ (ds : DirList) (d : Directory),
    ds.push d = ds.append (.cons d .nil)
  | .nil, _ => rfl
  | .cons x rest, d => by simp [DirList.push, DirList.append, DirList.push_eq_append rest d]

theorem DirList.plain_append : ∀ (a b : DirList),
    DirList.plain (a.append b) = (DirList.plain a).append (DirList.plain b)
  | .nil, _ => by simp [DirList.append, DirList.plain]
  | .cons d rest, b => by simp [DirList.append, DirList.plain, DirList.plain_append rest b]

theorem DirList.get?_push_length : ∀ (ds : DirList) (d : Directory),
    (ds.push d).get? ds.length = some d
  | .nil, _ => rfl
  | .cons _ rest, d => by
    simpa [DirList.push, DirList.length, DirList.get?] using DirList.get?_push_length rest d

theorem DirList.modify_push_length (g : Directory → Directory) : ∀ (ds : DirList) (d : Directory),
    (ds.push d).modify g ds.length = ds.push (g d)
  | .nil, _ => rfl
  | .cons _ rest, d => by
    simpa [DirList.push, DirList.length, DirList.modify] using
      DirList.modify_push_length g rest d

theorem Directory.extend_extend (a c : List File) (b e : DirList) (d : Directory) :
    (d.extend a b).extend c e = d.extend (a ++ c) (b.append e) := by
  cases d
  simp [Directory.extend, DirList.append_assoc]

theorem Directory.extend_nil (d : Directory) : d.extend [] .nil = d := by
  cases d
  simp [Directory.extend, DirList.append_nil]

theorem Directory.plain_addFile (d : Directory) (f : File) :
    (d.setFiles (d.files ++ [f])).plain = d.plain.extend [{ f with dupe := .DUPE_NONE }] .nil := by
  cases d
  simp [Directory.setFiles, Directory.files, Directory.plain, Directory.extend,
    DirList.append_nil]

theorem Directory.plain_addDir (d nd : Directory) :
    (d.setDirectories (d.directories.push nd)).plain
      = d.plain.extend [] (.cons nd.plain .nil) := by
  cases d
  simp [Directory.setDirectories, Directory.directories, Directory.plain, Directory.extend,
    DirList.push_eq_append, DirList.plain_append, DirList.plain]

theorem getAt_pushed (p : Pos) (root d nd : Directory) (hget : getAt p root = some d) :
    getAt (p ++ [d.directories.length])
      (modifyAt (fun x => x.setDirectories (x.directories.push nd)) p root) = some nd := by
  rw [getAt_append, getAt_modifyAt _ p root d hget]
  simp [getAt, DirList.get?_push_length]

theorem modifyAt_pushed (p : Pos) (root d nd nd' : Directory) (hget : getAt p root = some d) :
    modifyAt (fun _ => nd') (p ++ [d.directories.length])
      (modifyAt (fun x => x.setDirectories (x.directories.push nd)) p root)
      = modifyAt (fun x => x.setDirectories (x.directories.push nd')) p root := by
  rw [modifyAt_append, modifyAt_modifyAt]
  apply modifyAt_congr _ _ p root d hget
  simp [modifyAt, DirList.modify_push_length]

theorem modifyAt_const (p : Pos) (root d d' : Directory) (g : Directory → Directory)
    (hget : getAt p root = some d) (h : g d = d') :
    modifyAt g p root = modifyAt (fun _ => d') p root :=
  modifyAt_congr _ _ p root d hget h

theorem ListLoader.startDirectory_load (env : Env) (ll : ListLoader)
    (attribs : List (Str × Str)) (simple : Bool) (p : Pos) (d : Directory)
    (hup : ll.updating = false) (hin : ll.inListing = true)
    (hname : (getAttrib attribs sName 0).isEmpty = false)
    (hcur : ll.cur = some p) (hget : getAt p ll.root = some d) :
    ll.startDirectory env attribs simple
      = .ok { ll with
                root := modifyAt (fun x => x.setDirectories (x.directories.push
                  (Directory.new env (namesAlong p ll.root) (getAttrib attribs sName 0) false
                    (!(getAttrib attribs sIncomplete 1 == str "1"))
                    (ll.partialList && ll.checkDupe) (getAttrib attribs sSize 2)
                    (getAttrib attribs sDate 3)))) p ll.root,
                cur := if simple then some p else some (p ++ [d.directories.length]) } := by
  have hdir := ListLoader.curDir_of ll p d hcur hget
  have hpar : parentPos (p ++ [d.directories.length]) = some p := by
    simp [parentPos]
  cases simple <;>
    simp [ListLoader.startDirectory, hname, hup, hdir, ListLoader.endTag, hin, hpar]

theorem ListLoader.startFile_load (env : Env) (ll : ListLoader)
    (attribs : List (Str × Str)) (p : Pos) (d : Directory)
    (hup : ll.updating = false)
    (hname : (getAttrib attribs sName 0).isEmpty = false)
    (hsize : (getAttrib attribs sSize 1).isEmpty = false)
    (htth : (getAttrib attribs sTTH 2).isEmpty = false)
    (hcur : ll.cur = some p) (hget : getAt p ll.root = some d) :
    ll.startFile env attribs
      = .ok { ll with
                root := modifyAt (fun x => x.setFiles (x.files ++
                  [File.new env.fileDupe (getAttrib attribs sName 0)
                    (Util.toInt64 (getAttrib attribs sSize 1)) (getAttrib attribs sTTH 2)
                    ll.checkDupe])) p ll.root } := by
  have hdir := ListLoader.curDir_of ll p d hcur hget
  simp only [ListLoader.startFile, hname, hsize, htth, Bool.false_eq_true, if_false, hdir, hup,
    Bool.false_and]

end DirectoryListing

namespace DirectoryListing

theorem mirrorFiles_cons (t : XmlTag) (rest : XmlList) :
    mirrorFiles (.cons t rest) = mirrorFiles (.cons t .nil) ++ mirrorFiles rest := by
  cases t with
  | mk name attribs fe children =>
    by_cases h : name = sFile <;> simp [mirrorFiles, h]

theorem mirrorDirs_cons (t : XmlTag) (rest : XmlList) :
    mirrorDirs (.cons t rest) = (mirrorDirs (.cons t .nil)).append (mirrorDirs rest) := by
  cases t with
  | mk name attribs fe children =>
    by_cases h : name = sDirectory <;> simp [mirrorDirs, h, DirList.append]

theorem wellFormed_cons (t : XmlTag) (rest : XmlList) :
    wellFormed (.cons t rest) = (wellFormed (.cons t .nil) && wellFormed rest) := by
  cases t with
  | mk name attribs fe children => simp [wellFormed]

theorem XmlList.isEmpty_eq_true (cs : XmlList) (h : cs.isEmpty = true) : cs = .nil := by
  cases cs with
  | nil => rfl
  | cons _ _ => simp [XmlList.isEmpty] at h

theorem ListLoader.eta_root (ll : ListLoader) : { ll with root := ll.root } = ll := rfl

mutual
theorem parse_tag (env : Env) : ∀ (t : XmlTag) (ll : ListLoader) (p : Pos) (d : Directory)
    (rest : List (Bool × XmlEvent)),
    wellFormed (.cons t .nil) = true → ll.inListing = true → ll.updating = false →
    ll.cur = some p → getAt p ll.root = some d →
    ∃ d' : Directory,
      d'.plain = d.plain.extend (mirrorFiles (.cons t .nil)) (mirrorDirs (.cons t .nil))
      ∧ ll.parse env (t.events.map (fun e => (false, e)) ++ rest)
          = ({ ll with root := modifyAt (fun _ => d') p ll.root }).parse env rest
  | .mk name attribs fe children, ll, p, d, rest, hwf, hin, hup, hcur, hget => by
    obtain ⟨root, vd, cur, base, inL, upd, cd, pl, uc⟩ := ll
    simp only at hin hup hcur hget
    subst hin hup hcur
    by_cases hfile : name = sFile
    · subst hfile
      simp only [wellFormed, if_true, Bool.and_true, Bool.and_eq_true, Bool.not_eq_true',
        decide_eq_true_eq] at hwf
      obtain ⟨⟨⟨⟨hn, hs⟩, ht⟩, hch⟩, hfe⟩ := hwf
      have hnil := XmlList.isEmpty_eq_true children hch
      subst hnil
      subst hfe
      have hstep := ListLoader.startFile_load env
            { root := root, visitedDirs := vd, cur := some p, base := base, inListing := true,
              updating := false, checkDupe := cd, partialList := pl, useCache := uc }
            attribs p d rfl hn hs ht rfl hget
      refine ⟨d.setFiles (d.files ++ [File.new env.fileDupe (getAttrib attribs sName 0)
        (Util.toInt64 (getAttrib attribs sSize 1)) (getAttrib attribs sTTH 2) cd]),
        ?_, ?_⟩
      · rw [Directory.plain_addFile]
        simp [mirrorFiles, mirrorDirs, File.new, show sFile ≠ sDirectory by decide]
      · have hroot := modifyAt_const p root d _ (fun x => x.setFiles (x.files ++
          [File.new env.fileDupe (getAttrib attribs sName 0)
            (Util.toInt64 (getAttrib attribs sSize 1)) (getAttrib attribs sTTH 2)
            cd])) hget rfl
        rw [← hroot]
        simp [XmlTag.events, XmlList.isEmpty, ListLoader.parse, ListLoader.step,
          ListLoader.startTag, hstep]
    · simp only [wellFormed, hfile, if_false, Bool.and_true, Bool.and_eq_true,
        Bool.not_eq_true', decide_eq_true_eq] at hwf
      obtain ⟨⟨hdir, hn⟩, hch⟩ := hwf
      subst hdir
      by_cases hsimple : (children.isEmpty && !fe) = true
      · have hnil : children = .nil :=
          XmlList.isEmpty_eq_true children (by
            simp only [Bool.and_eq_true] at hsimple; exact hsimple.1)
        subst hnil
        have hstep := ListLoader.startDirectory_load env
            { root := root, visitedDirs := vd, cur := some p, base := base, inListing := true,
              updating := false, checkDupe := cd, partialList := pl, useCache := uc }
            attribs true p d rfl rfl hn rfl hget
        refine ⟨d.setDirectories (d.directories.push
          (Directory.new env (namesAlong p root) (getAttrib attribs sName 0) false
            (!(getAttrib attribs sIncomplete 1 == str "1"))
            (pl && cd) (getAttrib attribs sSize 2)
            (getAttrib attribs sDate 3))), ?_, ?_⟩
        · rw [Directory.plain_addDir]
          simp [mirrorFiles, mirrorDirs, hfile, Directory.new, Directory.plain, DirList.plain]
        · have hroot := modifyAt_const p root d _ (fun x => x.setDirectories
            (x.directories.push
              (Directory.new env (namesAlong p root) (getAttrib attribs sName 0) false
                (!(getAttrib attribs sIncomplete 1 == str "1"))
                (pl && cd) (getAttrib attribs sSize 2)
                (getAttrib attribs sDate 3)))) hget rfl
          rw [← hroot]
          simp only [XmlTag.events, hsimple, if_true, List.map_cons, List.map_nil,
            List.cons_append, List.nil_append, ListLoader.parse, ListLoader.step,
            ListLoader.startTag, Bool.false_eq_true, if_false, if_true, hfile, hstep]
      · have hstep := ListLoader.startDirectory_load env
            { root := root, visitedDirs := vd, cur := some p, base := base, inListing := true,
              updating := false, checkDupe := cd, partialList := pl, useCache := uc }
            attribs false p d rfl rfl hn rfl hget
        obtain ⟨nd', hplain, hparse⟩ := parse_list env children
          { root := modifyAt (fun x => x.setDirectories (x.directories.push
                (Directory.new env (namesAlong p root) (getAttrib attribs sName 0) false
                  (!(getAttrib attribs sIncomplete 1 == str "1"))
                  (pl && cd) (getAttrib attribs sSize 2)
                  (getAttrib attribs sDate 3)))) p root,
            visitedDirs := vd, cur := some (p ++ [d.directories.length]), base := base,
            inListing := true, updating := false, checkDupe := cd, partialList := pl,
            useCache := uc }
          (p ++ [d.directories.length]) _ ((false, .endTag sDirectory) :: rest)
          hch rfl rfl rfl (getAt_pushed p root d _ hget)
        refine ⟨d.setDirectories (d.directories.push nd'), ?_, ?_⟩
        · rw [Directory.plain_addDir, hplain]
          simp [mirrorFiles, mirrorDirs, hfile, Directory.new, Directory.plain, DirList.plain,
            Directory.extend, DirList.append]
        · have hroot := modifyAt_const p root d _
            (fun x => x.setDirectories (x.directories.push nd')) hget rfl
          rw [← hroot]
          simp only [XmlTag.events, hsimple, Bool.false_eq_true, if_false, List.map_cons,
            List.map_append, List.map_nil, List.cons_append, List.append_assoc,
            List.nil_append, ListLoader.parse, ListLoader.step, ListLoader.startTag, if_true,
            hfile, hstep]
          simp only [List.singleton_append] at hparse ⊢
          rw [hparse]
          have hpar : parentPos (p ++ [d.directories.length]) = some p := by
            simp [parentPos]
          simp only [ListLoader.parse, ListLoader.step, ListLoader.endTag, if_true, hpar,
            modifyAt_pushed p root d _ nd' hget]
theorem parse_list (env : Env) : ∀ (cs : XmlList) (ll : ListLoader) (p : Pos) (d : Directory)
    (rest : List (Bool × XmlEvent)),
    wellFormed cs = true → ll.inListing = true → ll.updating = false →
    ll.cur = some p → getAt p ll.root = some d →
    ∃ d' : Directory,
      d'.plain = d.plain.extend (mirrorFiles cs) (mirrorDirs cs)
      ∧ ll.parse env (cs.events.map (fun e => (false, e)) ++ rest)
          = ({ ll with root := modifyAt (fun _ => d') p ll.root }).parse env rest
  | .nil, ll, p, d, rest, _, _, _, _, hget => by
    refine ⟨d, by simp [mirrorFiles, mirrorDirs, Directory.extend_nil], ?_⟩
    have hroot := modifyAt_const p ll.root d d (fun x => x) hget rfl
    rw [← hroot, modifyAt_id]
    simp [XmlList.events]
  | .cons t more, ll, p, d, rest, hwf, hin, hup, hcur, hget => by
    rw [wellFormed_cons, Bool.and_eq_true] at hwf
    obtain ⟨d1, hplain1, hparse1⟩ := parse_tag env t ll p d
      (more.events.map (fun e => (false, e)) ++ rest) hwf.1 hin hup hcur hget
    obtain ⟨d2, hplain2, hparse2⟩ := parse_list env more
      { ll with root := modifyAt (fun _ => d1) p ll.root } p d1 rest hwf.2 hin hup hcur
      (getAt_modifyAt _ p ll.root d hget)
    refine ⟨d2, ?_, ?_⟩
    · rw [hplain2, hplain1, Directory.extend_extend, ← mirrorFiles_cons, ← mirrorDirs_cons]
    · simp only [XmlList.events, List.map_append, List.append_assoc]
      rw [hparse1, hparse2]
      simp [modifyAt_modifyAt]
end

end DirectoryListing

namespace DirectoryListing

theorem wellFormed_push : ∀ (x : XmlList) (t : XmlTag),
    wellFormed (x.push t) = (wellFormed x && wellFormed (.cons t .nil))
  | .nil, t => by simp [XmlList.push, wellFormed]
  | .cons a rest, t => by
    rw [XmlList.push, wellFormed_cons, wellFormed_push rest t, wellFormed_cons a rest,
      Bool.and_assoc]

theorem wellFormed_modify (g : XmlTag → XmlTag) : ∀ (x : XmlList) (k : Nat) (t : XmlTag),
    wellFormed x = true → x.get? k = some t → wellFormed (.cons (g t) .nil) = true →
    wellFormed (x.modify g k) = true
  | .nil, _, _, _, hget, _ => by simp [XmlList.get?] at hget
  | .cons a rest, 0, t, hwf, hget, hg => by
    simp only [XmlList.get?, Option.some.injEq] at hget
    subst hget
    rw [wellFormed_cons, Bool.and_eq_true] at hwf
    rw [XmlList.modify, wellFormed_cons, hg, hwf.2]
    rfl
  | .cons a rest, k + 1, t, hwf, hget, hg => by
    simp only [XmlList.get?] at hget
    rw [wellFormed_cons, Bool.and_eq_true] at hwf
    rw [XmlList.modify, wellFormed_cons, hwf.1, wellFormed_modify g rest k t hwf.2 hget hg]
    rfl

theorem wellFormed_get : ∀ (x : XmlList) (k : Nat) (t : XmlTag),
    wellFormed x = true → x.get? k = some t → wellFormed (.cons t .nil) = true
  | .nil, _, _, _, hget => by simp [XmlList.get?] at hget
  | .cons a rest, 0, t, hwf, hget => by
    simp only [XmlList.get?, Option.some.injEq] at hget
    subst hget
    rw [wellFormed_cons, Bool.and_eq_true] at hwf
    exact hwf.1
  | .cons a rest, k + 1, t, hwf, hget => by
    simp only [XmlList.get?] at hget
    rw [wellFormed_cons, Bool.and_eq_true] at hwf
    exact wellFormed_get rest k t hwf.2 hget

theorem findDirectory_some : ∀ (x : XmlList) (v : Str) (k : Nat),
    x.findDirectory v = some k → ∃ t, x.get? k = some t ∧ t.name = str "Directory"
  | .nil, _, _, h => by simp [XmlList.findDirectory] at h
  | .cons a rest, v, k, h => by
    simp only [XmlList.findDirectory] at h
    split at h
    · rename_i hc
      simp only [Option.some.injEq] at h
      subst h
      exact ⟨a, rfl, hc.1⟩
    · cases hr : rest.findDirectory v with
      | none => simp [hr] at h
      | some j =>
        simp only [hr, Option.map_some', Option.some.injEq] at h
        subst h
        obtain ⟨t, ht, hn⟩ := findDirectory_some rest v j hr
        exact ⟨t, by simpa [XmlList.get?] using ht, hn⟩

theorem getAttrib_zero (a : List (Str × Str)) (n : Str) :
    getAttrib a n 0 = match a.find? (fun x => x.1 == n) with
      | some x => x.2
      | none => [] := by
  simp only [getAttrib, List.drop_zero, List.take_zero, List.find?_nil]

theorem find_name_replace (v : Str) : ∀ (a : List (Str × Str)),
    (a.map (fun x => if x.1 == str "Date" then (x.1, v) else x)).find? (fun x => x.1 == sName)
      = a.find? (fun x => x.1 == sName)
  | [] => rfl
  | x :: rest => by
    by_cases hx : (x.1 == str "Date") = true
    · have hx2 : (x.1 == sName) = false := by
        have h : x.1 = str "Date" := eq_of_beq hx
        rw [h]; decide
      have hx3 : ((x.1, v).1 == sName) = false := hx2
      simp only [List.map_cons, hx, if_true, List.find?_cons, hx2, hx3]
      exact find_name_replace v rest
    · simp only [Bool.not_eq_true] at hx
      simp only [List.map_cons, hx, Bool.false_eq_true, if_false, List.find?_cons]
      cases (x.1 == sName) with
      | true => rfl
      | false => exact find_name_replace v rest

theorem getAttrib_name_replace (t : XmlTag) (v : Str) :
    getAttrib (t.replaceChildAttrib (str "Date") v).attribs sName 0
      = getAttrib t.attribs sName 0 := by
  cases t with
  | mk n a f c =>
    simp only [XmlTag.replaceChildAttrib]
    split
    · simp only [XmlTag.attribs, getAttrib_zero, find_name_replace]
    · simp only [XmlTag.attribs, getAttrib_zero, List.find?_append]
      cases h : a.find? (fun x => x.1 == sName) with
      | some x => rfl
      | none =>
        have hd : (str "Date" == sName) = false := by decide
        simp only [List.find?_cons, hd, List.find?_nil, Option.none_or]

theorem wellFormed_filesToXml : ∀ (files : List dcpp.File) (x : XmlList),
    wellFormed x = true → (files.all (fun f => !f.name.isEmpty && !f.tth.isEmpty)) = true →
    wellFormed (filesToXml files x) = true
  | [], x, hwf, _ => by simpa [filesToXml] using hwf
  | f :: rest, x, hwf, hfiles => by
    simp only [List.all_cons, Bool.and_eq_true, Bool.not_eq_true'] at hfiles
    obtain ⟨⟨hn, ht⟩, hrest⟩ := hfiles
    have hs : (Util.toString f.size).isEmpty = false := by
      have := Util.toString_ne_nil f.size
      cases h : Util.toString f.size with
      | nil => exact absurd h this
      | cons _ _ => rfl
    apply wellFormed_filesToXml rest _ _ hrest
    rw [wellFormed_push, hwf]
    simp only [wellFormed, show str "File" = sFile from rfl, if_true, Bool.true_and,
      Bool.and_true, XmlList.isEmpty]
    have e1 : getAttrib [(str "Name", f.name), (str "Size", Util.toString f.size),
        (str "TTH", f.tth)] sName 0 = f.name := by rfl
    have e2 : getAttrib [(str "Name", f.name), (str "Size", Util.toString f.size),
        (str "TTH", f.tth)] sSize 1 = Util.toString f.size := by rfl
    have e3 : getAttrib [(str "Name", f.name), (str "Size", Util.toString f.size),
        (str "TTH", f.tth)] sTTH 2 = f.tth := by rfl
    rw [e1, e2, e3, hn, hs, ht]
    rfl

end DirectoryListing

namespace DirectoryListing

theorem wellFormed_dir_inv (t : XmlTag) (h : wellFormed (.cons t .nil) = true)
    (hn : t.name = str "Directory") :
    (getAttrib t.attribs sName 0).isEmpty = false ∧ wellFormed t.children = true := by
  cases t with
  | mk n a f c =>
    simp only [XmlTag.name] at hn
    subst hn
    have hne : ¬ (str "Directory" = sFile) := by decide
    simp only [wellFormed, hne, if_false, Bool.and_true, Bool.and_eq_true,
      Bool.not_eq_true'] at h
    exact ⟨h.1.2, h.2⟩

theorem wellFormed_dirTag (t : XmlTag) (c : XmlList) (hn : t.name = str "Directory")
    (ha : (getAttrib t.attribs sName 0).isEmpty = false) (hc : wellFormed c = true) :
    wellFormed (.cons (t.setChildren c) .nil) = true := by
  cases t with
  | mk n a f c0 =>
    simp only [XmlTag.name] at hn
    subst hn
    simp only [XmlTag.attribs] at ha
    have hne : ¬ (str "Directory" = sFile) := by decide
    simp only [XmlTag.setChildren, wellFormed, hne, if_false, ha, hc, Bool.and_true,
      Bool.not_false]
    decide

theorem name_replaceChildAttrib (t : XmlTag) (a v : Str) :
    (t.replaceChildAttrib a v).name = t.name := by
  cases t
  simp only [XmlTag.replaceChildAttrib]
  split <;> rfl

theorem children_replaceChildAttrib (t : XmlTag) (a v : Str) :
    (t.replaceChildAttrib a v).children = t.children := by
  cases t
  simp only [XmlTag.replaceChildAttrib]
  split <;> rfl

mutual
theorem wellFormed_toXml (aProfile : ProfileToken) : ∀ (d : dcpp.Directory) (x : XmlList),
    wellFormed x = true → d.listable aProfile = true → wellFormed (d.toXml aProfile x) = true
  | .mk realName profileDir fileTypes size lastWrite files directories, x, hwf, hl => by
    simp only [dcpp.Directory.listable, Bool.and_eq_true, Bool.not_eq_true'] at hl
    obtain ⟨⟨hv, hf⟩, hd⟩ := hl
    simp only [dcpp.Directory.toXml]
    split
    · rename_i k hfind
      obtain ⟨t, hget, hn⟩ := findDirectory_some x _ k hfind
      obtain ⟨ha, hc⟩ := wellFormed_dir_inv t (wellFormed_get x k t hwf hget) hn
      apply wellFormed_modify _ x k t hwf hget
      split
      · apply wellFormed_dirTag
        · rw [name_replaceChildAttrib]; exact hn
        · rw [getAttrib_name_replace]; exact ha
        · apply wellFormed_filesToXml _ _ _ (by simpa using hf)
          rw [children_replaceChildAttrib]
          exact wellFormed_toXml_list aProfile directories _ hc hd
      · apply wellFormed_dirTag _ _ hn ha
        apply wellFormed_filesToXml _ _ _ (by simpa using hf)
        exact wellFormed_toXml_list aProfile directories _ hc hd
    · rw [wellFormed_push, hwf]
      have hc : wellFormed (filesToXml files (dcpp.DirList.toXml aProfile directories .nil))
          = true :=
        wellFormed_filesToXml _ _ (wellFormed_toXml_list aProfile directories _ rfl hd)
          (by simpa using hf)
      exact wellFormed_dirTag (.mk (str "Directory") _ true .nil) _ rfl hv hc
theorem wellFormed_toXml_list (aProfile : ProfileToken) : ∀ (ds : dcpp.DirList) (x : XmlList),
    wellFormed x = true → ds.listable aProfile = true →
    wellFormed (ds.toXml aProfile x) = true
  | .nil, x, hwf, _ => by simpa [dcpp.DirList.toXml] using hwf
  | .cons d rest, x, hwf, hl => by
    simp only [dcpp.DirList.listable, Bool.and_eq_true, Bool.or_eq_true] at hl
    simp only [dcpp.DirList.toXml]
    split
    · exact wellFormed_toXml_list aProfile rest x hwf hl.2
    · rename_i hex
      have hd : d.listable aProfile = true := by
        cases hl.1 with
        | inl h => exact absurd h hex
        | inr h => exact h
      exact wellFormed_toXml_list aProfile rest _ (wellFormed_toXml aProfile d x hwf hd) hl.2
end

theorem mirrorFiles_push : ∀ (x : XmlList) (t : XmlTag),
    mirrorFiles (x.push t) = mirrorFiles x ++ mirrorFiles (.cons t .nil)
  | .nil, t => by simp [XmlList.push, mirrorFiles]
  | .cons a rest, t => by
    rw [XmlList.push, mirrorFiles_cons, mirrorFiles_push rest t, mirrorFiles_cons a rest,
      List.append_assoc]

theorem mirrorFiles_filesToXml : ∀ (files : List dcpp.File) (x : XmlList),
    mirrorFiles (filesToXml files x) = mirrorFiles x ++ files.map (fun f =>
      { name := f.name, size := f.size, tthRoot := f.tth, adls := false, dupe := .DUPE_NONE })
  | [], x => by simp [filesToXml]
  | f :: rest, x => by
    have e1 : getAttrib [(str "Name", f.name), (str "Size", Util.toString f.size),
        (str "TTH", f.tth)] sName 0 = f.name := by rfl
    have e2 : getAttrib [(str "Name", f.name), (str "Size", Util.toString f.size),
        (str "TTH", f.tth)] sSize 1 = Util.toString f.size := by rfl
    have e3 : getAttrib [(str "Name", f.name), (str "Size", Util.toString f.size),
        (str "TTH", f.tth)] sTTH 2 = f.tth := by rfl
    rw [filesToXml, mirrorFiles_filesToXml rest, mirrorFiles_push]
    simp only [mirrorFiles, show str "File" = sFile from rfl, if_true, e1, e2, e3,
      Util.toInt64_toString, List.map_cons, List.append_assoc, List.singleton_append]

end DirectoryListing

namespace DirectoryListing

end DirectoryListing

namespace ShareManager

theorem take_drop_TTH (h : Str) :
    (str "TTH/" ++ h).take 4 = str "TTH/" ∧ (str "TTH/" ++ h).drop 4 = h := by
  constructor <;> rfl

/-- C23: `findTempShare(k, name)` returns only a record that is stored under the TTH
the name gives and whose key is empty or `k`; it returns such a record whenever one is
stored; it throws `FILE_NOT_AVAILABLE`, and nothing else, exactly when the name does
not start with `TTH/` or no record under the TTH has an empty key or the key `k`. For
the name `TTH/<h>` the TTH is `h`. -/
theorem findTempShare_spec (st : ShareManager) (k h : Str) :
    (∀ r, st.findTempShare k (str "TTH/" ++ h) = .ok r →
        (h, r) ∈ st.tempShares ∧ (r.key = [] ∨ r.key = k))
    ∧ (st.findTempShare k (str "TTH/" ++ h) = .error .FILE_NOT_AVAILABLE ↔
        ∀ r, (h, r) ∈ st.tempShares → r.key ≠ [] ∧ r.key ≠ k)
    ∧ (∀ name : Str, name.take 4 ≠ str "TTH/" →
        st.findTempShare k name = .error .FILE_NOT_AVAILABLE)
    ∧ st.findTempShare k (str "TTH/" ++ h) ≠ .error .nullDereference := by
  obtain ⟨htake, hdrop⟩ := take_drop_TTH h
  have hunf : st.findTempShare k (str "TTH/" ++ h)
      = match (st.tempShares.filter (fun i => i.1 == h)).find?
          (fun i => i.2.key.isEmpty || i.2.key == k) with
        | some i => .ok i.2
        | none => .error .FILE_NOT_AVAILABLE := by
    simp only [findTempShare, htake, hdrop, if_true]
  refine ⟨?_, ?_, ?_, ?_⟩
  · intro r hr
    rw [hunf] at hr
    cases hf : (st.tempShares.filter (fun i => i.1 == h)).find?
        (fun i => i.2.key.isEmpty || i.2.key == k) with
    | none => rw [hf] at hr; cases hr
    | some i =>
      rw [hf] at hr
      simp only [Except.ok.injEq] at hr
      subst hr
      have hmem := List.mem_of_find?_eq_some hf
      have hp := List.find?_some hf
      simp only [List.mem_filter, beq_iff_eq] at hmem
      simp only [Bool.or_eq_true, List.isEmpty_iff, beq_iff_eq] at hp
      obtain ⟨i1, i2⟩ := i
      simp only at hmem hp
      obtain ⟨hm, rfl⟩ := hmem
      exact ⟨hm, hp⟩
  · rw [hunf]
    cases hf : (st.tempShares.filter (fun i => i.1 == h)).find?
        (fun i => i.2.key.isEmpty || i.2.key == k) with
    | none =>
      simp only [true_iff]
      intro r hr
      have hn := List.find?_eq_none.mp hf (h, r)
        (by simp only [List.mem_filter, beq_self_eq_true, and_true]; exact hr)
      simp only [Bool.or_eq_true, List.isEmpty_iff, beq_iff_eq, not_or] at hn
      exact hn
    | some i =>
      simp only [reduceCtorEq, false_iff, not_forall]
      have hmem := List.mem_of_find?_eq_some hf
      have hp := List.find?_some hf
      simp only [List.mem_filter, beq_iff_eq] at hmem
      simp only [Bool.or_eq_true, List.isEmpty_iff, beq_iff_eq] at hp
      obtain ⟨i1, i2⟩ := i
      simp only at hmem hp
      obtain ⟨hm, rfl⟩ := hmem
      refine ⟨i2, hm, ?_⟩
      intro hc
      cases hp with
      | inl h1 => exact hc.1 h1
      | inr h2 => exact hc.2 h2
  · intro name hname
    simp only [findTempShare, hname, if_false]
  · rw [hunf]
    cases (st.tempShares.filter (fun i => i.1 == h)).find?
        (fun i => i.2.key.isEmpty || i.2.key == k) <;> simp

/-- In `exTempShares` the user `U1` is served the public record, which stands before
the record of `U1`; the record of `U2` is passed over. -/
theorem findTempShare_spec_witness :
    exTempShares.findTempShare (str "U1") (str "TTH/H1")
        = .ok ⟨[], str "C:\\tmp\\a.bin", 1⟩
    ∧ exTempShares.findTempShare (str "U3") (str "TTH/H2") = .error .FILE_NOT_AVAILABLE
    ∧ ((str "H1", ⟨[], str "C:\\tmp\\a.bin", 1⟩) ∈ exTempShares.tempShares
        ∧ ((⟨[], str "C:\\tmp\\a.bin", 1⟩ : TempShareInfo).key = []
          ∨ (⟨[], str "C:\\tmp\\a.bin", 1⟩ : TempShareInfo).key = str "U1")) :=
  ⟨by rfl, by rfl,
    (findTempShare_spec exTempShares (str "U1") (str "H1")).1 _ (by rfl)⟩

end ShareManager

namespace ShareManager

/-- C22 as stated fails: with `REMOVE_FORBIDDEN` on and a skip list that matches
nothing, the files `1part.met` and `part.met`, whose names end with `part.met`, pass
`checkSharedName`. -/
theorem checkSharedName_short_part_met_counterexample :
    exNameEnv.REMOVE_FORBIDDEN = true
    ∧ (∀ n, exNameEnv.skipListMatch n = false)
    ∧ str "part.met" <:+ Text.toLower (Util.getFileName (str "C:\\share\\1part.met"))
    ∧ checkSharedName exNameEnv (str "C:\\share\\1part.met") false 1 = true
    ∧ checkSharedName exNameEnv (str "C:\\share\\part.met") false 1 = true := by
  refine ⟨rfl, fun _ => rfl, ?_, by rfl, by rfl⟩
  exact ⟨['1'], rfl⟩

theorem rfindFrom_last (x pat : Str) : ∀ (n k : Nat), k ≤ n →
    pat.isPrefixOf (x.drop k) = true →
    (∀ j, k < j → j ≤ n → pat.isPrefixOf (x.drop j) = false) →
    rfindFrom x pat n = some k
  | 0, k, hk, hp, _ => by
    have hk0 : k = 0 := Nat.le_zero.mp hk
    subst hk0
    simp only [List.drop_zero] at hp
    simp only [rfindFrom, hp, if_true]
  | n + 1, k, hk, hp, hlast => by
    by_cases hkn : k = n + 1
    · subst hkn
      simp only [rfindFrom, hp, if_true]
    · have hle : k ≤ n := by omega
      have hf := hlast (n + 1) (by omega) (le_refl _)
      simp only [rfindFrom, hf, Bool.false_eq_true, if_false]
      exact rfindFrom_last x pat n k hle hp (fun j h1 h2 => hlast j h1 (by omega))

theorem strRfind_suffix (x pat : Str) (hne : pat ≠ []) (hs : pat <:+ x) :
    strRfind x pat = some (x.length - pat.length) := by
  obtain ⟨pre, rfl⟩ := hs
  have hk : (pre ++ pat).length - pat.length = pre.length := by
    simp only [List.length_append, Nat.add_sub_cancel]
  rw [hk]
  apply rfindFrom_last
  · simp only [List.length_append]; omega
  · simp only [List.drop_left, List.isPrefixOf_iff_prefix]
    exact List.prefix_refl _
  · intro j hj _
    cases hpre : pat.isPrefixOf (List.drop j (pre ++ pat)) with
    | false => rfl
    | true =>
      have hlen := (List.isPrefixOf_iff_prefix.mp hpre).length_le
      have hpos : 0 < pat.length := List.length_pos.mpr hne
      simp only [List.length_drop, List.length_append] at hlen
      omega

theorem strFindStr_of_prefix (x pat : Str) (hne : pat ≠ []) (hp : pat <+: x) :
    strFindStr x pat = some 0 := by
  cases x with
  | nil =>
    have := List.prefix_nil.mp hp
    exact absurd this hne
  | cons a rest =>
    have h := List.isPrefixOf_iff_prefix.mpr hp
    simp only [strFindStr, findStrFrom, h, if_true]

theorem strcmpEq_self (a : Str) : strcmpEq a a = true := by
  simp [strcmpEq]

/-- C22, amended: with `REMOVE_FORBIDDEN` on and a skip list that matches nothing,
`checkSharedName(path, isDir = false, report, size)` is false, whatever the size, for
every file whose lower-cased name has one of the extensions `.tdc`, `.getright`,
`.temp`, `.tmp`, `.jc!`, `.dmf`, `.!ut`, `.bc!`, `.missing`, `.bak`, `.bad`, or starts
with `__padding_` or `__incomplete__`, or is longer than 9 characters and ends with
`part.met`. -/
theorem checkSharedName_rejects_forbidden (env : NameEnv) (aPath : Str) (size : Int)
    (hrf : env.REMOVE_FORBIDDEN = true) (hskip : ∀ n, env.skipListMatch n = false)
    (hname :
      Util.getFileExt (Text.toLower (Util.getFileName aPath)) ∈
          [str ".tdc", str ".getright", str ".temp", str ".tmp", str ".jc!", str ".dmf",
            str ".!ut", str ".bc!", str ".missing", str ".bak", str ".bad"]
      ∨ str "__padding_" <+: Text.toLower (Util.getFileName aPath)
      ∨ str "__incomplete__" <+: Text.toLower (Util.getFileName aPath)
      ∨ (9 < (Text.toLower (Util.getFileName aPath)).length
          ∧ str "part.met" <:+ Text.toLower (Util.getFileName aPath))) :
    checkSharedName env aPath false size = false := by
  have hforb : forbiddenPattern (Text.toLower (Util.getFileName aPath)) = true := by
    rcases hname with hext | hpad | hinc | ⟨hlen, hsuf⟩
    · simp only [List.mem_cons, List.mem_singleton, List.not_mem_nil, or_false] at hext
      simp only [forbiddenPattern]
      rcases hext with h | h | h | h | h | h | h | h | h | h | h <;>
        simp only [h, strcmpEq_self, Bool.true_or, Bool.or_true]
    · simp only [forbiddenPattern,
        strFindStr_of_prefix _ (str "__padding_") (by decide) hpad, beq_self_eq_true,
        Bool.true_or, Bool.or_true]
    · simp only [forbiddenPattern,
        strFindStr_of_prefix _ (str "__incomplete__") (by decide) hinc, beq_self_eq_true,
        Bool.true_or, Bool.or_true]
    · have hr := strRfind_suffix _ (str "part.met") (by decide) hsuf
      have h8 : (str "part.met").length = 8 := rfl
      rw [h8] at hr
      simp only [forbiddenPattern, hr, beq_self_eq_true, hlen, gt_iff_lt, decide_True,
        Bool.and_self, Bool.true_or, Bool.or_true]
  simp only [checkSharedName, Bool.false_eq_true, if_false, hskip, hrf, hforb, Bool.and_self,
    if_true, Bool.not_false]
  split
  · rfl
  · split <;> rfl

/-- The file `Movie.PART.MET` of any size is rejected under the settings `exNameEnv`. -/
theorem checkSharedName_rejects_forbidden_witness :
    checkSharedName exNameEnv (str "C:\\share\\Movie.PART.MET") false 700 = false :=
  checkSharedName_rejects_forbidden exNameEnv (str "C:\\share\\Movie.PART.MET") 700 rfl
    (fun _ => rfl)
    (Or.inr (Or.inr (Or.inr ⟨by decide, ⟨str "movie.", by rfl⟩⟩)))

end ShareManager

namespace DirectoryListing

/-- On the tree `exAdlsBelow`, which holds a directory flagged `adls` below a
subdirectory that is not flagged, `getTotalSize(adl = true)` on the root counts the
file of the flagged directory: the call on a subdirectory is made with the field `adls`
of the directory in place of the argument `adl`. -/
theorem getTotalSize_passes_adls_field :
    exAdlsBelow.findIncomplete = false
    ∧ exAdlsBelow.sizeOutsideAdls = 0
    ∧ exAdlsBelow.getTotalSize true = 1 := by
  refine ⟨by rfl, by rfl, by rfl⟩

end DirectoryListing

namespace DirectoryListing

theorem mulInt32_eq (a b : Int) (hlo : -(2 ^ 31) ≤ a * b) (hhi : a * b < 2 ^ 31) :
    mulInt32 a b = a * b := by
  unfold mulInt32
  generalize a * b = x at hlo hhi
  norm_num at hlo hhi ⊢
  omega

mutual
theorem mem_getHashList : ∀ (d : Directory) (l : List TTHValue) (x : TTHValue),
    x ∈ d.getHashList l ↔ x ∈ l ∨ ∃ f ∈ d.allFiles, f.tthRoot = x
  | .mk _ _ _ _ _ _ files directories, l, x => by
    simp only [Directory.getHashList, Directory.allFiles, List.mem_append, List.mem_map,
      mem_getHashList_list directories l x]
    constructor
    · rintro ((h | ⟨f, hf, hx⟩) | ⟨f, hf, hx⟩)
      · exact Or.inl h
      · exact Or.inr ⟨f, Or.inr hf, hx⟩
      · exact Or.inr ⟨f, Or.inl hf, hx⟩
    · rintro (h | ⟨f, hf | hf, hx⟩)
      · exact Or.inl (Or.inl h)
      · exact Or.inr ⟨f, hf, hx⟩
      · exact Or.inl (Or.inr ⟨f, hf, hx⟩)
theorem mem_getHashList_list : ∀ (ds : DirList) (l : List TTHValue) (x : TTHValue),
    x ∈ ds.getHashList l ↔ x ∈ l ∨ ∃ f ∈ ds.allFiles, f.tthRoot = x
  | .nil, l, x => by simp [DirList.getHashList, DirList.allFiles]
  | .cons d rest, l, x => by
    simp only [DirList.getHashList, DirList.allFiles, List.mem_append,
      mem_getHashList_list rest _ x, mem_getHashList d l x]
    constructor
    · rintro ((h | ⟨f, hf, hx⟩) | ⟨f, hf, hx⟩)
      · exact Or.inl h
      · exact Or.inr ⟨f, Or.inl hf, hx⟩
      · exact Or.inr ⟨f, Or.inr hf, hx⟩
    · rintro (h | ⟨f, hf | hf, hx⟩)
      · exact Or.inl (Or.inl h)
      · exact Or.inl (Or.inr ⟨f, hf, hx⟩)
      · exact Or.inr ⟨f, hf, hx⟩
end

theorem files_filterList (S : Int) (l : List TTHValue) (d : Directory) :
    (d.filterList S l).files =
      if S > 0 ∧ (d.files.filter (fun f => !(l.contains f.tthRoot))).length < 2 then
        (d.files.filter (fun f => !(l.contains f.tthRoot))).filter
          (fun f => !(decide (f.size < mulInt32 S 1024)))
      else d.files.filter (fun f => !(l.contains f.tthRoot)) := by
  cases d
  simp only [Directory.filterList, Directory.files]

theorem directories_filterList (S : Int) (l : List TTHValue) (d : Directory) :
    (d.filterList S l).directories = d.directories.filterList S l := by
  cases d
  simp only [Directory.filterList, Directory.directories]

theorem allFiles_eq (d : Directory) : d.allFiles = d.files ++ d.directories.allFiles := by
  cases d
  simp only [Directory.allFiles, Directory.files, Directory.directories]

theorem allDirs_eq (d : Directory) : d.allDirs = d.directories.allDirs := by
  cases d
  simp only [Directory.allDirs, Directory.directories]

theorem mem_files_filterList (S : Int) (l : List TTHValue) (d : Directory) (f : File)
    (hf : f ∈ (d.filterList S l).files) :
    f ∈ d.files ∧ f.tthRoot ∉ l
      ∧ (S > 0 → (d.filterList S l).files.length < 2 → ¬ f.size < mulInt32 S 1024) := by
  rw [files_filterList] at hf ⊢
  split at hf
  · rename_i hc
    simp only [List.mem_filter, Bool.not_eq_true', List.contains_eq_any_beq, List.any_eq_false,
      beq_iff_eq, decide_eq_false_iff_not] at hf
    refine ⟨hf.1.1, fun hm => hf.1.2 _ hm rfl, fun _ _ => ?_⟩
    simpa using hf.2
  · rename_i hc
    simp only [List.mem_filter, Bool.not_eq_true', List.contains_eq_any_beq, List.any_eq_false,
      beq_iff_eq] at hf
    refine ⟨hf.1, fun hm => hf.2 _ hm rfl, fun hS hlen => ?_⟩
    rw [if_neg hc] at hlen
    exact absurd ⟨hS, hlen⟩ hc

theorem removed_files_filterList (S : Int) (l : List TTHValue) (d : Directory) (f : File)
    (hf : f ∈ d.files) :
    f ∈ (d.filterList S l).files ∨ f.tthRoot ∈ l
      ∨ (S > 0 ∧ (d.files.filter (fun f => !(l.contains f.tthRoot))).length < 2
          ∧ f.size < mulInt32 S 1024) := by
  rw [files_filterList]
  by_cases hl : f.tthRoot ∈ l
  · exact Or.inr (Or.inl hl)
  · have h1 : f ∈ d.files.filter (fun f => !(l.contains f.tthRoot)) := by
      simp only [List.mem_filter, Bool.not_eq_true', List.contains_eq_any_beq,
        List.any_eq_false, beq_iff_eq]
      exact ⟨hf, fun x hx hxe => hl (hxe ▸ hx)⟩
    split
    · rename_i hc
      by_cases hs : f.size < mulInt32 S 1024
      · exact Or.inr (Or.inr ⟨hc.1, hc.2, hs⟩)
      · left
        exact List.mem_filter.mpr ⟨h1, by simpa using hs⟩
    · exact Or.inl h1

end DirectoryListing

namespace DirectoryListing

theorem DirList.eq_nil_of_length (ds : DirList) (h : ds.length = 0) : ds = .nil := by
  cases ds with
  | nil => rfl
  | cons d rest => simp [DirList.length] at h

theorem allFiles_of_empty (d : Directory) (h : d.files.length + d.directories.length = 0) :
    d.allFiles = [] := by
  have h1 : d.files.length = 0 := by omega
  have h2 : d.directories.length = 0 := by omega
  rw [allFiles_eq, List.length_eq_zero.mp h1, DirList.eq_nil_of_length _ h2]
  rfl

mutual
theorem filterList_tree (S : Int) (l : List TTHValue) : ∀ (d : Directory),
    (∀ f ∈ (d.filterList S l).allFiles, f.tthRoot ∉ l)
    ∧ (∀ e ∈ (d.filterList S l).allDirs, e.files.length + e.directories.length ≠ 0)
    ∧ (∀ e ∈ d.filterList S l :: (d.filterList S l).allDirs, S > 0 → e.files.length < 2 →
        ∀ f ∈ e.files, ¬ f.size < mulInt32 S 1024)
    ∧ (∀ f ∈ d.allFiles, f ∈ (d.filterList S l).allFiles ∨ f.tthRoot ∈ l
        ∨ (S > 0 ∧ f.size < mulInt32 S 1024))
  | .mk n c ps dt ad du fs ds => by
    obtain ⟨h1, h2, h3, h4⟩ := filterList_list S l ds
    have hdirs : (Directory.filterList S l (.mk n c ps dt ad du fs ds)).directories
        = ds.filterList S l := directories_filterList S l (.mk n c ps dt ad du fs ds)
    refine ⟨?_, ?_, ?_, ?_⟩
    · intro f hf
      rw [allFiles_eq, List.mem_append, hdirs] at hf
      rcases hf with hf | hf
      · exact (mem_files_filterList S l _ f hf).2.1
      · exact h1 f hf
    · intro e he
      rw [allDirs_eq, hdirs] at he
      exact h2 e he
    · intro e he hS hlen f hf
      rw [List.mem_cons, allDirs_eq, hdirs] at he
      rcases he with he | he
      · subst he
        exact (mem_files_filterList S l _ f hf).2.2 hS hlen
      · exact h3 e he hS hlen f hf
    · intro f hf
      rw [allFiles_eq, List.mem_append] at hf
      rw [allFiles_eq (Directory.filterList S l _), List.mem_append, hdirs]
      simp only [Directory.files, Directory.directories] at hf
      rcases hf with hf | hf
      · rcases removed_files_filterList S l (.mk n c ps dt ad du fs ds) f hf with h | h | h
        · exact Or.inl (Or.inl h)
        · exact Or.inr (Or.inl h)
        · exact Or.inr (Or.inr ⟨h.1, h.2.2⟩)
      · rcases h4 f hf with h | h | h
        · exact Or.inl (Or.inr h)
        · exact Or.inr (Or.inl h)
        · exact Or.inr (Or.inr h)
theorem filterList_list (S : Int) (l : List TTHValue) : ∀ (ds : DirList),
    (∀ f ∈ (ds.filterList S l).allFiles, f.tthRoot ∉ l)
    ∧ (∀ e ∈ (ds.filterList S l).allDirs, e.files.length + e.directories.length ≠ 0)
    ∧ (∀ e ∈ (ds.filterList S l).allDirs, S > 0 → e.files.length < 2 →
        ∀ f ∈ e.files, ¬ f.size < mulInt32 S 1024)
    ∧ (∀ f ∈ ds.allFiles, f ∈ (ds.filterList S l).allFiles ∨ f.tthRoot ∈ l
        ∨ (S > 0 ∧ f.size < mulInt32 S 1024))
  | .nil => by
    simp [DirList.filterList, DirList.allFiles, DirList.allDirs]
  | .cons d rest => by
    obtain ⟨d1, d2, d3, d4⟩ := filterList_tree S l d
    obtain ⟨r1, r2, r3, r4⟩ := filterList_list S l rest
    by_cases hemp : (d.filterList S l).files.length + (d.filterList S l).directories.length = 0
    · have heq : (DirList.cons d rest).filterList S l = rest.filterList S l := by
        simp only [DirList.filterList, hemp, if_true]
      rw [heq]
      refine ⟨r1, r2, r3, ?_⟩
      intro f hf
      simp only [DirList.allFiles, List.mem_append] at hf
      rcases hf with hf | hf
      · rcases d4 f hf with h | h | h
        · rw [allFiles_of_empty _ hemp] at h
          cases h
        · exact Or.inr (Or.inl h)
        · exact Or.inr (Or.inr h)
      · exact r4 f hf
    · have heq : (DirList.cons d rest).filterList S l
          = .cons (d.filterList S l) (rest.filterList S l) := by
        simp only [DirList.filterList, hemp, if_false]
      rw [heq]
      refine ⟨?_, ?_, ?_, ?_⟩
      · intro f hf
        simp only [DirList.allFiles, List.mem_append] at hf
        rcases hf with hf | hf
        · exact d1 f hf
        · exact r1 f hf
      · intro e he
        simp only [DirList.allDirs, List.mem_cons, List.mem_append] at he
        rcases he with he | he | he
        · subst he; exact hemp
        · exact d2 e he
        · exact r2 e he
      · intro e he
        simp only [DirList.allDirs, List.mem_cons, List.mem_append] at he
        rcases he with he | he | he
        · exact d3 e (List.mem_cons.mpr (Or.inl he))
        · exact d3 e (List.mem_cons.mpr (Or.inr he))
        · exact r3 e he
      · intro f hf
        simp only [DirList.allFiles, List.mem_append] at hf ⊢
        rcases hf with hf | hf
        · rcases d4 f hf with h | h | h
          · exact Or.inl (Or.inl h)
          · exact Or.inr (Or.inl h)
          · exact Or.inr (Or.inr h)
        · rcases r4 f hf with h | h | h
          · exact Or.inl (Or.inr h)
          · exact Or.inr (Or.inl h)
          · exact Or.inr (Or.inr h)
end

end DirectoryListing

/-- C28 as stated fails: a search for directories (`TYPE_DIRECTORY`) with the size
mode `ATLEAST` and the size 5 does not meet the size condition, and the directory
`music` still yields a directory result for the token `music`. -/
theorem search_directory_ignores_size_counterexample :
    exMusicRoot.hasType TYPE_DIRECTORY = true
    ∧ ¬ (SizeModes.SIZE_ATLEAST ≠ SizeModes.SIZE_ATLEAST ∨ (5 : Int) = 0)
    ∧ Directory.search none .SIZE_ATLEAST 5 TYPE_DIRECTORY 10 exMusicRoot []
        [StringSearch.new (str "music")]
      = .ok [⟨.TYPE_DIRECTORY, 0, str "music\\", []⟩] := by
  refine ⟨by decide, by decide, by rfl⟩

theorem foldl_prune_getD (orig : List StringSearch) (name : Str) :
    ∀ (l : List StringSearch) (acc : Option (List StringSearch)),
    (l.foldl (fun newStr k =>
        if k.match name then some ((newStr.getD orig).filter (fun x => !(x == k)))
        else newStr) acc).getD orig
      = (acc.getD orig).filter (fun x => !(l.any (fun k => k.match name && x == k)))
  | [], acc => by simp
  | a :: t, acc => by
    rw [List.foldl_cons, foldl_prune_getD orig name t]
    by_cases ha : a.match name = true
    · simp only [ha, if_true, Option.getD_some, List.filter_filter, List.any_cons,
        Bool.true_and]
      apply List.filter_congr
      intro x _
      cases (x == a) <;> simp
    · simp only [Bool.not_eq_true] at ha
      simp only [ha, Bool.false_eq_true, if_false, List.any_cons, Bool.false_and,
        Bool.false_or]

theorem pruneTokens_getD (aStrings : List StringSearch) (name : Str) :
    (pruneTokens aStrings name).getD aStrings
      = aStrings.filter (fun x => !(x.match name)) := by
  rw [pruneTokens, foldl_prune_getD aStrings name aStrings none, Option.getD_none]
  apply List.filter_congr
  intro x hx
  congr 1
  cases hm : x.match name
  · rw [List.any_eq_false]
    intro k _
    by_cases hk : x = k
    · subst hk; simp [hm]
    · simp [hk]
  · rw [List.any_eq_true]
    exact ⟨x, hx, by simp [hm]⟩

theorem remainingTokens_eq : ∀ (names : List Str) (aStrings : List StringSearch),
    remainingTokens aStrings names
      = aStrings.filter (fun x => !(names.any (fun n => x.match n)))
  | [], aStrings => by simp [remainingTokens]
  | n :: rest, aStrings => by
    rw [remainingTokens, remainingTokens_eq rest, pruneTokens_getD, List.filter_filter]
    apply List.filter_congr
    intro x _
    simp only [List.any_cons, Bool.not_or, Bool.and_comm]

theorem remainingTokens_append (aStrings : List StringSearch) : ∀ (names : List Str) (n : Str),
    remainingTokens aStrings (names ++ [n])
      = (pruneTokens (remainingTokens aStrings names) n).getD (remainingTokens aStrings names) := by
  intro names n
  rw [pruneTokens_getD, remainingTokens_eq, remainingTokens_eq, List.filter_filter]
  apply List.filter_congr
  intro x _
  simp only [List.any_append, List.any_cons, List.any_nil, Bool.or_false, Bool.not_or,
    Bool.and_comm]

theorem remainingTokens_isEmpty (aStrings : List StringSearch) (names : List Str) :
    (remainingTokens aStrings names).isEmpty = true
      ↔ ∀ k ∈ aStrings, ∃ n ∈ names, k.match n = true := by
  rw [remainingTokens_eq, List.isEmpty_iff, List.filter_eq_nil_iff]
  constructor
  · intro h k hk
    have := h k hk
    simp only [Bool.not_eq_true', Bool.not_eq_false, List.any_eq_true] at this
    exact this
  · intro h k hk
    simp only [Bool.not_eq_true', Bool.not_eq_false, List.any_eq_true]
    exact h k hk

/-- C28, amended: a call of the NMDC `Directory::search` on a directory that passes the
`hasType` gate, reached through directories of the names `names` from a query with the
tokens `query`, adds a directory result for the directory, before the results of its
files and subdirectories, exactly when (a) every token matched the name of the
directory or of one of the directories on the way, and (b) the file type is `ANY` and
the size condition is met (the mode is not `ATLEAST`, or the size is 0), or the file
type is `DIRECTORY`, for which the size condition is not looked at. The file loop and
the subdirectories go on with the tokens that are left. -/
theorem search_directory_result (parent : Option DirRef) (aSearchType : SizeModes)
    (aSize : Int) (aFileType maxResults : Nat) (d : Directory) (aResults : SearchResultList)
    (query : List StringSearch) (names : List Str) (fullName : Str)
    (hgate : d.hasType aFileType = true)
    (hfull : (d.ref parent).getFullName SP_DEFAULT = .ok fullName) :
    Directory.search parent aSearchType aSize aFileType maxResults d aResults
        (remainingTokens query names)
      = match
          (if aFileType != TYPE_DIRECTORY then
            Directory.searchFiles (d.ref parent)
              (remainingTokens query (names ++ [d.searchName SP_DEFAULT]))
              aSearchType aSize aFileType maxResults d.files
              (aResults ++
                if (∀ k ∈ query, ∃ n ∈ names ++ [d.searchName SP_DEFAULT], k.match n = true)
                    ∧ ((aFileType = TYPE_ANY ∧ (aSearchType ≠ .SIZE_ATLEAST ∨ aSize = 0))
                      ∨ aFileType = TYPE_DIRECTORY)
                then [⟨.TYPE_DIRECTORY, 0, fullName, []⟩] else [])
          else
            .ok (aResults ++
              if (∀ k ∈ query, ∃ n ∈ names ++ [d.searchName SP_DEFAULT], k.match n = true)
                  ∧ ((aFileType = TYPE_ANY ∧ (aSearchType ≠ .SIZE_ATLEAST ∨ aSize = 0))
                    ∨ aFileType = TYPE_DIRECTORY)
              then [⟨.TYPE_DIRECTORY, 0, fullName, []⟩] else [])) with
        | .error e => .error e
        | .ok r2 =>
          DirList.search (some (d.ref parent)) aSearchType aSize aFileType maxResults
            d.directories r2 (remainingTokens query (names ++ [d.searchName SP_DEFAULT])) := by
  have hcond : ((remainingTokens query (names ++ [d.searchName SP_DEFAULT])).isEmpty
        && ((aFileType == TYPE_ANY && (aSearchType != .SIZE_ATLEAST || aSize == 0))
          || aFileType == TYPE_DIRECTORY)) = true
      ↔ ((∀ k ∈ query, ∃ n ∈ names ++ [d.searchName SP_DEFAULT], k.match n = true)
        ∧ ((aFileType = TYPE_ANY ∧ (aSearchType ≠ .SIZE_ATLEAST ∨ aSize = 0))
          ∨ aFileType = TYPE_DIRECTORY)) := by
    rw [Bool.and_eq_true, remainingTokens_isEmpty]
    simp only [Bool.or_eq_true, Bool.and_eq_true, beq_iff_eq, bne_iff_ne, ne_eq]
  rw [remainingTokens_append] at hcond ⊢
  cases d with
  | mk n pd ft sz lw fs ds =>
    simp only [Directory.search, hgate, Bool.not_true, Bool.false_eq_true, if_false, hfull,
      Directory.files, Directory.directories]
    by_cases hc : (((pruneTokens (remainingTokens query names)
          ((Directory.mk n pd ft sz lw fs ds).searchName SP_DEFAULT)).getD
            (remainingTokens query names)).isEmpty
        && ((aFileType == TYPE_ANY && (aSearchType != .SIZE_ATLEAST || aSize == 0))
          || aFileType == TYPE_DIRECTORY)) = true
    · rw [if_pos hc, if_pos (hcond.mp hc)]
    · rw [if_neg hc, if_neg (fun h => hc (hcond.mpr h))]
      simp only [List.append_nil]

/-- The root `music` searched with the one token `music` for any type without a size
bound: the token matches the name, and the directory is the one result. -/
theorem search_directory_result_witness :
    exMusicRoot.hasType TYPE_ANY = true
    ∧ (exMusicRoot.ref none).getFullName SP_DEFAULT = .ok (str "music\\")
    ∧ Directory.search none .SIZE_DONTCARE 0 TYPE_ANY 10 exMusicRoot []
        (remainingTokens [StringSearch.new (str "music")] [])
      = .ok [⟨.TYPE_DIRECTORY, 0, str "music\\", []⟩] := by
  refine ⟨by decide, by rfl, ?_⟩
  rw [search_directory_result none .SIZE_DONTCARE 0 TYPE_ANY 10 exMusicRoot []
    [StringSearch.new (str "music")] [] (str "music\\") (by decide) (by rfl)]
  rfl

namespace ShareManager

/-- C29: the pattern of the source and the specified pattern accept different strings.
The source writes the second digit as the group `(0-9)`, which stands for the three
characters `0-9`, where the specification has the set `[0-9]`: the disc name `CD.12`
is accepted by the specified pattern and not by `subDirRegPlain`, and `CD10-9` the
other way round. On `CD1`, `cd12` (the separator `.?` takes the first digit), `Sample`
and `VobSubs` they agree. -/
theorem subDirRegPlain_rejects_two_digits :
    Regex.regex_match (str "CD.12") subDirRegSpecified = true
    ∧ Regex.regex_match (str "CD.12") subDirRegPlain = false
    ∧ Regex.regex_match (str "CD10-9") subDirRegSpecified = false
    ∧ Regex.regex_match (str "CD10-9") subDirRegPlain = true
    ∧ Regex.regex_match (str "CD1") subDirRegPlain = true
    ∧ Regex.regex_match (str "cd12") subDirRegPlain = true
    ∧ Regex.regex_match (str "Sample") subDirRegPlain = true
    ∧ Regex.regex_match (str "VobSubs") subDirRegPlain = true
    ∧ subDirRegPlain ≠ Regex.nothing ∧ subDirRegSpecified ≠ Regex.nothing := by
  refine ⟨by rfl, by rfl, by rfl, by rfl, by rfl, by rfl, by rfl, by rfl, by decide, by decide⟩

end ShareManager

namespace DirectoryListing

/-- C30: `addListDiffTask(file)` queues its `StringTask` under the tag `MATCH_ADL`, not
`LISTDIFF`. With an empty queue and no worker running, the worker that it starts runs
the ADL branch: the listing it leaves is the one `ADLSearchManager::matchListing`
returns for the tree without its ADL directories, whatever `file` is; no list is loaded
and nothing is subtracted. On `exDiffState` the tree is left as it was, where the task
`LISTDIFF` with the same file takes the file `a` out of it. -/
theorem addListDiffTask_queues_match_adl (re : RunEnv) (s : State) (aFile : Str)
    (l2 : Listing) (hq : s.tasks = []) (hrun : s.running = false)
    (hadl : re.matchADL { s.list with root := s.list.root.clearAdls } = .ok l2) :
    s.addListDiffTask false aFile = ({ s with tasks := [.MATCH_ADL], running := true }, true)
    ∧ run re (s.addListDiffTask false aFile).1
        = ({ s with list := l2, tasks := [], running := false,
                    fired := s.fired ++ [.LoadingFinished [] false] }, .returned)
    ∧ (run exDiffEnv (exDiffState.addListDiffTask false (str "other.xml")).1).1.list.root
        = exMine
    ∧ (run exDiffEnv { exDiffState with tasks := [.LISTDIFF (str "other.xml")],
                                        running := true }).1.list.root
        = exDir [] []
            (.cons (exDir (str "keep")
              [{ name := str "b", size := 4096, tthRoot := str "b", adls := false,
                  dupe := .DUPE_NONE }] .nil)
              (.cons (exDir (str "small") [exFile (str "tiny") .DUPE_NONE] .nil) .nil)) := by
  have hadd : s.addListDiffTask false aFile
      = ({ s with tasks := [.MATCH_ADL], running := true }, true) := by
    simp only [State.addListDiffTask, State.add, Task.ofPair, State.runTasks, hq, hrun,
      List.nil_append, Bool.false_eq_true, if_false]
  refine ⟨hadd, ?_, by rfl, by rfl⟩
  rw [hadd]
  simp only [run, runLoop, tryTask, hadl, State.fire]

/-- The worker started by `addListDiffTask` on `exDiffState` under `exDiffEnv`. -/
theorem addListDiffTask_queues_match_adl_witness :
    exDiffState.addListDiffTask false (str "other.xml")
        = ({ exDiffState with tasks := [.MATCH_ADL], running := true }, true) :=
  (addListDiffTask_queues_match_adl exDiffEnv exDiffState (str "other.xml")
    { exDiffState.list with root := exDiffState.list.root.clearAdls } rfl rfl rfl).1

end DirectoryListing

theorem orderedInsertBy_perm {α : Type} (less : α → α → Bool) (a : α) :
    ∀ l : List α, (orderedInsertBy less a l).Perm (a :: l)
  | [] => List.Perm.refl _
  | b :: l => by
    simp only [orderedInsertBy]
    split
    · exact List.Perm.refl _
    · exact ((orderedInsertBy_perm less a l).cons b).trans (List.Perm.swap a b l)

theorem sortBy_perm {α : Type} (less : α → α → Bool) : ∀ l : List α, (sortBy less l).Perm l
  | [] => List.Perm.refl _
  | a :: l => (orderedInsertBy_perm less a _).trans ((sortBy_perm less l).cons a)

theorem orderedInsertBy_pairwise {α : Type} (less : α → α → Bool)
    (hasym : ∀ a b, less a b = true → less b a = false)
    (htrans : ∀ a b c, less b a = false → less c b = false → less c a = false) (a : α) :
    ∀ l : List α, l.Pairwise (fun x y => less y x = false) →
    (orderedInsertBy less a l).Pairwise (fun x y => less y x = false)
  | [], _ => by simp [orderedInsertBy]
  | b :: l, h => by
    rw [List.pairwise_cons] at h
    simp only [orderedInsertBy]
    split
    · rename_i hab
      rw [List.pairwise_cons]
      refine ⟨?_, List.pairwise_cons.mpr h⟩
      intro y hy
      rcases List.mem_cons.mp hy with rfl | hy
      · exact hasym _ _ hab
      · exact htrans a b y (hasym _ _ hab) (h.1 y hy)
    · rename_i hab
      rw [List.pairwise_cons]
      refine ⟨?_, orderedInsertBy_pairwise less hasym htrans a l h.2⟩
      intro y hy
      rcases List.mem_cons.mp ((orderedInsertBy_perm less a l).mem_iff.mp hy) with rfl | hy
      · simpa using hab
      · exact h.1 y hy

theorem sortBy_pairwise {α : Type} (less : α → α → Bool)
    (hasym : ∀ a b, less a b = true → less b a = false)
    (htrans : ∀ a b c, less b a = false → less c b = false → less c a = false) :
    ∀ l : List α, (sortBy less l).Pairwise (fun x y => less y x = false)
  | [] => List.Pairwise.nil
  | a :: l => orderedInsertBy_pairwise less hasym htrans a _ (sortBy_pairwise less hasym htrans l)

namespace DirectoryListing

theorem DirList.depth_of_mem : ∀ (ds : DirList) (c : Directory), c ∈ ds.toList →
    c.depth ≤ ds.depth
  | .nil, c, h => by simp [DirList.toList] at h
  | .cons d rest, c, h => by
    simp only [DirList.toList, List.mem_cons] at h
    simp only [DirList.depth]
    rcases h with h | h
    · subst h; exact le_max_left _ _
    · exact le_trans (DirList.depth_of_mem rest c h) (le_max_right _ _)

theorem Directory.depth_eq (d : Directory) : d.depth = d.directories.depth + 1 := by
  cases d
  rfl

theorem downloadEach_all (f : Directory → Option Planned) (g : Directory → List Submitted) :
    ∀ l : List Directory, (∀ c ∈ l, f c = some ⟨g c, none⟩) →
    downloadEach f l = some ⟨l.flatMap g, none⟩
  | [], _ => rfl
  | c :: rest, h => by
    have hc := h c (List.mem_cons_self _ _)
    have hrest := downloadEach_all f g rest (fun x hx => h x (List.mem_cons_of_mem _ hx))
    simp only [downloadEach, hc, hrest, List.flatMap_cons]

theorem downloadFiles_all (re : PlanEnv) (target : Str) (b : Bundle)
    (hno : ∀ t sz tth p bb x, re.add t sz tth p bb ≠ .other x) :
    ∀ fs : List File, downloadFiles re target b fs
      = ⟨fs.map (fun f => Submitted.add (target ++ f.name) f.size f.tthRoot re.DEFAULT b),
          none⟩
  | [] => rfl
  | f :: rest => by
    have ih := downloadFiles_all re target b hno rest
    simp only [downloadFiles, List.map_cons]
    cases hadd : re.add (target ++ f.name) f.size f.tthRoot re.DEFAULT b with
    | other x => exact absurd hadd (hno _ _ _ _ _ x)
    | ok => simp only [ih]
    | QueueException => simp only [ih]
    | FileException => simp only [ih]

theorem download_inner (re : PlanEnv) (aTargetType prio : Nat) (b : Bundle)
    (hno : ∀ t sz tth p bb x, re.add t sz tth p bb ≠ .other x) :
    ∀ (fuel : Nat) (d : Directory) (aTarget : Str), d.depth ≤ fuel →
    download re fuel d false [] aTarget aTargetType prio false false (some b)
      = some ⟨expectedAdds re b fuel (aTarget ++ d.name ++ [PATH_SEPARATOR]) d, none⟩
  | 0, d, _, h => by
    rw [Directory.depth_eq] at h
    omega
  | fuel + 1, d, aTarget, h => by
    have hch : ∀ c ∈ sortBy (fun a b => re.nameLess a.name b.name) d.directories.toList,
        download re fuel c false [] (aTarget ++ d.name ++ [PATH_SEPARATOR]) aTargetType prio
            false false (some b)
          = some ⟨expectedAdds re b fuel
              (aTarget ++ d.name ++ [PATH_SEPARATOR] ++ c.name ++ [PATH_SEPARATOR]) c, none⟩ := by
      intro c hc
      have hmem : c ∈ d.directories.toList := (sortBy_perm _ _).mem_iff.mp hc
      have hd := DirList.depth_of_mem _ c hmem
      rw [Directory.depth_eq] at h
      exact download_inner re aTargetType prio b hno fuel c _ (by omega)
    have heach := downloadEach_all _ _ _ hch
    simp only [download, Bool.false_and, Bool.false_eq_true, if_false, heach,
      downloadFiles_all re _ b hno, Option.isSome_some, if_true, expectedAdds]

end DirectoryListing

namespace DirectoryListing

theorem flatMap_congr_mem {α β : Type} (f g : α → List β) :
    ∀ l : List α, (∀ a ∈ l, f a = g a) → l.flatMap f = l.flatMap g
  | [], _ => rfl
  | a :: l, h => by
    rw [List.flatMap_cons, List.flatMap_cons, h a (List.mem_cons_self _ _),
      flatMap_congr_mem f g l (fun x hx => h x (List.mem_cons_of_mem _ hx))]

theorem expectedAdds_fuel (re : PlanEnv) (b : Bundle) :
    ∀ (f1 f2 : Nat) (d : Directory) (target : Str), d.depth ≤ f1 → d.depth ≤ f2 →
    expectedAdds re b f1 target d = expectedAdds re b f2 target d
  | 0, _, d, _, h, _ => by
    rw [Directory.depth_eq] at h
    omega
  | _ + 1, 0, d, _, _, h => by
    rw [Directory.depth_eq] at h
    omega
  | f1 + 1, f2 + 1, d, target, h1, h2 => by
    rw [Directory.depth_eq] at h1 h2
    simp only [expectedAdds]
    congr 1
    apply flatMap_congr_mem
    intro c hc
    have hmem : c ∈ d.directories.toList := (sortBy_perm _ _).mem_iff.mp hc
    have hd := DirList.depth_of_mem _ c hmem
    exact expectedAdds_fuel re b f1 f2 c _ (by omega) (by omega)

theorem Directory.filesWithPath_eq (d : Directory) :
    d.filesWithPath = d.directories.filesWithPath ++ d.files.map (fun f => (f.name, f)) := by
  cases d
  rfl

theorem DirList.filesWithPath_toList : ∀ ds : DirList,
    ds.filesWithPath = ds.toList.flatMap (fun c =>
      c.filesWithPath.map (fun p => (c.name ++ [PATH_SEPARATOR] ++ p.1, p.2)))
  | .nil => rfl
  | .cons d rest => by
    rw [DirList.filesWithPath, DirList.filesWithPath_toList rest, DirList.toList,
      List.flatMap_cons]

theorem expectedAdds_perm (re : PlanEnv) (b : Bundle) :
    ∀ (fuel : Nat) (d : Directory) (target : Str), d.depth ≤ fuel →
    (expectedAdds re b fuel target d).Perm
      (d.filesWithPath.map (fun p =>
        Submitted.add (target ++ p.1) p.2.size p.2.tthRoot re.DEFAULT b))
  | 0, d, _, h => by
    rw [Directory.depth_eq] at h
    omega
  | fuel + 1, d, target, h => by
    rw [Directory.depth_eq] at h
    rw [expectedAdds, Directory.filesWithPath_eq, List.map_append, List.map_map,
      DirList.filesWithPath_toList, List.map_flatMap]
    apply List.Perm.append
    · refine (List.Perm.flatMap_right _ (sortBy_perm _ _)).trans ?_
      apply List.Perm.flatMap_left
      intro c hc
      have hd := DirList.depth_of_mem _ c hc
      have ih := expectedAdds_perm re b fuel c (target ++ c.name ++ [PATH_SEPARATOR])
        (by omega)
      rw [List.map_map]
      refine ih.trans ?_
      apply List.Perm.of_eq
      apply List.map_congr_left
      intro p _
      simp only [Function.comp, List.append_assoc]
    · exact (sortBy_perm _ _).map _

theorem expectedAdds_no_bundle (re : PlanEnv) (b : Bundle) :
    ∀ (fuel : Nat) (d : Directory) (target : Str),
    (expectedAdds re b fuel target d).filter Submitted.isAddBundle = []
  | 0, _, _ => rfl
  | fuel + 1, d, target => by
    rw [List.filter_eq_nil_iff]
    intro e he
    simp only [expectedAdds, List.mem_append, List.mem_flatMap, List.mem_map] at he
    rcases he with ⟨c, _, hc⟩ | ⟨f, _, hf⟩
    · have := expectedAdds_no_bundle re b fuel c (target ++ c.name ++ [PATH_SEPARATOR])
      rw [List.filter_eq_nil_iff] at this
      exact this e hc
    · subst hf
      simp [Submitted.isAddBundle]

end DirectoryListing

namespace DirectoryListing

theorem download_owner (re : PlanEnv) (aTargetType prio : Nat)
    (hno : ∀ t sz tth p bb x, re.add t sz tth p bb ≠ .other x)
    (fuel : Nat) (d : Directory) (aTarget : Str) (h : d.depth ≤ fuel) :
    download re fuel d false [] aTarget aTargetType prio false false none
      = some ⟨expectedAdds re
            ⟨aTarget ++ d.name ++ [PATH_SEPARATOR], re.GET_TIME, prio, d.getDate⟩ d.depth
            (aTarget ++ d.name ++ [PATH_SEPARATOR]) d
          ++ [.addBundle ⟨aTarget ++ d.name ++ [PATH_SEPARATOR], re.GET_TIME, prio, d.getDate⟩],
        none⟩ := by
  rw [expectedAdds_fuel re _ d.depth fuel d _ (le_refl _) h]
  cases fuel with
  | zero =>
    rw [Directory.depth_eq] at h
    omega
  | succ fuel =>
    have hch : ∀ c ∈ sortBy (fun a b => re.nameLess a.name b.name) d.directories.toList,
        download re fuel c false [] (aTarget ++ d.name ++ [PATH_SEPARATOR]) aTargetType prio
            false false
            (some ⟨aTarget ++ d.name ++ [PATH_SEPARATOR], re.GET_TIME, prio, d.getDate⟩)
          = some ⟨expectedAdds re
              ⟨aTarget ++ d.name ++ [PATH_SEPARATOR], re.GET_TIME, prio, d.getDate⟩ fuel
              (aTarget ++ d.name ++ [PATH_SEPARATOR] ++ c.name ++ [PATH_SEPARATOR]) c,
              none⟩ := by
      intro c hc
      have hmem : c ∈ d.directories.toList := (sortBy_perm _ _).mem_iff.mp hc
      have hd := DirList.depth_of_mem _ c hmem
      rw [Directory.depth_eq] at h
      exact download_inner re aTargetType prio _ hno fuel c _ (by omega)
    have heach := downloadEach_all _ _ _ hch
    simp only [download, Bool.false_and, Bool.false_eq_true, if_false, heach,
      downloadFiles_all re _ _ hno, Option.isSome_none, if_true, expectedAdds]

theorem filter_bundles {α : Type} (E : α → List Submitted) (B : α → Bundle)
    (hE : ∀ c, (E c).filter Submitted.isAddBundle = []) :
    ∀ l : List α, (l.flatMap (fun c => E c ++ [.addBundle (B c)])).filter
        Submitted.isAddBundle = l.map (fun c => Submitted.addBundle (B c))
  | [] => rfl
  | c :: l => by
    rw [List.flatMap_cons, List.filter_append, List.filter_append, hE c,
      filter_bundles E B hE l]
    rfl

/-- C25: a first call of `download` without a bundle on a directory that has no
incomplete directory in its subtree and is not a release parent, with a queue that
throws nothing but `QueueException` and `FileException`, makes one bundle, targeted at
the formatted target. It calls `QueueManager::add` with that bundle once for every file
of the subtree, the target of the file being the bundle target followed by the path of
the file below the directory, whether or not earlier calls threw: the subdirectories in
the order of their names, each with its subtree, before the files of a directory in the
order of their names (where the order of names is one: no later element of a sorted
vector is less than an earlier one). Then it calls `addBundle`, once, as its last
call. -/
theorem download_single_bundle (re : PlanEnv) (fuel : Nat) (d : Directory) (isRoot : Bool)
    (path aTarget : Str) (aTargetType prio : Nat) (recursiveList : Bool)
    (hfuel : d.depth ≤ fuel)
    (hinc : d.findIncomplete = false)
    (hrel : ¬ (re.releaseMatch d.name = false ∧ d.files = []
      ∧ ∀ c ∈ d.directories.toList, re.releaseMatch c.name = true))
    (hno : ∀ t sz tth p bb x, re.add t sz tth p bb ≠ .other x) :
    download re fuel d isRoot path aTarget aTargetType prio recursiveList true none
      = some ⟨expectedAdds re
            ⟨formatTarget re d isRoot aTarget, re.GET_TIME, prio, d.getDate⟩ d.depth
            (formatTarget re d isRoot aTarget) d
          ++ [.addBundle ⟨formatTarget re d isRoot aTarget, re.GET_TIME, prio, d.getDate⟩],
        none⟩
    ∧ (expectedAdds re ⟨formatTarget re d isRoot aTarget, re.GET_TIME, prio, d.getDate⟩
          d.depth (formatTarget re d isRoot aTarget) d).Perm
        (d.filesWithPath.map (fun p =>
          Submitted.add (formatTarget re d isRoot aTarget ++ p.1) p.2.size p.2.tthRoot
            re.DEFAULT ⟨formatTarget re d isRoot aTarget, re.GET_TIME, prio, d.getDate⟩))
    ∧ (expectedAdds re ⟨formatTarget re d isRoot aTarget, re.GET_TIME, prio, d.getDate⟩
          d.depth (formatTarget re d isRoot aTarget) d).filter Submitted.isAddBundle = []
    ∧ ((∀ a b, re.nameLess a b = true → re.nameLess b a = false) →
        (∀ a b c, re.nameLess b a = false → re.nameLess c b = false →
          re.nameLess c a = false) →
        (sortBy (fun a b => re.nameLess a.name b.name) d.directories.toList).Pairwise
            (fun x y => re.nameLess y.name x.name = false)
          ∧ (sortBy (fun a b => re.nameLess a.name b.name) d.files).Pairwise
            (fun x y => re.nameLess y.name x.name = false)) := by
  refine ⟨?_, expectedAdds_perm re _ _ d _ (le_refl _), expectedAdds_no_bundle re _ _ d _,
    fun hasym htrans =>
      ⟨sortBy_pairwise (fun a b : Directory => re.nameLess a.name b.name)
          (fun a b => hasym a.name b.name) (fun a b c => htrans a.name b.name c.name) _,
        sortBy_pairwise (fun a b : File => re.nameLess a.name b.name)
          (fun a b => hasym a.name b.name) (fun a b c => htrans a.name b.name c.name) _⟩⟩
  rw [expectedAdds_fuel re _ d.depth fuel d _ (le_refl _) hfuel]
  cases fuel with
  | zero =>
    rw [Directory.depth_eq] at hfuel
    omega
  | succ fuel =>
    have hcond : (true && !re.releaseMatch d.name && d.files.isEmpty
        && decide (d.directories.toList.countP (fun d => re.releaseMatch d.name)
          = d.directories.toList.length)) = false := by
      rw [Bool.eq_false_iff]
      intro hc
      simp only [Bool.true_and, Bool.and_eq_true, Bool.not_eq_true', List.isEmpty_iff,
        decide_eq_true_eq, List.countP_eq_length] at hc
      exact hrel ⟨hc.1.1, hc.1.2, hc.2⟩
    have hch : ∀ c ∈ sortBy (fun a b => re.nameLess a.name b.name) d.directories.toList,
        download re fuel c false [] (formatTarget re d isRoot aTarget) aTargetType prio
            false false
            (some ⟨formatTarget re d isRoot aTarget, re.GET_TIME, prio, d.getDate⟩)
          = some ⟨expectedAdds re
              ⟨formatTarget re d isRoot aTarget, re.GET_TIME, prio, d.getDate⟩ fuel
              (formatTarget re d isRoot aTarget ++ c.name ++ [PATH_SEPARATOR]) c,
              none⟩ := by
      intro c hc
      have hmem : c ∈ d.directories.toList := (sortBy_perm _ _).mem_iff.mp hc
      have hd := DirList.depth_of_mem _ c hmem
      rw [Directory.depth_eq] at hfuel
      exact download_inner re aTargetType prio _ hno fuel c _ (by omega)
    have heach := downloadEach_all _ _ _ hch
    simp only [download, hinc, Bool.and_false, Bool.false_eq_true, if_false, if_true, hcond,
      heach, downloadFiles_all re _ _ hno, Option.isSome_none, expectedAdds]

/-- The directory `album` under the settings `exPlanEnv`, whose queue refuses
`bad.bin`: one bundle at `C:\dl\album\`, the file of `covers` first, then the three
files of `album` by name, `bad.bin` among them, then `addBundle`. -/
theorem download_single_bundle_witness :
    download exPlanEnv 5 exAlbum false (str "album\\") (str "C:\\dl\\") 0 4 false true none
      = some ⟨
          [.add (str "C:\\dl\\album\\covers\\front.jpg") 1 (str "front.jpg") 3
              ⟨str "C:\\dl\\album\\", 100, 4, 0⟩,
            .add (str "C:\\dl\\album\\a.mp3") 1 (str "a.mp3") 3
              ⟨str "C:\\dl\\album\\", 100, 4, 0⟩,
            .add (str "C:\\dl\\album\\bad.bin") 1 (str "bad.bin") 3
              ⟨str "C:\\dl\\album\\", 100, 4, 0⟩,
            .add (str "C:\\dl\\album\\z.mp3") 1 (str "z.mp3") 3
              ⟨str "C:\\dl\\album\\", 100, 4, 0⟩,
            .addBundle ⟨str "C:\\dl\\album\\", 100, 4, 0⟩],
          none⟩ := by
  have h := (download_single_bundle exPlanEnv 5 exAlbum false (str "album\\") (str "C:\\dl\\")
    0 4 false (by decide) (by rfl) (by
      intro hc
      exact absurd hc.2.1 (List.cons_ne_nil _ _)) (by
      intro t sz tth p bb x
      simp only [exPlanEnv]
      split <;> simp)).1
  rw [h]
  rfl

end DirectoryListing

namespace DirectoryListing

/-- C24: a first call of `download` without a bundle on a release parent (its name
does not match the release pattern, it has no files, every subdirectory matches) with
no incomplete directory in its subtree, with a queue that throws nothing but
`QueueException` and `FileException`, makes for every subdirectory `c`, in the order of
the vector, the calls of a download of `c` into a bundle of its own, targeted at the
formatted target followed by the name of `c` and the separator, and ends each with
`addBundle` for that bundle. The calls of `addBundle` are those, one for each
subdirectory: none for the parent. -/
theorem download_release_parent (re : PlanEnv) (fuel : Nat) (d : Directory) (isRoot : Bool)
    (path aTarget : Str) (aTargetType prio : Nat) (recursiveList : Bool)
    (hfuel : d.depth ≤ fuel)
    (hinc : d.findIncomplete = false)
    (hname : re.releaseMatch d.name = false) (hfiles : d.files = [])
    (hall : ∀ c ∈ d.directories.toList, re.releaseMatch c.name = true)
    (hno : ∀ t sz tth p bb x, re.add t sz tth p bb ≠ .other x) :
    ∃ calls : List Submitted,
      download re fuel d isRoot path aTarget aTargetType prio recursiveList true none
        = some ⟨calls, none⟩
      ∧ calls = d.directories.toList.flatMap (fun c =>
          expectedAdds re
              ⟨formatTarget re d isRoot aTarget ++ c.name ++ [PATH_SEPARATOR], re.GET_TIME,
                prio, c.getDate⟩ c.depth
              (formatTarget re d isRoot aTarget ++ c.name ++ [PATH_SEPARATOR]) c
            ++ [.addBundle ⟨formatTarget re d isRoot aTarget ++ c.name ++ [PATH_SEPARATOR],
                re.GET_TIME, prio, c.getDate⟩])
      ∧ calls.filter Submitted.isAddBundle = d.directories.toList.map (fun c =>
          Submitted.addBundle ⟨formatTarget re d isRoot aTarget ++ c.name ++ [PATH_SEPARATOR],
            re.GET_TIME, prio, c.getDate⟩)
      ∧ (calls.filter Submitted.isAddBundle).length = d.directories.toList.length := by
  refine ⟨_, ?_, rfl, ?_, ?_⟩
  · cases fuel with
    | zero =>
      rw [Directory.depth_eq] at hfuel
      omega
    | succ fuel =>
      have hcond : (true && !re.releaseMatch d.name && d.files.isEmpty
          && decide (d.directories.toList.countP (fun d => re.releaseMatch d.name)
            = d.directories.toList.length)) = true := by
        simp only [Bool.true_and, Bool.and_eq_true, Bool.not_eq_true', List.isEmpty_iff,
          decide_eq_true_eq, List.countP_eq_length]
        exact ⟨⟨hname, hfiles⟩, hall⟩
      have hch : ∀ c ∈ d.directories.toList,
          download re fuel c false [] (formatTarget re d isRoot aTarget) aTargetType prio
              false false none
            = some ⟨expectedAdds re
                  ⟨formatTarget re d isRoot aTarget ++ c.name ++ [PATH_SEPARATOR],
                    re.GET_TIME, prio, c.getDate⟩ c.depth
                  (formatTarget re d isRoot aTarget ++ c.name ++ [PATH_SEPARATOR]) c
                ++ [.addBundle
                    ⟨formatTarget re d isRoot aTarget ++ c.name ++ [PATH_SEPARATOR],
                      re.GET_TIME, prio, c.getDate⟩],
                none⟩ := by
        intro c hc
        have hd := DirList.depth_of_mem _ c hc
        rw [Directory.depth_eq] at hfuel
        exact download_owner re aTargetType prio hno fuel c _ (by omega)
      have heach := downloadEach_all _ _ _ hch
      simp only [download, hinc, Bool.and_false, Bool.false_eq_true, if_false, if_true, hcond,
        heach]
  · exact filter_bundles
      (fun c : Directory => expectedAdds re
        ⟨formatTarget re d isRoot aTarget ++ c.name ++ [PATH_SEPARATOR], re.GET_TIME, prio,
          c.getDate⟩ c.depth
        (formatTarget re d isRoot aTarget ++ c.name ++ [PATH_SEPARATOR]) c)
      (fun c : Directory =>
        ⟨formatTarget re d isRoot aTarget ++ c.name ++ [PATH_SEPARATOR], re.GET_TIME, prio,
          c.getDate⟩)
      (fun c => expectedAdds_no_bundle re _ _ c _) d.directories.toList
  · rw [filter_bundles
      (fun c : Directory => expectedAdds re
        ⟨formatTarget re d isRoot aTarget ++ c.name ++ [PATH_SEPARATOR], re.GET_TIME, prio,
          c.getDate⟩ c.depth
        (formatTarget re d isRoot aTarget ++ c.name ++ [PATH_SEPARATOR]) c)
      (fun c : Directory =>
        ⟨formatTarget re d isRoot aTarget ++ c.name ++ [PATH_SEPARATOR], re.GET_TIME, prio,
          c.getDate⟩)
      (fun c => expectedAdds_no_bundle re _ _ c _) d.directories.toList, List.length_map]

/-- The root with the release directories `beta.release.720p` and
`alpha.release.1080p`: two bundles, one for each, in the order of the vector. -/
theorem download_release_parent_witness :
    download exPlanEnv 5 exReleases true [] (str "C:\\dl\\") 0 4 false true none
      = some ⟨
          [.add (str "C:\\dl\\beta.release.720p\\b.mkv") 1 (str "b.mkv") 3
              ⟨str "C:\\dl\\beta.release.720p\\", 100, 4, 0⟩,
            .addBundle ⟨str "C:\\dl\\beta.release.720p\\", 100, 4, 0⟩,
            .add (str "C:\\dl\\alpha.release.1080p\\a.mkv") 1 (str "a.mkv") 3
              ⟨str "C:\\dl\\alpha.release.1080p\\", 100, 4, 0⟩,
            .addBundle ⟨str "C:\\dl\\alpha.release.1080p\\", 100, 4, 0⟩],
          none⟩ := by
  obtain ⟨calls, hcalls, heq, _, _⟩ :=
    download_release_parent exPlanEnv 5 exReleases true [] (str "C:\\dl\\") 0 4 false
      (by decide) (by rfl) (by rfl) (by rfl)
      (by
        intro c hc
        simp only [exReleases, exDir, Directory.directories, DirList.toList, List.mem_cons,
          List.mem_singleton, List.not_mem_nil, or_false] at hc
        rcases hc with rfl | rfl <;> rfl)
      (by
        intro t sz tth p bb x
        simp only [exPlanEnv]
        split <;> simp)
  rw [hcalls, heq]
  rfl

end DirectoryListing

/-! ### The sizes of the directories -/

theorem DirList.sget_modify (g : Directory → Directory) : ∀ (ds : DirList) (k j : Nat),
    (ds.modify g k).get? j = if j = k then (ds.get? j).map g else ds.get? j
  | .nil, _, _ => by simp [DirList.modify, DirList.get?]
  | .cons d rest, 0, 0 => by simp [DirList.modify, DirList.get?]
  | .cons d rest, 0, j + 1 => by simp [DirList.modify, DirList.get?]
  | .cons d rest, k + 1, 0 => by simp [DirList.modify, DirList.get?]
  | .cons d rest, k + 1, j + 1 => by
    simp only [DirList.modify, DirList.get?, DirList.sget_modify g rest k j,
      Nat.add_right_cancel_iff]

theorem DirList.smodify_comp (g h : Directory → Directory) : ∀ (ds : DirList) (k : Nat),
    (ds.modify g k).modify h k = ds.modify (fun x => h (g x)) k
  | .nil, _ => rfl
  | .cons d rest, 0 => rfl
  | .cons d rest, k + 1 => by
    simp only [DirList.modify, DirList.smodify_comp g h rest k]

theorem DirList.smodify_pointed (g h : Directory → Directory) : ∀ (ds : DirList) (k : Nat),
    (∀ x, ds.get? k = some x → g x = h x) → ds.modify g k = ds.modify h k
  | .nil, _, _ => rfl
  | .cons d rest, 0, hx => by
    simp only [DirList.modify, hx d rfl]
  | .cons d rest, k + 1, hx => by
    simp only [DirList.modify, DirList.smodify_pointed g h rest k (fun x hk => hx x hk)]

theorem DirList.smodify_same : ∀ (ds : DirList) (k : Nat), ds.modify (fun x => x) k = ds
  | .nil, _ => rfl
  | .cons d rest, 0 => rfl
  | .cons d rest, k + 1 => by simp only [DirList.modify, DirList.smodify_same rest k]

theorem Directory.sdirectories_set (d : Directory) (ds : DirList) :
    (d.setDirectories ds).directories = ds := by
  cases d
  rfl

theorem Directory.sset_directories (d : Directory) : d.setDirectories d.directories = d := by
  cases d
  rfl

theorem Directory.sset_set (d : Directory) (ds es : DirList) :
    (d.setDirectories ds).setDirectories es = d.setDirectories es := by
  cases d
  rfl

theorem Directory.sgetAt_append : ∀ (p q : List Nat) (t : Directory),
    Directory.getAt (p ++ q) t = (Directory.getAt p t).bind (Directory.getAt q)
  | [], q, t => rfl
  | i :: p, q, t => by
    simp only [List.cons_append, Directory.getAt]
    cases t.directories.get? i with
    | none => rfl
    | some c => exact Directory.sgetAt_append p q c

theorem Directory.smodifyAt_comp (g h : Directory → Directory) : ∀ (p : List Nat) (t : Directory),
    Directory.modifyAt h p (Directory.modifyAt g p t)
      = Directory.modifyAt (fun x => h (g x)) p t
  | [], t => rfl
  | i :: p, t => by
    simp only [Directory.modifyAt, Directory.sdirectories_set, Directory.sset_set,
      DirList.smodify_comp]
    congr 1
    apply DirList.smodify_pointed
    intro x _
    exact Directory.smodifyAt_comp g h p x

theorem Directory.smodifyAt_pointed (g h : Directory → Directory) :
    ∀ (p : List Nat) (t : Directory),
    (∀ x, Directory.getAt p t = some x → g x = h x) →
    Directory.modifyAt g p t = Directory.modifyAt h p t
  | [], t, hx => hx t rfl
  | i :: p, t, hx => by
    simp only [Directory.modifyAt]
    congr 1
    apply DirList.smodify_pointed
    intro c hc
    apply Directory.smodifyAt_pointed g h p c
    intro x hxc
    apply hx
    simp only [Directory.getAt, hc, hxc]

theorem Directory.smodifyAt_same : ∀ (p : List Nat) (t : Directory),
    Directory.modifyAt (fun x => x) p t = t
  | [], t => rfl
  | i :: p, t => by
    simp only [Directory.modifyAt]
    have h : t.directories.modify (Directory.modifyAt (fun x => x) p) i
        = t.directories.modify (fun x => x) i :=
      DirList.smodify_pointed _ _ _ _ (fun x _ => Directory.smodifyAt_same p x)
    rw [h, DirList.smodify_same, Directory.sset_directories]

theorem Directory.smodifyAt_append (g : Directory → Directory) :
    ∀ (p q : List Nat) (t : Directory),
    Directory.modifyAt g (p ++ q) t = Directory.modifyAt (Directory.modifyAt g q) p t
  | [], q, t => rfl
  | i :: p, q, t => by
    simp only [List.cons_append, Directory.modifyAt]
    congr 1
    apply DirList.smodify_pointed
    intro x _
    exact Directory.smodifyAt_append g p q x

theorem Directory.sgetAt_modifyAt (g : Directory → Directory) :
    ∀ (p : List Nat) (t x : Directory), Directory.getAt p t = some x →
    Directory.getAt p (Directory.modifyAt g p t) = some (g x)
  | [], t, x, h => by
    simp only [Directory.getAt, Option.some.injEq] at h
    subst h
    rfl
  | i :: p, t, x, h => by
    simp only [Directory.getAt] at h
    simp only [Directory.modifyAt, Directory.getAt, Directory.sdirectories_set,
      DirList.sget_modify, if_true]
    cases hc : t.directories.get? i with
    | none => simp [hc] at h
    | some c =>
      simp only [hc] at h
      simp only [Option.map_some']
      exact Directory.sgetAt_modifyAt g p c x h

namespace ShareManager

theorem upd_comp (ts : List Directory) (a : Addr) (g h : Directory → Directory) :
    upd (upd ts a g) a h = upd ts a (fun x => h (g x)) := by
  simp only [upd, List.modify_modify_eq]
  congr 1
  funext t
  exact Directory.smodifyAt_comp g h a.pos t

theorem modify_pointed {α : Type} (f g : α → α) : ∀ (n : Nat) (l : List α),
    (∀ x, l.get? n = some x → f x = g x) → l.modify f n = l.modify g n
  | 0, [], _ => rfl
  | _ + 1, [], _ => rfl
  | 0, a :: l, h => by
    have := h a rfl
    simp [List.modify, this]
  | n + 1, a :: l, h => by
    have ih := modify_pointed f g n l (fun x hx => h x (by simpa using hx))
    simp only [List.modify, List.modifyTailIdx] at ih ⊢
    rw [ih]

theorem upd_pointed (ts : List Directory) (a : Addr) (g h : Directory → Directory)
    (hx : ∀ x, nodeAt ts a = some x → g x = h x) : upd ts a g = upd ts a h := by
  apply modify_pointed
  intro t ht
  apply Directory.smodifyAt_pointed
  intro x hxt
  apply hx
  simp only [nodeAt, ht, hxt]

theorem upd_same (ts : List Directory) (a : Addr) : upd ts a (fun x => x) = ts := by
  have h : Directory.modifyAt (fun x => x) a.pos = id := by
    funext t
    exact Directory.smodifyAt_same a.pos t
  simp only [upd, h, List.modify_id]

theorem nodeAt_upd (ts : List Directory) (a : Addr) (g : Directory → Directory)
    (x : Directory) (h : nodeAt ts a = some x) : nodeAt (upd ts a g) a = some (g x) := by
  simp only [nodeAt, upd, List.get?_eq_getElem?, List.getElem?_modify_eq] at h ⊢
  cases ht : ts[a.tree]? with
  | none => simp [ht] at h
  | some t =>
    simp only [ht] at h
    exact Directory.sgetAt_modifyAt g a.pos t x h

theorem upd_child (ts : List Directory) (tree : Nat) (p : List Nat) (i : Nat)
    (g : Directory → Directory) :
    upd ts ⟨tree, p ++ [i]⟩ g
      = upd ts ⟨tree, p⟩ (fun x => x.setDirectories (x.directories.modify g i)) := by
  simp only [upd]
  congr 1
  funext t
  rw [Directory.smodifyAt_append]
  rfl

theorem nodeAt_child (ts : List Directory) (tree : Nat) (p : List Nat) (i : Nat) :
    nodeAt ts ⟨tree, p ++ [i]⟩
      = (nodeAt ts ⟨tree, p⟩).bind (fun x => x.directories.get? i) := by
  simp only [nodeAt]
  cases ts.get? tree with
  | none => rfl
  | some t =>
    simp only [Directory.sgetAt_append]
    cases Directory.getAt p t with
    | none => rfl
    | some x =>
      show (match x.directories.get? i with
        | some c => Directory.getAt [] c
        | none => none) = x.directories.get? i
      cases x.directories.get? i <;> rfl

end ShareManager

theorem Directory.relabel_files (h : Int → Nat → List File → Int × Nat) (d : Directory) :
    (d.relabel h).files = d.files := by
  cases d
  rfl

theorem Directory.relabel_directories (h : Int → Nat → List File → Int × Nat)
    (d : Directory) : (d.relabel h).directories = d.directories.relabel h := by
  cases d
  rfl

theorem Directory.relabel_size (h : Int → Nat → List File → Int × Nat) (d : Directory) :
    (d.relabel h).size = (h d.size d.fileTypes d.files).1 := by
  cases d
  rfl

theorem Directory.relabel_setDirectories (h : Int → Nat → List File → Int × Nat)
    (d : Directory) (ds : DirList) :
    (d.setDirectories ds).relabel h = (d.relabel h).setDirectories (ds.relabel h) := by
  cases d
  rfl

theorem DirList.get?_relabel (h : Int → Nat → List File → Int × Nat) :
    ∀ (ds : DirList) (i : Nat), (ds.relabel h).get? i = (ds.get? i).map (Directory.relabel h)
  | .nil, _ => rfl
  | .cons d rest, 0 => rfl
  | .cons d rest, i + 1 => by
    simp only [DirList.relabel, DirList.get?, DirList.get?_relabel h rest i]

theorem Directory.getAt_relabel (h : Int → Nat → List File → Int × Nat) :
    ∀ (p : List Nat) (t : Directory),
    Directory.getAt p (t.relabel h) = (Directory.getAt p t).map (Directory.relabel h)
  | [], t => rfl
  | i :: p, t => by
    simp only [Directory.getAt, Directory.relabel_directories, DirList.get?_relabel]
    cases t.directories.get? i with
    | none => rfl
    | some c => exact Directory.getAt_relabel h p c

theorem DirList.relabel_modify (h : Int → Nat → List File → Int × Nat)
    (g g1 : Directory → Directory) :
    ∀ (ds : DirList) (k : Nat),
    (∀ x, ds.get? k = some x → (g x).relabel h = g1 (x.relabel h)) →
    (ds.modify g k).relabel h = (ds.relabel h).modify g1 k
  | .nil, _, _ => rfl
  | .cons d rest, 0, hx => by
    simp only [DirList.modify, DirList.relabel, hx d rfl]
  | .cons d rest, k + 1, hx => by
    simp only [DirList.modify, DirList.relabel,
      DirList.relabel_modify h g g1 rest k (fun x hk => hx x hk)]

theorem Directory.relabel_modifyAt (h : Int → Nat → List File → Int × Nat)
    (g g1 : Directory → Directory) (hg : ∀ x, (g x).relabel h = g1 (x.relabel h)) :
    ∀ (p : List Nat) (t : Directory),
    (Directory.modifyAt g p t).relabel h = Directory.modifyAt g1 p (t.relabel h)
  | [], t => hg t
  | i :: p, t => by
    simp only [Directory.modifyAt, Directory.relabel_setDirectories,
      Directory.relabel_directories]
    congr 1
    apply DirList.relabel_modify
    intro x _
    exact Directory.relabel_modifyAt h g g1 hg p x

mutual
theorem Directory.relabel_relabel (h1 h2 : Int → Nat → List File → Int × Nat) :
    ∀ d : Directory, (d.relabel h2).relabel h1
      = d.relabel (fun sz ft fs => h1 (h2 sz ft fs).1 (h2 sz ft fs).2 fs)
  | .mk n pd ft sz lw fs ds => by
    simp only [Directory.relabel, DirList.relabel_twice h1 h2 ds]
theorem DirList.relabel_twice (h1 h2 : Int → Nat → List File → Int × Nat) :
    ∀ ds : DirList, (ds.relabel h2).relabel h1
      = ds.relabel (fun sz ft fs => h1 (h2 sz ft fs).1 (h2 sz ft fs).2 fs)
  | .nil => rfl
  | .cons d rest => by
    simp only [DirList.relabel, Directory.relabel_relabel h1 h2 d,
      DirList.relabel_twice h1 h2 rest]
end

theorem Directory.noTypes_setFileTypes (d : Directory) (ft : Nat) :
    (d.setFileTypes ft).noTypes = d.noTypes := by
  cases d
  rfl

theorem Directory.noTypes_addTypeAt (type : Nat) : ∀ (p : List Nat) (t : Directory),
    (Directory.addTypeAt type p t).1.noTypes = t.noTypes
  | [], t => by
    simp only [Directory.addTypeAt]
    split
    · exact Directory.noTypes_setFileTypes _ _
    · rfl
  | i :: p, t => by
    simp only [Directory.addTypeAt]
    cases hc : t.directories.get? i with
    | none => rfl
    | some c =>
      have ih := Directory.noTypes_addTypeAt type p c
      have hd : (t.setDirectories
          (t.directories.modify (fun _ => (Directory.addTypeAt type p c).1) i)).noTypes
          = t.noTypes := by
        simp only [Directory.noTypes] at ih ⊢
        rw [Directory.relabel_setDirectories,
          DirList.relabel_modify _ _ (fun x => x) t.directories i
            (fun x hx => by
              rw [hc] at hx
              simp only [Option.some.injEq] at hx
              subst hx
              exact ih),
          DirList.smodify_same, ← Directory.relabel_directories, Directory.sset_directories]
      simp only
      split
      · split
        · rw [Directory.noTypes_setFileTypes]; exact hd
        · exact hd
      · exact hd

mutual
theorem Directory.sizesOk_relabel (h : Int → Nat → List File → Int × Nat)
    (hs : ∀ sz ft fs, (h sz ft fs).1 = sz) :
    ∀ d : Directory, (d.relabel h).sizesOk = d.sizesOk
  | .mk n pd ft sz lw fs ds => by
    simp only [Directory.relabel, Directory.sizesOk, hs, DirList.sizesOk_relabel_all h hs ds]
theorem DirList.sizesOk_relabel_all (h : Int → Nat → List File → Int × Nat)
    (hs : ∀ sz ft fs, (h sz ft fs).1 = sz) :
    ∀ ds : DirList, (ds.relabel h).sizesOk = ds.sizesOk
  | .nil => rfl
  | .cons d rest => by
    simp only [DirList.relabel, DirList.sizesOk, Directory.sizesOk_relabel h hs d,
      DirList.sizesOk_relabel_all h hs rest]
end

mutual
theorem Directory.sizesOk_recount : ∀ d : Directory, d.recount.sizesOk = true
  | .mk n pd ft sz lw fs ds => by
    have := DirList.sizesOk_recount_all ds
    simp only [Directory.recount, Directory.relabel, Directory.sizesOk, decide_True,
      Bool.true_and]
    exact this
theorem DirList.sizesOk_recount_all : ∀ ds : DirList,
    (ds.relabel (fun _ ft fs => ((fs.map (fun f => f.size)).sum, ft))).sizesOk = true
  | .nil => rfl
  | .cons d rest => by
    have h1 := Directory.sizesOk_recount d
    have h2 := DirList.sizesOk_recount_all rest
    simp only [Directory.recount] at h1
    simp only [DirList.relabel, DirList.sizesOk, h1, h2, Bool.and_self]
end

theorem Directory.sizesOk_eq (d : Directory) :
    d.sizesOk = (decide (d.size = (d.files.map (fun f => f.size)).sum)
      && d.directories.sizesOk) := by
  cases d
  rfl

theorem Directory.sizesOk_setDirectories (d : Directory) (ds : DirList) :
    (d.setDirectories ds).sizesOk = (decide (d.size = (d.files.map (fun f => f.size)).sum)
      && ds.sizesOk) := by
  cases d
  rfl

theorem DirList.sizesOk_get : ∀ (ds : DirList) (i : Nat) (c : Directory),
    ds.sizesOk = true → ds.get? i = some c → c.sizesOk = true
  | .nil, _, _, _, h => by simp [DirList.get?] at h
  | .cons d rest, 0, c, hs, h => by
    simp only [DirList.get?, Option.some.injEq] at h
    subst h
    simp only [DirList.sizesOk, Bool.and_eq_true] at hs
    exact hs.1
  | .cons d rest, i + 1, c, hs, h => by
    simp only [DirList.sizesOk, Bool.and_eq_true] at hs
    exact DirList.sizesOk_get rest i c hs.2 h

theorem DirList.sizesOk_modify (g : Directory → Directory) : ∀ (ds : DirList) (j : Nat),
    ds.sizesOk = true → (∀ c, ds.get? j = some c → (g c).sizesOk = true) →
    (ds.modify g j).sizesOk = true
  | .nil, _, _, _ => rfl
  | .cons d rest, 0, hs, hg => by
    simp only [DirList.sizesOk, Bool.and_eq_true] at hs
    simp only [DirList.modify, DirList.sizesOk, hg d rfl, hs.2, Bool.and_self]
  | .cons d rest, j + 1, hs, hg => by
    simp only [DirList.sizesOk, Bool.and_eq_true] at hs
    simp only [DirList.modify, DirList.sizesOk, hs.1,
      DirList.sizesOk_modify g rest j hs.2 (fun c hc => hg c hc), Bool.and_self]

theorem Directory.sizesOk_getAt : ∀ (q : List Nat) (t y : Directory),
    t.sizesOk = true → Directory.getAt q t = some y → y.sizesOk = true
  | [], t, y, hs, h => by
    simp only [Directory.getAt, Option.some.injEq] at h
    subst h
    exact hs
  | i :: q, t, y, hs, h => by
    simp only [Directory.getAt] at h
    cases hc : t.directories.get? i with
    | none => simp [hc] at h
    | some c =>
      simp only [hc] at h
      rw [Directory.sizesOk_eq, Bool.and_eq_true] at hs
      exact Directory.sizesOk_getAt q c y (DirList.sizesOk_get _ i c hs.2 hc) h

theorem Directory.keepsSizes_modifyAt (g : Directory → Directory) (hg : Directory.keepsSizes g) :
    ∀ p : List Nat, Directory.keepsSizes (Directory.modifyAt g p)
  | [] => hg
  | j :: p => by
    have ih := Directory.keepsSizes_modifyAt g hg p
    intro t q hq y hy
    cases q with
    | nil =>
      simp only [Directory.getAt, Option.some.injEq] at hy
      subst hy
      have ht : t.sizesOk = true := hq t rfl
      rw [Directory.sizesOk_eq, Bool.and_eq_true] at ht
      simp only [Directory.modifyAt]
      rw [Directory.sizesOk_setDirectories, Bool.and_eq_true]
      refine ⟨ht.1, DirList.sizesOk_modify _ _ _ ht.2 ?_⟩
      intro c hc
      exact ih c [] (fun z hz => by
        simp only [Directory.getAt, Option.some.injEq] at hz
        subst hz
        exact DirList.sizesOk_get _ j c ht.2 hc) _ rfl
    | cons k q =>
      simp only [Directory.modifyAt, Directory.getAt, Directory.sdirectories_set,
        DirList.sget_modify] at hy
      by_cases hkj : k = j
      · subst hkj
        simp only [if_true] at hy
        cases hc : t.directories.get? k with
        | none => simp [hc] at hy
        | some c =>
          simp only [hc, Option.map_some'] at hy
          exact ih c q (fun z hz => hq z (by simp only [Directory.getAt, hc, hz])) y hy
      · simp only [hkj, if_false] at hy
        exact hq y (by simpa only [Directory.getAt] using hy)

theorem Directory.keepsSizes_recount (g : Directory → Directory) :
    Directory.keepsSizes (fun x => (g x).recount) := by
  intro x q _ y hy
  simp only [Directory.recount, Directory.getAt_relabel] at hy
  cases hz : Directory.getAt q (g x) with
  | none => simp [hz] at hy
  | some z =>
    simp only [hz, Option.map_some', Option.some.injEq] at hy
    subst hy
    exact Directory.sizesOk_recount z

namespace ShareManager

theorem okAtAddr_upd (ts : List Directory) (a b : Addr) (g : Directory → Directory)
    (hg : Directory.keepsSizes g) (h : okAtAddr ts b) : okAtAddr (upd ts a g) b := by
  intro y hy
  simp only [nodeAt, upd, List.get?_eq_getElem?, List.getElem?_modify] at hy
  by_cases hab : a.tree = b.tree
  · simp only [hab, if_true] at hy
    cases ht : ts[b.tree]? with
    | none => simp [ht] at hy
    | some t =>
      simp only [ht, Option.map_some'] at hy
      exact Directory.keepsSizes_modifyAt g hg a.pos t b.pos
        (fun z hz => h z (by simp only [nodeAt, List.get?_eq_getElem?, ht, hz])) y hy
  · simp only [hab, if_false, id_map'] at hy
    exact h y (by simpa only [nodeAt, List.get?_eq_getElem?] using hy)

theorem nodeAt_map_relabel (hh : Int → Nat → List File → Int × Nat) (ts : List Directory)
    (b : Addr) :
    nodeAt (ts.map (Directory.relabel hh)) b = (nodeAt ts b).map (Directory.relabel hh) := by
  simp only [nodeAt, List.get?_eq_getElem?, List.getElem?_map]
  cases ts[b.tree]? with
  | none => rfl
  | some t => exact Directory.getAt_relabel hh b.pos t

theorem okAtAddr_noTypes (ts : List Directory) (b : Addr) :
    okAtAddr (ts.map Directory.noTypes) b ↔ okAtAddr ts b := by
  have hmap : ts.map Directory.noTypes = ts.map (Directory.relabel (fun sz _ _ => (sz, 0))) := rfl
  constructor
  · intro h y hy
    have := h y.noTypes (by rw [hmap, nodeAt_map_relabel, hy]; rfl)
    rwa [Directory.noTypes, Directory.sizesOk_relabel _ (fun _ _ _ => rfl)] at this
  · intro h y hy
    rw [hmap, nodeAt_map_relabel] at hy
    cases hz : nodeAt ts b with
    | none => simp [hz] at hy
    | some z =>
      simp only [hz, Option.map_some', Option.some.injEq] at hy
      subst hy
      rw [Directory.sizesOk_relabel _ (fun _ _ _ => rfl)]
      exact h z hz

end ShareManager

namespace ShareManager

theorem map_modify_comm {α β : Type} (F : α → β) (f : α → α) (f1 : β → β)
    (h : ∀ x, F (f x) = f1 (F x)) : ∀ (n : Nat) (l : List α),
    (l.modify f n).map F = (l.map F).modify f1 n
  | 0, [] => rfl
  | _ + 1, [] => rfl
  | 0, a :: l => by simp [List.modify, h]
  | n + 1, a :: l => by
    have ih := map_modify_comm F f f1 h n l
    simp only [List.modify, List.modifyTailIdx, List.map_cons] at ih ⊢
    rw [ih]

theorem noTypes_modifyDir (m : Manager) (a : Addr) (g g1 : Directory → Directory)
    (hg : ∀ x : Directory, (g x).noTypes = g1 x.noTypes) :
    (m.modifyDir a g).trees.map Directory.noTypes
      = upd (m.trees.map Directory.noTypes) a g1 := by
  simp only [Manager.modifyDir, upd]
  apply map_modify_comm
  intro t
  exact Directory.relabel_modifyAt _ g g1 hg a.pos t

theorem noTypes_addType (m : Manager) (a : Addr) (type : Nat) :
    (m.addType a type).trees.map Directory.noTypes = m.trees.map Directory.noTypes := by
  simp only [Manager.addType]
  rw [map_modify_comm Directory.noTypes _ id
    (fun t => Directory.noTypes_addTypeAt type a.pos t), List.modify_id]

theorem getDir_noTypes (m : Manager) (a : Addr) :
    nodeAt (m.trees.map Directory.noTypes) a = (m.getDir a).map Directory.noTypes := by
  have hmap : m.trees.map Directory.noTypes
      = m.trees.map (Directory.relabel (fun sz _ _ => (sz, 0))) := rfl
  rw [hmap, nodeAt_map_relabel]
  rfl

theorem getFile_noTypes (m : Manager) (i : FileAddr) :
    m.getFile i = (nodeAt (m.trees.map Directory.noTypes) i.dir).bind
      (fun d => d.files.find? (fun x => x.name = i.name)) := by
  rw [getDir_noTypes]
  simp only [Manager.getFile]
  cases m.getDir i.dir with
  | none => rfl
  | some d =>
    show d.files.find? (fun x => x.name = i.name)
      = d.noTypes.files.find? (fun x => x.name = i.name)
    rw [Directory.noTypes, Directory.relabel_files]

theorem Directory.noTypes_setSize (d : Directory) (s : Int) :
    (d.setSize s).noTypes = d.noTypes.setSize s := by
  cases d
  rfl

theorem Directory.noTypes_size (d : Directory) : d.noTypes.size = d.size := by
  cases d
  rfl

theorem noTypes_updateIndicesFile (env : ShareEnv) (m : Manager) (i : FileAddr) (f : File)
    (hf : m.getFile i = some f) :
    (m.updateIndicesFile env i).trees.map Directory.noTypes
      = upd (m.trees.map Directory.noTypes) i.dir (fun d => d.setSize (d.size + f.size)) := by
  simp only [Manager.updateIndicesFile, hf]
  have h1 : ∀ (mm : Manager) (ty : Nat),
      ({ mm.addType i.dir ty with
          tthIndex := (mm.addType i.dir ty).tthIndex ++ [i],
          bloom := env.bloomAdd (mm.addType i.dir ty).bloom (Text.toLower f.name) } : Manager).trees
        = (mm.addType i.dir ty).trees := fun _ _ => rfl
  rw [h1, noTypes_addType]
  exact noTypes_modifyDir m i.dir _ _ (fun x => by
    rw [Directory.noTypes_setSize, Directory.noTypes_size])

theorem find_of_nodup : ∀ (fs : List File) (f : File),
    (fs.map (fun x => x.name)).Nodup → f ∈ fs →
    fs.find? (fun x => x.name = f.name) = some f
  | [], f, _, h => by simp at h
  | g :: rest, f, hn, h => by
    simp only [List.map_cons, List.nodup_cons, List.mem_map, not_exists, not_and] at hn
    rcases List.mem_cons.mp h with rfl | h
    · simp [List.find?_cons]
    · have hne : ¬ (g.name = f.name) := fun he => hn.1 f h he.symm
      simp only [List.find?_cons, hne, decide_False]
      exact find_of_nodup rest f hn.2 h

theorem Directory.setSize_files (d : Directory) (s : Int) : (d.setSize s).files = d.files := by
  cases d
  rfl

theorem Directory.setSize_add (d : Directory) (a b : Int) :
    (d.setSize (d.size + a)).setSize ((d.setSize (d.size + a)).size + b)
      = d.setSize (d.size + (a + b)) := by
  cases d
  simp [Directory.setSize, Directory.size, add_assoc]

theorem Directory.setSize_zero (d : Directory) : d.setSize (d.size + 0) = d := by
  cases d
  simp [Directory.setSize, Directory.size]

theorem noTypes_fold_files (env : ShareEnv) (a : Addr) : ∀ (l : List File) (m : Manager)
    (y : Directory), nodeAt (m.trees.map Directory.noTypes) a = some y →
    (∀ f ∈ l, y.files.find? (fun x => x.name = f.name) = some f) →
    (l.foldl (fun acc f => acc.updateIndicesFile env ⟨a, f.name⟩) m).trees.map Directory.noTypes
      = upd (m.trees.map Directory.noTypes) a
          (fun d => d.setSize (d.size + (l.map (fun f => f.size)).sum))
  | [], m, y, _, _ => by
    simp only [List.foldl_nil, List.map_nil, List.sum_nil]
    rw [upd_pointed _ a _ (fun x => x) (fun x _ => Directory.setSize_zero x), upd_same]
  | f :: l, m, y, hy, hfind => by
    have hget : m.getFile ⟨a, f.name⟩ = some f := by
      rw [getFile_noTypes]
      simp only [hy, Option.bind_some]
      exact hfind f (List.mem_cons_self _ _)
    have hstep := noTypes_updateIndicesFile env m ⟨a, f.name⟩ f hget
    simp only at hstep
    have hy1 : nodeAt ((m.updateIndicesFile env ⟨a, f.name⟩).trees.map Directory.noTypes) a
        = some (y.setSize (y.size + f.size)) := by
      rw [hstep]
      exact nodeAt_upd _ a _ y hy
    have ih := noTypes_fold_files env a l (m.updateIndicesFile env ⟨a, f.name⟩) _ hy1
      (fun g hg => by
        rw [Directory.setSize_files]
        exact hfind g (List.mem_cons_of_mem _ hg))
    rw [List.foldl_cons, ih, hstep, upd_comp, List.map_cons, List.sum_cons]
    apply upd_pointed
    intro x _
    exact Directory.setSize_add x _ _

end ShareManager

theorem DirList.drop_cons_info : ∀ (i : Nat) (xs : DirList) (c : Directory) (rest : DirList),
    xs.drop i = .cons c rest → xs.get? i = some c ∧ xs.drop (i + 1) = rest
  | 0, .nil, _, _, h => by simp [DirList.drop] at h
  | 0, .cons d more, c, rest, h => by
    simp only [DirList.drop, DirList.cons.injEq] at h
    obtain ⟨rfl, rfl⟩ := h
    exact ⟨rfl, rfl⟩
  | i + 1, .nil, _, _, h => by simp [DirList.drop] at h
  | i + 1, .cons d more, c, rest, h => by
    simp only [DirList.drop] at h
    have := DirList.drop_cons_info i more c rest h
    exact ⟨this.1, this.2⟩

theorem DirList.drop_modify (g : Directory → Directory) : ∀ (i : Nat) (xs : DirList),
    (xs.modify g i).drop (i + 1) = xs.drop (i + 1)
  | 0, .nil => rfl
  | 0, .cons d more => rfl
  | i + 1, .nil => rfl
  | i + 1, .cons d more => by
    simp only [DirList.modify, DirList.drop]
    exact DirList.drop_modify g i more

theorem DirList.recountFrom_of_drop : ∀ (i : Nat) (xs : DirList),
    xs.drop i = .nil → xs.recountFrom i = xs
  | 0, xs, h => by
    simp only [DirList.drop] at h
    subst h
    rfl
  | i + 1, .nil, _ => rfl
  | i + 1, .cons d more, h => by
    simp only [DirList.drop] at h
    simp only [DirList.recountFrom, DirList.recountFrom_of_drop i more h]

theorem DirList.recountFrom_step : ∀ (i : Nat) (xs : DirList),
    (xs.modify Directory.recount i).recountFrom (i + 1) = xs.recountFrom i
  | 0, .nil => rfl
  | 0, .cons d more => rfl
  | i + 1, .nil => rfl
  | i + 1, .cons d more => by
    simp only [DirList.modify, DirList.recountFrom]
    congr 1
    exact DirList.recountFrom_step i more

theorem DirList.relabel_eq_nil (h : Int → Nat → List File → Int × Nat) (xs : DirList)
    (hx : xs.relabel h = .nil) : xs = .nil := by
  cases xs with
  | nil => rfl
  | cons d more => simp [DirList.relabel] at hx

theorem DirList.relabel_eq_cons (h : Int → Nat → List File → Int × Nat) (xs : DirList)
    (c : Directory) (rest : DirList) (hx : xs.relabel h = (DirList.cons c rest).relabel h) :
    ∃ c1 rest1, xs = .cons c1 rest1 ∧ c1.relabel h = c.relabel h
      ∧ rest1.relabel h = rest.relabel h := by
  cases xs with
  | nil => simp [DirList.relabel] at hx
  | cons d more =>
    simp only [DirList.relabel, DirList.cons.injEq] at hx
    exact ⟨d, more, rfl, hx.1, hx.2⟩

theorem DirList.relabel_drop (h : Int → Nat → List File → Int × Nat) :
    ∀ (i : Nat) (xs : DirList), (xs.drop i).relabel h = (xs.relabel h).drop i
  | 0, xs => rfl
  | i + 1, .nil => rfl
  | i + 1, .cons d more => by
    simp only [DirList.drop, DirList.relabel]
    exact DirList.relabel_drop h i more

theorem Directory.shape_recount (d : Directory) : d.recount.shape = d.shape := by
  simp only [Directory.recount, Directory.shape, Directory.relabel_relabel]

theorem Directory.shape_noTypes (d : Directory) : d.noTypes.shape = d.shape := by
  simp only [Directory.noTypes, Directory.shape, Directory.relabel_relabel]

theorem Directory.shape_setSize (d : Directory) (s : Int) : (d.setSize s).shape = d.shape := by
  cases d
  rfl

theorem Directory.files_of_shape (x d : Directory) (h : x.shape = d.shape) :
    x.files = d.files := by
  have := congrArg Directory.files h
  simpa only [Directory.shape, Directory.relabel_files] using this

theorem Directory.directories_of_shape (x d : Directory) (h : x.shape = d.shape) :
    x.directories.relabel (fun _ _ _ => (0, 0)) = d.directories.relabel (fun _ _ _ => (0, 0)) := by
  have := congrArg Directory.directories h
  simpa only [Directory.shape, Directory.relabel_directories] using this

theorem Directory.distinctNames_eq (d : Directory) :
    d.distinctNames = (decide ((d.files.map (fun f => f.name)).Nodup)
      && d.directories.distinctNames) := by
  cases d
  rfl

theorem Directory.recount_eq (x : Directory) :
    ((x.setSize 0).setDirectories ((x.setSize 0).directories.recountFrom 0)).setSize
      (((x.setSize 0).setDirectories ((x.setSize 0).directories.recountFrom 0)).size
        + (x.files.map (fun f => f.size)).sum) = x.recount := by
  cases x
  simp [Directory.setSize, Directory.setDirectories, Directory.size, Directory.directories,
    Directory.files, Directory.recount, Directory.relabel, DirList.recountFrom]

namespace ShareManager

mutual
theorem noTypes_updateIndicesDir (env : ShareEnv) : ∀ (d : Directory) (a : Addr) (m : Manager)
    (x : Directory), nodeAt (m.trees.map Directory.noTypes) a = some x →
    x.shape = d.shape → d.distinctNames = true →
    (updateIndicesDir env d a m).trees.map Directory.noTypes
      = upd (m.trees.map Directory.noTypes) a Directory.recount
  | .mk n pd ft sz lw fs ds, a, m, x, hx, hshape, hnames => by
    rw [Directory.distinctNames_eq, Bool.and_eq_true, decide_eq_true_eq] at hnames
    simp only [Directory.files, Directory.directories] at hnames
    obtain ⟨m2, hdef, hm2⟩ : ∃ m2 : Manager,
        updateIndicesDir env (.mk n pd ft sz lw fs ds) a m
          = fs.foldl (fun acc f => acc.updateIndicesFile env ⟨a, f.name⟩)
              (updateIndicesList env ds a 0 m2)
        ∧ m2.trees = (m.modifyDir a (fun d => d.setSize 0)).trees := ⟨_, rfl, rfl⟩
    have hz2 : m2.trees.map Directory.noTypes
        = upd (m.trees.map Directory.noTypes) a (fun d => d.setSize 0) := by
      rw [hm2]
      exact noTypes_modifyDir m a _ _ (fun y => Directory.noTypes_setSize y 0)
    have hx2 : nodeAt (m2.trees.map Directory.noTypes) a = some (x.setSize 0) := by
      rw [hz2]
      exact nodeAt_upd _ a _ x hx
    have hfiles : x.files = fs := Directory.files_of_shape x _ hshape
    have hdirs := Directory.directories_of_shape x _ hshape
    simp only [Directory.directories] at hdirs
    have hz3 := noTypes_updateIndicesList env ds a 0 m2 (x.setSize 0) hx2
      (by
        have : (x.setSize 0).directories = x.directories := by cases x; rfl
        rw [this]
        exact hdirs) hnames.2
    have hx3 : nodeAt ((updateIndicesList env ds a 0 m2).trees.map Directory.noTypes) a
        = some ((x.setSize 0).setDirectories ((x.setSize 0).directories.recountFrom 0)) := by
      rw [hz3]
      exact nodeAt_upd _ a _ _ hx2
    have hz4 := noTypes_fold_files env a fs (updateIndicesList env ds a 0 m2) _ hx3
      (fun f hf => by
        have hfl : ((x.setSize 0).setDirectories
            ((x.setSize 0).directories.recountFrom 0)).files = fs := by
          cases x
          exact hfiles
        rw [hfl]
        exact find_of_nodup fs f hnames.1 hf)
    rw [hdef, hz4, hz3, hz2, upd_comp, upd_comp]
    apply upd_pointed
    intro y hy
    rw [hx] at hy
    simp only [Option.some.injEq] at hy
    subst hy
    rw [← hfiles]
    exact Directory.recount_eq x
theorem noTypes_updateIndicesList (env : ShareEnv) : ∀ (ds : DirList) (a : Addr) (i : Nat)
    (m : Manager) (x : Directory), nodeAt (m.trees.map Directory.noTypes) a = some x →
    (x.directories.drop i).relabel (fun _ _ _ => (0, 0)) = ds.relabel (fun _ _ _ => (0, 0)) →
    ds.distinctNames = true →
    (updateIndicesList env ds a i m).trees.map Directory.noTypes
      = upd (m.trees.map Directory.noTypes) a
          (fun y => y.setDirectories (y.directories.recountFrom i))
  | .nil, a, i, m, x, hx, hshape, _ => by
    have hnil := DirList.relabel_eq_nil _ _ hshape
    simp only [updateIndicesList]
    rw [upd_pointed _ a _ (fun y => y) (fun y hy => by
      rw [hx] at hy
      simp only [Option.some.injEq] at hy
      subst hy
      rw [DirList.recountFrom_of_drop i _ hnil, Directory.sset_directories]), upd_same]
  | .cons c rest, a, i, m, x, hx, hshape, hnames => by
    simp only [DirList.distinctNames, Bool.and_eq_true] at hnames
    obtain ⟨c1, rest1, hdrop, hc1, hrest1⟩ := DirList.relabel_eq_cons _ _ c rest hshape
    obtain ⟨hget, hdrop1⟩ := DirList.drop_cons_info i _ c1 rest1 hdrop
    have hxc : nodeAt (m.trees.map Directory.noTypes) ⟨a.tree, a.pos ++ [i]⟩ = some c1 := by
      rw [nodeAt_child]
      have : (⟨a.tree, a.pos⟩ : Addr) = a := rfl
      rw [this, hx]
      exact hget
    have hzc := noTypes_updateIndicesDir env c ⟨a.tree, a.pos ++ [i]⟩ m c1 hxc hc1 hnames.1
    rw [upd_child] at hzc
    have ha : (⟨a.tree, a.pos⟩ : Addr) = a := rfl
    rw [ha] at hzc
    have hx1 : nodeAt ((updateIndicesDir env c ⟨a.tree, a.pos ++ [i]⟩ m).trees.map
        Directory.noTypes) a
        = some (x.setDirectories (x.directories.modify Directory.recount i)) := by
      rw [hzc]
      exact nodeAt_upd _ a _ x hx
    have hzr := noTypes_updateIndicesList env rest a (i + 1)
      (updateIndicesDir env c ⟨a.tree, a.pos ++ [i]⟩ m) _ hx1
      (by
        rw [Directory.sdirectories_set, DirList.drop_modify, hdrop1]
        exact hrest1) hnames.2
    simp only [updateIndicesList]
    rw [hzr, hzc, upd_comp]
    apply upd_pointed
    intro y _
    rw [Directory.sdirectories_set, Directory.sset_set, DirList.recountFrom_step]
end

end ShareManager

mutual
theorem Directory.distinctNames_relabel (h : Int → Nat → List File → Int × Nat) :
    ∀ d : Directory, (d.relabel h).distinctNames = d.distinctNames
  | .mk n pd ft sz lw fs ds => by
    simp only [Directory.relabel, Directory.distinctNames, DirList.distinctNames_relabel_all h ds]
theorem DirList.distinctNames_relabel_all (h : Int → Nat → List File → Int × Nat) :
    ∀ ds : DirList, (ds.relabel h).distinctNames = ds.distinctNames
  | .nil => rfl
  | .cons d rest => by
    simp only [DirList.relabel, DirList.distinctNames, Directory.distinctNames_relabel h d,
      DirList.distinctNames_relabel_all h rest]
end

mutual
theorem Directory.sizesOk_of_pointwise : ∀ d : Directory,
    (∀ (q : List Nat) (y : Directory), Directory.getAt q d = some y →
      y.size = (y.files.map (fun f => f.size)).sum) → d.sizesOk = true
  | .mk n pd ft sz lw fs ds, h => by
    have hloc := h [] _ rfl
    have hkids := DirList.sizesOk_of_pointwise_all ds (fun i c hc q y hy =>
      h (i :: q) y (by simp only [Directory.getAt, Directory.directories, hc, hy]))
    simp only [Directory.size, Directory.files] at hloc
    simp only [Directory.sizesOk, hloc, decide_True, hkids, Bool.and_self]
theorem DirList.sizesOk_of_pointwise_all : ∀ ds : DirList,
    (∀ (i : Nat) (c : Directory), ds.get? i = some c →
      ∀ (q : List Nat) (y : Directory), Directory.getAt q c = some y →
        y.size = (y.files.map (fun f => f.size)).sum) → ds.sizesOk = true
  | .nil, _ => rfl
  | .cons d rest, h => by
    have h1 := Directory.sizesOk_of_pointwise d (fun q y hy => h 0 d rfl q y hy)
    have h2 := DirList.sizesOk_of_pointwise_all rest (fun i c hc q y hy => h (i + 1) c hc q y hy)
    simp only [DirList.sizesOk, h1, h2, Bool.and_self]
end

theorem Directory.size_of_sizesOk (d : Directory) (h : d.sizesOk = true) :
    d.size = (d.files.map (fun f => f.size)).sum := by
  rw [Directory.sizesOk_eq, Bool.and_eq_true, decide_eq_true_eq] at h
  exact h.1

namespace ShareManager

theorem sizesHold_iff (env : ShareEnv) (m : Manager) :
    m.sizesHold env ↔ ∀ i ∈ getParents env.isSub m.shares, okAtAddr m.trees i.2 := by
  constructor
  · intro h i hi y hy
    apply Directory.sizesOk_of_pointwise
    intro q d hd
    apply h i hi q d
    simp only [Manager.getDir]
    simp only [nodeAt] at hy
    cases ht : m.trees.get? i.2.tree with
    | none => rw [ht] at hy; cases hy
    | some t =>
      rw [ht] at hy
      simp only at hy
      simp only [Directory.sgetAt_append, hy, Option.some_bind, hd]
  · intro h i hi q d hd
    simp only [Manager.getDir] at hd
    cases ht : m.trees.get? i.2.tree with
    | none => rw [ht] at hd; cases hd
    | some t =>
      rw [ht] at hd
      simp only [Directory.sgetAt_append] at hd
      cases hy : Directory.getAt i.2.pos t with
      | none => simp [hy] at hd
      | some y =>
        simp only [hy, Option.some_bind] at hd
        have hok := h i hi y (by simp only [nodeAt, ht, hy])
        exact Directory.size_of_sizesOk d (Directory.sizesOk_getAt q y d hok hd)

theorem upd_absent (ts : List Directory) (a : Addr) (g : Directory → Directory)
    (h : nodeAt ts a = none) : upd ts a g = ts := by
  rw [upd_pointed ts a g (fun x => x) (fun x hx => by rw [h] at hx; cases hx), upd_same]

theorem noTypes_updateIndices (env : ShareEnv) (m : Manager) (a : Addr)
    (hnames : namesAtAddr (m.trees.map Directory.noTypes) a) :
    (m.updateIndices env a).trees.map Directory.noTypes
      = upd (m.trees.map Directory.noTypes) a Directory.recount := by
  simp only [Manager.updateIndices]
  cases hd : m.getDir a with
  | none =>
    have : nodeAt (m.trees.map Directory.noTypes) a = none := by
      rw [getDir_noTypes, hd]; rfl
    simp only [upd_absent _ a _ this]
  | some d =>
    have hx : nodeAt (m.trees.map Directory.noTypes) a = some d.noTypes := by
      rw [getDir_noTypes, hd]; rfl
    have hn := hnames _ hx
    rw [Directory.noTypes, Directory.distinctNames_relabel] at hn
    exact noTypes_updateIndicesDir env d a m d.noTypes hx (Directory.shape_noTypes d) hn

theorem shape_upd_recount (ts : List Directory) (a : Addr) :
    (upd ts a Directory.recount).map Directory.shape = ts.map Directory.shape := by
  simp only [upd]
  rw [map_modify_comm Directory.shape _ id (fun t => by
    have := Directory.relabel_modifyAt (fun _ _ _ => (0, 0)) Directory.recount (fun x => x)
      (fun x => Directory.shape_recount x) a.pos t
    rw [Directory.smodifyAt_same] at this
    exact this), List.modify_id]

theorem namesAtAddr_of_shape (ts ts1 : List Directory) (b : Addr)
    (hs : ts1.map Directory.shape = ts.map Directory.shape) (h : namesAtAddr ts b) :
    namesAtAddr ts1 b := by
  intro y hy
  have hmap : ∀ l : List Directory, l.map Directory.shape
      = l.map (Directory.relabel (fun _ _ _ => (0, 0))) := fun _ => rfl
  have h1 : nodeAt (ts1.map Directory.shape) b = some y.shape := by
    rw [hmap, nodeAt_map_relabel, hy]; rfl
  rw [hs, hmap, nodeAt_map_relabel] at h1
  cases hz : nodeAt ts b with
  | none => simp [hz] at h1
  | some z =>
    simp only [hz, Option.map_some', Option.some.injEq] at h1
    have hzn := h z hz
    have e1 : y.distinctNames = y.shape.distinctNames := by
      rw [Directory.shape, Directory.distinctNames_relabel]
    have e2 : z.distinctNames = z.shape.distinctNames := by
      rw [Directory.shape, Directory.distinctNames_relabel]
    have h2 : z.shape = y.shape := h1
    rw [e1, ← h2, ← e2]
    exact hzn

theorem okAtAddr_upd_recount (ts : List Directory) (a : Addr) :
    okAtAddr (upd ts a Directory.recount) a := by
  intro y hy
  cases hx : nodeAt ts a with
  | none =>
    rw [upd_absent ts a _ hx, hx] at hy
    cases hy
  | some x =>
    rw [nodeAt_upd ts a _ x hx] at hy
    simp only [Option.some.injEq] at hy
    subst hy
    exact Directory.sizesOk_recount x

mutual
theorem shares_updateIndicesDir (env : ShareEnv) : ∀ (d : Directory) (a : Addr) (m : Manager),
    (updateIndicesDir env d a m).shares = m.shares
  | .mk n pd ft sz lw fs ds, a, m => by
    have hfold : ∀ (l : List File) (mm : Manager),
        (l.foldl (fun acc f => acc.updateIndicesFile env ⟨a, f.name⟩) mm).shares = mm.shares := by
      intro l
      induction l with
      | nil => intro mm; rfl
      | cons f l ih =>
        intro mm
        rw [List.foldl_cons, ih]
        simp only [Manager.updateIndicesFile]
        cases mm.getFile ⟨a, f.name⟩ <;> rfl
    obtain ⟨m2, hdef, hm2⟩ : ∃ m2 : Manager,
        updateIndicesDir env (.mk n pd ft sz lw fs ds) a m
          = fs.foldl (fun acc f => acc.updateIndicesFile env ⟨a, f.name⟩)
              (updateIndicesList env ds a 0 m2)
        ∧ m2.shares = m.shares := ⟨_, rfl, rfl⟩
    rw [hdef, hfold, shares_updateIndicesList env ds a 0 m2, hm2]
theorem shares_updateIndicesList (env : ShareEnv) : ∀ (ds : DirList) (a : Addr) (i : Nat)
    (m : Manager), (updateIndicesList env ds a i m).shares = m.shares
  | .nil, _, _, _ => rfl
  | .cons d rest, a, i, m => by
    simp only [updateIndicesList]
    rw [shares_updateIndicesList env rest a (i + 1), shares_updateIndicesDir env d]
end

theorem shares_updateIndices (env : ShareEnv) (m : Manager) (a : Addr) :
    (m.updateIndices env a).shares = m.shares := by
  simp only [Manager.updateIndices]
  cases m.getDir a with
  | none => rfl
  | some d => exact shares_updateIndicesDir env d a m

theorem fold_updateIndices (env : ShareEnv) : ∀ (P : List (Str × Addr)) (m : Manager),
    (∀ i ∈ P, namesAtAddr (m.trees.map Directory.noTypes) i.2) →
    (∀ b, okAtAddr (m.trees.map Directory.noTypes) b →
        okAtAddr ((P.foldl (fun acc i => acc.updateIndices env i.2) m).trees.map
          Directory.noTypes) b)
    ∧ (∀ i ∈ P, okAtAddr ((P.foldl (fun acc i => acc.updateIndices env i.2) m).trees.map
          Directory.noTypes) i.2)
    ∧ (P.foldl (fun acc i => acc.updateIndices env i.2) m).shares = m.shares
  | [], m, _ => ⟨fun _ h => h, fun i hi => absurd hi (List.not_mem_nil i), rfl⟩
  | i :: P, m, hnames => by
    have hz := noTypes_updateIndices env m i.2 (hnames i (List.mem_cons_self _ _))
    have hnames1 : ∀ j ∈ P,
        namesAtAddr ((m.updateIndices env i.2).trees.map Directory.noTypes) j.2 := by
      intro j hj
      apply namesAtAddr_of_shape _ _ j.2 _ (hnames j (List.mem_cons_of_mem _ hj))
      rw [hz, shape_upd_recount]
    obtain ⟨ih1, ih2, ih3⟩ := fold_updateIndices env P (m.updateIndices env i.2) hnames1
    have hkeep : ∀ b, okAtAddr (m.trees.map Directory.noTypes) b →
        okAtAddr ((m.updateIndices env i.2).trees.map Directory.noTypes) b := by
      intro b hb
      rw [hz]
      exact okAtAddr_upd _ i.2 b _ (Directory.keepsSizes_recount (fun x => x)) hb
    refine ⟨fun b hb => ih1 b (hkeep b hb), ?_, ?_⟩
    · intro j hj
      rcases List.mem_cons.mp hj with rfl | hj
      · apply ih1
        rw [hz]
        exact okAtAddr_upd_recount _ _
      · exact ih2 j hj
    · rw [List.foldl_cons, ih3, shares_updateIndices]

theorem sizesHold_rebuildIndices (env : ShareEnv) (m : Manager)
    (hnames : m.namesDistinct env) : (m.rebuildIndices env).sizesHold env := by
  have hn : ∀ i ∈ getParents env.isSub m.shares,
      namesAtAddr (({ m with sharedSize := 0, bloom := env.bloomClear, tthIndex := [] } :
        Manager).trees.map Directory.noTypes) i.2 := by
    intro i hi y hy
    have hy1 : nodeAt (m.trees.map Directory.noTypes) i.2 = some y := hy
    rw [getDir_noTypes] at hy1
    cases hd : m.getDir i.2 with
    | none => simp [hd] at hy1
    | some d =>
      simp only [hd, Option.map_some', Option.some.injEq] at hy1
      subst hy1
      rw [Directory.noTypes, Directory.distinctNames_relabel]
      exact hnames i hi d hd
  obtain ⟨_, h2, h3⟩ := fold_updateIndices env (getParents env.isSub m.shares)
    { m with sharedSize := 0, bloom := env.bloomClear, tthIndex := [] } hn
  rw [sizesHold_iff]
  intro i hi
  have hshares : (m.rebuildIndices env).shares = m.shares := h3
  rw [hshares] at hi
  exact (okAtAddr_noTypes _ _).mp (h2 i hi)

end ShareManager

theorem DirList.sizesOk_push : ∀ (ds : DirList) (c : Directory),
    (ds.push c).sizesOk = (ds.sizesOk && c.sizesOk)
  | .nil, c => by simp [DirList.push, DirList.sizesOk]
  | .cons d rest, c => by
    simp only [DirList.push, DirList.sizesOk, DirList.sizesOk_push rest c, Bool.and_assoc]

theorem DirList.get?_push : ∀ (ds : DirList) (c : Directory) (k : Nat) (y : Directory),
    (ds.push c).get? k = some y → ds.get? k = some y ∨ y = c
  | .nil, c, 0, y, h => by
    simp only [DirList.push, DirList.get?, Option.some.injEq] at h
    exact Or.inr h.symm
  | .nil, c, k + 1, y, h => by
    simp [DirList.push, DirList.get?] at h
  | .cons d rest, c, 0, y, h => Or.inl h
  | .cons d rest, c, k + 1, y, h => DirList.get?_push rest c k y h

theorem Directory.keepsSizes_push (c : Directory) (hc : c.sizesOk = true) :
    Directory.keepsSizes (fun x => x.setDirectories (x.directories.push c)) := by
  intro x q hq y hy
  cases q with
  | nil =>
    simp only [Directory.getAt, Option.some.injEq] at hy
    subst hy
    have hx : x.sizesOk = true := hq x rfl
    rw [Directory.sizesOk_eq, Bool.and_eq_true] at hx
    rw [Directory.sizesOk_setDirectories, DirList.sizesOk_push, hx.1, hx.2, hc]
    rfl
  | cons k q =>
    simp only [Directory.getAt, Directory.sdirectories_set] at hy
    cases hk : (x.directories.push c).get? k with
    | none => simp [hk] at hy
    | some z =>
      simp only [hk] at hy
      rcases DirList.get?_push _ c k z hk with hz | hz
      · exact hq y (by simp only [Directory.getAt, hz, hy])
      · subst hz
        exact Directory.sizesOk_getAt q z y hc hy

theorem Directory.keepsSizes_local (g : Directory → Directory)
    (hd : ∀ x : Directory, (g x).directories = x.directories)
    (hs : ∀ x : Directory, x.size = (x.files.map (fun f => f.size)).sum →
      (g x).size = ((g x).files.map (fun f => f.size)).sum) :
    Directory.keepsSizes g := by
  intro x q hq y hy
  cases q with
  | nil =>
    simp only [Directory.getAt, Option.some.injEq] at hy
    subst hy
    have hx : x.sizesOk = true := hq x rfl
    rw [Directory.sizesOk_eq, Bool.and_eq_true, decide_eq_true_eq] at hx
    rw [Directory.sizesOk_eq, hd, hx.2, hs x hx.1]
    simp
  | cons k q =>
    simp only [Directory.getAt, hd] at hy
    exact hq y (by simpa only [Directory.getAt] using hy)

namespace ShareManager

theorem sum_setTTH (name : Str) (root : TTHValue) : ∀ fs : List File,
    ((setTTH name root fs).map (fun f => f.size)).sum = (fs.map (fun f => f.size)).sum
  | [] => rfl
  | f :: rest => by
    simp only [setTTH]
    split
    · rfl
    · simp only [List.map_cons, List.sum_cons, sum_setTTH name root rest]

theorem sum_insertFile (env : ShareEnv) (file : File) : ∀ fs : List File,
    ((insertFile env file fs).map (fun f => f.size)).sum
      = (fs.map (fun f => f.size)).sum + file.size
  | [] => by simp [insertFile]
  | f :: rest => by
    simp only [insertFile]
    split
    · simp only [List.map_cons, List.sum_cons]
      omega
    · simp only [List.map_cons, List.sum_cons, sum_insertFile env file rest]
      omega

theorem stricmp_self (a : Str) : stricmp a a = true := by
  simp [stricmp]

theorem find_insertFile (env : ShareEnv) (file : File) : ∀ fs : List File,
    fs.find? (fun f => stricmp f.name file.name) = none →
    (insertFile env file fs).find? (fun x => x.name = file.name) = some file
  | [], _ => by simp [insertFile]
  | f :: rest, h => by
    simp only [List.find?_cons] at h
    cases hs : stricmp f.name file.name with
    | true => simp [hs] at h
    | false =>
      simp only [hs] at h
      have hne : ¬ (f.name = file.name) := by
        intro he
        rw [he, stricmp_self] at hs
        cases hs
      simp only [insertFile]
      split
      · simp [List.find?_cons]
      · simp only [List.find?_cons, hne, decide_False]
        exact find_insertFile env file rest h

theorem okAtAddr_addType (m : Manager) (a b : Addr) (type : Nat)
    (h : okAtAddr m.trees b) : okAtAddr (m.addType a type).trees b := by
  rw [← okAtAddr_noTypes, noTypes_addType, okAtAddr_noTypes]
  exact h

theorem findDirectoryWalk_keeps (env : ShareEnv) (allowAdd : Bool) :
    ∀ (toks : List Str) (path : Str) (cur : Addr) (m m1 : Manager) (r : Option Addr),
    findDirectoryWalk env allowAdd toks path cur m = .ok (m1, r) →
    (∀ b, okAtAddr m.trees b → okAtAddr m1.trees b) ∧ m1.shares = m.shares
  | [], _, _, m, m1, r, h => by
    simp only [findDirectoryWalk, Except.ok.injEq, Prod.mk.injEq] at h
    obtain ⟨rfl, _⟩ := h
    exact ⟨fun _ hb => hb, rfl⟩
  | i :: rest, path, cur, m, m1, r, h => by
    simp only [findDirectoryWalk] at h
    cases hd : m.getDir cur with
    | none => simp [hd] at h
    | some d =>
      simp only [hd] at h
      cases hj : d.directories.findIdx? i with
      | some j =>
        simp only [hj] at h
        exact findDirectoryWalk_keeps env allowAdd rest _ _ m m1 r h
      | none =>
        simp only [hj] at h
        split at h
        · simp only [Except.ok.injEq, Prod.mk.injEq] at h
          obtain ⟨rfl, _⟩ := h
          exact ⟨fun _ hb => hb, rfl⟩
        · split at h
          · simp only [Except.ok.injEq, Prod.mk.injEq] at h
            obtain ⟨rfl, _⟩ := h
            exact ⟨fun _ hb => hb, rfl⟩
          · obtain ⟨ih1, ih2⟩ := findDirectoryWalk_keeps env allowAdd rest _ _ _ m1 r h
            refine ⟨fun b hb => ih1 b ?_, ih2⟩
            exact okAtAddr_upd m.trees cur b _
              (Directory.keepsSizes_push _ (by rfl)) hb

theorem findDirectory_keeps (env : ShareEnv) (m m1 : Manager) (fname : Str) (allowAdd : Bool)
    (r : Option Addr) (h : m.findDirectory env fname allowAdd = .ok (m1, r)) :
    (∀ b, okAtAddr m.trees b → okAtAddr m1.trees b) ∧ m1.shares = m.shares := by
  simp only [Manager.findDirectory] at h
  split at h
  · simp only [Except.ok.injEq, Prod.mk.injEq] at h
    obtain ⟨rfl, _⟩ := h
    exact ⟨fun _ hb => hb, rfl⟩
  · exact findDirectoryWalk_keeps env allowAdd _ _ _ m m1 r h

end ShareManager

namespace ShareManager

theorem keepsSizes_setTTH (name : Str) (root : TTHValue) :
    Directory.keepsSizes (fun x => x.setFiles (setTTH name root x.files)) := by
  apply Directory.keepsSizes_local
  · intro x
    cases x
    rfl
  · intro x hx
    cases x
    simp only [Directory.setFiles, Directory.size, Directory.files] at hx ⊢
    rw [sum_setTTH]
    exact hx

theorem keepsSizes_insert (env : ShareEnv) (file : File) :
    Directory.keepsSizes
      (fun x => (x.setFiles (insertFile env file x.files)).setSize
        ((x.setFiles (insertFile env file x.files)).size + file.size)) := by
  apply Directory.keepsSizes_local
  · intro x
    cases x
    rfl
  · intro x hx
    cases x
    simp only [Directory.setFiles, Directory.setSize, Directory.size, Directory.files] at hx ⊢
    rw [sum_insertFile, hx]

theorem getDir_modifyDir (m : Manager) (a : Addr) (g : Directory → Directory) (x : Directory)
    (h : m.getDir a = some x) : (m.modifyDir a g).getDir a = some (g x) :=
  nodeAt_upd m.trees a g x h

theorem onFileHashed_keeps (env : ShareEnv) (m m1 : Manager) (fname : Str) (root : TTHValue)
    (h : m.onFileHashed env fname root = .ok m1) :
    (∀ b, okAtAddr m.trees b → okAtAddr m1.trees b) ∧ m1.shares = m.shares := by
  simp only [Manager.onFileHashed] at h
  cases hf : m.findDirectory env (env.getFilePath fname) true with
  | error e => simp [hf] at h
  | ok r =>
    obtain ⟨m0, o⟩ := r
    obtain ⟨hk, hs⟩ := findDirectory_keeps env m m0 _ true o hf
    cases o with
    | none =>
      simp only [hf, Except.ok.injEq] at h
      subst h
      exact ⟨hk, hs⟩
    | some d =>
      simp only [hf] at h
      cases hd : m0.getDir d with
      | none => simp [hd] at h
      | some dir =>
        simp only [hd] at h
        cases hi : dir.files.find? (fun f => stricmp f.name (Util.getFileName fname)) with
        | some i =>
          simp only [hi] at h
          cases he : eraseHashed m0 fname i.tth m0.tthIndex with
          | error e => simp [he] at h
          | ok index1 =>
            simp only [he, Except.ok.injEq] at h
            subst h
            refine ⟨fun b hb => ?_, hs⟩
            exact okAtAddr_upd m0.trees d b _ (keepsSizes_setTTH i.name root) (hk b hb)
        | none =>
          simp only [hi, Except.ok.injEq] at h
          subst h
          have hfile : (m0.modifyDir d (fun x => x.setFiles
              (insertFile env ⟨Util.getFileName fname, env.getSize fname, root⟩ x.files))).getFile
                ⟨d, Util.getFileName fname⟩
              = some ⟨Util.getFileName fname, env.getSize fname, root⟩ := by
            simp only [Manager.getFile]
            rw [getDir_modifyDir m0 d _ dir hd]
            cases dir
            exact find_insertFile env ⟨Util.getFileName fname, env.getSize fname, root⟩ _ hi
          simp only [Manager.updateIndicesFile, hfile]
          refine ⟨fun b hb => ?_, hs⟩
          apply okAtAddr_addType
          show okAtAddr (upd (upd m0.trees d _) d _) b
          rw [upd_comp]
          exact okAtAddr_upd m0.trees d b _
            (keepsSizes_insert env ⟨Util.getFileName fname, env.getSize fname, root⟩) (hk b hb)

theorem sizesHold_onFileHashed (env : ShareEnv) (m m1 : Manager) (fname : Str)
    (root : TTHValue) (hm : m.sizesHold env) (h : m.onFileHashed env fname root = .ok m1) :
    m1.sizesHold env := by
  obtain ⟨hk, hs⟩ := onFileHashed_keeps env m m1 fname root h
  rw [sizesHold_iff] at hm ⊢
  rw [hs]
  exact fun i hi => hk i.2 (hm i hi)

end ShareManager

namespace ShareManager

theorem cleanFiles_trees (a : Addr) : ∀ (fs : List File) (m m1 : Manager),
    cleanFiles a fs m = .ok m1 → m1.trees = m.trees ∧ m1.shares = m.shares
  | [], m, m1, h => by
    simp only [cleanFiles, Except.ok.injEq] at h
    subst h
    exact ⟨rfl, rfl⟩
  | f :: rest, m, m1, h => by
    simp only [cleanFiles] at h
    cases he : eraseCleaned m ⟨a, f.name⟩ f.tth m.tthIndex with
    | error e => simp [he] at h
    | ok index1 =>
      simp only [he] at h
      exact cleanFiles_trees a rest { m with tthIndex := index1 } m1 h

theorem removeDir_trees (m m1 : Manager) (a : Addr) (h : m.removeDir a = .ok m1) :
    m1.trees = m.trees ∧ m1.shares = m.shares := by
  simp only [Manager.removeDir] at h
  split at h
  · split at h
    · cases h
    · simp only [Except.ok.injEq] at h
      subst h
      exact ⟨rfl, rfl⟩
  · cases h

mutual
theorem cleanIndicesDir_trees : ∀ (d : Directory) (a : Addr) (m m1 : Manager),
    cleanIndicesDir d a m = .ok m1 →
    (∃ H : Directory → Directory, m1.trees = upd m.trees a H) ∧ m1.shares = m.shares
  | .mk _ _ _ _ _ files directories, a, m, m1, h => by
    simp only [cleanIndicesDir] at h
    cases h1 : cleanIndicesList directories a 0 m with
    | error e => simp [h1] at h
    | ok n1 =>
      simp only [h1] at h
      obtain ⟨⟨H, hH⟩, hs1⟩ := cleanIndicesList_trees directories a 0 m n1 h1
      cases h2 : cleanFiles a files n1 with
      | error e => simp [h2] at h
      | ok n2 =>
        simp only [h2] at h
        obtain ⟨ht2, hs2⟩ := cleanFiles_trees a files n1 n2 h2
        cases h3 : n2.removeDir a with
        | error e => simp [h3] at h
        | ok n3 =>
          simp only [h3, Except.ok.injEq] at h
          obtain ⟨ht3, hs3⟩ := removeDir_trees n2 n3 a h3
          subst h
          refine ⟨⟨fun x => ((H x).setFiles []).setDirectories .nil, ?_⟩, ?_⟩
          · show upd n3.trees a _ = _
            rw [ht3, ht2, hH, upd_comp]
          · show n3.shares = m.shares
            rw [hs3, hs2, hs1]
theorem cleanIndicesList_trees : ∀ (ds : DirList) (a : Addr) (i : Nat) (m m1 : Manager),
    cleanIndicesList ds a i m = .ok m1 →
    (∃ H : Directory → Directory, m1.trees = upd m.trees a H) ∧ m1.shares = m.shares
  | .nil, a, _, m, m1, h => by
    simp only [cleanIndicesList, Except.ok.injEq] at h
    subst h
    exact ⟨⟨fun x => x, (upd_same m.trees a).symm⟩, rfl⟩
  | .cons d rest, a, i, m, m1, h => by
    simp only [cleanIndicesList] at h
    cases h1 : cleanIndicesDir d ⟨a.tree, a.pos ++ [i]⟩ m with
    | error e => simp [h1] at h
    | ok n1 =>
      simp only [h1] at h
      obtain ⟨⟨H1, hH1⟩, hs1⟩ := cleanIndicesDir_trees d ⟨a.tree, a.pos ++ [i]⟩ m n1 h1
      obtain ⟨⟨H2, hH2⟩, hs2⟩ := cleanIndicesList_trees rest a (i + 1) n1 m1 h
      refine ⟨⟨fun x => H2 (x.setDirectories (x.directories.modify H1 i)), ?_⟩, ?_⟩
      · rw [hH2, hH1, upd_child, upd_comp]
      · rw [hs2, hs1]
end

theorem upd_recount_noTypes (ts : List Directory) (a : Addr) :
    (upd ts a Directory.recount).map Directory.noTypes
      = upd (ts.map Directory.noTypes) a Directory.recount := by
  simp only [upd]
  apply map_modify_comm
  intro t
  apply Directory.relabel_modifyAt
  intro x
  simp only [Directory.noTypes, Directory.recount, Directory.relabel_relabel]

theorem onBundleHashed_keeps (env : ShareEnv) (m m1 : Manager) (path : Str) (sc : Scan)
    (hfiles : (sc.files.map (fun f => f.name)).Nodup)
    (hdirs : sc.directories.distinctNames = true)
    (h : m.onBundleHashed env path sc = .ok m1) :
    (∀ b, okAtAddr m.trees b → okAtAddr m1.trees b) ∧ m1.shares = m.shares := by
  simp only [Manager.onBundleHashed] at h
  cases hf : m.findDirectory env path true with
  | error e => simp [hf] at h
  | ok r =>
    obtain ⟨m0, o⟩ := r
    obtain ⟨hk, hs⟩ := findDirectory_keeps env m m0 _ true o hf
    cases o with
    | none =>
      simp only [hf, Except.ok.injEq] at h
      subst h
      exact ⟨hk, hs⟩
    | some dir =>
      simp only [hf] at h
      cases hd : m0.getDir dir with
      | none => simp [hd] at h
      | some d =>
        simp only [hd] at h
        cases hc : cleanIndicesDir d dir m0 with
        | error e => simp [hc] at h
        | ok m2 =>
          simp only [hc, Except.ok.injEq] at h
          obtain ⟨⟨H, hH⟩, hs2⟩ := cleanIndicesDir_trees d dir m0 m2 hc
          subst h
          have ht4 : ∀ names : List (Str × Addr),
              ({ m2.modifyDir dir (fun x => (x.setFiles sc.files).setDirectories sc.directories)
                  with dirNameMap := names } : Manager).trees
              = upd m0.trees dir
                  (fun x => ((H x).setFiles sc.files).setDirectories sc.directories) := by
            intro names
            show upd m2.trees dir _ = _
            rw [hH, upd_comp]
          have hnames : ∀ names : List (Str × Addr), namesAtAddr
              (({ m2.modifyDir dir (fun x => (x.setFiles sc.files).setDirectories sc.directories)
                  with dirNameMap := names } : Manager).trees.map Directory.noTypes) dir := by
            intro names y hy
            have hmap : ∀ l : List Directory, l.map Directory.noTypes
                = l.map (Directory.relabel (fun sz _ _ => (sz, 0))) := fun _ => rfl
            rw [ht4, hmap, nodeAt_map_relabel, nodeAt_upd m0.trees dir _ d hd] at hy
            simp only [Option.map_some', Option.some.injEq] at hy
            subst hy
            rw [Directory.distinctNames_relabel, Directory.distinctNames_eq]
            cases H d
            simp only [Directory.setFiles, Directory.setDirectories, Directory.files,
              Directory.directories, hdirs, Bool.and_true, decide_eq_true_eq]
            exact hfiles
          refine ⟨fun b hb => ?_, ?_⟩
          · rw [← okAtAddr_noTypes, noTypes_updateIndices env _ dir (hnames _),
              ← upd_recount_noTypes, okAtAddr_noTypes, ht4, upd_comp]
            exact okAtAddr_upd m0.trees dir b _ (Directory.keepsSizes_recount _) (hk b hb)
          · rw [shares_updateIndices]
            show m2.shares = m.shares
            rw [hs2, hs]

theorem sizesHold_onBundleHashed (env : ShareEnv) (m m1 : Manager) (path : Str) (sc : Scan)
    (hfiles : (sc.files.map (fun f => f.name)).Nodup)
    (hdirs : sc.directories.distinctNames = true)
    (hm : m.sizesHold env) (h : m.onBundleHashed env path sc = .ok m1) :
    m1.sizesHold env := by
  obtain ⟨hk, hs⟩ := onBundleHashed_keeps env m m1 path sc hfiles hdirs h
  rw [sizesHold_iff] at hm ⊢
  rw [hs]
  exact fun i hi => hk i.2 (hm i hi)

end ShareManager

namespace ShareManager

theorem sizesHold_onAllHashed (env : ShareEnv) : ∀ (calls : List Hashed) (m m1 : Manager),
    m.sizesHold env → (∀ e ∈ calls, e.distinctNames = true) →
    Manager.onAllHashed env calls m = .ok m1 → m1.sizesHold env
  | [], m, m1, hm, _, h => by
    simp only [Manager.onAllHashed, Except.ok.injEq] at h
    subst h
    exact hm
  | e :: rest, m, m1, hm, hs, h => by
    simp only [Manager.onAllHashed] at h
    cases h1 : m.onHashed env e with
    | error err => simp [h1] at h
    | ok n1 =>
      simp only [h1] at h
      refine sizesHold_onAllHashed env rest n1 m1 ?_
        (fun x hx => hs x (List.mem_cons_of_mem e hx)) h
      have he := hs e (List.mem_cons_self e rest)
      cases e with
      | file fname root => exact sizesHold_onFileHashed env m n1 fname root hm h1
      | bundle path sc =>
        simp only [Hashed.distinctNames, Bool.and_eq_true, decide_eq_true_eq] at he
        exact sizesHold_onBundleHashed env m n1 path sc he.1 he.2 hm h1

/-- C21: after `rebuildIndices`, and after every call of `onFileHashed` and every
re-scan on `BundleHashed` that follows it, every directory reachable from a top-level
share root has as its `size` the sum of the sizes of its files. The share on which
`rebuildIndices` runs and what `buildTree` finds hold no two files of one name in a
directory, as the sets `files` do, and the calls meet no fault such as a pointer that
leads nowhere. -/
theorem sizes_hold_after_rebuild (env : ShareEnv) (m m1 : Manager) (calls : List Hashed)
    (hnames : m.namesDistinct env) (hscans : ∀ e ∈ calls, e.distinctNames = true)
    (h : (m.rebuildIndices env).onAllHashed env calls = .ok m1) :
    m1.sizesHold env :=
  sizesHold_onAllHashed env calls (m.rebuildIndices env) m1
    (sizesHold_rebuildIndices env m hnames) hscans h

/-- The stale sizes of `exStale` are put right by `rebuildIndices`, and the sizes hold
after the three calls of `exHashed`, which run without a fault: the root has 3 bytes
in `z.bin`, `b` has 5 in `p.bin` and its new subdirectory `s` has 6 in `q.bin`. -/
theorem sizes_hold_after_rebuild_witness :
    exStale.namesDistinct exShareEnv
    ∧ (∀ e ∈ exHashed, e.distinctNames = true)
    ∧ ∃ m1, (exStale.rebuildIndices exShareEnv).onAllHashed exShareEnv exHashed = .ok m1
        ∧ m1.sizesHold exShareEnv
        ∧ m1.trees = [.mk (str "a") (some (rootFor (str "C:\\a\\") 0 (str "a"))) 128 3 0
            [⟨str "z.bin", 3, str "H5"⟩]
            (.cons (.mk (str "b") (some (rootFor (str "C:\\a\\b\\") 0 (str "b"))) 128 5 0
              [⟨str "p.bin", 5, str "H3"⟩]
              (.cons (.mk (str "s") none 128 6 0 [⟨str "q.bin", 6, str "H4"⟩] .nil) .nil))
            .nil)] := by
  have hnames : exStale.namesDistinct exShareEnv := by
    intro i hi d hd
    have hp : getParents exShareEnv.isSub exStale.shares = [(str "C:\\a\\", ⟨0, []⟩)] := by rfl
    rw [hp, List.mem_singleton] at hi
    subst hi
    have hg : exStale.getDir ⟨0, []⟩ = some
        (.mk (str "a") (some (rootFor (str "C:\\a\\") 0 (str "a"))) 128 99 0 []
          (.cons (.mk (str "b") (some (rootFor (str "C:\\a\\b\\") 0 (str "b"))) 128 0 0
            [⟨str "x.bin", 7, str "H1"⟩] .nil) .nil)) := rfl
    rw [hg, Option.some.injEq] at hd
    subst hd
    decide
  have hscans : ∀ e ∈ exHashed, e.distinctNames = true := by
    intro e he
    simp only [exHashed, List.mem_cons, List.mem_singleton, List.not_mem_nil, or_false] at he
    rcases he with rfl | rfl | rfl <;> decide
  have hok : ∃ m1, (exStale.rebuildIndices exShareEnv).onAllHashed exShareEnv exHashed
      = .ok m1 := by
    cases h : (exStale.rebuildIndices exShareEnv).onAllHashed exShareEnv exHashed with
    | ok m1 => exact ⟨m1, rfl⟩
    | error err =>
      have hb : ((exStale.rebuildIndices exShareEnv).onAllHashed exShareEnv exHashed).toBool
          = true := by rfl
      rw [h] at hb
      cases hb
  obtain ⟨m1, h1⟩ := hok
  refine ⟨hnames, hscans, m1, h1,
    sizes_hold_after_rebuild exShareEnv exStale m1 exHashed hnames hscans h1, ?_⟩
  have ht : ((exStale.rebuildIndices exShareEnv).onAllHashed exShareEnv exHashed).map
      (fun m => m.trees) = .ok [.mk (str "a") (some (rootFor (str "C:\\a\\") 0 (str "a"))) 128 3 0
            [⟨str "z.bin", 3, str "H5"⟩]
            (.cons (.mk (str "b") (some (rootFor (str "C:\\a\\b\\") 0 (str "b"))) 128 5 0
              [⟨str "p.bin", 5, str "H3"⟩]
              (.cons (.mk (str "s") none 128 6 0 [⟨str "q.bin", 6, str "H4"⟩] .nil) .nil))
            .nil)] := by
    rfl
  rw [h1] at ht
  exact Except.ok.inj ht

end ShareManager

namespace DirectoryListing

/-! ### The flag `running` when the worker returns -/

/-- C31: `run` leaves through `return 0` with the flag `running` still set when it
takes a `CLOSE` task, and when it takes a `REFRESH_DIR` task on a listing that is not
partial: the tasks behind that task stay in the queue, and a later `runTasks` finds the
flag set and starts no worker. -/
theorem run_returns_with_running_set (re : RunEnv) (s : State) (rest : List Task) (xml : Str)
    (hrun : s.running = true) :
    ((run re { s with tasks := .CLOSE :: rest }).2 = .returned
      ∧ (run re { s with tasks := .CLOSE :: rest }).1.running = true
      ∧ (run re { s with tasks := .CLOSE :: rest }).1.tasks = rest
      ∧ ((run re { s with tasks := .CLOSE :: rest }).1.runTasks false).2 = false)
    ∧ (s.list.partialList = false →
      (run re { s with tasks := .REFRESH_DIR xml :: rest }).2 = .returned
      ∧ (run re { s with tasks := .REFRESH_DIR xml :: rest }).1.running = true
      ∧ (run re { s with tasks := .REFRESH_DIR xml :: rest }).1.tasks = rest
      ∧ ((run re { s with tasks := .REFRESH_DIR xml :: rest }).1.runTasks false).2 = false) := by
  constructor
  · simp [run, runLoop, tryTask, State.fire, State.runTasks, hrun]
  · intro hp
    simp [run, runLoop, tryTask, State.runTasks, hrun, hp]

/-- On the full list `exFullWorker`, the queue `[CLOSE, MATCH_QUEUE]` and the queue
`[REFRESH_DIR, MATCH_QUEUE]` both end with the flag set and `MATCH_QUEUE` never run. -/
theorem run_returns_with_running_set_witness :
    (exFullWorker []).running = true ∧ (exFullWorker []).list.partialList = false
    ∧ (run exRunEnv (exFullWorker [.CLOSE, .MATCH_QUEUE])).1.running = true
    ∧ (run exRunEnv (exFullWorker [.CLOSE, .MATCH_QUEUE])).1.tasks = [.MATCH_QUEUE]
    ∧ (run exRunEnv (exFullWorker [.REFRESH_DIR (str "x"), .MATCH_QUEUE])).1.running = true
    ∧ ((run exRunEnv (exFullWorker [.REFRESH_DIR (str "x"), .MATCH_QUEUE])).1.runTasks
        false).2 = false :=
  have h := run_returns_with_running_set exRunEnv (exFullWorker []) [.MATCH_QUEUE] (str "x") rfl
  ⟨rfl, rfl, h.1.2.1, h.1.2.2.1, (h.2 rfl).2.1, (h.2 rfl).2.2.2⟩

end DirectoryListing

namespace DirectoryListing

/-! ### A child that is named as a segment of the base path -/

/-- C32: `updateXML` on an empty partial list with the document
`<FileListing Base="/a/"><Directory Name="a" Incomplete="1"/><File Name="f.txt" .../>`:
the walk of the base path creates the directory `a` and enters it in `visitedDirs`;
the child `a` is looked up there by its name alone and found to be the base directory
itself, so no directory is created, `cur` is set to the base directory and, the element
being self-closing, moved to its parent, the root; the file is pushed to the files of
the root. The base directory ends with no subdirectory and no file. With the child
named `b` the base directory gets the subdirectory `b` and the file. -/
theorem updateXML_child_named_as_base :
    (Listing.new true true false true).updateXML exEnv (exBaseChild (str "a"))
      = (none, str "/a/",
          { Listing.new true true false true with
            root := .mk [] false 0 0 false .DUPE_NONE
              [⟨str "f.txt", 1, str "T", false, .DUPE_NONE⟩]
              (.cons (.mk (str "a") true 0 0 false .DUPE_NONE [] .nil) .nil),
            visitedDirs := [(str "a", [0])] })
    ∧ (Listing.new true true false true).updateXML exEnv (exBaseChild (str "b"))
      = (none, str "/a/",
          { Listing.new true true false true with
            root := .mk [] false 0 0 false .DUPE_NONE []
              (.cons (.mk (str "a") true 0 0 false .DUPE_NONE
                [⟨str "f.txt", 1, str "T", false, .DUPE_NONE⟩]
                (.cons (.mk (str "b") false 0 0 false .DUPE_NONE [] .nil) .nil)) .nil),
            visitedDirs := [(str "a", [0])] }) := by
  refine ⟨by rfl, by rfl⟩

end DirectoryListing

namespace DirectoryListing

/-! ### Paths and their lookup -/

theorem namesAlong_snoc : ∀ (p : Pos) (root : Directory) (i : Nat) (c : Directory),
    getAt (p ++ [i]) root = some c → namesAlong (p ++ [i]) root = namesAlong p root ++ [c.name]
  | [], root, i, c, h => by
    simp only [List.nil_append, getAt] at h
    simp only [List.nil_append, namesAlong]
    cases hg : root.directories.get? i with
    | none => simp [hg] at h
    | some x =>
      simp only [hg, Option.some.injEq] at h
      subst h
      rfl
  | j :: q, root, i, c, h => by
    simp only [List.cons_append, getAt] at h
    simp only [List.cons_append, namesAlong]
    cases hg : root.directories.get? j with
    | none => simp [hg] at h
    | some x =>
      simp only [hg] at h
      have ih := namesAlong_snoc q x i c h
      show x.name :: namesAlong (q ++ [i]) x = x.name :: (namesAlong q x ++ [c.name])
      rw [ih]

theorem getAt_of_append (p q : Pos) (root x : Directory) (h : getAt (p ++ q) root = some x) :
    ∃ c, getAt p root = some c := by
  rw [getAt_append] at h
  cases hc : getAt p root with
  | none => simp [hc] at h
  | some c => exact ⟨c, rfl⟩

theorem getAt_take (d : Pos) (root x : Directory) (h : getAt d root = some x) (n : Nat) :
    ∃ c, getAt (d.take n) root = some c :=
  getAt_of_append (d.take n) (d.drop n) root x (by rw [List.take_append_drop]; exact h)

theorem pathOfNames_snoc (names : List Str) (n : Str) :
    pathOfNames (names ++ [n]) = pathOfNames names ++ (n ++ ['\\']) := by
  simp [pathOfNames]

theorem take_succ_snoc (d : Pos) (n : Nat) (hn : n < d.length) :
    d.take (n + 1) = d.take n ++ [d.get ⟨n, hn⟩] := by
  rw [List.take_succ]
  simp [List.getElem?_eq_getElem hn]

theorem namesAlong_take_succ (d : Pos) (root cur : Directory) (n : Nat)
    (hn : n < d.length) (hcur : getAt (d.take (n + 1)) root = some cur) :
    namesAlong (d.take (n + 1)) root = namesAlong (d.take n) root ++ [cur.name] := by
  rw [take_succ_snoc d n hn] at hcur ⊢
  exact namesAlong_snoc _ root _ cur hcur

theorem getPathLoop_eq (root x : Directory) (d : Pos) (h : getAt d root = some x) :
    ∀ (n : Nat) (dir : Str), n ≤ d.length →
      getPathLoop root d n dir = some (pathOfNames (namesAlong (d.take n) root) ++ dir)
  | 0, dir, _ => by simp [getPathLoop, namesAlong, pathOfNames]
  | n + 1, dir, hn => by
    obtain ⟨cur, hcur⟩ := getAt_take d root x h (n + 1)
    simp only [getPathLoop, hcur]
    rw [getPathLoop_eq root x d h n _ (by omega),
      namesAlong_take_succ d root cur n (by omega) hcur, pathOfNames_snoc]
    simp

theorem getPathAt_eq (root x : Directory) (p : Pos) (h : getAt p root = some x) :
    ∀ n : Nat, n < p.length →
      Directory.getPathAt root p (n + 1) = some (pathOfNames (namesAlong (p.take (n + 1)) root))
  | 0, hn => by
    obtain ⟨cur, hcur⟩ := getAt_take p root x h 1
    simp only [Directory.getPathAt, hcur]
    rw [namesAlong_take_succ p root cur 0 hn hcur]
    simp [namesAlong, pathOfNames]
  | n + 1, hn => by
    obtain ⟨cur, hcur⟩ := getAt_take p root x h (n + 2)
    have ih := getPathAt_eq root x p h n (by omega)
    unfold Directory.getPathAt
    simp only [hcur, ih, ge_iff_le, Nat.le_add_left, if_true]
    rw [namesAlong_take_succ p root cur (n + 1) hn hcur, pathOfNames_snoc]
    simp

theorem getPath_eq (root x : Directory) (d : Pos) (hd : d ≠ []) (h : getAt d root = some x) :
    getPath root d = some (pathOfNames (namesAlong d root)) := by
  have hlen : 0 < d.length := List.length_pos.mpr hd
  have hemp : d.isEmpty = false := by
    cases d with
    | nil => exact absurd rfl hd
    | cons _ _ => rfl
  simp only [getPath, hemp, Bool.false_eq_true, if_false, h]
  rw [getPathLoop_eq root x d h (d.length - 1) _ (by omega)]
  have hx : getAt (d.take (d.length - 1 + 1)) root = some x := by
    rw [show d.length - 1 + 1 = d.length by omega, List.take_length]
    exact h
  have := namesAlong_take_succ d root x (d.length - 1) (by omega) hx
  rw [show d.length - 1 + 1 = d.length by omega, List.take_length] at this
  rw [this, pathOfNames_snoc]

theorem Directory.getPath_eq_names (root x : Directory) (p : Pos) (hp : p ≠ [])
    (h : getAt p root = some x) :
    Directory.getPath root p = some (pathOfNames (namesAlong p root)) := by
  have hlen : 0 < p.length := List.length_pos.mpr hp
  unfold Directory.getPath
  have := getPathAt_eq root x p h (p.length - 1) (by omega)
  rw [show p.length - 1 + 1 = p.length by omega, List.take_length] at this
  exact this

theorem DirList.mem_toList_of_get : ∀ (ds : DirList) (k : Nat) (c : Directory),
    ds.get? k = some c → c ∈ ds.toList
  | .nil, _, _, h => by simp [DirList.get?] at h
  | .cons d rest, 0, c, h => by
    simp only [DirList.get?, Option.some.injEq] at h
    subst h
    simp [DirList.toList]
  | .cons d rest, k + 1, c, h => by
    simp only [DirList.toList, List.mem_cons]
    exact Or.inr (DirList.mem_toList_of_get rest k c h)

theorem DirList.namesApart_get (sameName : Str → Str → Bool) : ∀ (ds : DirList) (k : Nat)
    (c : Directory), ds.namesApart sameName = true → ds.get? k = some c →
    c.namesApart sameName = true ∧ '\\' ∉ c.name
  | .nil, _, _, _, h => by simp [DirList.get?] at h
  | .cons d rest, 0, c, hn, h => by
    simp only [DirList.get?, Option.some.injEq] at h
    subst h
    simp only [DirList.namesApart, Bool.and_eq_true, Bool.not_eq_true', List.contains_eq_any_beq,
      List.any_eq_false, beq_iff_eq] at hn
    refine ⟨hn.1.2, fun hmem => ?_⟩
    exact hn.1.1.1 _ hmem rfl
  | .cons d rest, k + 1, c, hn, h => by
    simp only [DirList.namesApart, Bool.and_eq_true] at hn
    exact DirList.namesApart_get sameName rest k c hn.2 h

theorem findDirectoryIn_segment (sameName : Str → Str → Bool) (tail : Str) :
    ∀ (ds : DirList) (k : Nat) (c : Directory) (i : Nat), ds.namesApart sameName = true →
    ds.get? k = some c → sameName c.name c.name = true →
    findDirectoryIn sameName (c.name ++ '\\' :: tail) ds i
      = if tail = [] then some [i + k]
        else (findDirectory sameName tail c).map (fun q => (i + k) :: q)
  | .nil, _, _, _, _, h, _ => by simp [DirList.get?] at h
  | .cons d rest, 0, c, i, hn, h, hrefl => by
    simp only [DirList.get?, Option.some.injEq] at h
    subst h
    have hno : '\\' ∉ d.name :=
      (DirList.namesApart_get sameName (.cons d rest) 0 d hn rfl).2
    have hpos : strFind (d.name ++ '\\' :: tail) '\\' 0 = some d.name.length := by
      have := findFrom_segment '\\' d.name tail 0 hno
      simpa [strFind] using this
    have hsub : substr (d.name ++ '\\' :: tail) 0 d.name.length = d.name := by
      simp [substr]
    have hdrop : (d.name ++ '\\' :: tail).drop (d.name.length + 1) = tail := by
      rw [show d.name ++ '\\' :: tail = (d.name ++ ['\\']) ++ tail by simp]
      rw [List.drop_append_of_le_length (by simp)]
      simp
    simp only [findDirectoryIn, hpos, hsub, hrefl, if_true, hdrop, Nat.add_zero]
    cases tail with
    | nil => simp
    | cons a t => simp
  | .cons d rest, k + 1, c, i, hn, h, hrefl => by
    have hc : c ∈ rest.toList := DirList.mem_toList_of_get rest k c h
    have hno : '\\' ∉ c.name := (DirList.namesApart_get sameName (.cons d rest) (k + 1) c hn h).2
    simp only [DirList.namesApart, Bool.and_eq_true, List.all_eq_true, Bool.not_eq_true'] at hn
    have hdc : sameName d.name c.name = false := hn.1.1.2 c hc
    have hpos : strFind (c.name ++ '\\' :: tail) '\\' 0 = some c.name.length := by
      have := findFrom_segment '\\' c.name tail 0 hno
      simpa [strFind] using this
    have hsub : substr (c.name ++ '\\' :: tail) 0 c.name.length = c.name := by
      simp [substr]
    have ih := findDirectoryIn_segment sameName tail rest k c (i + 1) hn.2 h hrefl
    simp only [findDirectoryIn, hpos, hsub, hdc, Bool.false_eq_true, if_false]
    rw [ih, show i + 1 + k = i + (k + 1) by omega]

theorem pathOfNames_cons (n : Str) (names : List Str) :
    pathOfNames (n :: names) = n ++ '\\' :: pathOfNames names := by
  simp [pathOfNames]

theorem findDirectory_names (sameName : Str → Str → Bool) (hrefl : ∀ n, sameName n n = true) :
    ∀ (p : Pos) (root x : Directory), p ≠ [] → getAt p root = some x →
    root.namesApart sameName = true →
    findDirectory sameName (pathOfNames (namesAlong p root)) root = some p
  | [], _, _, hp, _, _ => absurd rfl hp
  | k :: q, root, x, _, hx, hn => by
    cases root with
    | mk n0 c0 ps dt a du fs ds =>
      have hget : getAt (k :: q) (.mk n0 c0 ps dt a du fs ds)
          = (match ds.get? k with
            | some c => getAt q c
            | none => none) := rfl
      rw [hget] at hx
      have hnames : namesAlong (k :: q) (.mk n0 c0 ps dt a du fs ds)
          = (match ds.get? k with
            | some c => c.name :: namesAlong q c
            | none => []) := rfl
      rw [hnames]
      have hn1 : ds.namesApart sameName = true := hn
      cases hg : ds.get? k with
      | none => simp [hg] at hx
      | some c =>
        simp only [hg] at hx ⊢
        rw [pathOfNames_cons]
        show findDirectoryIn sameName (c.name ++ '\\' :: pathOfNames (namesAlong q c)) ds 0
          = some (k :: q)
        rw [findDirectoryIn_segment sameName _ ds k c 0 hn1 hg (hrefl _)]
        cases q with
        | nil => simp [namesAlong, pathOfNames]
        | cons j q1 =>
          have hc : c.namesApart sameName = true :=
            (DirList.namesApart_get sameName ds k c hn1 hg).1
          have ih := findDirectory_names sameName hrefl (j :: q1) c x (by simp) hx hc
          have hne : pathOfNames (namesAlong (j :: q1) c) ≠ [] := by
            cases c with
            | mk n1 c1 ps1 dt1 a1 du1 fs1 ds1 =>
              have hx1 : getAt (j :: q1) (.mk n1 c1 ps1 dt1 a1 du1 fs1 ds1)
                  = (match ds1.get? j with
                    | some c => getAt q1 c
                    | none => none) := rfl
              have hnm : namesAlong (j :: q1) (.mk n1 c1 ps1 dt1 a1 du1 fs1 ds1)
                  = (match ds1.get? j with
                    | some c => c.name :: namesAlong q1 c
                    | none => []) := rfl
              rw [hx1] at hx
              rw [hnm]
              cases hj : ds1.get? j with
              | none => simp [hj] at hx
              | some y => simp [pathOfNames]
          rw [if_neg hne, ih]
          simp

/-- C39: in a listing tree in which no name of a directory holds a backslash and no
directory is taken for a later sibling by the comparison of `findDirectory`, for every
directory `d` other than the root `DirectoryListing::getPath(d)` and `d->getPath()`
both return, with the same path, and `findDirectory` on that path from the root
returns `d`. The comparison is any one that takes a name for itself; for the
comparison of equal strings the condition on the siblings says that their names are
distinct. -/
theorem findDirectory_getPath (sameName : Str → Str → Bool) (hrefl : ∀ n, sameName n n = true)
    (root x : Directory) (d : Pos) (hd : d ≠ []) (hx : getAt d root = some x)
    (hnames : root.namesApart sameName = true) :
    ∃ path, getPath root d = some path ∧ Directory.getPath root d = some path
      ∧ findDirectory sameName path root = some d :=
  ⟨pathOfNames (namesAlong d root), getPath_eq root x d hd hx,
    Directory.getPath_eq_names root x d hd hx,
    findDirectory_names sameName hrefl d root x hd hx hnames⟩

/-- In the tree `exPaths`, with names compared as strings, the directory `Queen` has
the path `Music\Rock\Queen\` by both functions, and the lookup of that path from the
root returns it. -/
theorem findDirectory_getPath_witness :
    (getAt [0, 0, 0] exPaths).map (fun x => x.name) = some (str "Queen")
    ∧ exPaths.namesApart (fun a b => a == b) = true
    ∧ getPath exPaths [0, 0, 0] = some (str "Music\\Rock\\Queen\\")
    ∧ ∃ path, getPath exPaths [0, 0, 0] = some path
        ∧ Directory.getPath exPaths [0, 0, 0] = some path
        ∧ findDirectory (fun a b => a == b) path exPaths = some [0, 0, 0] :=
  ⟨by rfl, by rfl, by rfl,
    findDirectory_getPath (fun a b => a == b) (fun n => by simp) exPaths
      (exDir (str "Queen") [] .nil) [0, 0, 0] (by decide) (by rfl) (by rfl)⟩

/-- With names compared up to case, the two directories `Music` and `music` of
`exTwins` have distinct names, and the lookup of the path of the second returns the
first. -/
theorem findDirectory_caseless_twins :
    Directory.getPath exTwins [1] = some (str "music\\")
    ∧ findDirectory stricmp (str "music\\") exTwins = some [0]
    ∧ findDirectory (fun a b => a == b) (str "music\\") exTwins = some [1] := by
  refine ⟨by rfl, by rfl, by rfl⟩

end DirectoryListing

namespace DirectoryListing

/-! ### The search in a loaded list -/

/-- C33: for a list that is not partial, the `SEARCH` branch of `run` looks the
directory of the task up and then searches from the root: whenever the directory is
found, the results are those of a search without a directory, whatever the directory
is. -/
theorem searchFullList_ignores_directory (sameName : Str → Str → Bool) (adl : Bool)
    (root : Directory) (curSearch : AdcSearch) (directory : Str) (p : Pos)
    (hdir : findDirectory sameName directory root = some p) :
    searchFullList sameName adl root curSearch directory
      = searchFullList sameName adl root curSearch [] := by
  unfold searchFullList
  by_cases he : directory.isEmpty = true
  · simp [he]
  · simp [he, hdir]

/-- On the list `exTwoAlbums` a search for any file in the directory `A\` reports
`/A/` and `/B/`, the latter lying outside `A`; a search from `A` itself reports
`/A/` alone. -/
theorem searchFullList_ignores_directory_witness :
    findDirectory (fun a b => a == b) (str "A\\") exTwoAlbums = some [0]
    ∧ searchFullList (fun a b => a == b) false exTwoAlbums exAnyFile (str "A\\")
        = [str "/A/", str "/B/"]
    ∧ searchFullList (fun a b => a == b) false exTwoAlbums exAnyFile []
        = [str "/A/", str "/B/"]
    ∧ (getAt [0] exTwoAlbums).map
        (fun d => Directory.search false 100 exAnyFile (some (str "\\", false)) d [])
        = some [str "/A/"] :=
  ⟨by rfl,
    (searchFullList_ignores_directory (fun a b => a == b) false exTwoAlbums exAnyFile
      (str "A\\") [0] (by rfl)).trans (by rfl),
    by rfl, by rfl⟩

end DirectoryListing

namespace ShareManager

/-! ### A refresh of a path that is not shared -/

/-- C34: when `refresh(const string&)` finds no share at the path and no root of that
virtual name, it returns `REFRESH_PATH_NOT_FOUND` with the flag `refreshing` set,
whatever the flag was on entry, and with a `REFRESH_DIR` task of no paths appended to
the queue, and no thread is started; a `refresh(bool, bool)` that follows returns
`REFRESH_IN_PROGRESS` and changes nothing. -/
theorem refreshPath_not_found_sets_flag (env : RefreshEnv) (m : Manager) (aDir : Str)
    (hpath : m.shares.find? (fun e => stricmp e.1
      (if aDir.getLast? ≠ some PATH_SEPARATOR then aDir ++ [PATH_SEPARATOR] else aDir)) = none)
    (hname : m.refreshByVirtualName aDir m.shares = .ok []) :
    m.refreshPath env aDir
      = .ok (.REFRESH_PATH_NOT_FOUND,
          { m with refreshing := true,
                   tasks := m.tasks ++ [(TaskType.REFRESH_DIR, [])] })
    ∧ ∀ incoming isStartup : Bool,
        Manager.refreshAll env
            { m with refreshing := true,
                     tasks := m.tasks ++ [(TaskType.REFRESH_DIR, [])] } incoming isStartup
          = .ok (.REFRESH_IN_PROGRESS,
              { m with refreshing := true,
                       tasks := m.tasks ++ [(TaskType.REFRESH_DIR, [])] }) := by
  have hpath1 := hpath
  simp only [ne_eq, ite_not] at hpath1
  constructor
  · simp [Manager.refreshPath, hpath1, hname, Manager.testAndSet]
  · intro incoming isStartup
    simp [Manager.refreshAll, Manager.testAndSet]

/-- On the share of `/song/` at rest, `refresh("nothing")` returns
`REFRESH_PATH_NOT_FOUND` and leaves the flag set and an empty task queued; the
`refresh(false, false)` that follows is answered with `REFRESH_IN_PROGRESS`, while on
the share at rest it starts a refresh. -/
theorem refreshPath_not_found_sets_flag_witness :
    exIdle.refreshing = false ∧ exIdle.tasks = []
    ∧ exIdle.refreshPath exRefreshEnv (str "nothing")
      = .ok (.REFRESH_PATH_NOT_FOUND, exAfterNotFound)
    ∧ exAfterNotFound.refreshAll exRefreshEnv false false
      = .ok (.REFRESH_IN_PROGRESS, exAfterNotFound)
    ∧ (exIdle.refreshAll exRefreshEnv false false).map (fun r => r.1) = .ok .REFRESH_STARTED :=
  have h := refreshPath_not_found_sets_flag exRefreshEnv exIdle (str "nothing")
    (by rfl) (by rfl)
  ⟨rfl, rfl, h.1, h.2 false false, by rfl⟩

end ShareManager

namespace ShareManager

/-! ### The virtual names of the roots of a loaded profile -/

theorem getName_assignProfile (profiles : List (ProfileToken × Str)) (aProfile : ProfileToken)
    (aName : Str) :
    (assignProfile profiles aProfile aName).find? (fun e => e.1 == aProfile)
      = some (aProfile, aName) := by
  unfold assignProfile
  split
  · rename_i h
    induction profiles with
    | nil => simp at h
    | cons x rest ih =>
      by_cases hx : (x.1 == aProfile) = true
      · simp only [List.map_cons, hx, if_true, List.find?_cons]
        have : x.1 = aProfile := by simpa using hx
        rw [this]
      · simp only [List.any_cons, hx, Bool.false_or] at h
        simp only [List.map_cons, hx, if_false, List.find?_cons, Bool.false_eq_true]
        exact ih h
  · rename_i h
    have hnone : profiles.find? (fun e => e.1 == aProfile) = none := by
      rw [List.find?_eq_none]
      intro x hx hxe
      exact h (List.any_eq_true.mpr ⟨x, hx, hxe⟩)
    simp [List.find?_append, hnone]

theorem rootName_loadRoot (env : LoadEnv) (hkey : ∀ p, env.sameKey p p = true)
    (aToken : ProfileToken) (st : Profiles) (e : RootElement) (hdata : e.data ≠ []) :
    (loadRoot env aToken st e).rootName env
        (if e.data.getLast? ≠ some PATH_SEPARATOR then e.data ++ [PATH_SEPARATOR] else e.data)
        aToken
      = some e.Virtual := by
  generalize hrp : (if e.data.getLast? ≠ some PATH_SEPARATOR then e.data ++ [PATH_SEPARATOR]
    else e.data) = realPath
  have hemp : e.data.isEmpty = false := by
    cases hd : e.data with
    | nil => exact absurd hd hdata
    | cons _ _ => rfl
  simp only [loadRoot, hemp, Bool.false_eq_true, if_false, hrp, Profiles.rootName]
  by_cases hfound : st.profileDirs.any (fun p => env.sameKey p.1 realPath) = true
  · simp only [hfound, if_true]
    generalize st.profileDirs = l at hfound
    induction l with
    | nil => simp at hfound
    | cons x rest ih =>
      by_cases hx : env.sameKey x.1 realPath = true
      · simp only [List.map_cons, hx, if_true, List.find?_cons, Option.map_some',
          Option.some.injEq]
        unfold ProfileDirectory.getName
        cases e.Incoming
        · simp only [Bool.false_eq_true, if_false, ProfileDirObj.addRootProfile,
            getName_assignProfile]
        · simp only [if_true, ProfileDirObj.addRootProfile, getName_assignProfile]
      · simp only [List.any_cons, hx, Bool.false_or] at hfound
        simp only [List.map_cons, hx, if_false, List.find?_cons, Bool.false_eq_true]
        exact ih hfound
  · simp only [hfound, if_false, Bool.false_eq_true]
    have hnone : st.profileDirs.find? (fun p => env.sameKey p.1 realPath) = none := by
      rw [List.find?_eq_none]
      intro x hx hxe
      exact hfound (List.any_eq_true.mpr ⟨x, hx, hxe⟩)
    simp only [List.find?_append, hnone, Option.none_or, List.find?_cons, hkey, Option.map_some',
      Option.some.injEq]
    unfold ProfileDirectory.getName
    cases e.Incoming <;> simp [ProfileDirObj.newRoot]

/-- C35: after `loadProfile` on a profile element with one `<Directory>` child of
non-empty data, the virtual name the profile has registered for the root at the real
path of the child is the attribute `Virtual` as it stands in the element:
`validateVirtual` is computed into `vName`, and the root is registered with
`virtualName`. -/
theorem loadProfile_registers_raw_virtual (env : LoadEnv) (hkey : ∀ p, env.sameKey p p = true)
    (st : Profiles) (aName : Str) (aToken : ProfileToken) (e : RootElement)
    (hdata : e.data ≠ []) :
    (loadProfile env st { directories := [e], noShare := none } aName aToken).rootName env
        (if e.data.getLast? ≠ some PATH_SEPARATOR then e.data ++ [PATH_SEPARATOR] else e.data)
        aToken
      = some e.Virtual := by
  simp only [loadProfile, List.foldl_cons, List.foldl_nil]
  exact rootName_loadRoot env hkey aToken _ e hdata

/-- The root `C:\music\` is registered as `a/b` when the attribute is `a/b`, where
`validateVirtual` gives `a_b`, and under the empty name when the attribute is empty,
where `validateVirtual` of the last directory gives `music`. -/
theorem loadProfile_registers_raw_virtual_witness :
    (loadProfile exLoadEnv ⟨[], [], []⟩
        { directories := [⟨str "C:\\music", str "a/b", false⟩], noShare := none }
        (str "Default") 0).rootName exLoadEnv (str "C:\\music\\") 0 = some (str "a/b")
    ∧ validateVirtual (str "a/b") = str "a_b"
    ∧ (loadProfile exLoadEnv ⟨[], [], []⟩
        { directories := [⟨str "C:\\music", [], false⟩], noShare := none }
        (str "Default") 0).rootName exLoadEnv (str "C:\\music\\") 0 = some []
    ∧ validateVirtual (exLoadEnv.getLastDir (str "C:\\music\\")) = str "music" :=
  ⟨loadProfile_registers_raw_virtual exLoadEnv (fun p => stricmp_self p) ⟨[], [], []⟩
      (str "Default") 0 ⟨str "C:\\music", str "a/b", false⟩ (by decide),
    by decide,
    loadProfile_registers_raw_virtual exLoadEnv (fun p => stricmp_self p) ⟨[], [], []⟩
      (str "Default") 0 ⟨str "C:\\music", [], false⟩ (by decide),
    by decide⟩

end ShareManager

/-! ### The include list of an ADC query after a search -/

/-- C36: the ADC `Directory::search` on the directory `song` with the query for the
token `song` and `maxResults = 1`: the token matches the name of the directory, so
`include` is pointed to the copy without it; the directory and then the file `a.txt`
are pushed, the limit is reached and the function returns from inside the file loop,
with `include` still referring to the copy, which holds no token, instead of the list
with the token `song` it referred to on entry. With `maxResults = 10` the function
runs to its end and `include` refers to the list of entry again. -/
theorem searchAdc_early_return_leaves_include :
    exSongQuery.includePtr = [StringSearch.new (str "song")]
    ∧ (Directory.searchAdc none 1 0 exSongDir [] exSongQuery).map
        (fun r => (r.1.map (fun x => x.file), r.2.includePtr))
      = .ok ([str "song\\", str "song\\a.txt"], [])
    ∧ (Directory.searchAdc none 10 0 exSongDir [] exSongQuery).map
        (fun r => (r.1.map (fun x => x.file), r.2.includePtr))
      = .ok ([str "song\\", str "song\\a.txt"], [StringSearch.new (str "song")]) := by
  refine ⟨by rfl, by rfl, by rfl⟩

namespace ShareManager

/-! ### The size limit of shared files -/

theorem checkSharedName_limit (env : NameEnv) (aPath : Str) (s M : Int)
    (hok : checkSharedName { env with MAX_FILE_SIZE_SHARED := 0 } aPath false s = true) :
    checkSharedName { env with MAX_FILE_SIZE_SHARED := M } aPath false s
      = !(M != 0 && decide (s > mulInt32 (mulInt32 M 1024) 1024)) := by
  simp only [checkSharedName, Bool.not_false, if_true, Bool.false_eq_true, if_false] at hok ⊢
  by_cases h2 : Util.getFileName aPath = str "." ∨ Util.getFileName aPath = str ".."
  · simp only [h2, if_true] at hok
    cases hok
  simp only [h2, if_false] at hok ⊢
  by_cases h3 : env.skipListMatch (Util.getFileName aPath) = true
  · simp only [h3, if_true] at hok
    cases hok
  simp only [h3, if_false] at hok ⊢
  by_cases h4 : (strcmpEq (Text.toLower (Util.getFileName aPath)) (str "dcplusplus.xml")
      || strcmpEq (Text.toLower (Util.getFileName aPath)) (str "favorites.xml")
      || strcmpEq (Util.getFileExt (Text.toLower (Util.getFileName aPath))) (str ".dctmp")
      || strcmpEq (Util.getFileExt (Text.toLower (Util.getFileName aPath))) (str ".antifrag"))
      = true
  · simp only [h4, if_true] at hok
    cases hok
  simp only [h4, if_false] at hok ⊢
  by_cases h5 : (env.REMOVE_FORBIDDEN
      && forbiddenPattern (Text.toLower (Util.getFileName aPath))) = true
  · simp only [h5, if_true] at hok
    cases hok
  simp only [h5, if_false] at hok ⊢
  by_cases h6 : stricmp aPath env.privKeyFile = true
  · simp only [h6, if_true] at hok
    cases hok
  simp only [h6, if_false] at hok ⊢
  by_cases h7 : (env.NO_ZERO_BYTE && !decide (s > 0)) = true
  · simp only [h7, if_true] at hok
    cases hok
  simp only [h7, if_false]
  cases hc : (M != 0 && decide (s > mulInt32 (mulInt32 M 1024) 1024)) <;> simp

/-- C37: for a file that passes every other rule of `checkSharedName`, a limit
`MAX_FILE_SIZE_SHARED = M` with `0 < M < 2048` rejects the file exactly when its size
exceeds `M * 1048576`; with `M = 2048` the product `M*1024*1024` of `int` values is
`2^31`, which 32 bits hold as `-2^31`, and every file of size 0 or more is rejected. -/
theorem checkSharedName_max_size_wraps (env : NameEnv) (aPath : Str) (s : Int)
    (hok : checkSharedName { env with MAX_FILE_SIZE_SHARED := 0 } aPath false s = true) :
    (∀ M : Int, 0 < M → M < 2048 →
      checkSharedName { env with MAX_FILE_SIZE_SHARED := M } aPath false s
        = decide (s ≤ M * 1048576))
    ∧ (0 ≤ s → checkSharedName { env with MAX_FILE_SIZE_SHARED := 2048 } aPath false s = false) := by
  constructor
  · intro M h0 h1
    rw [checkSharedName_limit env aPath s M hok,
      DirectoryListing.mulInt32_eq M 1024 (by omega) (by omega),
      DirectoryListing.mulInt32_eq (M * 1024) 1024 (by omega) (by omega)]
    have hM : (M != 0) = true := by simp; omega
    rw [hM, Bool.true_and]
    by_cases hs : s ≤ M * 1048576
    · have : ¬ (s > M * 1024 * 1024) := by omega
      simp [hs, this]
    · have : s > M * 1024 * 1024 := by omega
      simp [hs, this]
  · intro hs
    rw [checkSharedName_limit env aPath s 2048 hok]
    have h : mulInt32 (mulInt32 2048 1024) 1024 = -2147483648 := by decide
    rw [h]
    have : s > -2147483648 := by omega
    simp [this]

/-- Under the settings `exNameEnv` the file `C:\share\a.bin` of one byte is shared
without a limit and with a limit of 2047 MiB, and rejected with a limit of 2048 MiB. -/
theorem checkSharedName_max_size_wraps_witness :
    checkSharedName exNameEnv (str "C:\\share\\a.bin") false 1 = true
    ∧ checkSharedName { exNameEnv with MAX_FILE_SIZE_SHARED := 2047 }
        (str "C:\\share\\a.bin") false 1 = true
    ∧ checkSharedName { exNameEnv with MAX_FILE_SIZE_SHARED := 2048 }
        (str "C:\\share\\a.bin") false 1 = false :=
  have h := checkSharedName_max_size_wraps exNameEnv (str "C:\\share\\a.bin") 1 (by rfl)
  ⟨by rfl, (h.1 2047 (by decide) (by decide)).trans (by decide), h.2 (by decide)⟩

end ShareManager

namespace ShareManager

/-! ### The size of the share after a bundle has been hashed -/

/-- C38: on the share `exStale`, `rebuildIndices` leaves `sharedSize` at 7, the size of
the one reachable file; when the bundle `C:\a\b\` is hashed after that and the scan
finds the same file, `cleanIndices` takes the file out of the TTH index and leaves
`sharedSize` as it is, `updateIndices` adds the 7 bytes again, and `sharedSize` is 14
while the reachable files still sum to 7. A file hashed into that directory before
the bundle is counted as well. -/
theorem onBundleHashed_counts_files_again :
    (exStale.rebuildIndices exShareEnv).sharedSize = 7
    ∧ (exStale.rebuildIndices exShareEnv).reachableSize exShareEnv = 7
    ∧ ((exStale.rebuildIndices exShareEnv).onBundleHashed exShareEnv (str "C:\\a\\b\\")
        exSameScan).map (fun m => (m.sharedSize, m.reachableSize exShareEnv)) = .ok (14, 7)
    ∧ ((exStale.rebuildIndices exShareEnv).onAllHashed exShareEnv (exHashed.take 2)).map
        (fun m => (m.sharedSize, m.reachableSize exShareEnv)) = .ok (21, 11) := by
  refine ⟨by rfl, by rfl, by rfl, by rfl⟩

end ShareManager

namespace DirectoryListing

/-! ### The size of a directory outside the directories flagged `adls` -/

mutual
theorem getTotalSize_noAdls : ∀ (d : Directory) (adl : Bool), d.findIncomplete = false →
    d.noAdlsBelow = true → d.getTotalSize adl = d.sizeOutsideAdls
  | .mk n c ps dt ad du fs ds, adl, hc, hn => by
    simp only [Directory.findIncomplete] at hc
    cases c with
    | false => simp at hc
    | true =>
      simp only [Bool.not_true, Bool.false_eq_true, if_false] at hc
      simp only [Directory.getTotalSize, Bool.not_true, Bool.false_eq_true, if_false,
        Directory.sizeOutsideAdls]
      rw [getTotalSize_noAdls_list ds adl ad hc hn]
theorem getTotalSize_noAdls_list : ∀ (ds : DirList) (adl adls : Bool),
    ds.findIncomplete = false → ds.noAdls = true →
    DirList.getTotalSize adl adls ds = ds.sizeOutsideAdls
  | .nil, _, _, _, _ => rfl
  | .cons d rest, adl, adls, hc, hn => by
    simp only [DirList.findIncomplete, Bool.or_eq_false_iff] at hc
    simp only [DirList.noAdls, Bool.and_eq_true, Bool.not_eq_true'] at hn
    simp only [DirList.getTotalSize, DirList.sizeOutsideAdls, hn.1.1, Bool.and_false,
      Bool.not_false, if_true, Bool.false_eq_true, if_false]
    rw [getTotalSize_noAdls d adls hc.1 hn.1.2, getTotalSize_noAdls_list rest adl adls hc.2 hn.2]
end

end DirectoryListing

namespace DirectoryListing

/-! ### What the subtraction of a list removes -/

theorem length_ne_zero_of_mem_allDirs (d x : Directory) (h : x ∈ d.allDirs) :
    d.files.length + d.directories.length ≠ 0 := by
  rw [allDirs_eq] at h
  cases hd : d.directories with
  | nil => rw [hd] at h; simp [DirList.allDirs] at h
  | cons a rest => simp [DirList.length]

theorem length_ne_zero_of_mem_files (d : Directory) (f : File) (h : f ∈ d.files) :
    d.files.length + d.directories.length ≠ 0 := by
  have : 0 < d.files.length := List.length_pos_of_mem h
  omega

mutual
theorem filterList_removed_tree (S : Int) (l : List TTHValue) : ∀ (d : Directory),
    ∀ e ∈ d :: d.allDirs, ∀ f ∈ e.files,
      (f ∈ (e.filterList S l).files
        ∧ e.filterList S l ∈ d.filterList S l :: (d.filterList S l).allDirs)
      ∨ f.tthRoot ∈ l
      ∨ (S > 0 ∧ (e.files.filter (fun x => !(l.contains x.tthRoot))).length < 2
          ∧ f.size < mulInt32 S 1024)
  | .mk n c ps dt ad du fs ds => by
    intro e he f hf
    rw [List.mem_cons] at he
    rcases he with he | he
    · subst he
      rcases removed_files_filterList S l (.mk n c ps dt ad du fs ds) f hf with h | h | h
      · exact Or.inl ⟨h, List.mem_cons_self _ _⟩
      · exact Or.inr (Or.inl h)
      · exact Or.inr (Or.inr h)
    · have he1 : e ∈ ds.allDirs := he
      rcases filterList_removed_list S l ds e he1 f hf with h | h | h
      · refine Or.inl ⟨h.1, List.mem_cons_of_mem _ ?_⟩
        rw [allDirs_eq, directories_filterList]
        exact h.2
      · exact Or.inr (Or.inl h)
      · exact Or.inr (Or.inr h)
theorem filterList_removed_list (S : Int) (l : List TTHValue) : ∀ (ds : DirList),
    ∀ e ∈ ds.allDirs, ∀ f ∈ e.files,
      (f ∈ (e.filterList S l).files ∧ e.filterList S l ∈ (ds.filterList S l).allDirs)
      ∨ f.tthRoot ∈ l
      ∨ (S > 0 ∧ (e.files.filter (fun x => !(l.contains x.tthRoot))).length < 2
          ∧ f.size < mulInt32 S 1024)
  | .nil => by
    intro e he
    simp [DirList.allDirs] at he
  | .cons d rest => by
    intro e he f hf
    have he1 : e ∈ d :: d.allDirs ∨ e ∈ rest.allDirs := by
      simp only [DirList.allDirs, List.mem_cons, List.mem_append] at he
      rcases he with he | he | he
      · exact Or.inl (List.mem_cons.mpr (Or.inl he))
      · exact Or.inl (List.mem_cons.mpr (Or.inr he))
      · exact Or.inr he
    rcases he1 with he1 | he1
    · rcases filterList_removed_tree S l d e he1 f hf with h | h | h
      · have hne : (d.filterList S l).files.length + (d.filterList S l).directories.length ≠ 0 := by
          rcases List.mem_cons.mp h.2 with h2 | h2
          · rw [← h2]
            exact length_ne_zero_of_mem_files _ f h.1
          · exact length_ne_zero_of_mem_allDirs _ _ h2
        have heq : (DirList.cons d rest).filterList S l
            = .cons (d.filterList S l) (rest.filterList S l) := by
          simp only [DirList.filterList, hne, if_false]
        refine Or.inl ⟨h.1, ?_⟩
        rw [heq]
        simp only [DirList.allDirs, List.mem_cons, List.mem_append]
        rcases List.mem_cons.mp h.2 with h2 | h2
        · exact Or.inl h2
        · exact Or.inr (Or.inl h2)
      · exact Or.inr (Or.inl h)
      · exact Or.inr (Or.inr h)
    · rcases filterList_removed_list S l rest e he1 f hf with h | h | h
      · refine Or.inl ⟨h.1, ?_⟩
        by_cases hemp : (d.filterList S l).files.length
            + (d.filterList S l).directories.length = 0
        · have heq : (DirList.cons d rest).filterList S l = rest.filterList S l := by
            simp only [DirList.filterList, hemp, if_true]
          rw [heq]
          exact h.2
        · have heq : (DirList.cons d rest).filterList S l
              = .cons (d.filterList S l) (rest.filterList S l) := by
            simp only [DirList.filterList, hemp, if_false]
          rw [heq]
          simp only [DirList.allDirs, List.mem_cons, List.mem_append]
          exact Or.inr (Or.inr h.2)
      · exact Or.inr (Or.inl h)
      · exact Or.inr (Or.inr h)
end

theorem mulInt32_wraps : mulInt32 2097152 1024 = -2147483648 := by decide

/-- C27: after `root->filterList(other)` no file left in the tree has a TTH that a file
of the other listing has, and no directory left below the root is without files and
subdirectories. As long as `SKIP_SUBTRACT * 1024` fits the `int` it is computed in,
every file of a directory of the tree is still in that directory, which is still in the
tree, or has the TTH of a file of the other listing, or was taken by the skip-subtract
rule (`SKIP_SUBTRACT > 0`, fewer than 2 files were left in its directory when those with
such a TTH were gone, and its size is below `SKIP_SUBTRACT * 1024`); and with
`SKIP_SUBTRACT > 0` a directory left with fewer than 2 files, the root included, holds
no file smaller than `SKIP_SUBTRACT * 1024`. With `SKIP_SUBTRACT = 2097152` the product
is `2^31`, which 32 bits hold as `-2^31`: a file of 0 bytes or more that is alone in its
directory stays, whatever its size. -/
theorem filterList_subtracts (S : Int) (other : Listing) (root : Directory) :
    (∀ f ∈ (root.filterListing S other).allFiles, ∀ g ∈ other.root.allFiles,
        f.tthRoot ≠ g.tthRoot)
    ∧ (∀ e ∈ (root.filterListing S other).allDirs, ¬ (e.files = [] ∧ e.directories = .nil))
    ∧ (S * 1024 < 2 ^ 31 →
        (∀ e ∈ root :: root.allDirs, ∀ f ∈ e.files,
          (f ∈ (e.filterListing S other).files
            ∧ e.filterListing S other
                ∈ root.filterListing S other :: (root.filterListing S other).allDirs)
          ∨ (∃ g ∈ other.root.allFiles, g.tthRoot = f.tthRoot)
          ∨ (S > 0
            ∧ (e.files.filter
                (fun x => !((other.root.getHashList []).contains x.tthRoot))).length < 2
            ∧ f.size < S * 1024))
        ∧ (S > 0 → ∀ e ∈ root.filterListing S other :: (root.filterListing S other).allDirs,
            e.files.length < 2 → ∀ f ∈ e.files, ¬ f.size < S * 1024))
    ∧ (∀ (f : File) (name : Str) (complete : Bool) (partialSize : Int) (date : Nat)
        (adls : Bool) (dupe : DupeType), 0 ≤ f.size →
        f.tthRoot ∉ other.root.getHashList [] →
        (Directory.mk name complete partialSize date adls dupe [f] .nil).filterListing
            2097152 other
          = .mk name complete partialSize date adls dupe [f] .nil) := by
  have hl : ∀ x : TTHValue, x ∈ other.root.getHashList [] ↔
      ∃ g ∈ other.root.allFiles, g.tthRoot = x := by
    intro x
    rw [mem_getHashList]
    simp
  obtain ⟨h1, h2, h3, _⟩ := filterList_tree S (other.root.getHashList []) root
  refine ⟨?_, ?_, ?_, ?_⟩
  · intro f hf g hg heq
    exact h1 f hf ((hl _).mpr ⟨g, hg, heq.symm⟩)
  · intro e he hemp
    apply h2 e he
    rw [hemp.1, hemp.2]
    rfl
  · intro hfit
    have hmul : S > 0 → mulInt32 S 1024 = S * 1024 := fun hS =>
      mulInt32_eq S 1024 (by norm_num; omega) hfit
    constructor
    · intro e he f hf
      rcases filterList_removed_tree S (other.root.getHashList []) root e he f hf with h | h | h
      · exact Or.inl h
      · exact Or.inr (Or.inl ((hl _).mp h))
      · exact Or.inr (Or.inr ⟨h.1, h.2.1, by rw [← hmul h.1]; exact h.2.2⟩)
    · intro hS e he hlen f hf
      rw [← hmul hS]
      exact h3 e he hS hlen f hf
  · intro f name complete partialSize date adls dupe hsize htth
    have hs : ¬ f.size < -2147483648 := by omega
    simp [Directory.filterListing, Directory.filterList, DirList.filterList,
      mulInt32_wraps, hs, htth, List.filter_cons]

/-- With `SKIP_SUBTRACT = 1`, subtracting `exOther` from `exMine` leaves `keep` with
the file `b` alone: `a` goes everywhere, `tiny` goes by the skip-subtract rule, and
the directories `small` and `gone`, left empty, go as well. With
`SKIP_SUBTRACT = 2097152` the directory `lone` keeps its file of 1 byte, which is
smaller than `2097152 * 1024`. -/
theorem filterList_subtracts_witness :
    exMine.filterListing 1 exOther
        = exDir [] [] (.cons (exDir (str "keep")
            [{ name := str "b", size := 4096, tthRoot := str "b", adls := false,
                dupe := .DUPE_NONE }] .nil) .nil)
    ∧ (∀ f ∈ (exMine.filterListing 1 exOther).allFiles, ∀ g ∈ exOther.root.allFiles,
        f.tthRoot ≠ g.tthRoot)
    ∧ ((1 : Int) > 0 → ∀ e ∈ exMine.filterListing 1 exOther
          :: (exMine.filterListing 1 exOther).allDirs,
        e.files.length < 2 → ∀ f ∈ e.files, ¬ f.size < 1 * 1024)
    ∧ exLone.filterListing 2097152 exOther = exLone
    ∧ exLone.files.length < 2
    ∧ (∀ f ∈ exLone.files, f.size < 2097152 * 1024) :=
  ⟨by rfl,
    (filterList_subtracts 1 exOther exMine).1,
    ((filterList_subtracts 1 exOther exMine).2.2.1 (by norm_num)).2,
    (filterList_subtracts 2097152 exOther exLone).2.2.2 (exFile (str "tiny") .DUPE_NONE)
      (str "lone") true 0 0 false .DUPE_NONE (by decide) (by decide),
    by decide, by decide⟩

end DirectoryListing

namespace DirectoryListing

/-! ### The document of a share and its virtual tree -/

theorem find_replace_other (K v : Str) (hK : (str "Date" == K) = false) :
    ∀ (a : List (Str × Str)),
    (a.map (fun x => if x.1 == str "Date" then (x.1, v) else x)).find? (fun x => x.1 == K)
      = a.find? (fun x => x.1 == K)
  | [] => rfl
  | x :: rest => by
    by_cases hx : (x.1 == str "Date") = true
    · have hx2 : (x.1 == K) = false := by
        have h : x.1 = str "Date" := eq_of_beq hx
        rw [h]; exact hK
      have hx3 : ((x.1, v).1 == K) = false := hx2
      simp only [List.map_cons, hx, if_true, List.find?_cons, hx2, hx3]
      exact find_replace_other K v hK rest
    · simp only [Bool.not_eq_true] at hx
      simp only [List.map_cons, hx, Bool.false_eq_true, if_false, List.find?_cons]
      cases (x.1 == K) with
      | true => rfl
      | false => exact find_replace_other K v hK rest

theorem find_drop_snoc (p : Str × Str → Bool) (x : Str × Str) (hx : p x = false) :
    ∀ (a : List (Str × Str)) (h : Nat), ((a ++ [x]).drop h).find? p = (a.drop h).find? p
  | [], 0 => by simp [hx]
  | [], h + 1 => by simp
  | y :: rest, 0 => by
    rw [List.drop_zero, List.drop_zero, List.find?_append]
    simp [hx]
  | y :: rest, h + 1 => by simpa using find_drop_snoc p x hx rest h

theorem find_take_snoc (p : Str × Str → Bool) (x : Str × Str) (hx : p x = false) :
    ∀ (a : List (Str × Str)) (h : Nat), ((a ++ [x]).take h).find? p = (a.take h).find? p
  | [], 0 => by simp
  | [], h + 1 => by simp [hx]
  | y :: rest, 0 => by simp
  | y :: rest, h + 1 => by
    simp only [List.cons_append, List.take_succ_cons, List.find?_cons]
    cases p y with
    | true => rfl
    | false => exact find_take_snoc p x hx rest h

theorem getAttrib_replace_other (t : XmlTag) (v K : Str) (hint : Nat)
    (hK : (str "Date" == K) = false) :
    getAttrib (t.replaceChildAttrib (str "Date") v).attribs K hint
      = getAttrib t.attribs K hint := by
  cases t with
  | mk n a f c =>
    simp only [XmlTag.replaceChildAttrib]
    split
    · simp only [XmlTag.attribs, getAttrib, ← List.map_drop, ← List.map_take,
        find_replace_other K v hK]
    · have hx : (fun (y : Str × Str) => y.1 == K) (str "Date", v) = false := hK
      simp only [XmlTag.attribs, getAttrib,
        find_drop_snoc (fun y => y.1 == K) (str "Date", v) hx,
        find_take_snoc (fun y => y.1 == K) (str "Date", v) hx]

theorem mirrorTag_replaceChildAttrib (t : XmlTag) (v : Str) (c : XmlList) :
    mirrorTag ((t.replaceChildAttrib (str "Date") v).setChildren c)
      = mirrorTag (t.setChildren c) := by
  have h0 := getAttrib_replace_other t v sName 0 (by decide)
  have h1 := getAttrib_replace_other t v sIncomplete 1 (by decide)
  have h2 := getAttrib_replace_other t v sSize 2 (by decide)
  cases t with
  | mk n a f c0 =>
    cases hr : XmlTag.replaceChildAttrib (str "Date") v (.mk n a f c0) with
    | mk n1 a1 f1 c1 =>
      rw [hr] at h0 h1 h2
      simp only [XmlTag.attribs] at h0 h1 h2
      simp only [XmlTag.setChildren, mirrorTag, XmlTag.attribs, XmlTag.children, h0, h1, h2]

theorem name_setChildren (t : XmlTag) (c : XmlList) : (t.setChildren c).name = t.name := by
  cases t
  rfl

theorem mirrorTag_setChildren (t : XmlTag) (c : XmlList) :
    mirrorTag (t.setChildren c)
      = ((mirrorTag t).setDirectories (mirrorDirs c)).setFiles (mirrorFiles c) := by
  cases t
  rfl

theorem mirrorDirs_cons_tag (t : XmlTag) (rest : XmlList) (hn : t.name = str "Directory") :
    mirrorDirs (.cons t rest) = .cons (mirrorTag t) (mirrorDirs rest) := by
  cases t with
  | mk n a f c =>
    simp only [XmlTag.name] at hn
    subst hn
    simp only [mirrorDirs, show str "Directory" = sDirectory from rfl, if_true, mirrorTag,
      XmlTag.attribs, XmlTag.children]

theorem mirrorDirs_cons_other (t : XmlTag) (rest : XmlList) (hn : ¬ t.name = str "Directory") :
    mirrorDirs (.cons t rest) = mirrorDirs rest := by
  cases t with
  | mk n a f c =>
    simp only [XmlTag.name] at hn
    have hn2 : ¬ n = sDirectory := hn
    simp only [mirrorDirs, hn2, if_false]

theorem mirrorFiles_cons_tag (t : XmlTag) (rest : XmlList) (hn : t.name = str "Directory") :
    mirrorFiles (.cons t rest) = mirrorFiles rest := by
  cases t with
  | mk n a f c =>
    simp only [XmlTag.name] at hn
    subst hn
    have hne : ¬ (str "Directory" = sFile) := by decide
    simp only [mirrorFiles, hne, if_false]

theorem mirrorDirs_cons_mk (a : List (Str × Str)) (f : Bool) (c rest : XmlList) :
    mirrorDirs (.cons (.mk (str "Directory") a f c) rest)
      = .cons (mirrorTag (.mk (str "Directory") a f c)) (mirrorDirs rest) :=
  mirrorDirs_cons_tag (.mk (str "Directory") a f c) rest rfl

theorem mirrorFiles_cons_mk (a : List (Str × Str)) (f : Bool) (c rest : XmlList) :
    mirrorFiles (.cons (.mk (str "Directory") a f c) rest) = mirrorFiles rest :=
  mirrorFiles_cons_tag (.mk (str "Directory") a f c) rest rfl

theorem mirrorDirs_push : ∀ (x : XmlList) (t : XmlTag),
    mirrorDirs (x.push t) = (mirrorDirs x).append (mirrorDirs (.cons t .nil))
  | .nil, t => by simp [XmlList.push, mirrorDirs, DirList.append]
  | .cons a rest, t => by
    rw [XmlList.push, mirrorDirs_cons, mirrorDirs_push rest t, mirrorDirs_cons a rest,
      DirList.append_assoc]

theorem mirrorDirs_filesToXml : ∀ (files : List dcpp.File) (x : XmlList),
    mirrorDirs (filesToXml files x) = mirrorDirs x
  | [], x => by simp [filesToXml]
  | f :: rest, x => by
    have hne : ¬ (XmlTag.mk (str "File")
        [(str "Name", f.name), (str "Size", Util.toString f.size), (str "TTH", f.tth)] false
        .nil).name = str "Directory" := by
      show ¬ (str "File" = str "Directory")
      decide
    rw [filesToXml, mirrorDirs_filesToXml rest, mirrorDirs_push,
      mirrorDirs_cons_other _ _ hne]
    simp only [mirrorDirs, DirList.append_nil]

theorem mirrorTag_name (t : XmlTag) : (mirrorTag t).name = t.getChildAttrib (str "Name") := by
  simp only [mirrorTag, Directory.name, getAttrib_zero, XmlTag.getChildAttrib]
  rfl

theorem mirror_findDirectory_none (v : Str) : ∀ (x : XmlList),
    x.findDirectory v = none → (mirrorDirs x).findIdx? (fun r => stricmp r.name v) = none
  | .nil, _ => by simp [mirrorDirs, DirList.findIdx?]
  | .cons a rest, h => by
    simp only [XmlList.findDirectory] at h
    split at h
    · simp at h
    · rename_i hc
      have hrest : rest.findDirectory v = none := by
        cases hr : rest.findDirectory v with
        | none => rfl
        | some j => simp [hr] at h
      have ih := mirror_findDirectory_none v rest hrest
      by_cases hn : a.name = str "Directory"
      · have hp : stricmp (mirrorTag a).name v = false := by
          rw [mirrorTag_name]
          cases hs : stricmp (a.getChildAttrib (str "Name")) v with
          | false => rfl
          | true => exact absurd ⟨hn, hs⟩ hc
        simp only [mirrorDirs_cons_tag a rest hn, DirList.findIdx?, hp, Bool.false_eq_true,
          if_false, ih, Option.map_none']
      · rw [mirrorDirs_cons_other a rest hn]
        exact ih

theorem mirror_findDirectory_some (v : Str) : ∀ (x : XmlList) (k : Nat),
    x.findDirectory v = some k →
    ∃ (t : XmlTag) (j : Nat), x.get? k = some t ∧ t.name = str "Directory"
      ∧ (mirrorDirs x).findIdx? (fun r => stricmp r.name v) = some j
      ∧ (mirrorDirs x).get? j = some (mirrorTag t)
      ∧ ∀ (g : XmlTag → XmlTag), (g t).name = str "Directory" →
          mirrorDirs (x.modify g k) = (mirrorDirs x).modify (fun _ => mirrorTag (g t)) j
          ∧ mirrorFiles (x.modify g k) = mirrorFiles x
  | .nil, _, h => by simp [XmlList.findDirectory] at h
  | .cons a rest, k, h => by
    simp only [XmlList.findDirectory] at h
    split at h
    · rename_i hc
      simp only [Option.some.injEq] at h
      subst h
      have hp : stricmp (mirrorTag a).name v = true := by
        rw [mirrorTag_name]; exact hc.2
      refine ⟨a, 0, rfl, hc.1, ?_, ?_, ?_⟩
      · simp only [mirrorDirs_cons_tag a rest hc.1, DirList.findIdx?, hp, if_true]
      · simp only [mirrorDirs_cons_tag a rest hc.1, DirList.get?]
      · intro g hg
        simp only [XmlList.modify, mirrorDirs_cons_tag a rest hc.1,
          mirrorDirs_cons_tag (g a) rest hg, DirList.modify, mirrorFiles_cons_tag a rest hc.1,
          mirrorFiles_cons_tag (g a) rest hg, and_self]
    · rename_i hc
      cases hr : rest.findDirectory v with
      | none => simp [hr] at h
      | some i =>
        simp only [hr, Option.map_some', Option.some.injEq] at h
        subst h
        obtain ⟨t, j, hget, hname, hfind, hgetj, hmod⟩ := mirror_findDirectory_some v rest i hr
        by_cases hn : a.name = str "Directory"
        · have hp : stricmp (mirrorTag a).name v = false := by
            rw [mirrorTag_name]
            cases hs : stricmp (a.getChildAttrib (str "Name")) v with
            | false => rfl
            | true => exact absurd ⟨hn, hs⟩ hc
          refine ⟨t, j + 1, by simpa [XmlList.get?] using hget, hname, ?_, ?_, ?_⟩
          · simp only [mirrorDirs_cons_tag a rest hn, DirList.findIdx?, hp, Bool.false_eq_true,
              if_false, hfind, Option.map_some']
          · simp only [mirrorDirs_cons_tag a rest hn, DirList.get?, hgetj]
          · intro g hg
            obtain ⟨h1, h2⟩ := hmod g hg
            simp only [XmlList.modify, mirrorDirs_cons_tag a _ hn, DirList.modify, h1,
              mirrorFiles_cons_tag a _ hn, h2, and_self]
        · refine ⟨t, j, by simpa [XmlList.get?] using hget, hname, ?_, ?_, ?_⟩
          · rw [mirrorDirs_cons_other a rest hn]; exact hfind
          · rw [mirrorDirs_cons_other a rest hn]; exact hgetj
          · intro g hg
            obtain ⟨h1, h2⟩ := hmod g hg
            refine ⟨?_, ?_⟩
            · simp only [XmlList.modify, mirrorDirs_cons_other a _ hn, h1]
            · simp only [XmlList.modify]
              rw [mirrorFiles_cons, h2, ← mirrorFiles_cons]

theorem mirrorFiles_listed (files : List dcpp.File) (x : XmlList) :
    mirrorFiles (filesToXml files x) = mirrorFiles x ++ files.map dcpp.File.listed :=
  mirrorFiles_filesToXml files x

mutual
theorem mirror_toXml (aProfile : ProfileToken) : ∀ (d : dcpp.Directory) (x : XmlList),
    mirrorDirs (d.toXml aProfile x) = d.virtualInto aProfile (mirrorDirs x)
      ∧ mirrorFiles (d.toXml aProfile x) = mirrorFiles x
  | .mk realName profileDir fileTypes size lastWrite files directories, x => by
    simp only [dcpp.Directory.toXml, dcpp.Directory.virtualInto]
    cases hfind : x.findDirectory
      ((dcpp.Directory.mk realName profileDir fileTypes size lastWrite files
        directories).getVirtualName aProfile) with
    | some k =>
      obtain ⟨t, j, hget, hname, hidx, hgetj, hmod⟩ := mirror_findDirectory_some _ x k hfind
      simp only [hidx]
      have hg := hmod (fun t =>
        (if !(t.getChildAttrib (str "Date")).isEmpty
            ∧ Util.toUInt32 (t.getChildAttrib (str "Date")) < lastWrite then
          t.replaceChildAttrib (str "Date") (Util.toStringNat lastWrite)
        else t).setChildren (filesToXml files (dcpp.DirList.toXml aProfile directories
          (if !(t.getChildAttrib (str "Date")).isEmpty
              ∧ Util.toUInt32 (t.getChildAttrib (str "Date")) < lastWrite then
            t.replaceChildAttrib (str "Date") (Util.toStringNat lastWrite)
          else t).children))) (by
            beta_reduce
            rw [name_setChildren]
            split
            · rw [name_replaceChildAttrib]; exact hname
            · exact hname)
      refine ⟨?_, hg.2⟩
      rw [hg.1]
      apply DirList.modify_congr
      intro c hc
      rw [hgetj] at hc
      simp only [Option.some.injEq] at hc
      subst hc
      obtain ⟨ih1, ih2⟩ := mirror_toXml_list aProfile directories t.children
      beta_reduce
      by_cases hcond : (!(t.getChildAttrib (str "Date")).isEmpty) = true
          ∧ Util.toUInt32 (t.getChildAttrib (str "Date")) < lastWrite
      · rw [if_pos hcond, mirrorTag_replaceChildAttrib, children_replaceChildAttrib,
          mirrorTag_setChildren, mirrorDirs_filesToXml, mirrorFiles_listed, ih1, ih2]
        cases t
        rfl
      · rw [if_neg hcond, mirrorTag_setChildren, mirrorDirs_filesToXml, mirrorFiles_listed,
          ih1, ih2]
        cases t
        rfl
    | none =>
      have hidx := mirror_findDirectory_none _ x hfind
      obtain ⟨ih1, ih2⟩ := mirror_toXml_list aProfile directories .nil
      simp only [hidx]
      refine ⟨?_, ?_⟩
      · rw [mirrorDirs_push, mirrorDirs_cons_mk, DirList.push_eq_append]
        simp only [mirrorDirs, mirrorTag, XmlTag.attribs, XmlTag.children,
          mirrorDirs_filesToXml, mirrorFiles_listed, ih1, ih2, mirrorFiles, List.nil_append]
        rfl
      · rw [mirrorFiles_push, mirrorFiles_cons_mk]
        simp [mirrorFiles]
theorem mirror_toXml_list (aProfile : ProfileToken) : ∀ (ds : dcpp.DirList) (x : XmlList),
    mirrorDirs (ds.toXml aProfile x) = ds.virtualInto aProfile (mirrorDirs x)
      ∧ mirrorFiles (ds.toXml aProfile x) = mirrorFiles x
  | .nil, x => by simp [dcpp.DirList.toXml, dcpp.DirList.virtualInto]
  | .cons d rest, x => by
    simp only [dcpp.DirList.toXml, dcpp.DirList.virtualInto]
    split
    · exact mirror_toXml_list aProfile rest x
    · obtain ⟨h1, h2⟩ := mirror_toXml aProfile d x
      obtain ⟨h3, h4⟩ := mirror_toXml_list aProfile rest (d.toXml aProfile x)
      rw [h3, h4, h1, h2]
      exact ⟨rfl, rfl⟩
end

end DirectoryListing

namespace DirectoryListing

theorem DirList.toList_append : ∀ (a b : DirList), (a.append b).toList = a.toList ++ b.toList
  | .nil, _ => rfl
  | .cons d rest, b => by simp [DirList.append, DirList.toList, DirList.toList_append rest b]

theorem DirList.mem_toList_push (ds : DirList) (d e : Directory) (h : e ∈ ds.toList ∨ e = d) :
    e ∈ (ds.push d).toList := by
  rw [DirList.push_eq_append, DirList.toList_append]
  simpa [DirList.toList] using h

theorem DirList.mem_toList_modify (g : Directory → Directory) :
    ∀ (ds : DirList) (k : Nat) (e : Directory), e ∈ ds.toList →
      e ∈ (ds.modify g k).toList ∨ g e ∈ (ds.modify g k).toList
  | .nil, _, _, h => by simp [DirList.toList] at h
  | .cons d rest, 0, e, h => by
    simp only [DirList.toList, List.mem_cons] at h
    simp only [DirList.modify, DirList.toList, List.mem_cons]
    rcases h with rfl | h
    · exact Or.inr (Or.inl rfl)
    · exact Or.inl (Or.inr h)
  | .cons d rest, k + 1, e, h => by
    simp only [DirList.toList, List.mem_cons] at h
    simp only [DirList.modify, DirList.toList, List.mem_cons]
    rcases h with rfl | h
    · exact Or.inl (Or.inl rfl)
    · rcases DirList.mem_toList_modify g rest k e h with h1 | h1
      · exact Or.inl (Or.inr h1)
      · exact Or.inr (Or.inr h1)

theorem DirList.findIdx?_get (p : Directory → Bool) : ∀ (ds : DirList) (k : Nat),
    ds.findIdx? p = some k → ∃ r, ds.get? k = some r ∧ p r = true
  | .nil, _, h => by simp [DirList.findIdx?] at h
  | .cons d rest, k, h => by
    simp only [DirList.findIdx?] at h
    split at h
    · rename_i hp
      simp only [Option.some.injEq] at h
      subst h
      exact ⟨d, rfl, hp⟩
    · cases hr : rest.findIdx? p with
      | none => simp [hr] at h
      | some j =>
        simp only [hr, Option.map_some', Option.some.injEq] at h
        subst h
        obtain ⟨r, hget, hp⟩ := DirList.findIdx?_get p rest j hr
        exact ⟨r, by simpa [DirList.get?] using hget, hp⟩

theorem DirList.mem_toList_modify_get (g : Directory → Directory) :
    ∀ (ds : DirList) (k : Nat) (r : Directory), ds.get? k = some r →
      g r ∈ (ds.modify g k).toList
  | .nil, _, _, h => by simp [DirList.get?] at h
  | .cons d rest, 0, r, h => by
    simp only [DirList.get?, Option.some.injEq] at h
    subst h
    simp [DirList.modify, DirList.toList]
  | .cons d rest, k + 1, r, h => by
    simp only [DirList.get?] at h
    simp only [DirList.modify, DirList.toList, List.mem_cons]
    exact Or.inr (DirList.mem_toList_modify_get g rest k r h)

end DirectoryListing

theorem File.shownIn_append (f : File) (a b : List DirectoryListing.File)
    (h : f.shownIn a = true) : f.shownIn (a ++ b) = true := by
  simp only [File.shownIn, List.any_append, Bool.or_eq_true] at h ⊢
  exact Or.inl h

theorem File.shownIn_listed (f : File) (files : List File) (a : List DirectoryListing.File)
    (hf : f ∈ files) : f.shownIn (a ++ files.map File.listed) = true := by
  simp only [File.shownIn, List.any_append, Bool.or_eq_true, List.any_eq_true]
  exact Or.inr ⟨f.listed, List.mem_map_of_mem _ hf, by simp [File.listed]⟩

theorem DirList.heldBy_lift (aProfile : ProfileToken) (L M : DirectoryListing.DirList)
    (h : ∀ (d : Directory) (e : DirectoryListing.Directory), e ∈ L.toList →
      d.heldBy aProfile e = true → ∃ e1 ∈ M.toList, d.heldBy aProfile e1 = true) :
    ∀ (dl : DirList), dl.heldBy aProfile L = true → dl.heldBy aProfile M = true
  | .nil, _ => by simp [DirList.heldBy]
  | .cons d rest, hd => by
    simp only [DirList.heldBy, Bool.and_eq_true, Bool.or_eq_true, List.any_eq_true] at hd ⊢
    refine ⟨?_, DirList.heldBy_lift aProfile L M h rest hd.2⟩
    rcases hd.1 with hx | ⟨e, he, hh⟩
    · exact Or.inl hx
    · exact Or.inr (h d e he hh)

theorem Directory.heldBy_grow (aProfile : ProfileToken) (d : Directory)
    (r : DirectoryListing.Directory) (ds : DirectoryListing.DirList)
    (more : List DirectoryListing.File) (h : d.heldBy aProfile r = true)
    (hds : d.directories.heldBy aProfile r.directories = true →
      d.directories.heldBy aProfile ds = true) :
    d.heldBy aProfile ((r.setDirectories ds).setFiles (r.files ++ more)) = true := by
  cases d with
  | mk realName profileDir fileTypes size lastWrite files directories =>
    cases r with
    | mk n c ps dt a du fs rds =>
      simp only [Directory.heldBy, DirectoryListing.Directory.name,
        DirectoryListing.Directory.files, DirectoryListing.Directory.directories,
        DirectoryListing.Directory.setDirectories, DirectoryListing.Directory.setFiles,
        Bool.and_eq_true, List.all_eq_true, Directory.directories] at h hds ⊢
      exact ⟨⟨h.1.1, fun f hf => File.shownIn_append f fs more (h.1.2 f hf)⟩, hds h.2⟩

mutual
theorem Directory.heldBy_virtualInto (aProfile : ProfileToken) :
    ∀ (x : Directory) (level : DirectoryListing.DirList) (d : Directory)
      (e : DirectoryListing.Directory), e ∈ level.toList → d.heldBy aProfile e = true →
      ∃ e1 ∈ (x.virtualInto aProfile level).toList, d.heldBy aProfile e1 = true
  | .mk realName profileDir fileTypes size lastWrite files directories, level, d, e, he, hh => by
    simp only [Directory.virtualInto]
    split
    · rename_i k hidx
      rcases DirectoryListing.DirList.mem_toList_modify _ level k e he with h1 | h1
      · exact ⟨e, h1, hh⟩
      · refine ⟨_, h1, ?_⟩
        apply Directory.heldBy_grow aProfile d e _ _ hh
        exact DirList.heldBy_lift aProfile _ _
          (DirList.heldBy_virtualInto_all aProfile directories e.directories) _
    · exact ⟨e, DirectoryListing.DirList.mem_toList_push _ _ _ (Or.inl he), hh⟩
theorem DirList.heldBy_virtualInto_all (aProfile : ProfileToken) :
    ∀ (xs : DirList) (level : DirectoryListing.DirList) (d : Directory)
      (e : DirectoryListing.Directory), e ∈ level.toList → d.heldBy aProfile e = true →
      ∃ e1 ∈ (xs.virtualInto aProfile level).toList, d.heldBy aProfile e1 = true
  | .nil, level, d, e, he, hh => ⟨e, by simpa [DirList.virtualInto] using he, hh⟩
  | .cons x rest, level, d, e, he, hh => by
    simp only [DirList.virtualInto]
    split
    · exact DirList.heldBy_virtualInto_all aProfile rest level d e he hh
    · obtain ⟨e1, he1, hh1⟩ := Directory.heldBy_virtualInto aProfile x level d e he hh
      exact DirList.heldBy_virtualInto_all aProfile rest _ d e1 he1 hh1
end

mutual
theorem Directory.virtualInto_holds (aProfile : ProfileToken) :
    ∀ (x : Directory) (level : DirectoryListing.DirList),
      ∃ e ∈ (x.virtualInto aProfile level).toList, x.heldBy aProfile e = true
  | .mk realName profileDir fileTypes size lastWrite files directories, level => by
    simp only [Directory.virtualInto]
    split
    · rename_i k hidx
      obtain ⟨r, hget, hp⟩ := DirectoryListing.DirList.findIdx?_get _ level k hidx
      refine ⟨_, DirectoryListing.DirList.mem_toList_modify_get _ level k r hget, ?_⟩
      cases r with
      | mk n c ps dt a du fs rds =>
        simp only [Directory.heldBy, DirectoryListing.Directory.name,
          DirectoryListing.Directory.files, DirectoryListing.Directory.directories,
          DirectoryListing.Directory.setDirectories, DirectoryListing.Directory.setFiles,
          Bool.and_eq_true, List.all_eq_true] at hp ⊢
        exact ⟨⟨hp, fun f hf => File.shownIn_listed f files fs hf⟩,
          DirList.virtualInto_holds_all aProfile directories rds⟩
    · refine ⟨_, DirectoryListing.DirList.mem_toList_push _ _ _ (Or.inr rfl), ?_⟩
      simp only [Directory.heldBy, DirectoryListing.Directory.name,
        DirectoryListing.Directory.files, DirectoryListing.Directory.directories,
        Bool.and_eq_true, List.all_eq_true]
      exact ⟨⟨by simp [stricmp], fun f hf => by simpa using File.shownIn_listed f files [] hf⟩,
        DirList.virtualInto_holds_all aProfile directories .nil⟩
theorem DirList.virtualInto_holds_all (aProfile : ProfileToken) :
    ∀ (xs : DirList) (level : DirectoryListing.DirList),
      xs.heldBy aProfile (xs.virtualInto aProfile level) = true
  | .nil, level => by simp [DirList.heldBy]
  | .cons x rest, level => by
    simp only [DirList.virtualInto, DirList.heldBy, Bool.and_eq_true, Bool.or_eq_true,
      List.any_eq_true]
    split
    · rename_i hex
      exact ⟨Or.inl hex, DirList.virtualInto_holds_all aProfile rest level⟩
    · obtain ⟨e, he, hh⟩ := Directory.virtualInto_holds aProfile x level
      exact ⟨Or.inr (DirList.heldBy_virtualInto_all aProfile rest _ x e he hh),
        DirList.virtualInto_holds_all aProfile rest _⟩
end

namespace DirectoryListing

end DirectoryListing

end dcpp
